import Mathlib

/-!
# A segregated-free-list allocator (`mm.c`): shallow embedding and verification

The allocator manages one contiguous region supplied by an external region
provider (`mem_sbrk`, `mem_heap_lo`).  The region is modelled as an array of
32-bit words indexed by byte address: every access made by `mm.c` is a
`GET`/`PUT` of one `unsigned int`, and `memcpy` moves whole words because block
sizes are multiples of 8.  Sizes (`size_t`, `int`) are 32-bit machine values:
size arithmetic is reduced modulo `2 ^ 32`, and an `int` is kept as its bit
pattern and compared through `toInt32`.  Pointer arithmetic is plain addition on
addresses (the provider only hands out addresses below `2 ^ 32`), and a `PUT`
is recorded at whatever address it is given, also outside the region.  The
model therefore follows the machine as long as the addresses that a call
computes stay below `2 ^ 32` and inside the provider's memory; this is the case
for every request whose normalised size is a positive `int`, and the general
theorems about calls are stated for such requests.

Results are `Except Fault _`: `Fault.diverges` stands for a `while` loop that
does not terminate (the fuel of the model ran out) and `Fault.nullWrite` for a
write through the null pointer.
-/

namespace MM

/-! ## Machine model -/

/-- The state of the program: memory words, the bounds kept by the region
provider, and the two `static` variables of `findWrapper`. -/
structure Heap where
  /-- the word stored at a byte address -/
  mem : Nat → Nat
  /-- first byte of the region (`mem_heap_lo`) -/
  lo : Nat
  /-- first byte after the region (`mem_brk`) -/
  brk : Nat
  /-- the provider refuses to grow the region beyond this address -/
  cap : Nat
  /-- `static int last_size` (bit pattern) -/
  last_size : Nat
  /-- `static int count` -/
  count : Nat

/-- Ways in which a call fails to return. -/
inductive Fault where
  | diverges
  | nullWrite
  deriving DecidableEq, Repr

/-- Value of a 32-bit pattern read as a (signed) `int`. -/
def toInt32 (x : Nat) : Int :=
  if x < 2147483648 then (x : Int) else (x : Int) - 4294967296

def ALIGNMENT : Nat := 8
def WSIZE : Nat := 4
def DSIZE : Nat := 8
def CHUNKSIZE : Nat := 8192

/-- `MAX(x, y)` on two `int` operands. -/
def MAX (x y : Nat) : Nat := if toInt32 x > toInt32 y then x else y

/-- `MAX(x, y)` when the comparison is made on unsigned operands. -/
def MAXu (x y : Nat) : Nat := if x > y then x else y

def PACK (size alloc : Nat) : Nat := size ||| alloc

def GET (s : Heap) (p : Nat) : Nat := s.mem p

def PUT (s : Heap) (p val : Nat) : Heap :=
  { s with mem := fun a => if a = p then val % 4294967296 else s.mem a }

def GET_SIZE (s : Heap) (p : Nat) : Nat := GET s p &&& 4294967288

def GET_ALLOC (s : Heap) (p : Nat) : Nat := GET s p &&& 1

def HDRP (bp : Nat) : Nat := bp - WSIZE

def FTRP (s : Heap) (bp : Nat) : Nat := bp + GET_SIZE s (HDRP bp) - DSIZE

def NEXT_BLKP (s : Heap) (bp : Nat) : Nat := bp + GET_SIZE s (bp - WSIZE)

def PREV_BLKP (s : Heap) (bp : Nat) : Nat := bp - GET_SIZE s (bp - DSIZE)

def NEXT_FP (bp : Nat) : Nat := bp

def PREV_FP (bp : Nat) : Nat := bp + WSIZE

/-- `ALIGN(size)` on a `size_t` operand. -/
def ALIGN (size : Nat) : Nat := ((size + (ALIGNMENT - 1)) % 4294967296) &&& 4294967288

def LIST1 : Nat := 0
def LIST2 : Nat := 8
def LIST3 : Nat := 16
def LIST4 : Nat := 24
def LIST5 : Nat := 32
def LIST6 : Nat := 40
def LIST7 : Nat := 48
def LIST8 : Nat := 56
def LIST9 : Nat := 64
def LIST10 : Nat := 72
def LIST11 : Nat := 80
def LIST12 : Nat := 88
def LIST13 : Nat := 96
def LIST14 : Nat := 104

def LIST1_LIMIT : Nat := 24
def LIST2_LIMIT : Nat := 48
def LIST3_LIMIT : Nat := 72
def LIST4_LIMIT : Nat := 96
def LIST5_LIMIT : Nat := 120
def LIST6_LIMIT : Nat := 480
def LIST7_LIMIT : Nat := 960
def LIST8_LIMIT : Nat := 1920
def LIST9_LIMIT : Nat := 3840
def LIST10_LIMIT : Nat := 7680
def LIST11_LIMIT : Nat := 15360
def LIST12_LIMIT : Nat := 30720
def LIST13_LIMIT : Nat := 61440

/-! ## The region provider -/

/-- Modelled from the spec: the region provider `grow(extra_bytes) ->
base_address|failure` (`mem_sbrk` of `memlib`, which is not part of the
sources).  A granted request returns the old break and moves the break up; a
request that would pass the provider's limit is refused (`none`) and changes
nothing. -/
def mem_sbrk (s : Heap) (incr : Nat) : Option (Nat × Heap) :=
  if s.brk + incr ≤ s.cap then some (s.brk, { s with brk := s.brk + incr }) else none

/-- Modelled from the spec: the region provider `low_address()`. -/
def mem_heap_lo (s : Heap) : Nat := s.lo

/-! ## Free-list operations -/

/-- The size-class chain of `addList`: offset of the list head for a size. -/
def addListSlot (size : Nat) : Nat :=
  if size ≤ LIST1_LIMIT then LIST1
  else if size ≤ LIST2_LIMIT then LIST2
  else if size ≤ LIST3_LIMIT then LIST3
  else if size ≤ LIST4_LIMIT then LIST4
  else if size ≤ LIST5_LIMIT then LIST5
  else if size ≤ LIST6_LIMIT then LIST6
  else if size ≤ LIST7_LIMIT then LIST7
  else if size ≤ LIST8_LIMIT then LIST8
  else if size ≤ LIST9_LIMIT then LIST9
  else if size ≤ LIST10_LIMIT then LIST10
  else if size ≤ LIST11_LIMIT then LIST11
  else if size ≤ LIST12_LIMIT then LIST12
  else if size ≤ LIST13_LIMIT then LIST13
  else LIST14

/-- The size-class chain of `deleteList`. -/
def deleteListSlot (size : Nat) : Nat :=
  if size ≤ LIST1_LIMIT then LIST1
  else if size ≤ LIST2_LIMIT then LIST2
  else if size ≤ LIST3_LIMIT then LIST3
  else if size ≤ LIST4_LIMIT then LIST4
  else if size ≤ LIST5_LIMIT then LIST5
  else if size ≤ LIST6_LIMIT then LIST6
  else if size ≤ LIST7_LIMIT then LIST7
  else if size ≤ LIST8_LIMIT then LIST8
  else if size ≤ LIST9_LIMIT then LIST9
  else if size ≤ LIST10_LIMIT then LIST10
  else if size ≤ LIST11_LIMIT then LIST11
  else if size ≤ LIST12_LIMIT then LIST12
  else if size ≤ LIST13_LIMIT then LIST13
  else LIST14

def addList (s : Heap) (bp size : Nat) : Heap :=
  let nextTemp := mem_heap_lo s + addListSlot size
  let next := GET s nextTemp
  let s1 := if next ≠ 0 then PUT s (PREV_FP next) bp else s
  let s2 := PUT s1 (NEXT_FP bp) next
  PUT s2 nextTemp bp

def deleteList (s : Heap) (bp size : Nat) : Heap :=
  let prev := GET s (PREV_FP bp)
  let next := GET s (NEXT_FP bp)
  let s1 :=
    if prev = 0 then
      let s0 := if next ≠ 0 then PUT s (PREV_FP next) 0 else s
      PUT s0 (mem_heap_lo s + deleteListSlot size) next
    else
      let s0 := if next ≠ 0 then PUT s (PREV_FP next) prev else s
      PUT s0 (NEXT_FP prev) next
  let s2 := PUT s1 (NEXT_FP bp) 0
  PUT s2 (PREV_FP bp) 0

/-! ## Coalescing, splitting, growing -/

def coalesce (s : Heap) (bp : Nat) : Nat × Heap :=
  let prev_alloc := GET_ALLOC s (FTRP s (PREV_BLKP s bp))
  let next_alloc := GET_ALLOC s (HDRP (NEXT_BLKP s bp))
  let size := GET_SIZE s (HDRP bp)
  if prev_alloc ≠ 0 ∧ next_alloc ≠ 0 then
    (bp, addList s bp size)
  else if prev_alloc ≠ 0 ∧ ¬ next_alloc ≠ 0 then
    let size := (size + GET_SIZE s (HDRP (NEXT_BLKP s bp))) % 4294967296
    let s1 := deleteList s (NEXT_BLKP s bp) (GET_SIZE s (HDRP (NEXT_BLKP s bp)))
    let s2 := PUT s1 (HDRP bp) (PACK size 0)
    let s3 := PUT s2 (FTRP s2 bp) (PACK size 0)
    (bp, addList s3 bp size)
  else if ¬ prev_alloc ≠ 0 ∧ next_alloc ≠ 0 then
    let size := (size + GET_SIZE s (HDRP (PREV_BLKP s bp))) % 4294967296
    let s1 := deleteList s (PREV_BLKP s bp) (GET_SIZE s (HDRP (PREV_BLKP s bp)))
    let s2 := PUT s1 (FTRP s1 bp) (PACK size 0)
    let s3 := PUT s2 (HDRP (PREV_BLKP s2 bp)) (PACK size 0)
    let bp := PREV_BLKP s3 bp
    (bp, addList s3 bp size)
  else
    let size := (size + (GET_SIZE s (HDRP (PREV_BLKP s bp))
                  + GET_SIZE s (FTRP s (NEXT_BLKP s bp))) % 4294967296) % 4294967296
    let s1 := deleteList s (PREV_BLKP s bp) (GET_SIZE s (HDRP (PREV_BLKP s bp)))
    let s2 := deleteList s1 (NEXT_BLKP s1 bp) (GET_SIZE s1 (FTRP s1 (NEXT_BLKP s1 bp)))
    let s3 := PUT s2 (HDRP (PREV_BLKP s2 bp)) (PACK size 0)
    let s4 := PUT s3 (FTRP s3 (NEXT_BLKP s3 bp)) (PACK size 0)
    let bp := PREV_BLKP s4 bp
    (bp, addList s4 bp size)

def split (s : Heap) (bp size : Nat) : Heap :=
  let sizeTemp := GET_SIZE s (HDRP bp)
  let s1 := deleteList s bp sizeTemp
  if (sizeTemp + 4294967296 - size) % 4294967296 ≥ 2 * DSIZE then
    let sizeTemp := (sizeTemp + 4294967296 - size) % 4294967296
    let s2 := PUT s1 (HDRP bp) (PACK size 1)
    let s3 := PUT s2 (FTRP s2 bp) (PACK size 1)
    let s4 := PUT s3 (HDRP (NEXT_BLKP s3 bp)) (PACK sizeTemp 0)
    let s5 := PUT s4 (FTRP s4 (NEXT_BLKP s4 bp)) (PACK sizeTemp 0)
    let s6 := PUT s5 (NEXT_FP (NEXT_BLKP s5 bp)) 0
    let s7 := PUT s6 (PREV_FP (NEXT_BLKP s6 bp)) 0
    addList s7 (NEXT_BLKP s7 bp) sizeTemp
  else
    let s2 := PUT s1 (HDRP bp) (PACK sizeTemp 1)
    PUT s2 (FTRP s2 bp) (PACK sizeTemp 1)

/-- `extendHeap`; the null pointer is `0`. -/
def extendHeap (s : Heap) (size : Nat) : Nat × Heap :=
  match mem_sbrk s size with
  | none => (0, s)
  | some (bp, s0) =>
    let s1 := PUT s0 (HDRP bp) (PACK size 0)
    let s2 := PUT s1 (FTRP s1 bp) (PACK size 0)
    let s3 := PUT s2 (NEXT_FP bp) 0
    let s4 := PUT s3 (PREV_FP bp) 0
    let s5 := PUT s4 (HDRP (NEXT_BLKP s4 bp)) (PACK 0 1)
    coalesce s5 bp

/-! ## Searching -/

/-- The chain of `find` selecting the list head from `sizestart`. -/
def findSlot (sizestart : Nat) : Nat :=
  if sizestart = 0 then LIST1
  else if sizestart = 1 then LIST2
  else if sizestart = 2 then LIST3
  else if sizestart = 3 then LIST4
  else if sizestart = 4 then LIST5
  else if sizestart = 5 then LIST6
  else if sizestart = 6 then LIST7
  else if sizestart = 7 then LIST8
  else if sizestart = 8 then LIST9
  else if sizestart = 9 then LIST10
  else if sizestart = 10 then LIST11
  else if sizestart = 11 then LIST12
  else if sizestart = 12 then LIST13
  else LIST14

/-- The `while (current != NULL)` loop of `find`, with fuel. -/
def findLoop (s : Heap) (size : Nat) : Nat → Nat → Except Fault Nat
  | fuel, current =>
    if current = 0 then Except.ok 0
    else match fuel with
      | 0 => Except.error Fault.diverges
      | fuel + 1 =>
        if GET_SIZE s (HDRP current) ≥ size then Except.ok current
        else findLoop s size fuel (GET s (NEXT_FP current))

/-- `find`: the loop gets as much fuel as there are addresses below the break,
which is more than the number of blocks a list can hold. -/
def find (s : Heap) (sizestart size : Nat) : Except Fault Nat :=
  findLoop s size s.brk (GET s (mem_heap_lo s + findSlot sizestart))

/-- The chain of `findWrapper` selecting the first list to scan. -/
def findStart (size : Nat) : Nat :=
  if size ≤ LIST1_LIMIT then 0
  else if size ≤ LIST2_LIMIT then 1
  else if size ≤ LIST3_LIMIT then 2
  else if size ≤ LIST4_LIMIT then 3
  else if size ≤ LIST5_LIMIT then 4
  else if size ≤ LIST6_LIMIT then 5
  else if size ≤ LIST7_LIMIT then 6
  else if size ≤ LIST8_LIMIT then 7
  else if size ≤ LIST9_LIMIT then 8
  else if size ≤ LIST10_LIMIT then 9
  else if size ≤ LIST11_LIMIT then 10
  else if size ≤ LIST12_LIMIT then 11
  else if size ≤ LIST13_LIMIT then 12
  else 13

/-- The loop `for (sizeatstart = i; sizeatstart < 14; sizeatstart++)` of
`findWrapper`, with `k` the number of iterations left. -/
def findFrom (s : Heap) (size : Nat) : Nat → Nat → Except Fault Nat
  | 0, _ => Except.ok 0
  | k + 1, sizeatstart =>
    match find s sizeatstart size with
    | Except.error e => Except.error e
    | Except.ok bp => if bp ≠ 0 then Except.ok bp else findFrom s size k (sizeatstart + 1)

def findWrapper (s : Heap) (size : Nat) : Except Fault (Nat × Heap) :=
  if s.last_size = size ∧ toInt32 s.last_size > 64 then
    if s.count > 30 then
      let extendSize := MAXu size 16
      Except.ok (extendHeap s extendSize)
    else
      let s1 := { s with count := s.count + 1, last_size := size }
      match findFrom s1 size (14 - findStart size) (findStart size) with
      | Except.error e => Except.error e
      | Except.ok bp => Except.ok (bp, s1)
  else
    let s1 := { s with count := 0, last_size := size }
    match findFrom s1 size (14 - findStart size) (findStart size) with
    | Except.error e => Except.error e
    | Except.ok bp => Except.ok (bp, s1)

/-! ## The four public operations -/

def mm_init (s : Heap) : Int × Heap :=
  match mem_sbrk s (30 * WSIZE) with
  | none => (-1, s)
  | some (ptr, s0) =>
    let s1 := PUT s0 (ptr + LIST1) 0
    let s2 := PUT s1 (ptr + LIST2) 0
    let s3 := PUT s2 (ptr + LIST3) 0
    let s4 := PUT s3 (ptr + LIST4) 0
    let s5 := PUT s4 (ptr + LIST5) 0
    let s6 := PUT s5 (ptr + LIST6) 0
    let s7 := PUT s6 (ptr + LIST7) 0
    let s8 := PUT s7 (ptr + LIST8) 0
    let s9 := PUT s8 (ptr + LIST9) 0
    let s10 := PUT s9 (ptr + LIST10) 0
    let s11 := PUT s10 (ptr + LIST11) 0
    let s12 := PUT s11 (ptr + LIST12) 0
    let s13 := PUT s12 (ptr + LIST13) 0
    let s14 := PUT s13 (ptr + LIST14) 0
    let s15 := PUT s14 (ptr + LIST14 + WSIZE) (PACK DSIZE 1)
    let s16 := PUT s15 (ptr + LIST14 + 2 * WSIZE) (PACK DSIZE 1)
    let s17 := PUT s16 (ptr + LIST14 + 3 * WSIZE) (PACK 0 1)
    let r := extendHeap s17 (2 * DSIZE)
    if r.1 = 0 then (-1, r.2) else (0, r.2)

def mm_malloc (s : Heap) (size : Nat) : Except Fault (Nat × Heap) :=
  if size = 0 then Except.ok (0, s)
  else
    let newsize := ALIGN ((size + DSIZE) % 4294967296)
    match findWrapper s newsize with
    | Except.error e => Except.error e
    | Except.ok (ptr, s1) =>
      if ptr = 0 then
        let extendSize := MAX CHUNKSIZE newsize
        let r := extendHeap s1 extendSize
        if r.1 = 0 then Except.ok (0, r.2)
        else Except.ok (r.1, split r.2 r.1 newsize)
      else Except.ok (ptr, split s1 ptr newsize)

def mm_free (s : Heap) (ptr : Nat) : Heap :=
  if ptr = 0 then s
  else
    let alloc := GET_ALLOC s (HDRP ptr)
    if alloc = 0 then s
    else
      let size := GET_SIZE s (HDRP ptr)
      let s1 := PUT s (HDRP ptr) (PACK size 0)
      let s2 := PUT s1 (FTRP s1 ptr) (PACK size 0)
      let s3 := PUT s2 (NEXT_FP ptr) 0
      let s4 := PUT s3 (PREV_FP ptr) 0
      (coalesce s4 ptr).2

/-- `memcpy(dst, src, n)` for word-aligned, non-overlapping ranges: the `n`
bytes starting at `src` are copied to `dst`. -/
def memcpy (s : Heap) (dst src n : Nat) : Heap :=
  { s with mem := fun a => if dst ≤ a ∧ a < dst + n then s.mem (src + (a - dst)) else s.mem a }

def mm_realloc (s : Heap) (ptr size : Nat) : Except Fault (Nat × Heap) :=
  if ptr = 0 then mm_malloc s size
  else if size = 0 then Except.ok (0, mm_free s ptr)
  else
    let oldSize := GET_SIZE s (HDRP ptr)
    let newSize := ALIGN ((size + DSIZE) % 4294967296)
    if newSize ≤ oldSize then Except.ok (ptr, s)
    else
      let next_alloc := GET_ALLOC s (HDRP (NEXT_BLKP s ptr))
      let csize := (oldSize + GET_SIZE s (HDRP (NEXT_BLKP s ptr))) % 4294967296
      if ¬ next_alloc ≠ 0 ∧ csize ≥ newSize then
        let s1 := deleteList s (NEXT_BLKP s ptr) (GET_SIZE s (HDRP (NEXT_BLKP s ptr)))
        let s2 := PUT s1 (HDRP ptr) (PACK csize 1)
        let s3 := PUT s2 (FTRP s2 ptr) (PACK csize 1)
        Except.ok (ptr, s3)
      else
        match mm_malloc s newSize with
        | Except.error e => Except.error e
        | Except.ok (newptr, s1) =>
          if newptr = 0 then Except.error Fault.nullWrite
          else
            let s2 := memcpy s1 newptr ptr oldSize
            Except.ok (newptr, mm_free s2 ptr)

/-! ## The abstract view of a heap: block tiling and free lists -/

/-- Bookkeeping status of a block: handed out, free and filed in its list, or
free and (temporarily) on no list. -/
inductive St where
  | used
  | listed
  | loose
  deriving DecidableEq, Repr

/-- The allocated bit that a status shows in header and footer. -/
def St.bit : St → Nat
  | St.used => 1
  | St.listed => 0
  | St.loose => 0

/-- A block: payload address, block size (header and footer included), status. -/
structure Blk where
  bp : Nat
  size : Nat
  st : St
  deriving DecidableEq, Repr

/-- The blocks `l` tile the addresses from payload address `a` to `e`: each
block starts where the previous one ends, its size is a multiple of 8 and at
least 16, header and footer both hold size and allocated bit, and a free block
on no list has a cleared back link. -/
def Tiles (m : Nat → Nat) : Nat → List Blk → Nat → Prop
  | a, [], e => a = e
  | a, b :: rest, e =>
    b.bp = a ∧ b.size % 8 = 0 ∧ 16 ≤ b.size ∧
    m (a - 4) = b.size + b.st.bit ∧ m (a + b.size - 8) = b.size + b.st.bit ∧
    (b.st = St.loose → m (a + 4) = 0) ∧
    Tiles m (a + b.size) rest e

/-- The cells starting at `cur` form the doubly linked list `l`, the first
node having back link `pv` and the last one forward link `0`. -/
def Seg (m : Nat → Nat) : Nat → List Nat → Nat → Prop
  | _, [], cur => cur = 0
  | pv, n :: t, cur => cur = n ∧ n ≠ 0 ∧ m (n + 4) = pv ∧ Seg m n t (m n)

/-- Structural well-formedness of a heap with respect to a block list `bl` and
the contents `fl i` of the 14 free lists. -/
structure Str (s : Heap) (bl : List Blk) (fl : Nat → List Nat) : Prop where
  lo8 : s.lo % 8 = 0
  capb : s.cap < 4294967296
  brkcap : s.brk ≤ s.cap
  pro1 : s.mem (s.lo + 108) = 9
  pro2 : s.mem (s.lo + 112) = 9
  epi : s.mem (s.brk - 4) = 1
  tiles : Tiles s.mem (s.lo + 120) bl s.brk
  segs : ∀ i, i < 14 → Seg s.mem 0 (fl i) (s.mem (s.lo + 8 * i))
  nodup : ∀ i, i < 14 → (fl i).Nodup
  link : ∀ i, i < 14 → ∀ n, n ∈ fl i ↔ ∃ b ∈ bl, b.bp = n ∧ b.st = St.listed ∧ findStart b.size = i

/-- No two physically adjacent blocks are both free. -/
def NoAdjFree (bl : List Blk) : Prop :=
  List.Chain' (fun x y => x.st = St.used ∨ y.st = St.used) bl

/-- The heap invariant between calls; `L` lists the live allocations. -/
def Inv (s : Heap) (L : List Nat) : Prop :=
  ∃ bl fl, Str s bl fl ∧ (∀ b ∈ bl, b.st ≠ St.loose) ∧ NoAdjFree bl ∧ L.Nodup ∧
    ∀ p, p ∈ L ↔ ∃ b ∈ bl, b.bp = p ∧ b.st = St.used

/-- A provider that has handed out nothing yet, with an aligned low address and
addresses that fit in 32 bits. -/
def Fresh (s : Heap) : Prop :=
  s.brk = s.lo ∧ s.lo % 8 = 0 ∧ s.cap < 4294967296

/-- A store by the client into the cell at address `a`. -/
def userWrite (s : Heap) (a v : Nat) : Heap :=
  { s with mem := fun x => if x = a then v else s.mem x }

/-- The states reachable from a successful `mm_init` on a fresh provider by
calls that return, together with the list of live allocations.  Requests are
valid: a size is small enough for its normalised block size to be a positive
`int`, a pointer passed to `mm_free` or `mm_realloc` is empty or live, and the
client stores only into payloads of live allocations. -/
inductive Reach : Heap → List Nat → Prop where
  | init (s0 : Heap) : Fresh s0 → (mm_init s0).1 = 0 → Reach (mm_init s0).2 []
  | malloc (s : Heap) (L : List Nat) (n p : Nat) (s' : Heap) :
      Reach s L → n ≤ 2147483632 → mm_malloc s n = Except.ok (p, s') →
      Reach s' (if p = 0 then L else p :: L)
  | free (s : Heap) (L : List Nat) (p : Nat) :
      Reach s L → (p = 0 ∨ p ∈ L) → Reach (mm_free s p) (L.erase p)
  | realloc (s : Heap) (L : List Nat) (p n q : Nat) (s' : Heap) :
      Reach s L → (p = 0 ∨ p ∈ L) → n ≤ 2147483624 →
      mm_realloc s p n = Except.ok (q, s') →
      Reach s' (if q = 0 then L.erase p else q :: L.erase p)
  | write (s : Heap) (L : List Nat) (p a v : Nat) :
      Reach s L → p ∈ L → p ≤ a → a < p + (GET_SIZE s (HDRP p) - DSIZE) →
      Reach (userWrite s a v) L

/-- A cell that is neither a list head nor a link cell of a free block. -/
def Quiet (s : Heap) (bl : List Blk) (x : Nat) : Prop :=
  s.lo + 112 ≤ x ∧ ∀ b ∈ bl, b.st ≠ St.used → x ≠ b.bp ∧ x ≠ b.bp + 4

/-- Two states agree on everything but the memory. -/
def SameRegs (s s' : Heap) : Prop :=
  s'.lo = s.lo ∧ s'.brk = s.brk ∧ s'.cap = s.cap ∧ s'.last_size = s.last_size ∧ s'.count = s.count

/-- First node of a list whose block size is at least `size`; `0` when there is none. -/
def pick (bs : Nat → Nat) (size : Nat) : List Nat → Nat
  | [] => 0
  | n :: t => if bs n ≥ size then n else pick bs size t

/-- First fit over `k` consecutive lists starting with list `i`. -/
def pickFrom (fl : Nat → List Nat) (bs : Nat → Nat) (size : Nat) : Nat → Nat → Nat
  | 0, _ => 0
  | k + 1, i =>
    if pick bs size (fl i) ≠ 0 then pick bs size (fl i) else pickFrom fl bs size k (i + 1)

/-- Well-formedness between calls: the structure holds, every free block is
filed, and no two free blocks are adjacent. -/
def WF (s : Heap) (bl : List Blk) (fl : Nat → List Nat) : Prop :=
  Str s bl fl ∧ (∀ b ∈ bl, b.st ≠ St.loose) ∧ NoAdjFree bl

/-- The repeat-size bypass of `findWrapper` fires for a normalised size. -/
def bypass (s : Heap) (size : Nat) : Prop :=
  (s.last_size = size ∧ toInt32 s.last_size > 64) ∧ s.count > 30

instance (s : Heap) (size : Nat) : Decidable (bypass s size) := by
  unfold bypass; infer_instance

/-- The block size that `mm_malloc` computes for a request. -/
def normSize (n : Nat) : Nat := ALIGN ((n + DSIZE) % 4294967296)

/-- The outcome of a successful allocation of a block of at least `size`
bytes at payload address `p`, leading from a well-formed heap with blocks `bl`
to the state `s'`: the new state is well-formed, its used blocks are the old
ones and one new block at `p`, no cell of an old used block has changed, and
the block that ends where the new one starts, if there is one, is used. -/
def Allocated (s : Heap) (bl : List Blk) (size p : Nat) (s' : Heap) : Prop :=
  p ≠ 0 ∧ s'.lo = s.lo ∧ s'.cap = s.cap ∧ s.brk ≤ s'.brk ∧
  ∃ bl' fl' A, WF s' bl' fl' ∧ A ∈ bl' ∧ A.bp = p ∧ A.st = St.used ∧ size ≤ A.size ∧
    (∀ b, b.st = St.used → (b ∈ bl' ↔ b ∈ bl ∨ b = A)) ∧
    (∀ b ∈ bl, b.st = St.used → b.bp ≠ p) ∧
    (∀ b ∈ bl, b.st = St.used → ∀ x, b.bp - 4 ≤ x → x < b.bp + b.size - 4 → s'.mem x = s.mem x) ∧
    (∀ P ∈ bl', P.bp + P.size = p → P.st = St.used)

/-! ## Heap walk, bytes, and sample runs -/

/-- Payload address of the `k`-th block met when the heap is walked with
`NEXT_BLKP`, starting at the prologue block. -/
def blockAt (s : Heap) : Nat → Nat
  | 0 => s.lo + 112
  | k + 1 => NEXT_BLKP s (blockAt s k)

/-- The pointer that a call returned (`0` when it did not return). -/
def ptrOf (r : Except Fault (Nat × Heap)) : Nat :=
  match r with
  | Except.ok x => x.1
  | Except.error _ => 0

/-- The state in which a call returned. -/
def heapOf (r : Except Fault (Nat × Heap)) : Heap :=
  match r with
  | Except.ok x => x.2
  | Except.error _ => ⟨fun _ => 0, 0, 0, 0, 0, 0⟩

/-- A provider that has handed out nothing yet: the region starts at address
4096 and may grow up to address `cap`; memory is zeroed. -/
def provider (cap : Nat) : Heap := ⟨fun _ => 0, 4096, 4096, cap, 0, 0⟩

/-- The allocator right after `mm_init` on a provider with room for 1 MiB. -/
def start : Heap := (mm_init (provider 1048576)).2

/-- The state after `mm_malloc s n`. -/
def after (s : Heap) (n : Nat) : Heap := heapOf (mm_malloc s n)

/-- Two live allocations of 100 bytes, at 4216 and 4328. -/
def twoLive : Heap := after (after start 100) 100

/-- Three adjacent allocations of 32 bytes, at 4216, 4256 and 4296. -/
def threeLive : Heap := after (after (after start 32) 32) 32

/-- The scenario behind the reuse of a freed block: allocations of 24, 1, 40
and 1 bytes (at 4216, 4248, 4264, 4312), of which the third and then the first
are released, so that a free block of 48 bytes and a free block of 32 bytes
are left behind. -/
def twoHoles : Heap :=
  mm_free (mm_free (after (after (after (after start 24) 1) 40) 1) 4264) 4216

/-- An allocator whose provider has room for 236 bytes only, with one
allocation of 8 bytes at 4216. -/
def tight : Heap := after (mm_init (provider 4332)).2 8

/-- One allocation of 8 bytes at 4216 whose two payload words hold 4232 and 0. -/
def oneLive : Heap := userWrite (after start 8) 4216 4232

/-- No two consecutive blocks of the heap walk are both marked free. -/
def NoFreePair (s : Heap) : Prop :=
  ∀ k, ¬ (GET_ALLOC s (HDRP (blockAt s k)) = 0 ∧ GET_ALLOC s (HDRP (blockAt s (k + 1))) = 0)

/-- The state after `mm_free(a)`, `mm_free(b)`, `mm_free(c)`. -/
def release3 (s : Heap) (a b c : Nat) : Heap := mm_free (mm_free (mm_free s a) b) c

/-- The block sizes of `a`, `b` and `c` added up. -/
def size3 (s : Heap) (a b c : Nat) : Nat :=
  GET_SIZE s (HDRP a) + GET_SIZE s (HDRP b) + GET_SIZE s (HDRP c)

/-! ## Directory lists, size classes, the paths of `mm_realloc`, request runs -/

/-- The `k`-th node of directory list `i`, reached from the list head by the
forward links as in the loop of `find`; `0` once the list has ended. -/
def listAt (s : Heap) (i : Nat) : Nat → Nat
  | 0 => GET s (mem_heap_lo s + findSlot i)
  | k + 1 => if listAt s i k = 0 then 0 else GET s (NEXT_FP (listAt s i k))

/-- The inclusive upper bounds of the first 13 size classes, as the
specification tabulates them; the 14th class has no upper bound. -/
def classBounds : List Nat :=
  [24, 48, 72, 96, 120, 480, 960, 1920, 3840, 7680, 15360, 30720, 61440]

/-- A size belongs to class `i` (counted from 0) of the specification's table:
it is above the bound of the class before and at most the bound of class `i`. -/
def inClass (i size : Nat) : Prop :=
  i < 14 ∧ (i = 0 ∨ classBounds.getD (i - 1) 0 < size) ∧
    (i = 13 ∨ size ≤ classBounds.getD i 0)

instance (i size : Nat) : Decidable (inClass i size) := by
  unfold inClass; infer_instance

/-- The guard of the in-place path of `mm_realloc(p, n)`: the block is too
small, the next block is free, and both together are large enough. -/
def Absorbs (s : Heap) (p n : Nat) : Prop :=
  p ≠ 0 ∧ n ≠ 0 ∧ ¬ normSize n ≤ GET_SIZE s (HDRP p) ∧
    GET_ALLOC s (HDRP (NEXT_BLKP s p)) = 0 ∧
    (GET_SIZE s (HDRP p) + GET_SIZE s (HDRP (NEXT_BLKP s p))) % 4294967296 ≥ normSize n

instance (s : Heap) (p n : Nat) : Decidable (Absorbs s p n) := by
  unfold Absorbs; infer_instance

/-- The guard of the relocation path of `mm_realloc(p, n)`: the block is too
small and the next block is not free or not large enough. -/
def Relocates (s : Heap) (p n : Nat) : Prop :=
  p ≠ 0 ∧ n ≠ 0 ∧ ¬ normSize n ≤ GET_SIZE s (HDRP p) ∧
    ¬ (GET_ALLOC s (HDRP (NEXT_BLKP s p)) = 0 ∧
      (GET_SIZE s (HDRP p) + GET_SIZE s (HDRP (NEXT_BLKP s p))) % 4294967296 ≥ normSize n)

instance (s : Heap) (p n : Nat) : Decidable (Relocates s p n) := by
  unfold Relocates; infer_instance

/-- The relocation as the specification words it: allocate a new block of the
requested size `n`, copy `min(old payload size, n)` bytes, release the old
block. -/
def relocateSpec (s : Heap) (p n : Nat) : Except Fault (Nat × Heap) :=
  match mm_malloc s n with
  | Except.error e => Except.error e
  | Except.ok (q, s1) =>
    if q = 0 then Except.ok (0, s1)
    else Except.ok (q, mm_free (memcpy s1 q p (min (GET_SIZE s (HDRP p) - DSIZE) n)) p)

/-- The first half of `mm_free` on an allocated block: header and footer are
marked free and both link words are cleared; `coalesce` has not run yet. -/
def markFree (s : Heap) (ptr : Nat) : Heap :=
  let size := GET_SIZE s (HDRP ptr)
  let s1 := PUT s (HDRP ptr) (PACK size 0)
  let s2 := PUT s1 (FTRP s1 ptr) (PACK size 0)
  let s3 := PUT s2 (NEXT_FP ptr) 0
  PUT s3 (PREV_FP ptr) 0

/-- The size that `coalesce(bp)` computes: the size of `bp` plus the size of
each physical neighbour whose allocated bit is clear. -/
def mergedSize (s : Heap) (bp : Nat) : Nat :=
  GET_SIZE s (HDRP bp) +
    (if GET_ALLOC s (FTRP s (PREV_BLKP s bp)) = 0 then GET_SIZE s (HDRP (PREV_BLKP s bp))
      else 0) +
    (if GET_ALLOC s (HDRP (NEXT_BLKP s bp)) = 0 then GET_SIZE s (HDRP (NEXT_BLKP s bp)) else 0)

/-- The heap is well-formed except for the block at `bp`, which is free, on no
list, and has a cleared back link; everywhere else free blocks are filed and no
two of them are adjacent. -/
def LooseAt (s : Heap) (bp : Nat) : Prop :=
  ∃ pre X post fl, X.bp = bp ∧ X.st = St.loose ∧ Str s (pre ++ X :: post) fl ∧
    (∀ b, b ∈ pre ∨ b ∈ post → b.st ≠ St.loose) ∧ NoAdjFree pre ∧ NoAdjFree post

/-- The heap is well-formed and `bp` is a free block filed in its list. -/
def FiledAt (s : Heap) (bp : Nat) : Prop :=
  ∃ bl fl X, WF s bl fl ∧ X ∈ bl ∧ X.bp = bp ∧ X.st = St.listed

/-! ## Runs with a request whose size wraps -/

/-- The state after `mm_malloc(4294967288)` on a fresh allocator: `n + 8` wraps
to 0, the call runs `split(4216, 0)` and returns 4216. -/
def wrapped : Heap := after start 4294967288

/-- The client stores the word 4228 at the pointer 4216 that
`mm_malloc(4294967288)` returned; then `mm_malloc(8)` is called. -/
def staleHead : Heap := after (userWrite wrapped 4216 4228) 8

/-- The state after `mm_malloc(100)` and `mm_malloc(4294967295)` on a fresh
allocator; the second request is normalised to 8 bytes and returns 4328. -/
def tinyBlock : Heap := after (after start 100) 4294967295

/-- The state after `mm_malloc(32)`, `mm_malloc(4294967295)`, `mm_malloc(32)`
on a fresh allocator: blocks of 40, 8 and 40 bytes at 4216, 4256 and 4264. -/
def tinyThree : Heap := after (after (after start 32) 4294967295) 32

/-- The client stores the word 4216 at the pointer 4216 that
`mm_malloc(4294967288)` returned, calls `mm_malloc(8)`, which returns 4216
again, and stores the word 4216 there once more. -/
def selfLoop : Heap := userWrite (after (userWrite wrapped 4216 4216) 8) 4216 4216

/-- The state after `a = mm_malloc(100)` (4216), a store of 7 at `a + 4`,
`d = mm_malloc(4294967288)` (4328), and a store of the pointer `a` at `d`. -/
def borrowed : Heap :=
  userWrite (after (userWrite (after start 100) 4220 7) 4294967288) 4328 4216

/-- The state after `x = mm_malloc(8)` (4216), `p = mm_malloc(8)` (4232),
`mm_free(x)`, `f = mm_malloc(4294967288)` (4216 again), and the stores of the
words 4213 at `f` and 4228 at `f + 4`. -/
def oddLink : Heap :=
  userWrite (userWrite (after (mm_free (after (after start 8) 8) 4216) 4294967288) 4216 4213)
    4220 4228

/-! ## Machine arithmetic -/

theorem land_mask (x : Nat) (h : x < 4294967296) : x &&& 4294967288 = x / 8 * 8 := by
  apply Nat.eq_of_testBit_eq
  intro i
  have hM : (4294967288 : Nat) = 2 ^ 3 * (2 ^ 29 - 1) := by norm_num
  have h8 : x / 8 * 8 = 2 ^ 3 * (x >>> 3) := by rw [Nat.shiftRight_eq_div_pow]; norm_num; omega
  rw [Nat.testBit_and, hM, h8, Nat.testBit_mul_pow_two, Nat.testBit_mul_pow_two,
    Nat.testBit_two_pow_sub_one, Nat.testBit_shiftRight]
  by_cases h3 : 3 ≤ i
  · have e : 3 + (i - 3) = i := by omega
    simp only [ge_iff_le, h3, decide_True, Bool.true_and, e]
    by_cases h29 : i - 3 < 29
    · simp [h29]
    · simp only [h29, decide_False, Bool.and_false]
      symm
      apply Nat.testBit_lt_two_pow
      calc x < 2 ^ 32 := by simpa using h
        _ ≤ 2 ^ i := Nat.pow_le_pow_right (by norm_num) (by omega)
  · simp [h3]

theorem lor_small (sz a : Nat) (h8 : sz % 8 = 0) (ha : a < 8) : sz ||| a = sz + a := by
  obtain ⟨k, rfl⟩ : ∃ k, sz = 2 ^ 3 * k := ⟨sz / 8, by omega⟩
  exact (Nat.mul_add_lt_is_or (i := 3) (by simpa using ha) k).symm

theorem PACK_eq (sz a : Nat) (h8 : sz % 8 = 0) (ha : a < 8) : PACK sz a = sz + a :=
  lor_small sz a h8 ha

theorem size_of_word (sz a : Nat) (h8 : sz % 8 = 0) (ha : a < 8) (hlt : sz + a < 4294967296) :
    (sz + a) &&& 4294967288 = sz := by
  rw [land_mask _ hlt]; omega

theorem alloc_of_word (sz a : Nat) (h8 : sz % 8 = 0) (ha : a ≤ 1) : (sz + a) &&& 1 = a := by
  rw [Nat.and_one_is_mod]; omega

theorem ALIGN_eq (x : Nat) : ALIGN x = (x + 7) % 4294967296 / 8 * 8 := by
  unfold ALIGN ALIGNMENT
  exact land_mask _ (Nat.mod_lt _ (by norm_num))

theorem St.bit_le (t : St) : t.bit ≤ 1 := by cases t <;> simp [St.bit]

/-! ## Elementary facts about `PUT` and the size classes -/

@[simp] theorem PUT_mem (s : Heap) (p v a : Nat) :
    (PUT s p v).mem a = if a = p then v % 4294967296 else s.mem a := rfl

@[simp] theorem PUT_lo (s : Heap) (p v : Nat) : (PUT s p v).lo = s.lo := rfl

@[simp] theorem PUT_brk (s : Heap) (p v : Nat) : (PUT s p v).brk = s.brk := rfl

@[simp] theorem PUT_cap (s : Heap) (p v : Nat) : (PUT s p v).cap = s.cap := rfl

@[simp] theorem PUT_last_size (s : Heap) (p v : Nat) : (PUT s p v).last_size = s.last_size := rfl

@[simp] theorem PUT_count (s : Heap) (p v : Nat) : (PUT s p v).count = s.count := rfl

/-- The class of a size, by ranges. -/
theorem findStart_cases (size : Nat) :
    (size ≤ 24 ∧ findStart size = 0) ∨
    (24 < size ∧ size ≤ 48 ∧ findStart size = 1) ∨
    (48 < size ∧ size ≤ 72 ∧ findStart size = 2) ∨
    (72 < size ∧ size ≤ 96 ∧ findStart size = 3) ∨
    (96 < size ∧ size ≤ 120 ∧ findStart size = 4) ∨
    (120 < size ∧ size ≤ 480 ∧ findStart size = 5) ∨
    (480 < size ∧ size ≤ 960 ∧ findStart size = 6) ∨
    (960 < size ∧ size ≤ 1920 ∧ findStart size = 7) ∨
    (1920 < size ∧ size ≤ 3840 ∧ findStart size = 8) ∨
    (3840 < size ∧ size ≤ 7680 ∧ findStart size = 9) ∨
    (7680 < size ∧ size ≤ 15360 ∧ findStart size = 10) ∨
    (15360 < size ∧ size ≤ 30720 ∧ findStart size = 11) ∨
    (30720 < size ∧ size ≤ 61440 ∧ findStart size = 12) ∨
    (61440 < size ∧ findStart size = 13) := by
  unfold findStart
  by_cases h1 : size ≤ LIST1_LIMIT
  · rw [if_pos h1]; left; exact ⟨h1, rfl⟩
  rw [if_neg h1]
  by_cases h2 : size ≤ LIST2_LIMIT
  · rw [if_pos h2]; right; left; exact ⟨Nat.lt_of_not_le h1, h2, rfl⟩
  rw [if_neg h2]
  by_cases h3 : size ≤ LIST3_LIMIT
  · rw [if_pos h3]; right; right; left; exact ⟨Nat.lt_of_not_le h2, h3, rfl⟩
  rw [if_neg h3]
  by_cases h4 : size ≤ LIST4_LIMIT
  · rw [if_pos h4]; right; right; right; left; exact ⟨Nat.lt_of_not_le h3, h4, rfl⟩
  rw [if_neg h4]
  by_cases h5 : size ≤ LIST5_LIMIT
  · rw [if_pos h5]; right; right; right; right; left; exact ⟨Nat.lt_of_not_le h4, h5, rfl⟩
  rw [if_neg h5]
  by_cases h6 : size ≤ LIST6_LIMIT
  · rw [if_pos h6]; right; right; right; right; right; left; exact ⟨Nat.lt_of_not_le h5, h6, rfl⟩
  rw [if_neg h6]
  by_cases h7 : size ≤ LIST7_LIMIT
  · rw [if_pos h7]; right; right; right; right; right; right; left; exact ⟨Nat.lt_of_not_le h6, h7, rfl⟩
  rw [if_neg h7]
  by_cases h8 : size ≤ LIST8_LIMIT
  · rw [if_pos h8]; right; right; right; right; right; right; right; left; exact ⟨Nat.lt_of_not_le h7, h8, rfl⟩
  rw [if_neg h8]
  by_cases h9 : size ≤ LIST9_LIMIT
  · rw [if_pos h9]; right; right; right; right; right; right; right; right; left; exact ⟨Nat.lt_of_not_le h8, h9, rfl⟩
  rw [if_neg h9]
  by_cases h10 : size ≤ LIST10_LIMIT
  · rw [if_pos h10]; right; right; right; right; right; right; right; right; right; left; exact ⟨Nat.lt_of_not_le h9, h10, rfl⟩
  rw [if_neg h10]
  by_cases h11 : size ≤ LIST11_LIMIT
  · rw [if_pos h11]; right; right; right; right; right; right; right; right; right; right; left; exact ⟨Nat.lt_of_not_le h10, h11, rfl⟩
  rw [if_neg h11]
  by_cases h12 : size ≤ LIST12_LIMIT
  · rw [if_pos h12]; right; right; right; right; right; right; right; right; right; right; right; left; exact ⟨Nat.lt_of_not_le h11, h12, rfl⟩
  rw [if_neg h12]
  by_cases h13 : size ≤ LIST13_LIMIT
  · rw [if_pos h13]; right; right; right; right; right; right; right; right; right; right; right; right; left; exact ⟨Nat.lt_of_not_le h12, h13, rfl⟩
  rw [if_neg h13]
  right; right; right; right; right; right; right; right; right; right; right; right; right; exact ⟨Nat.lt_of_not_le h13, rfl⟩

theorem addListSlot_eq (size : Nat) : addListSlot size = 8 * findStart size := by
  unfold addListSlot findStart
  by_cases h1 : size ≤ LIST1_LIMIT
  · rw [if_pos h1, if_pos h1]; rfl
  rw [if_neg h1, if_neg h1]
  by_cases h2 : size ≤ LIST2_LIMIT
  · rw [if_pos h2, if_pos h2]; rfl
  rw [if_neg h2, if_neg h2]
  by_cases h3 : size ≤ LIST3_LIMIT
  · rw [if_pos h3, if_pos h3]; rfl
  rw [if_neg h3, if_neg h3]
  by_cases h4 : size ≤ LIST4_LIMIT
  · rw [if_pos h4, if_pos h4]; rfl
  rw [if_neg h4, if_neg h4]
  by_cases h5 : size ≤ LIST5_LIMIT
  · rw [if_pos h5, if_pos h5]; rfl
  rw [if_neg h5, if_neg h5]
  by_cases h6 : size ≤ LIST6_LIMIT
  · rw [if_pos h6, if_pos h6]; rfl
  rw [if_neg h6, if_neg h6]
  by_cases h7 : size ≤ LIST7_LIMIT
  · rw [if_pos h7, if_pos h7]; rfl
  rw [if_neg h7, if_neg h7]
  by_cases h8 : size ≤ LIST8_LIMIT
  · rw [if_pos h8, if_pos h8]; rfl
  rw [if_neg h8, if_neg h8]
  by_cases h9 : size ≤ LIST9_LIMIT
  · rw [if_pos h9, if_pos h9]; rfl
  rw [if_neg h9, if_neg h9]
  by_cases h10 : size ≤ LIST10_LIMIT
  · rw [if_pos h10, if_pos h10]; rfl
  rw [if_neg h10, if_neg h10]
  by_cases h11 : size ≤ LIST11_LIMIT
  · rw [if_pos h11, if_pos h11]; rfl
  rw [if_neg h11, if_neg h11]
  by_cases h12 : size ≤ LIST12_LIMIT
  · rw [if_pos h12, if_pos h12]; rfl
  rw [if_neg h12, if_neg h12]
  by_cases h13 : size ≤ LIST13_LIMIT
  · rw [if_pos h13, if_pos h13]; rfl
  rw [if_neg h13, if_neg h13]
  rfl

theorem deleteListSlot_eq (size : Nat) : deleteListSlot size = 8 * findStart size := by
  unfold deleteListSlot findStart
  by_cases h1 : size ≤ LIST1_LIMIT
  · rw [if_pos h1, if_pos h1]; rfl
  rw [if_neg h1, if_neg h1]
  by_cases h2 : size ≤ LIST2_LIMIT
  · rw [if_pos h2, if_pos h2]; rfl
  rw [if_neg h2, if_neg h2]
  by_cases h3 : size ≤ LIST3_LIMIT
  · rw [if_pos h3, if_pos h3]; rfl
  rw [if_neg h3, if_neg h3]
  by_cases h4 : size ≤ LIST4_LIMIT
  · rw [if_pos h4, if_pos h4]; rfl
  rw [if_neg h4, if_neg h4]
  by_cases h5 : size ≤ LIST5_LIMIT
  · rw [if_pos h5, if_pos h5]; rfl
  rw [if_neg h5, if_neg h5]
  by_cases h6 : size ≤ LIST6_LIMIT
  · rw [if_pos h6, if_pos h6]; rfl
  rw [if_neg h6, if_neg h6]
  by_cases h7 : size ≤ LIST7_LIMIT
  · rw [if_pos h7, if_pos h7]; rfl
  rw [if_neg h7, if_neg h7]
  by_cases h8 : size ≤ LIST8_LIMIT
  · rw [if_pos h8, if_pos h8]; rfl
  rw [if_neg h8, if_neg h8]
  by_cases h9 : size ≤ LIST9_LIMIT
  · rw [if_pos h9, if_pos h9]; rfl
  rw [if_neg h9, if_neg h9]
  by_cases h10 : size ≤ LIST10_LIMIT
  · rw [if_pos h10, if_pos h10]; rfl
  rw [if_neg h10, if_neg h10]
  by_cases h11 : size ≤ LIST11_LIMIT
  · rw [if_pos h11, if_pos h11]; rfl
  rw [if_neg h11, if_neg h11]
  by_cases h12 : size ≤ LIST12_LIMIT
  · rw [if_pos h12, if_pos h12]; rfl
  rw [if_neg h12, if_neg h12]
  by_cases h13 : size ≤ LIST13_LIMIT
  · rw [if_pos h13, if_pos h13]; rfl
  rw [if_neg h13, if_neg h13]
  rfl

theorem findStart_lt (size : Nat) : findStart size < 14 := by
  have := findStart_cases size
  omega

theorem findSlot_eq (i : Nat) (h : i < 14) : findSlot i = 8 * i := by
  interval_cases i <;> rfl

theorem findStart_mono {a b : Nat} (h : a ≤ b) : findStart a ≤ findStart b := by
  have := findStart_cases a
  have := findStart_cases b
  omega

theorem Tiles_nil {m : Nat → Nat} {a e : Nat} : Tiles m a [] e ↔ a = e := Iff.rfl

theorem Tiles_cons {m : Nat → Nat} {b : Blk} {t : List Blk} {a e : Nat} :
    Tiles m a (b :: t) e ↔
      (b.bp = a ∧ b.size % 8 = 0 ∧ 16 ≤ b.size ∧
      m (a - 4) = b.size + b.st.bit ∧ m (a + b.size - 8) = b.size + b.st.bit ∧
      (b.st = St.loose → m (a + 4) = 0) ∧
      Tiles m (a + b.size) t e) := Iff.rfl

/-! ## Block tilings -/

theorem Tiles_append {m : Nat → Nat} {l1 l2 : List Blk} {a e : Nat} :
    Tiles m a (l1 ++ l2) e ↔ ∃ mid, Tiles m a l1 mid ∧ Tiles m mid l2 e := by
  induction l1 generalizing a with
  | nil => simp [Tiles_nil]
  | cons b t ih =>
    rw [List.cons_append, Tiles_cons]
    simp only [Tiles_cons, ih]
    constructor
    · rintro ⟨h1, h2, h3, h4, h5, h6, mid, h7, h8⟩
      exact ⟨mid, ⟨h1, h2, h3, h4, h5, h6, h7⟩, h8⟩
    · rintro ⟨mid, ⟨h1, h2, h3, h4, h5, h6, h7⟩, h8⟩
      exact ⟨h1, h2, h3, h4, h5, h6, mid, h7, h8⟩

theorem Tiles_le {m : Nat → Nat} {l : List Blk} {a e : Nat} (h : Tiles m a l e) : a ≤ e := by
  induction l generalizing a with
  | nil => simp [Tiles] at h; omega
  | cons b t ih =>
    obtain ⟨_, _, _, _, _, _, h7⟩ := h
    have := ih h7
    omega

theorem Tiles_mod {m : Nat → Nat} {l : List Blk} {a e : Nat} (h : Tiles m a l e) :
    e % 8 = a % 8 := by
  induction l generalizing a with
  | nil => simp [Tiles] at h; omega
  | cons b t ih =>
    obtain ⟨_, h2, _, _, _, _, h7⟩ := h
    have := ih h7
    omega

/-- What a tiling says about one of its blocks. -/
theorem Tiles_mem {m : Nat → Nat} {l : List Blk} {a e : Nat} (h : Tiles m a l e)
    {b : Blk} (hb : b ∈ l) :
    a ≤ b.bp ∧ b.bp + b.size ≤ e ∧ b.bp % 8 = a % 8 ∧ b.size % 8 = 0 ∧ 16 ≤ b.size ∧
    m (b.bp - 4) = b.size + b.st.bit ∧ m (b.bp + b.size - 8) = b.size + b.st.bit ∧
    (b.st = St.loose → m (b.bp + 4) = 0) := by
  induction l generalizing a with
  | nil => simp at hb
  | cons c t ih =>
    obtain ⟨h1, h2, h3, h4, h5, h6, h7⟩ := h
    rcases List.mem_cons.1 hb with rfl | hb
    · have := Tiles_le h7
      subst h1
      exact ⟨le_refl _, this, rfl, h2, h3, h4, h5, h6⟩
    · obtain ⟨g1, g2, g3, g4⟩ := ih h7 hb
      exact ⟨by omega, g2, by omega, g4⟩

/-- Two blocks of a tiling are the same block or occupy disjoint ranges. -/
theorem Tiles_disj {m : Nat → Nat} {l : List Blk} {a e : Nat} (h : Tiles m a l e)
    {b c : Blk} (hb : b ∈ l) (hc : c ∈ l) :
    b = c ∨ b.bp + b.size ≤ c.bp ∨ c.bp + c.size ≤ b.bp := by
  induction l generalizing a with
  | nil => simp at hb
  | cons d t ih =>
    obtain ⟨h1, h2, h3, h4, h5, h6, h7⟩ := h
    rcases List.mem_cons.1 hb with hb | hb <;> rcases List.mem_cons.1 hc with hc | hc
    · exact Or.inl (hb.trans hc.symm)
    · have := Tiles_mem h7 hc
      subst hb
      right; left; omega
    · have := Tiles_mem h7 hb
      subst hc
      right; right; omega
    · exact ih h7 hb hc

/-- A tiling only depends on headers, footers and the back links of loose blocks. -/
theorem Tiles_frame {m m' : Nat → Nat} {l : List Blk} {a e : Nat} (h : Tiles m a l e)
    (hf : ∀ b ∈ l, m' (b.bp - 4) = m (b.bp - 4) ∧ m' (b.bp + b.size - 8) = m (b.bp + b.size - 8) ∧
      (b.st = St.loose → m' (b.bp + 4) = m (b.bp + 4))) :
    Tiles m' a l e := by
  induction l generalizing a with
  | nil => exact h
  | cons d t ih =>
    obtain ⟨h1, h2, h3, h4, h5, h6, h7⟩ := h
    obtain ⟨f1, f2, f3⟩ := hf d (List.mem_cons_self _ _)
    subst h1
    refine ⟨rfl, h2, h3, by rw [f1, h4], by rw [f2, h5], fun hl => by rw [f3 hl, h6 hl], ?_⟩
    exact ih h7 (fun b hb => hf b (List.mem_cons_of_mem _ hb))

/-- A tiling of `[a, e)` only depends on the cells from `a - 4` up to `e - 4`. -/
theorem Tiles_frame_range {m m' : Nat → Nat} {l : List Blk} {a e : Nat} (h : Tiles m a l e)
    (ha : 4 ≤ a) (hf : ∀ x, a - 4 ≤ x → x < e - 4 → m' x = m x) : Tiles m' a l e := by
  apply Tiles_frame h
  intro b hb
  have := Tiles_mem h hb
  refine ⟨hf _ (by omega) (by omega), hf _ (by omega) (by omega), fun _ => hf _ (by omega) (by omega)⟩

/-! ## Doubly linked list segments -/

theorem Seg_nil {m : Nat → Nat} {pv cur : Nat} : Seg m pv [] cur ↔ cur = 0 := Iff.rfl

theorem Seg_cons {m : Nat → Nat} {pv n cur : Nat} {t : List Nat} :
    Seg m pv (n :: t) cur ↔ (cur = n ∧ n ≠ 0 ∧ m (n + 4) = pv ∧ Seg m n t (m n)) := Iff.rfl

theorem Seg_ne_zero {m : Nat → Nat} {pv cur : Nat} {l : List Nat} (h : Seg m pv l cur) :
    ∀ x ∈ l, x ≠ 0 := by
  induction l generalizing pv cur with
  | nil => simp
  | cons n t ih =>
    obtain ⟨_, h2, _, h4⟩ := h
    intro x hx
    rcases List.mem_cons.1 hx with rfl | hx
    · exact h2
    · exact ih h4 x hx

/-- A list segment only depends on the two link cells of its nodes. -/
theorem Seg_frame {m m' : Nat → Nat} {pv cur : Nat} {l : List Nat} (h : Seg m pv l cur)
    (hf : ∀ x ∈ l, m' x = m x ∧ m' (x + 4) = m (x + 4)) : Seg m' pv l cur := by
  induction l generalizing pv cur with
  | nil => exact h
  | cons n t ih =>
    obtain ⟨h1, h2, h3, h4⟩ := h
    obtain ⟨f1, f2⟩ := hf n (List.mem_cons_self _ _)
    refine ⟨h1, h2, by rw [f2, h3], ?_⟩
    rw [f1]
    exact ih h4 (fun x hx => hf x (List.mem_cons_of_mem _ hx))

/-- The forward link of a node is the next node, or null at the end. -/
theorem Seg_next {m : Nat → Nat} {pv cur n : Nat} {l1 l2 : List Nat}
    (h : Seg m pv (l1 ++ n :: l2) cur) :
    (l2 = [] ∧ m n = 0) ∨ ∃ y t, l2 = y :: t ∧ m n = y := by
  induction l1 generalizing pv cur with
  | nil =>
    obtain ⟨_, _, _, h4⟩ := h
    cases l2 with
    | nil => exact Or.inl ⟨rfl, h4⟩
    | cons y t => exact Or.inr ⟨y, t, rfl, h4.1⟩
  | cons c t ih =>
    obtain ⟨_, _, _, h4⟩ := h
    exact ih h4

/-- The back link of a node is the previous node, or the back link of the
segment at its head. -/
theorem Seg_prev {m : Nat → Nat} {pv cur n : Nat} {l1 l2 : List Nat}
    (h : Seg m pv (l1 ++ n :: l2) cur) :
    (l1 = [] ∧ m (n + 4) = pv) ∨ (l1 ≠ [] ∧ m (n + 4) ∈ l1) := by
  induction l1 generalizing pv cur with
  | nil =>
    obtain ⟨_, _, h3, _⟩ := h
    exact Or.inl ⟨rfl, h3⟩
  | cons c t ih =>
    obtain ⟨_, _, _, h4⟩ := h
    right
    refine ⟨by simp, ?_⟩
    rcases ih h4 with ⟨rfl, h5⟩ | ⟨_, h5⟩
    · simp [h5]
    · exact List.mem_cons_of_mem _ h5

/-- The head cell of a segment is its first node, or null for the empty list. -/
theorem Seg_head {m : Nat → Nat} {pv cur : Nat} {l : List Nat} (h : Seg m pv l cur) :
    (l = [] ∧ cur = 0) ∨ ∃ t, l = cur :: t ∧ cur ≠ 0 := by
  cases l with
  | nil => exact Or.inl ⟨rfl, h⟩
  | cons y t =>
    obtain ⟨h1, h2, _, _⟩ := h
    subst h1
    exact Or.inr ⟨t, rfl, h2⟩

/-- Unlinking the node `n`: the forward link of its predecessor and the back
link of its successor are redirected, all other link cells of the remaining
nodes are kept. -/
theorem Seg_delete {m m' : Nat → Nat} {n : Nat} {l2 : List Nat} :
    ∀ (l1 : List Nat) (pv cur : Nat),
    Seg m pv (l1 ++ n :: l2) cur → (l1 ++ n :: l2).Nodup → pv ∉ l1 ++ n :: l2 →
    (∀ x ∈ l1 ++ l2, m' x = if x = m (n + 4) then m n else m x) →
    (∀ x ∈ l1 ++ l2, m' (x + 4) = if x = m n then m (n + 4) else m (x + 4)) →
    Seg m' pv (l1 ++ l2) (if l1 = [] then m n else cur) := by
  intro l1
  induction l1 with
  | nil =>
    intro pv cur h nd hpv hA hB
    simp only [List.nil_append] at h nd hpv hA hB ⊢
    obtain ⟨h1, h2, h3, h4⟩ := h
    simp only [if_true]
    cases l2 with
    | nil => exact h4
    | cons y t =>
      obtain ⟨g1, g2, g3, g4⟩ := h4
      have hyn : y ≠ n := by
        intro e; subst e
        simp at nd
      have hypv : y ≠ pv := by
        intro e; subst e
        simp at hpv
      refine ⟨g1, g2, ?_, ?_⟩
      · rw [hB y (List.mem_cons_self _ _), if_pos g1.symm, h3]
      · rw [hA y (List.mem_cons_self _ _), h3, if_neg hypv]
        apply Seg_frame g4
        intro x hx
        have hxl : x ∈ y :: t := List.mem_cons_of_mem _ hx
        have hxy : x ≠ y := by
          intro e; subst e
          have := (List.nodup_cons.1 nd).2
          exact (List.nodup_cons.1 this).1 hx
        have hxpv : x ≠ pv := by
          intro e; subst e
          exact hpv (List.mem_cons_of_mem _ hxl)
        constructor
        · rw [hA x hxl, h3, if_neg hxpv]
        · rw [hB x hxl, g1, if_neg hxy]
  | cons c t ih =>
    intro pv cur h nd hpv hA hB
    simp only [List.cons_append] at h nd hpv hA hB ⊢
    obtain ⟨h1, h2, h3, h4⟩ := h
    have ndt := (List.nodup_cons.1 nd).2
    have hct := (List.nodup_cons.1 nd).1
    simp only [if_false, List.cons_ne_nil]
    have hc_mem : c ∈ c :: (t ++ l2) := List.mem_cons_self _ _
    have hcn : c ≠ m n := by
      rcases Seg_next h4 with ⟨_, h0⟩ | ⟨y, t', hl2, hy⟩
      · rw [h0]; exact h2
      · intro e
        apply hct
        rw [hl2]
        simp [← hy, ← e]
    refine ⟨h1, h2, ?_, ?_⟩
    · rw [hB c hc_mem, if_neg hcn, h3]
    · have key := ih c (m c) h4 ndt hct
        (fun x hx => hA x (List.mem_cons_of_mem _ hx))
        (fun x hx => hB x (List.mem_cons_of_mem _ hx))
      rw [hA c hc_mem]
      rcases Seg_prev h4 with ⟨rfl, h5⟩ | ⟨hne, h5⟩
      · simpa [h5] using key
      · have : c ≠ m (n + 4) := by
          intro e
          apply hct
          rw [← e] at h5
          exact List.mem_append_left _ h5
        simpa [this, hne] using key

/-- Linking a node in front of a list. -/
theorem Seg_push {m m' : Nat → Nat} {cur X : Nat} {l : List Nat}
    (h : Seg m 0 l cur) (hnd : l.Nodup) (hX0 : X ≠ 0)
    (h1 : m' X = cur) (h2 : m' (X + 4) = 0)
    (hA : ∀ x ∈ l, m' x = m x)
    (hB : ∀ x ∈ l, m' (x + 4) = if x = cur then X else m (x + 4)) :
    Seg m' 0 (X :: l) X := by
  refine ⟨rfl, hX0, h2, ?_⟩
  rw [h1]
  cases l with
  | nil => exact h
  | cons y t =>
    obtain ⟨g1, g2, g3, g4⟩ := h
    refine ⟨g1, g2, ?_, ?_⟩
    · rw [hB y (List.mem_cons_self _ _), if_pos g1.symm]
    · rw [hA y (List.mem_cons_self _ _)]
      apply Seg_frame g4
      intro x hx
      refine ⟨hA x (List.mem_cons_of_mem _ hx), ?_⟩
      rw [hB x (List.mem_cons_of_mem _ hx), if_neg]
      intro e
      rw [e, g1] at hx
      exact (List.nodup_cons.1 hnd).1 hx

/-! ## Consequences of structural well-formedness -/

theorem Str.blk {s : Heap} {bl : List Blk} {fl : Nat → List Nat} (h : Str s bl fl)
    {b : Blk} (hb : b ∈ bl) :
    s.lo + 120 ≤ b.bp ∧ b.bp + b.size ≤ s.brk ∧ b.bp % 8 = 0 ∧ b.size % 8 = 0 ∧ 16 ≤ b.size ∧
    s.mem (b.bp - 4) = b.size + b.st.bit ∧ s.mem (b.bp + b.size - 8) = b.size + b.st.bit ∧
    (b.st = St.loose → s.mem (b.bp + 4) = 0) ∧ s.brk < 4294967296 := by
  have t := Tiles_mem h.tiles hb
  have := h.lo8
  have := h.capb
  have := h.brkcap
  refine ⟨t.1, t.2.1, by omega, t.2.2.2.1, t.2.2.2.2.1, t.2.2.2.2.2.1,
    t.2.2.2.2.2.2.1, t.2.2.2.2.2.2.2, by omega⟩

theorem Str.sep {s : Heap} {bl : List Blk} {fl : Nat → List Nat} (h : Str s bl fl)
    {b c : Blk} (hb : b ∈ bl) (hc : c ∈ bl) :
    b = c ∨ b.bp + b.size ≤ c.bp ∨ c.bp + c.size ≤ b.bp :=
  Tiles_disj h.tiles hb hc

theorem Str.brk_ge {s : Heap} {bl : List Blk} {fl : Nat → List Nat} (h : Str s bl fl) :
    s.lo + 120 ≤ s.brk := Tiles_le h.tiles

theorem Str.node {s : Heap} {bl : List Blk} {fl : Nat → List Nat} (h : Str s bl fl)
    {i n : Nat} (hi : i < 14) (hn : n ∈ fl i) :
    ∃ b ∈ bl, b.bp = n ∧ b.st = St.listed ∧ findStart b.size = i :=
  (h.link i hi n).1 hn

theorem Str.node_facts {s : Heap} {bl : List Blk} {fl : Nat → List Nat} (h : Str s bl fl)
    {i n : Nat} (hi : i < 14) (hn : n ∈ fl i) :
    n % 8 = 0 ∧ s.lo + 120 ≤ n ∧ n + 16 ≤ s.brk ∧ n < 4294967296 := by
  obtain ⟨b, hb, rfl, _, _⟩ := h.node hi hn
  have := h.blk hb
  omega

theorem Str.root {s : Heap} {bl : List Blk} {fl : Nat → List Nat} (h : Str s bl fl)
    {i : Nat} (hi : i < 14) :
    (fl i = [] ∧ s.mem (s.lo + 8 * i) = 0) ∨
      ∃ t, fl i = s.mem (s.lo + 8 * i) :: t ∧ s.mem (s.lo + 8 * i) ≠ 0 :=
  Seg_head (h.segs i hi)

theorem Str.root_facts {s : Heap} {bl : List Blk} {fl : Nat → List Nat} (h : Str s bl fl)
    {i : Nat} (hi : i < 14) :
    s.mem (s.lo + 8 * i) = 0 ∨ (s.mem (s.lo + 8 * i) ∈ fl i ∧ s.mem (s.lo + 8 * i) % 8 = 0 ∧
      s.lo + 120 ≤ s.mem (s.lo + 8 * i) ∧ s.mem (s.lo + 8 * i) + 16 ≤ s.brk ∧
      s.mem (s.lo + 8 * i) < 4294967296) := by
  rcases h.root hi with ⟨_, h0⟩ | ⟨t, ht, _⟩
  · exact Or.inl h0
  · right
    have hm : s.mem (s.lo + 8 * i) ∈ fl i := by rw [ht]; exact List.mem_cons_self _ _
    exact ⟨hm, h.node_facts hi hm⟩

/-- Nodes of two lists that are the same address lie on the same list. -/
theorem Str.node_class {s : Heap} {bl : List Blk} {fl : Nat → List Nat} (h : Str s bl fl)
    {i j n : Nat} (hi : i < 14) (hj : j < 14) (hn : n ∈ fl i) (hn' : n ∈ fl j) : i = j := by
  obtain ⟨b, hb, e1, _, c1⟩ := h.node hi hn
  obtain ⟨c, hc, e2, _, c2⟩ := h.node hj hn'
  have := h.blk hb
  have := h.blk hc
  rcases h.sep hb hc with e | e | e
  · subst e; omega
  · omega
  · omega

theorem Str.get_size {s : Heap} {bl : List Blk} {fl : Nat → List Nat} (h : Str s bl fl)
    {b : Blk} (hb : b ∈ bl) : GET_SIZE s (b.bp - 4) = b.size := by
  have := h.blk hb
  have hbit := b.st.bit_le
  unfold GET_SIZE GET
  rw [this.2.2.2.2.2.1]
  exact size_of_word _ _ (by omega) (by omega) (by omega)

theorem Str.get_size_ftr {s : Heap} {bl : List Blk} {fl : Nat → List Nat} (h : Str s bl fl)
    {b : Blk} (hb : b ∈ bl) : GET_SIZE s (b.bp + b.size - 8) = b.size := by
  have := h.blk hb
  have hbit := b.st.bit_le
  unfold GET_SIZE GET
  rw [this.2.2.2.2.2.2.1]
  exact size_of_word _ _ (by omega) (by omega) (by omega)

theorem Str.get_alloc {s : Heap} {bl : List Blk} {fl : Nat → List Nat} (h : Str s bl fl)
    {b : Blk} (hb : b ∈ bl) : GET_ALLOC s (b.bp - 4) = b.st.bit := by
  have := h.blk hb
  have hbit := b.st.bit_le
  unfold GET_ALLOC GET
  rw [this.2.2.2.2.2.1]
  exact alloc_of_word _ _ (by omega) hbit

theorem Str.get_alloc_ftr {s : Heap} {bl : List Blk} {fl : Nat → List Nat} (h : Str s bl fl)
    {b : Blk} (hb : b ∈ bl) : GET_ALLOC s (b.bp + b.size - 8) = b.st.bit := by
  have := h.blk hb
  have hbit := b.st.bit_le
  unfold GET_ALLOC GET
  rw [this.2.2.2.2.2.2.1]
  exact alloc_of_word _ _ (by omega) hbit

/-- Changing the status of one block of a tiling to one with the same
allocated bit. -/
theorem Tiles_restatus {m : Nat → Nat} {pre post : List Blk} {X : Blk} {t : St} {a e : Nat}
    (h : Tiles m a (pre ++ X :: post) e) (hbit : t.bit = X.st.bit)
    (hl : t = St.loose → m (X.bp + 4) = 0) :
    Tiles m a (pre ++ { X with st := t } :: post) e := by
  rw [Tiles_append] at h ⊢
  obtain ⟨mid, h1, h2⟩ := h
  refine ⟨mid, h1, ?_⟩
  obtain ⟨g1, g2, g3, g4, g5, g6, g7⟩ := h2
  subst g1
  exact ⟨rfl, g2, g3, by rw [g4, hbit], by rw [g5, hbit], hl, g7⟩

theorem mem_middle_iff {α : Type} {pre post : List α} {Y b : α} :
    b ∈ pre ++ Y :: post ↔ b = Y ∨ (b ∈ pre ∨ b ∈ post) := by
  simp only [List.mem_append, List.mem_cons]
  tauto

/-- The block in the middle of a tiling does not occur elsewhere in it. -/
theorem Tiles_middle {m : Nat → Nat} {pre post : List Blk} {X : Blk} {a e : Nat}
    (h : Tiles m a (pre ++ X :: post) e) :
    (∀ b ∈ pre, b.bp + b.size ≤ X.bp) ∧ (∀ b ∈ post, X.bp + X.size ≤ b.bp) := by
  rw [Tiles_append] at h
  obtain ⟨mid, h1, h2⟩ := h
  obtain ⟨g1, g2, g3, g4, g5, g6, g7⟩ := h2
  subst g1
  constructor
  · intro b hb
    exact (Tiles_mem h1 hb).2.1
  · intro b hb
    exact (Tiles_mem g7 hb).1

/-! ## Filing a block: `addList` -/

@[simp] theorem addList_lo (s : Heap) (bp size : Nat) : (addList s bp size).lo = s.lo := by
  unfold addList; simp only [PUT_lo]; split <;> rfl

@[simp] theorem addList_brk (s : Heap) (bp size : Nat) : (addList s bp size).brk = s.brk := by
  unfold addList; simp only [PUT_brk]; split <;> rfl

@[simp] theorem addList_cap (s : Heap) (bp size : Nat) : (addList s bp size).cap = s.cap := by
  unfold addList; simp only [PUT_cap]; split <;> rfl

@[simp] theorem addList_last_size (s : Heap) (bp size : Nat) :
    (addList s bp size).last_size = s.last_size := by
  unfold addList; simp only [PUT_last_size]; split <;> rfl

@[simp] theorem addList_count (s : Heap) (bp size : Nat) :
    (addList s bp size).count = s.count := by
  unfold addList; simp only [PUT_count]; split <;> rfl

/-- The memory after `addList`. -/
theorem addList_mem (s : Heap) (bp size a : Nat) :
    (addList s bp size).mem a =
      if a = s.lo + 8 * findStart size then bp % 4294967296
      else if a = bp then s.mem (s.lo + 8 * findStart size) % 4294967296
      else if s.mem (s.lo + 8 * findStart size) ≠ 0 ∧
          a = s.mem (s.lo + 8 * findStart size) + 4 then bp % 4294967296
      else s.mem a := by
  unfold addList
  simp only [mem_heap_lo, addListSlot_eq, GET, NEXT_FP, PREV_FP, WSIZE, PUT_mem]
  by_cases h1 : a = s.lo + 8 * findStart size
  · simp [h1]
  by_cases h2 : a = bp
  · simp [h1, h2]
  by_cases h3 : s.mem (s.lo + 8 * findStart size) = 0
  · simp [h1, h2, h3]
  · simp [h1, h2, h3]

/-- A loose block is on no list. -/
theorem Str.not_listed {s : Heap} {bl : List Blk} {fl : Nat → List Nat} (h : Str s bl fl)
    {X : Blk} (hX : X ∈ bl) (hst : X.st ≠ St.listed) {j : Nat} (hj : j < 14) :
    X.bp ∉ fl j := by
  intro hn
  obtain ⟨b, hb, e, st, _⟩ := h.node hj hn
  have := h.blk hb
  have := h.blk hX
  rcases h.sep hb hX with e' | e' | e'
  · subst e'; exact hst st
  · omega
  · omega

/-- `addList` files a loose block at the head of the list of its class. -/
theorem addList_Str {s : Heap} {pre post : List Blk} {X : Blk} {fl : Nat → List Nat}
    (h : Str s (pre ++ X :: post) fl) (hX : X.st = St.loose) :
    Str (addList s X.bp X.size) (pre ++ { X with st := St.listed } :: post)
      (Function.update fl (findStart X.size) (X.bp :: fl (findStart X.size))) := by
  have hi := findStart_lt X.size
  have hXm : X ∈ pre ++ X :: post := by simp
  have fX := h.blk hXm
  have hroot := h.root_facts hi
  have hXnot : ∀ j, j < 14 → X.bp ∉ fl j := fun j hj => h.not_listed hXm (by simp [hX]) hj
  have hlo8 := h.lo8
  -- the new tiling, still over the old memory
  have hT : Tiles s.mem (s.lo + 120) (pre ++ { X with st := St.listed } :: post) s.brk :=
    Tiles_restatus h.tiles (by simp [hX, St.bit]) (by simp)
  -- cells that keep their value
  have keep : ∀ a, a ≠ s.lo + 8 * findStart X.size → a ≠ X.bp →
      (s.mem (s.lo + 8 * findStart X.size) = 0 ∨ a ≠ s.mem (s.lo + 8 * findStart X.size) + 4) →
      (addList s X.bp X.size).mem a = s.mem a := by
    intro a h1 h2 h3
    rw [addList_mem, if_neg h1, if_neg h2, if_neg]
    rintro ⟨h4, h5⟩
    rcases h3 with h3 | h3
    · exact h4 h3
    · exact h3 h5
  have keepnode : ∀ j, j < 14 → ∀ x ∈ fl j, x ≠ s.mem (s.lo + 8 * findStart X.size) →
      (addList s X.bp X.size).mem x = s.mem x ∧
      (addList s X.bp X.size).mem (x + 4) = s.mem (x + 4) := by
    intro j hj x hx hne
    have fx := h.node_facts hj hx
    have : x ≠ X.bp := fun e => hXnot j hj (e ▸ hx)
    constructor
    · apply keep <;> omega
    · apply keep <;> omega
  have hbl : ∀ b, b ∈ pre ++ { X with st := St.listed } :: post →
      b = { X with st := St.listed } ∨ (b ∈ pre ++ X :: post ∧ b.st ≠ St.loose ∨
        b ∈ pre ++ X :: post ∧ b.bp ≠ X.bp) := by
    intro b hb
    rcases mem_middle_iff.1 hb with e | e
    · exact Or.inl e
    · right; right
      have hm := Tiles_middle h.tiles
      have hb' : b ∈ pre ++ X :: post := mem_middle_iff.2 (Or.inr e)
      have := h.blk hb'
      refine ⟨hb', ?_⟩
      rcases e with e | e
      · have := hm.1 b e; omega
      · have := hm.2 b e; omega
  refine
    { lo8 := by simpa using h.lo8, capb := by simpa using h.capb,
      brkcap := by simpa using h.brkcap, pro1 := ?_, pro2 := ?_, epi := ?_,
      tiles := ?_, segs := ?_, nodup := ?_, link := ?_ }
  · rw [addList_lo, keep, h.pro1] <;> omega
  · rw [addList_lo, keep, h.pro2] <;> omega
  · have := h.brk_ge
    rw [addList_brk, keep, h.epi] <;> omega
  · rw [addList_lo, addList_brk]
    apply Tiles_frame hT
    intro b hb
    have fb := Tiles_mem hT hb
    have hXm' : ({ X with st := St.listed } : Blk) ∈ pre ++ { X with st := St.listed } :: post := by
      simp
    have sX := Tiles_disj hT hb hXm'
    have hr : s.mem (s.lo + 8 * findStart X.size) = 0 ∨
        (b.bp - 4 ≠ s.mem (s.lo + 8 * findStart X.size) + 4 ∧
         b.bp + b.size - 8 ≠ s.mem (s.lo + 8 * findStart X.size) + 4 ∧
         (b.st = St.loose → b.bp + 4 ≠ s.mem (s.lo + 8 * findStart X.size) + 4)) := by
      rcases hroot with h0 | ⟨hr, _⟩
      · exact Or.inl h0
      · right
        obtain ⟨R, hR, eR, stR, _⟩ := h.node hi hr
        have hR' : R ∈ pre ++ { X with st := St.listed } :: post := by
          rcases mem_middle_iff.1 hR with e | e
          · subst e; rw [hX] at stR; cases stR
          · exact mem_middle_iff.2 (Or.inr e)
        have fR := Tiles_mem hT hR'
        rw [← eR]
        rcases Tiles_disj hT hb hR' with e | e | e
        · subst e
          refine ⟨by omega, by omega, ?_⟩
          intro hl; rw [stR] at hl; cases hl
        · refine ⟨by omega, by omega, fun _ => by omega⟩
        · refine ⟨by omega, by omega, fun _ => by omega⟩
    have hbX : b.st = St.loose → b.bp ≠ X.bp := by
      intro hl e
      rcases sX with e' | e' | e'
      · subst e'; cases hl
      · simp at e'; omega
      · simp at e'; omega
    simp only at sX
    refine ⟨?_, ?_, ?_⟩
    · apply keep
      · omega
      · rcases sX with e | e | e
        · subst e; simp; omega
        · omega
        · omega
      · rcases hr with h0 | hr
        · exact Or.inl h0
        · exact Or.inr hr.1
    · apply keep
      · omega
      · rcases sX with e | e | e
        · subst e; simp; omega
        · omega
        · omega
      · rcases hr with h0 | hr
        · exact Or.inl h0
        · exact Or.inr hr.2.1
    · intro hl
      have := hbX hl
      apply keep
      · omega
      · omega
      · rcases hr with h0 | hr
        · exact Or.inl h0
        · exact Or.inr (hr.2.2 hl)
  · intro j hj
    rw [addList_lo]
    by_cases hji : j = findStart X.size
    · subst hji
      rw [Function.update_same]
      have hslot : (addList s X.bp X.size).mem (s.lo + 8 * findStart X.size) = X.bp := by
        rw [addList_mem, if_pos rfl]
        exact Nat.mod_eq_of_lt (by omega)
      rw [hslot]
      apply Seg_push (h.segs _ hi) (h.nodup _ hi) (by omega)
      · rw [addList_mem, if_neg (by omega), if_pos rfl]
        apply Nat.mod_eq_of_lt
        omega
      · rw [keep, fX.2.2.2.2.2.2.2.1 hX]
        · omega
        · omega
        · rcases hroot with h0 | ⟨hr, _⟩
          · exact Or.inl h0
          · right
            intro e
            have : s.mem (s.lo + 8 * findStart X.size) = X.bp := by omega
            exact hXnot _ hi (this ▸ hr)
      · intro x hx
        have fx := h.node_facts hi hx
        have : x ≠ X.bp := fun e => hXnot _ hi (e ▸ hx)
        apply keep
        · omega
        · omega
        · omega
      · intro x hx
        have fx := h.node_facts hi hx
        by_cases e : x = s.mem (s.lo + 8 * findStart X.size)
        · rw [if_pos e, addList_mem, if_neg (by omega), if_neg (by omega), if_pos]
          · exact Nat.mod_eq_of_lt (by omega)
          · exact ⟨by omega, by omega⟩
        · rw [if_neg e]
          apply keep
          · omega
          · omega
          · omega
    · rw [Function.update_noteq hji]
      have hslot : (addList s X.bp X.size).mem (s.lo + 8 * j) = s.mem (s.lo + 8 * j) := by
        apply keep
        · omega
        · omega
        · omega
      rw [hslot]
      apply Seg_frame (h.segs j hj)
      intro x hx
      apply keepnode j hj x hx
      intro e
      rcases hroot with h0 | ⟨hr, _⟩
      · have := h.node_facts hj hx
        omega
      · exact hji (h.node_class hj hi hx (e ▸ hr))
  · intro j hj
    by_cases hji : j = findStart X.size
    · subst hji
      rw [Function.update_same]
      exact List.nodup_cons.2 ⟨hXnot _ hi, h.nodup _ hi⟩
    · rw [Function.update_noteq hji]
      exact h.nodup j hj
  · intro j hj n
    have old := h.link j hj n
    by_cases hji : j = findStart X.size
    · subst hji
      rw [Function.update_same, List.mem_cons, old]
      constructor
      · rintro (e | ⟨b, hb, e1, e2, e3⟩)
        · exact ⟨{ X with st := St.listed }, by simp, e.symm, rfl, rfl⟩
        · refine ⟨b, ?_, e1, e2, e3⟩
          rcases mem_middle_iff.1 hb with e | e
          · subst e; rw [hX] at e2; cases e2
          · exact mem_middle_iff.2 (Or.inr e)
      · rintro ⟨b, hb, e1, e2, e3⟩
        rcases mem_middle_iff.1 hb with e | e
        · subst e; exact Or.inl e1.symm
        · exact Or.inr ⟨b, mem_middle_iff.2 (Or.inr e), e1, e2, e3⟩
    · rw [Function.update_noteq hji, old]
      constructor
      · rintro ⟨b, hb, e1, e2, e3⟩
        refine ⟨b, ?_, e1, e2, e3⟩
        rcases mem_middle_iff.1 hb with e | e
        · subst e; rw [hX] at e2; cases e2
        · exact mem_middle_iff.2 (Or.inr e)
      · rintro ⟨b, hb, e1, e2, e3⟩
        rcases mem_middle_iff.1 hb with e | e
        · subst e; exact absurd e3.symm hji
        · exact ⟨b, mem_middle_iff.2 (Or.inr e), e1, e2, e3⟩

/-- `addList` only writes the list head, the forward link of the block and the
back link of the old first node. -/
theorem addList_keep (s : Heap) (bp size a : Nat) (h1 : a ≠ s.lo + 8 * findStart size)
    (h2 : a ≠ bp)
    (h3 : s.mem (s.lo + 8 * findStart size) = 0 ∨ a ≠ s.mem (s.lo + 8 * findStart size) + 4) :
    (addList s bp size).mem a = s.mem a := by
  rw [addList_mem, if_neg h1, if_neg h2, if_neg]
  rintro ⟨h4, h5⟩
  rcases h3 with h3 | h3
  · exact h4 h3
  · exact h3 h5

/-! ## Unlinking a block: `deleteList` -/

@[simp] theorem deleteList_lo (s : Heap) (bp size : Nat) : (deleteList s bp size).lo = s.lo := by
  unfold deleteList; simp only [PUT_lo]; split <;> split <;> rfl

@[simp] theorem deleteList_brk (s : Heap) (bp size : Nat) :
    (deleteList s bp size).brk = s.brk := by
  unfold deleteList; simp only [PUT_brk]; split <;> split <;> rfl

@[simp] theorem deleteList_cap (s : Heap) (bp size : Nat) :
    (deleteList s bp size).cap = s.cap := by
  unfold deleteList; simp only [PUT_cap]; split <;> split <;> rfl

@[simp] theorem deleteList_last_size (s : Heap) (bp size : Nat) :
    (deleteList s bp size).last_size = s.last_size := by
  unfold deleteList; simp only [PUT_last_size]; split <;> split <;> rfl

@[simp] theorem deleteList_count (s : Heap) (bp size : Nat) :
    (deleteList s bp size).count = s.count := by
  unfold deleteList; simp only [PUT_count]; split <;> split <;> rfl

/-- The memory after `deleteList`. -/
theorem deleteList_mem (s : Heap) (bp size a : Nat) :
    (deleteList s bp size).mem a =
      if a = bp + 4 then 0
      else if a = bp then 0
      else if a = (if s.mem (bp + 4) = 0 then s.lo + 8 * findStart size else s.mem (bp + 4))
        then s.mem bp % 4294967296
      else if s.mem bp ≠ 0 ∧ a = s.mem bp + 4 then s.mem (bp + 4) % 4294967296
      else s.mem a := by
  unfold deleteList
  simp only [mem_heap_lo, deleteListSlot_eq, GET, NEXT_FP, PREV_FP, WSIZE, PUT_mem]
  by_cases h1 : a = bp + 4
  · simp [h1]
  by_cases h2 : a = bp
  · simp [h1, h2]
  by_cases hp : s.mem (bp + 4) = 0
  · by_cases h3 : a = s.lo + 8 * findStart size
    · simp [h1, h2, hp, h3]
    · by_cases hn : s.mem bp = 0
      · simp [h1, h2, hp, h3, hn]
      · simp [h1, h2, hp, h3, hn]
  · by_cases h3 : a = s.mem (bp + 4)
    · simp [h1, h2, hp, h3]
    · by_cases hn : s.mem bp = 0
      · simp [h1, h2, hp, h3, hn]
      · simp [h1, h2, hp, h3, hn]

/-- `deleteList` only writes the two links of the block, the list head or the
forward link of the previous node, and the back link of the next node. -/
theorem deleteList_keep (s : Heap) (bp size a : Nat) (h1 : a ≠ bp + 4) (h2 : a ≠ bp)
    (h3 : a ≠ (if s.mem (bp + 4) = 0 then s.lo + 8 * findStart size else s.mem (bp + 4)))
    (h4 : s.mem bp = 0 ∨ a ≠ s.mem bp + 4) :
    (deleteList s bp size).mem a = s.mem a := by
  rw [deleteList_mem, if_neg h1, if_neg h2, if_neg h3, if_neg]
  rintro ⟨h5, h6⟩
  rcases h4 with h4 | h4
  · exact h5 h4
  · exact h4 h6

/-- The two links of a filed block: each is null or a node of the same list. -/
theorem Str.links {s : Heap} {bl : List Blk} {fl : Nat → List Nat} (h : Str s bl fl)
    {X : Blk} (hX : X ∈ bl) (hst : X.st = St.listed) :
    X.bp ∈ fl (findStart X.size) ∧
    (s.mem X.bp = 0 ∨ (s.mem X.bp ∈ fl (findStart X.size) ∧ s.mem X.bp ≠ X.bp)) ∧
    ((s.mem (X.bp + 4) = 0 ∧ s.mem (s.lo + 8 * findStart X.size) = X.bp) ∨
      (s.mem (X.bp + 4) ∈ fl (findStart X.size) ∧ s.mem (X.bp + 4) ≠ X.bp ∧
        s.mem (s.lo + 8 * findStart X.size) ≠ X.bp)) := by
  have hi := findStart_lt X.size
  have hmem : X.bp ∈ fl (findStart X.size) := (h.link _ hi _).2 ⟨X, hX, rfl, hst, rfl⟩
  obtain ⟨l1, l2, hl⟩ := List.append_of_mem hmem
  have hs := h.segs _ hi
  have hnd := h.nodup _ hi
  rw [hl] at hs hnd
  refine ⟨hmem, ?_, ?_⟩
  · rcases Seg_next hs with ⟨_, h0⟩ | ⟨y, t, hy, hn⟩
    · exact Or.inl h0
    · right
      rw [hl, hn, hy]
      refine ⟨by simp, ?_⟩
      intro e
      rw [hy, e] at hnd
      have := (List.nodup_append.1 hnd).2.1
      simp at this
  · rcases Seg_prev hs with ⟨e1, h0⟩ | ⟨hne, hp⟩
    · left
      refine ⟨h0, ?_⟩
      rw [e1] at hs
      exact hs.1
    · right
      have hpx : s.mem (X.bp + 4) ≠ X.bp := by
        intro e
        rw [e] at hp
        have := (List.nodup_append.1 hnd).2.2
        exact this hp (List.mem_cons_self _ _)
      refine ⟨by rw [hl]; exact List.mem_append_left _ hp, hpx, ?_⟩
      intro e
      cases l1 with
      | nil => exact hne rfl
      | cons c t =>
        have hc : s.mem (s.lo + 8 * findStart X.size) = c := hs.1
        rw [e] at hc
        rw [← hc] at hnd
        have := (List.nodup_append.1 hnd).2.2
        exact this (List.mem_cons_self _ _) (List.mem_cons_self _ _)

/-- `deleteList` only changes the head of the list of the block's class and
link cells of nodes of that list. -/
theorem deleteList_frame {s : Heap} {bl : List Blk} {fl : Nat → List Nat} (h : Str s bl fl)
    {X : Blk} (hX : X ∈ bl) (hst : X.st = St.listed) (a : Nat)
    (h1 : a ≠ s.lo + 8 * findStart X.size)
    (h2 : ∀ x ∈ fl (findStart X.size), a ≠ x ∧ a ≠ x + 4) :
    (deleteList s X.bp X.size).mem a = s.mem a := by
  obtain ⟨l1, l2, l3⟩ := h.links hX hst
  apply deleteList_keep
  · exact (h2 _ l1).2
  · exact (h2 _ l1).1
  · rcases l3 with ⟨e, _⟩ | ⟨e, _⟩
    · rw [if_pos e]; exact h1
    · have hi := findStart_lt X.size
      have := h.node_facts hi e
      rw [if_neg (by omega)]
      exact (h2 _ e).1
  · rcases l2 with e | ⟨e, _⟩
    · exact Or.inl e
    · exact Or.inr (h2 _ e).2

/-- `deleteList` takes a filed block off its list. -/
theorem deleteList_Str {s : Heap} {pre post : List Blk} {X : Blk} {fl : Nat → List Nat}
    (h : Str s (pre ++ X :: post) fl) (hX : X.st = St.listed) :
    Str (deleteList s X.bp X.size) (pre ++ { X with st := St.loose } :: post)
      (Function.update fl (findStart X.size) ((fl (findStart X.size)).erase X.bp)) := by
  have hi := findStart_lt X.size
  have hXm : X ∈ pre ++ X :: post := by simp
  have fX := h.blk hXm
  obtain ⟨lk1, lk2, lk3⟩ := h.links hXm hX
  have hlo8 := h.lo8
  have keep := deleteList_frame h hXm hX
  have hmid := Tiles_middle h.tiles
  -- over the old memory the tiling is kept by the new memory
  have hT : Tiles (deleteList s X.bp X.size).mem (s.lo + 120) (pre ++ X :: post) s.brk := by
    apply Tiles_frame h.tiles
    intro b hb
    have fb := h.blk hb
    have hcell : ∀ x ∈ fl (findStart X.size),
        (b.bp - 4 ≠ x ∧ b.bp - 4 ≠ x + 4) ∧ (b.bp + b.size - 8 ≠ x ∧ b.bp + b.size - 8 ≠ x + 4) ∧
        (b.st = St.loose → (b.bp + 4 ≠ x ∧ b.bp + 4 ≠ x + 4)) := by
      intro x hx
      obtain ⟨c, hc, e1, e2, _⟩ := h.node hi hx
      have fc := h.blk hc
      subst e1
      rcases h.sep hb hc with e | e | e
      · subst e
        refine ⟨by omega, by omega, ?_⟩
        intro hl; rw [e2] at hl; cases hl
      · refine ⟨by omega, by omega, fun _ => by omega⟩
      · refine ⟨by omega, by omega, fun _ => by omega⟩
    refine ⟨?_, ?_, ?_⟩
    · exact keep _ (by omega) (fun x hx => (hcell x hx).1)
    · exact keep _ (by omega) (fun x hx => (hcell x hx).2.1)
    · intro hl
      exact keep _ (by omega) (fun x hx => (hcell x hx).2.2 hl)
  have hXl : (deleteList s X.bp X.size).mem (X.bp + 4) = 0 := by
    rw [deleteList_mem, if_pos rfl]
  refine
    { lo8 := by simpa using h.lo8, capb := by simpa using h.capb,
      brkcap := by simpa using h.brkcap, pro1 := ?_, pro2 := ?_, epi := ?_,
      tiles := ?_, segs := ?_, nodup := ?_, link := ?_ }
  · rw [deleteList_lo, keep, h.pro1]
    · omega
    · intro x hx
      have := h.node_facts hi hx
      omega
  · rw [deleteList_lo, keep, h.pro2]
    · omega
    · intro x hx
      have := h.node_facts hi hx
      omega
  · have := h.brk_ge
    rw [deleteList_brk, keep, h.epi]
    · omega
    · intro x hx
      have := h.node_facts hi hx
      omega
  · rw [deleteList_lo, deleteList_brk]
    exact Tiles_restatus hT (by simp [hX, St.bit]) (fun _ => hXl)
  · intro j hj
    rw [deleteList_lo]
    by_cases hji : j = findStart X.size
    · subst hji
      rw [Function.update_same]
      obtain ⟨l1, l2, hl⟩ := List.append_of_mem lk1
      have hs := h.segs _ hi
      have hnd := h.nodup _ hi
      rw [hl] at hs hnd
      have hX1 : X.bp ∉ l1 := fun e => (List.nodup_append.1 hnd).2.2 e (List.mem_cons_self _ _)
      have hX2 : X.bp ∉ l2 := (List.nodup_cons.1 (List.nodup_append.1 hnd).2.1).1
      have her : (fl (findStart X.size)).erase X.bp = l1 ++ l2 := by
        rw [hl, List.erase_append_right _ hX1, List.erase_cons_head]
      rw [her]
      have hin : ∀ x ∈ l1 ++ l2, x ∈ fl (findStart X.size) ∧ x ≠ X.bp := by
        intro x hx
        rw [hl]
        rcases List.mem_append.1 hx with e | e
        · exact ⟨List.mem_append_left _ e, fun e' => hX1 (e' ▸ e)⟩
        · exact ⟨List.mem_append_right _ (List.mem_cons_of_mem _ e), fun e' => hX2 (e' ▸ e)⟩
      have hpv : (0 : Nat) ∉ l1 ++ X.bp :: l2 := fun e => Seg_ne_zero hs 0 e rfl
      have key := @Seg_delete _ ((deleteList s X.bp X.size).mem) _ _ l1 0 _ hs hnd hpv
        (by
          intro x hx
          obtain ⟨hx1, hx2⟩ := hin x hx
          have fx := h.node_facts hi hx1
          rw [deleteList_mem, if_neg (by omega), if_neg hx2]
          by_cases e : x = s.mem (X.bp + 4)
          · rw [if_pos e, if_pos]
            · rcases lk2 with e2 | ⟨e2, _⟩
              · rw [e2]
              · have := h.node_facts hi e2
                exact Nat.mod_eq_of_lt (by omega)
            · rw [if_neg (by omega)]
              exact e
          · rw [if_neg e, if_neg, if_neg]
            · rintro ⟨_, e3⟩
              rcases lk2 with e2 | ⟨e2, _⟩
              · omega
              · have := h.node_facts hi e2
                omega
            · rcases lk3 with ⟨e3, _⟩ | ⟨e3, _⟩
              · rw [if_pos e3]; omega
              · have := h.node_facts hi e3
                rw [if_neg (by omega)]
                exact e)
        (by
          intro x hx
          obtain ⟨hx1, hx2⟩ := hin x hx
          have fx := h.node_facts hi hx1
          rw [deleteList_mem, if_neg (by omega), if_neg (by omega), if_neg]
          · by_cases e : x = s.mem X.bp
            · rw [if_pos e, if_pos ⟨by omega, by omega⟩]
              rcases lk3 with ⟨e3, _⟩ | ⟨e3, _⟩
              · rw [e3]
              · have := h.node_facts hi e3
                exact Nat.mod_eq_of_lt (by omega)
            · rw [if_neg e, if_neg]
              rintro ⟨_, e3⟩
              omega
          · rcases lk3 with ⟨e3, _⟩ | ⟨e3, _⟩
            · rw [if_pos e3]; omega
            · have := h.node_facts hi e3
              rw [if_neg (by omega)]
              omega)
      have hslot : (deleteList s X.bp X.size).mem (s.lo + 8 * findStart X.size) =
          if l1 = [] then s.mem X.bp else s.mem (s.lo + 8 * findStart X.size) := by
        rw [deleteList_mem, if_neg (by omega), if_neg (by omega)]
        rcases Seg_prev hs with ⟨e1, e2⟩ | ⟨e1, e2⟩
        · rw [if_pos e1, if_pos (by rw [if_pos e2])]
          rcases lk2 with e2 | ⟨e2, _⟩
          · rw [e2]
          · have := h.node_facts hi e2
            exact Nat.mod_eq_of_lt (by omega)
        · have hp : s.mem (X.bp + 4) ∈ fl (findStart X.size) := by
            rw [hl]; exact List.mem_append_left _ e2
          have fp := h.node_facts hi hp
          rw [if_neg e1, if_neg (by rw [if_neg (by omega)]; omega), if_neg]
          rintro ⟨_, e3⟩
          rcases lk2 with e2 | ⟨e2, _⟩
          · omega
          · have := h.node_facts hi e2
            omega
      rw [hslot]
      exact key
    · rw [Function.update_noteq hji]
      have hcell : ∀ y ∈ fl j, ∀ x ∈ fl (findStart X.size),
          (y ≠ x ∧ y ≠ x + 4) ∧ (y + 4 ≠ x ∧ y + 4 ≠ x + 4) := by
        intro y hy x hx
        have fy := h.node_facts hj hy
        have fx := h.node_facts hi hx
        have : y ≠ x := fun e => hji (h.node_class hj hi hy (e ▸ hx))
        omega
      have hslot : (deleteList s X.bp X.size).mem (s.lo + 8 * j) = s.mem (s.lo + 8 * j) := by
        apply keep
        · omega
        · intro x hx
          have := h.node_facts hi hx
          omega
      rw [hslot]
      apply Seg_frame (h.segs j hj)
      intro y hy
      have fy := h.node_facts hj hy
      constructor
      · exact keep _ (by omega) (fun x hx => (hcell y hy x hx).1)
      · exact keep _ (by omega) (fun x hx => (hcell y hy x hx).2)
  · intro j hj
    by_cases hji : j = findStart X.size
    · subst hji
      rw [Function.update_same]
      exact (h.nodup _ hi).erase _
    · rw [Function.update_noteq hji]
      exact h.nodup j hj
  · intro j hj n
    have old := h.link j hj n
    by_cases hji : j = findStart X.size
    · subst hji
      rw [Function.update_same, (h.nodup _ hi).mem_erase_iff, old]
      constructor
      · rintro ⟨hne, b, hb, e1, e2, e3⟩
        refine ⟨b, ?_, e1, e2, e3⟩
        rcases mem_middle_iff.1 hb with e | e
        · subst e; exact absurd e1 (Ne.symm hne)
        · exact mem_middle_iff.2 (Or.inr e)
      · rintro ⟨b, hb, e1, e2, e3⟩
        rcases mem_middle_iff.1 hb with e | e
        · subst e; cases e2
        · have hb' : b ∈ pre ++ X :: post := mem_middle_iff.2 (Or.inr e)
          have fb := h.blk hb'
          refine ⟨?_, b, hb', e1, e2, e3⟩
          rcases e with e | e
          · have := hmid.1 b e; omega
          · have := hmid.2 b e; omega
    · rw [Function.update_noteq hji, old]
      constructor
      · rintro ⟨b, hb, e1, e2, e3⟩
        refine ⟨b, ?_, e1, e2, e3⟩
        rcases mem_middle_iff.1 hb with e | e
        · subst e; exact absurd e3.symm hji
        · exact mem_middle_iff.2 (Or.inr e)
      · rintro ⟨b, hb, e1, e2, e3⟩
        rcases mem_middle_iff.1 hb with e | e
        · subst e; cases e2
        · exact ⟨b, mem_middle_iff.2 (Or.inr e), e1, e2, e3⟩

/-! ## Rewriting boundary tags inside a range, and growing the region -/

/-- Replacing the blocks `mid` of a tiling by blocks `mid'` that tile the same
range, none of them filed, by writes inside that range only. -/
theorem Str.retile {s s' : Heap} {pre mid mid' post : List Blk} {fl : Nat → List Nat}
    {a e : Nat} (h : Str s (pre ++ (mid ++ post)) fl)
    (hpre : Tiles s.mem (s.lo + 120) pre a) (hpost : Tiles s.mem e post s.brk) (hae : a ≤ e)
    (hnl : ∀ b ∈ mid, b.st ≠ St.listed) (hnl' : ∀ b ∈ mid', b.st ≠ St.listed)
    (hfr : ∀ x, x < a - 4 ∨ e - 4 ≤ x → s'.mem x = s.mem x)
    (hT : Tiles s'.mem a mid' e)
    (hlo : s'.lo = s.lo) (hbrk : s'.brk = s.brk) (hcap : s'.cap = s.cap) :
    Str s' (pre ++ (mid' ++ post)) fl := by
  have ha := Tiles_le hpre
  have he := Tiles_le hpost
  have hlisted : ∀ b, b.st = St.listed →
      (b ∈ pre ++ (mid' ++ post) ↔ b ∈ pre ++ (mid ++ post)) := by
    intro b hb
    simp only [List.mem_append]
    constructor
    · rintro (e | e | e)
      · exact Or.inl e
      · exact absurd hb (hnl' b e)
      · exact Or.inr (Or.inr e)
    · rintro (e | e | e)
      · exact Or.inl e
      · exact absurd hb (hnl b e)
      · exact Or.inr (Or.inr e)
  refine
    { lo8 := by rw [hlo]; exact h.lo8, capb := by rw [hcap]; exact h.capb,
      brkcap := by rw [hbrk, hcap]; exact h.brkcap, pro1 := ?_, pro2 := ?_, epi := ?_,
      tiles := ?_, segs := ?_, nodup := h.nodup, link := ?_ }
  · rw [hlo, hfr _ (by omega), h.pro1]
  · rw [hlo, hfr _ (by omega), h.pro2]
  · rw [hbrk, hfr _ (by omega), h.epi]
  · rw [hlo, hbrk]
    refine Tiles_append.2 ⟨a, ?_, Tiles_append.2 ⟨e, hT, ?_⟩⟩
    · exact Tiles_frame_range hpre (by omega) (fun x _ hx => hfr x (Or.inl hx))
    · exact Tiles_frame_range hpost (by omega) (fun x hx _ => hfr x (Or.inr hx))
  · intro j hj
    rw [hlo, hfr _ (by omega)]
    apply Seg_frame (h.segs j hj)
    intro x hx
    obtain ⟨b, hb, e1, e2, _⟩ := h.node hj hx
    subst e1
    simp only [List.mem_append] at hb
    rcases hb with hb | hb | hb
    · have := Tiles_mem hpre hb
      exact ⟨hfr _ (by omega), hfr _ (by omega)⟩
    · exact absurd e2 (hnl b hb)
    · have := Tiles_mem hpost hb
      exact ⟨hfr _ (by omega), hfr _ (by omega)⟩
  · intro j hj n
    rw [h.link j hj n]
    constructor
    · rintro ⟨b, hb, e1, e2, e3⟩
      exact ⟨b, (hlisted b e2).2 hb, e1, e2, e3⟩
    · rintro ⟨b, hb, e1, e2, e3⟩
      exact ⟨b, (hlisted b e2).1 hb, e1, e2, e3⟩

/-- Splitting the tiling of a well-formed heap around a block. -/
theorem Str.around {s : Heap} {pre post : List Blk} {X : Blk} {fl : Nat → List Nat}
    (h : Str s (pre ++ X :: post) fl) :
    Tiles s.mem (s.lo + 120) pre X.bp ∧ Tiles s.mem (X.bp + X.size) post s.brk := by
  obtain ⟨mid, h1, h2⟩ := Tiles_append.1 h.tiles
  obtain ⟨g1, _, _, _, _, _, g7⟩ := h2
  subst g1
  exact ⟨h1, g7⟩

/-- The last block before a position ends at that position. -/
theorem Tiles_last {m : Nat → Nat} {pre : List Blk} {P : Blk} {a e : Nat}
    (h : Tiles m a (pre ++ [P]) e) : P.bp + P.size = e ∧ Tiles m a pre P.bp := by
  obtain ⟨mid, h1, h2⟩ := Tiles_append.1 h
  obtain ⟨g1, _, _, _, _, _, g7⟩ := h2
  subst g1
  exact ⟨g7, h1⟩

/-- The heap after the five stores of `extendHeap` that precede coalescing. -/
theorem extendHeap_grow {s : Heap} {bl : List Blk} {fl : Nat → List Nat} (h : Str s bl fl)
    {size : Nat} (h8 : size % 8 = 0) (h16 : 16 ≤ size) (hcap : s.brk + size ≤ s.cap) :
    ∃ s5, extendHeap s size = coalesce s5 s.brk ∧
      Str s5 (bl ++ [⟨s.brk, size, St.loose⟩]) fl ∧
      s5.brk = s.brk + size ∧ s5.lo = s.lo ∧ s5.cap = s.cap ∧
      s5.last_size = s.last_size ∧ s5.count = s.count ∧
      ∀ x, x < s.brk - 4 → s5.mem x = s.mem x := by
  have hb := h.brk_ge
  have hc := h.capb
  have hsz : size < 4294967296 := by omega
  have hP0 : PACK size 0 = size := by rw [PACK_eq _ _ h8 (by omega)]; rfl
  have hP1 : PACK 0 1 = 1 := by rw [PACK_eq _ _ (by omega) (by omega)]
  have hmod : size % 4294967296 = size := Nat.mod_eq_of_lt hsz
  have hgs : (size % 4294967296) &&& 4294967288 = size := by
    rw [hmod]
    simpa using size_of_word size 0 h8 (by omega) (by omega)
  have e1 : extendHeap s size = coalesce
      (PUT (PUT (PUT (PUT (PUT { s with brk := s.brk + size } (s.brk - 4) size)
        (s.brk + size - 8) size) s.brk 0) (s.brk + 4) 0) (s.brk + size - 4) 1) s.brk := by
    unfold extendHeap mem_sbrk
    rw [if_pos hcap]
    simp only [HDRP, FTRP, NEXT_BLKP, NEXT_FP, PREV_FP, WSIZE, DSIZE, GET_SIZE, GET, PUT_mem, hP0,
      hP1]
    have c1 : s.brk - 4 ≠ s.brk + 4 := by omega
    have c2 : s.brk - 4 ≠ s.brk := by omega
    have c3 : s.brk - 4 ≠ s.brk + size - 8 := by omega
    have c4 : s.brk - 4 ≠ s.brk + (size % 4294967296 &&& 4294967288) - 8 := by
      rw [hgs]; omega
    simp only [if_true, if_neg c1, if_neg c2, if_neg c3, if_neg c4, hgs]
  refine ⟨_, e1, ?_, rfl, rfl, rfl, rfl, rfl, ?_⟩
  · have hfr : ∀ x, x < s.brk - 4 →
        (PUT (PUT (PUT (PUT (PUT { s with brk := s.brk + size } (s.brk - 4) size)
        (s.brk + size - 8) size) s.brk 0) (s.brk + 4) 0) (s.brk + size - 4) 1).mem x = s.mem x := by
      intro x hx
      simp only [PUT_mem]
      rw [if_neg (by omega), if_neg (by omega), if_neg (by omega), if_neg (by omega),
        if_neg (by omega)]
    refine
      { lo8 := h.lo8, capb := h.capb, brkcap := hcap, pro1 := ?_, pro2 := ?_, epi := ?_,
        tiles := ?_, segs := ?_, nodup := h.nodup, link := ?_ }
    · rw [hfr _ (by simp only [PUT_lo]; omega)]; exact h.pro1
    · rw [hfr _ (by simp only [PUT_lo]; omega)]; exact h.pro2
    · simp only [PUT_mem, PUT_brk, if_true]
    · refine Tiles_append.2 ⟨s.brk, ?_, ?_⟩
      · exact Tiles_frame_range h.tiles (by omega) (fun x _ hx => hfr x hx)
      · refine ⟨rfl, h8, h16, ?_, ?_, ?_, rfl⟩
        · simp only [PUT_mem]
          rw [if_neg (by omega), if_neg (by omega), if_neg (by omega), if_neg (by omega),
            if_pos trivial, hmod]
          rfl
        · simp only [PUT_mem]
          rw [if_neg (by omega), if_neg (by omega), if_neg (by omega), if_pos trivial, hmod]
          rfl
        · intro _
          simp only [PUT_mem]
          rw [if_neg (by omega), if_pos trivial]
    · intro j hj
      rw [hfr _ (by simp only [PUT_lo]; omega)]
      apply Seg_frame (h.segs j hj)
      intro x hx
      have := h.node_facts hj hx
      exact ⟨hfr _ (by omega), hfr _ (by omega)⟩
    · intro j hj n
      rw [h.link j hj n]
      constructor
      · rintro ⟨b, hb, e1, e2, e3⟩
        exact ⟨b, List.mem_append_left _ hb, e1, e2, e3⟩
      · rintro ⟨b, hb, e1, e2, e3⟩
        rcases List.mem_append.1 hb with e | e
        · exact ⟨b, e, e1, e2, e3⟩
        · simp at e; subst e; cases e2
  · intro x hx
    simp only [PUT_mem]
    rw [if_neg (by omega), if_neg (by omega), if_neg (by omega), if_neg (by omega),
      if_neg (by omega)]

/-! ## Reading the neighbours of a block -/

theorem GET_SIZE_PUT (s : Heap) (p v q : Nat) :
    GET_SIZE (PUT s p v) q = if q = p then (v % 4294967296) &&& 4294967288 else GET_SIZE s q := by
  unfold GET_SIZE GET
  rw [PUT_mem]
  split <;> rfl

theorem GET_ALLOC_PUT (s : Heap) (p v q : Nat) :
    GET_ALLOC (PUT s p v) q = if q = p then (v % 4294967296) &&& 1 else GET_ALLOC s q := by
  unfold GET_ALLOC GET
  rw [PUT_mem]
  split <;> rfl

/-- The physical predecessor of a block, as `coalesce` reads it: the prologue,
which is allocated, or the block that ends where this one starts. -/
theorem Str.prev_read {s : Heap} {pre post : List Blk} {X : Blk} {fl : Nat → List Nat}
    (h : Str s (pre ++ X :: post) fl) :
    (pre = [] ∧ GET_ALLOC s (FTRP s (PREV_BLKP s X.bp)) = 1) ∨
    ∃ pre0 P, pre = pre0 ++ [P] ∧ GET_ALLOC s (FTRP s (PREV_BLKP s X.bp)) = P.st.bit ∧
      PREV_BLKP s X.bp = P.bp ∧ P.bp + P.size = X.bp := by
  have hXm : X ∈ pre ++ X :: post := by simp
  have fX := h.blk hXm
  obtain ⟨hpre, _⟩ := h.around
  rcases List.eq_nil_or_concat pre with e | ⟨pre0, P, e⟩
  · left
    subst e
    refine ⟨rfl, ?_⟩
    have hbp : X.bp = s.lo + 120 := hpre.symm
    have e1 : GET_SIZE s (X.bp - 8) = 8 := by
      unfold GET_SIZE GET
      rw [hbp, show s.lo + 120 - 8 = s.lo + 112 by omega, h.pro2]
      rfl
    have e2 : GET_SIZE s (s.lo + 112 - 4) = 8 := by
      unfold GET_SIZE GET
      rw [show s.lo + 112 - 4 = s.lo + 108 by omega, h.pro1]
      rfl
    unfold PREV_BLKP FTRP HDRP GET_ALLOC GET
    simp only [DSIZE, WSIZE]
    rw [e1, hbp, show s.lo + 120 - 8 = s.lo + 112 by omega, e2,
      show s.lo + 112 + 8 - 8 = s.lo + 112 by omega, h.pro2]
    rfl
  · right
    rw [List.concat_eq_append] at e
    subst e
    refine ⟨pre0, P, rfl, ?_⟩
    have hPm : P ∈ (pre0 ++ [P]) ++ X :: post := by simp
    have fP := h.blk hPm
    obtain ⟨hend, _⟩ := Tiles_last hpre
    have e1 : GET_SIZE s (X.bp - 8) = P.size := by
      rw [← hend, show P.bp + P.size - 8 = P.bp + P.size - 8 from rfl]
      exact h.get_size_ftr hPm
    have e2 : PREV_BLKP s X.bp = P.bp := by
      unfold PREV_BLKP
      simp only [DSIZE]
      rw [e1]; omega
    refine ⟨?_, e2, hend⟩
    rw [e2]
    unfold FTRP HDRP
    simp only [DSIZE, WSIZE]
    rw [h.get_size hPm]
    exact h.get_alloc_ftr hPm

/-- The physical successor of a block, as `coalesce` reads it: the epilogue,
which is allocated, or the block that starts where this one ends. -/
theorem Str.next_read {s : Heap} {pre post : List Blk} {X : Blk} {fl : Nat → List Nat}
    (h : Str s (pre ++ X :: post) fl) :
    NEXT_BLKP s X.bp = X.bp + X.size ∧
    ((post = [] ∧ GET_ALLOC s (HDRP (NEXT_BLKP s X.bp)) = 1) ∨
    ∃ N post0, post = N :: post0 ∧ GET_ALLOC s (HDRP (NEXT_BLKP s X.bp)) = N.st.bit ∧
      N.bp = X.bp + X.size) := by
  have hXm : X ∈ pre ++ X :: post := by simp
  have fX := h.blk hXm
  obtain ⟨_, hpost⟩ := h.around
  have e0 : NEXT_BLKP s X.bp = X.bp + X.size := by
    unfold NEXT_BLKP
    simp only [WSIZE]
    rw [h.get_size hXm]
  refine ⟨e0, ?_⟩
  rw [e0]
  cases post with
  | nil =>
    left
    refine ⟨rfl, ?_⟩
    have : X.bp + X.size = s.brk := hpost
    unfold HDRP GET_ALLOC GET
    simp only [WSIZE]
    rw [this, h.epi]
    rfl
  | cons N post0 =>
    right
    refine ⟨N, post0, rfl, ?_, hpost.1⟩
    have hNm : N ∈ pre ++ X :: N :: post0 := by simp
    have := h.get_alloc hNm
    rw [hpost.1] at this
    exact this

/-! ## Quiet cells are not touched by the list operations -/

theorem deleteList_quiet {s : Heap} {bl : List Blk} {fl : Nat → List Nat} (h : Str s bl fl)
    {X : Blk} (hX : X ∈ bl) (hst : X.st = St.listed) {a : Nat} (ha : Quiet s bl a) :
    (deleteList s X.bp X.size).mem a = s.mem a := by
  have hi := findStart_lt X.size
  apply deleteList_frame h hX hst
  · have := ha.1; omega
  · intro x hx
    obtain ⟨b, hb, e1, e2, _⟩ := h.node hi hx
    subst e1
    exact ha.2 b hb (by simp [e2])

theorem addList_quiet {s : Heap} {bl : List Blk} {fl : Nat → List Nat} (h : Str s bl fl)
    {X : Blk} (hX : X ∈ bl) (hst : X.st = St.loose) {a : Nat} (ha : Quiet s bl a) :
    (addList s X.bp X.size).mem a = s.mem a := by
  have hi := findStart_lt X.size
  apply addList_keep
  · have := ha.1; omega
  · exact (ha.2 X hX (by simp [hst])).1
  · rcases h.root_facts hi with h0 | ⟨hr, _⟩
    · exact Or.inl h0
    · right
      obtain ⟨b, hb, e1, e2, _⟩ := h.node hi hr
      rw [← e1]
      exact (ha.2 b hb (by simp [e2])).2

/-- Quietness only depends on the low address and the addresses of free blocks. -/
theorem Quiet.mono {s s' : Heap} {bl bl' : List Blk} {x : Nat} (h : Quiet s bl x)
    (hlo : s'.lo = s.lo)
    (hb : ∀ b' ∈ bl', b'.st ≠ St.used → ∃ b ∈ bl, b.st ≠ St.used ∧ b.bp = b'.bp) :
    Quiet s' bl' x := by
  refine ⟨by rw [hlo]; exact h.1, ?_⟩
  intro b' hb' hst
  obtain ⟨b, hbm, hs, e⟩ := hb b' hb' hst
  rw [← e]
  exact h.2 b hbm hs

/-! ## The four cases of `coalesce` -/

theorem coalesce_sel1 (s : Heap) (bp : Nat)
    (h1 : GET_ALLOC s (FTRP s (PREV_BLKP s bp)) ≠ 0)
    (h2 : GET_ALLOC s (HDRP (NEXT_BLKP s bp)) ≠ 0) :
    coalesce s bp = (bp, addList s bp (GET_SIZE s (HDRP bp))) := by
  unfold coalesce
  dsimp only
  rw [if_pos ⟨h1, h2⟩]

/-- Both neighbours allocated: the block is filed as it is. -/
theorem coalesce_UU {s : Heap} {pre post : List Blk} {X : Blk} {fl : Nat → List Nat}
    (h : Str s (pre ++ X :: post) fl)
    (hp : pre = [] ∨ ∃ pre0 P, pre = pre0 ++ [P] ∧ P.st = St.used)
    (hn : post = [] ∨ ∃ N post0, post = N :: post0 ∧ N.st = St.used) :
    coalesce s X.bp = (X.bp, addList s X.bp X.size) := by
  have hXm : X ∈ pre ++ X :: post := by simp
  have r1 : GET_ALLOC s (FTRP s (PREV_BLKP s X.bp)) = 1 := by
    rcases h.prev_read with ⟨_, e⟩ | ⟨pre0, P, e1, e2, _⟩
    · exact e
    · rcases hp with e | ⟨pre1, P1, e3, e4⟩
      · subst e; simp at e1
      · rw [e1] at e3
        obtain ⟨_, e5⟩ := List.append_inj' e3 rfl
        simp at e5; subst e5
        rw [e2, e4]; rfl
  have r2 : GET_ALLOC s (HDRP (NEXT_BLKP s X.bp)) = 1 := by
    rcases h.next_read.2 with ⟨_, e⟩ | ⟨N, post0, e1, e2, _⟩
    · exact e
    · rcases hn with e | ⟨N1, post1, e3, e4⟩
      · subst e; simp at e1
      · rw [e1] at e3
        simp at e3
        obtain ⟨e5, _⟩ := e3
        subst e5
        rw [e2, e4]; rfl
  rw [coalesce_sel1 s X.bp (by rw [r1]; decide) (by rw [r2]; decide)]
  simp only [HDRP, WSIZE, h.get_size hXm]

theorem coalesce_sel2 (s : Heap) (bp : Nat)
    (h1 : GET_ALLOC s (FTRP s (PREV_BLKP s bp)) ≠ 0)
    (h2 : GET_ALLOC s (HDRP (NEXT_BLKP s bp)) = 0) :
    coalesce s bp =
      (bp, addList
        (PUT (PUT (deleteList s (NEXT_BLKP s bp) (GET_SIZE s (HDRP (NEXT_BLKP s bp)))) (HDRP bp)
            (PACK ((GET_SIZE s (HDRP bp) + GET_SIZE s (HDRP (NEXT_BLKP s bp))) % 4294967296) 0))
          (FTRP (PUT (deleteList s (NEXT_BLKP s bp) (GET_SIZE s (HDRP (NEXT_BLKP s bp)))) (HDRP bp)
            (PACK ((GET_SIZE s (HDRP bp) + GET_SIZE s (HDRP (NEXT_BLKP s bp))) % 4294967296) 0)) bp)
          (PACK ((GET_SIZE s (HDRP bp) + GET_SIZE s (HDRP (NEXT_BLKP s bp))) % 4294967296) 0))
        bp ((GET_SIZE s (HDRP bp) + GET_SIZE s (HDRP (NEXT_BLKP s bp))) % 4294967296)) := by
  unfold coalesce
  dsimp only
  rw [if_neg (fun c => c.2 h2), if_pos ⟨h1, fun c => c h2⟩]

/-- The predecessor read by `coalesce` is allocated when the block is first or
follows a used block. -/
theorem Str.prev_used {s : Heap} {pre post : List Blk} {X : Blk} {fl : Nat → List Nat}
    (h : Str s (pre ++ X :: post) fl)
    (hp : pre = [] ∨ ∃ pre0 P, pre = pre0 ++ [P] ∧ P.st = St.used) :
    GET_ALLOC s (FTRP s (PREV_BLKP s X.bp)) = 1 := by
  rcases h.prev_read with ⟨_, e⟩ | ⟨pre0, P, e1, e2, _⟩
  · exact e
  · rcases hp with e | ⟨pre1, P1, e3, e4⟩
    · subst e; simp at e1
    · rw [e1] at e3
      obtain ⟨_, e5⟩ := List.append_inj' e3 rfl
      simp at e5; subst e5
      rw [e2, e4]; rfl

/-- Successor free, predecessor allocated: the successor is absorbed. -/
theorem coalesce_UF {s : Heap} {pre post : List Blk} {X N : Blk} {fl : Nat → List Nat}
    (h : Str s (pre ++ X :: N :: post) fl) (hX : X.st = St.loose) (hN : N.st = St.listed)
    (hp : pre = [] ∨ ∃ pre0 P, pre = pre0 ++ [P] ∧ P.st = St.used) :
    ∃ fl', (coalesce s X.bp).1 = X.bp ∧
      Str (coalesce s X.bp).2 (pre ++ ⟨X.bp, X.size + N.size, St.listed⟩ :: post) fl' ∧
      (∃ t, fl' (findStart (X.size + N.size)) = X.bp :: t) ∧
      SameRegs s (coalesce s X.bp).2 ∧
      ∀ x, Quiet s (pre ++ X :: N :: post) x → x ≠ X.bp - 4 → x ≠ X.bp + (X.size + N.size) - 8 →
        (coalesce s X.bp).2.mem x = s.mem x := by
  have hXm : X ∈ pre ++ X :: N :: post := by simp
  have hNm : N ∈ pre ++ X :: N :: post := by simp
  have fX := h.blk hXm
  have fN := h.blk hNm
  have r1 := h.prev_used hp
  obtain ⟨nb, nr⟩ := h.next_read
  have hNbp : N.bp = X.bp + X.size := by
    rcases nr with ⟨e, _⟩ | ⟨N', post0, e1, _, e3⟩
    · simp at e
    · simp at e1; rw [← e1.1] at e3; exact e3
  have r2 : GET_ALLOC s (HDRP (NEXT_BLKP s X.bp)) = 0 := by
    rcases nr with ⟨e, _⟩ | ⟨N', post0, e1, e2, _⟩
    · simp at e
    · simp at e1; rw [← e1.1, hN] at e2; exact e2
  have gX : GET_SIZE s (HDRP X.bp) = X.size := h.get_size hXm
  have gN : GET_SIZE s (HDRP (NEXT_BLKP s X.bp)) = N.size := by
    rw [nb, ← hNbp]; exact h.get_size hNm
  have hsz : (X.size + N.size) % 4294967296 = X.size + N.size := Nat.mod_eq_of_lt (by omega)
  have hP : PACK (X.size + N.size) 0 = X.size + N.size := by
    rw [PACK_eq _ _ (by omega) (by omega)]; rfl
  have hmask : (X.size + N.size) &&& 4294967288 = X.size + N.size := by
    simpa using size_of_word (X.size + N.size) 0 (by omega) (by omega) (by omega)
  -- state after unlinking the successor
  have h1 : Str (deleteList s N.bp N.size) (pre ++ X :: { N with st := St.loose } :: post)
      (Function.update fl (findStart N.size) ((fl (findStart N.size)).erase N.bp)) := by
    have h' : Str s ((pre ++ [X]) ++ N :: post) fl := by simpa using h
    simpa using deleteList_Str h' hN
  have hXm1 : X ∈ pre ++ X :: { N with st := St.loose } :: post := by simp
  have fX1 := h1.blk hXm1
  obtain ⟨hpre1, hrest1⟩ := h1.around
  have hpost1 : Tiles (deleteList s N.bp N.size).mem (X.bp + (X.size + N.size)) post
      (deleteList s N.bp N.size).brk := by
    have := hrest1.2.2.2.2.2.2
    simpa [Nat.add_assoc] using this
  -- state after rewriting the tags
  have h3 : Str (PUT (PUT (deleteList s N.bp N.size) (X.bp - 4) (X.size + N.size))
      (X.bp + (X.size + N.size) - 8) (X.size + N.size))
      (pre ++ ([⟨X.bp, X.size + N.size, St.loose⟩] ++ post))
      (Function.update fl (findStart N.size) ((fl (findStart N.size)).erase N.bp)) := by
    apply @Str.retile _ _ _ ([X, { N with st := St.loose }]) _ _ _ (X.bp) (X.bp + (X.size + N.size)) h1 hpre1 hpost1 (by omega)
    · intro b hb
      simp at hb
      rcases hb with e | e <;> subst e <;> simp [hX]
    · intro b hb
      simp at hb
      subst hb; simp
    · intro x hx
      rw [PUT_mem, PUT_mem, if_neg (by omega), if_neg (by omega)]
    · refine ⟨rfl, ?_, ?_, ?_, ?_, ?_, rfl⟩
      · show (X.size + N.size) % 8 = 0
        omega
      · show 16 ≤ X.size + N.size
        omega
      · show (PUT _ _ _).mem _ = X.size + N.size + 0
        rw [PUT_mem, PUT_mem, if_neg (by omega), if_pos rfl, hsz]; rfl
      · show (PUT _ _ _).mem _ = X.size + N.size + 0
        rw [PUT_mem, if_pos rfl, hsz]; rfl
      · intro _
        rw [PUT_mem, PUT_mem, if_neg (by omega), if_neg (by omega)]
        exact fX1.2.2.2.2.2.2.2.1 hX
    · rfl
    · rfl
    · rfl
  have h4 := addList_Str (X := ⟨X.bp, X.size + N.size, St.loose⟩) h3 rfl
  -- the value computed by the code
  have hval : coalesce s X.bp = (X.bp,
      addList (PUT (PUT (deleteList s N.bp N.size) (X.bp - 4) (X.size + N.size))
      (X.bp + (X.size + N.size) - 8) (X.size + N.size)) X.bp (X.size + N.size)) := by
    rw [coalesce_sel2 s X.bp (by rw [r1]; decide) r2, gX, gN, nb, ← hNbp, hsz, hP]
    have : FTRP (PUT (deleteList s N.bp N.size) (HDRP X.bp) (X.size + N.size)) X.bp =
        X.bp + (X.size + N.size) - 8 := by
      unfold FTRP
      rw [GET_SIZE_PUT, if_pos rfl, hsz, hmask]
      rfl
    rw [this]
    rfl
  rw [hval]
  refine ⟨_, rfl, h4, ⟨_, Function.update_same _ _ _⟩, ?_, ?_⟩
  · simp [SameRegs]
  · intro x hq hx1 hx2
    have q3 : Quiet (PUT (PUT (deleteList s N.bp N.size) (X.bp - 4) (X.size + N.size))
        (X.bp + (X.size + N.size) - 8) (X.size + N.size))
        (pre ++ ([⟨X.bp, X.size + N.size, St.loose⟩] ++ post)) x := by
      apply hq.mono (by simp)
      intro b' hb' hst
      simp only [List.mem_append, List.mem_cons, List.mem_singleton, List.not_mem_nil,
        or_false] at hb'
      rcases hb' with e | e | e
      · exact ⟨b', by simp [e], hst, rfl⟩
      · subst e
        exact ⟨X, hXm, by simp [hX], rfl⟩
      · exact ⟨b', by simp [e], hst, rfl⟩
    show (addList _ _ _).mem x = _
    rw [addList_quiet (X := ⟨X.bp, X.size + N.size, St.loose⟩) h3 (by simp) rfl q3]
    rw [PUT_mem, PUT_mem, if_neg hx2, if_neg hx1]
    exact deleteList_quiet h hNm hN hq

theorem GET_SIZE_PUT_ne {s : Heap} {p v q : Nat} (h : q ≠ p) :
    GET_SIZE (PUT s p v) q = GET_SIZE s q := by
  rw [GET_SIZE_PUT, if_neg h]

theorem coalesce_eq3 (s : Heap) (bp pb ps xs f : Nat)
    (h1 : GET_ALLOC s (FTRP s (PREV_BLKP s bp)) = 0)
    (h2 : GET_ALLOC s (HDRP (NEXT_BLKP s bp)) ≠ 0)
    (e1 : PREV_BLKP s bp = pb) (e2 : GET_SIZE s (HDRP pb) = ps) (e3 : GET_SIZE s (HDRP bp) = xs)
    (e4 : FTRP (deleteList s pb ps) bp = f)
    (e5 : PREV_BLKP (PUT (deleteList s pb ps) f (PACK ((xs + ps) % 4294967296) 0)) bp = pb)
    (e6 : PREV_BLKP (PUT (PUT (deleteList s pb ps) f (PACK ((xs + ps) % 4294967296) 0)) (HDRP pb)
      (PACK ((xs + ps) % 4294967296) 0)) bp = pb) :
    coalesce s bp =
      (pb, addList (PUT (PUT (deleteList s pb ps) f (PACK ((xs + ps) % 4294967296) 0)) (HDRP pb)
        (PACK ((xs + ps) % 4294967296) 0)) pb ((xs + ps) % 4294967296)) := by
  unfold coalesce
  dsimp only
  rw [if_neg (fun c => c.1 h1), if_neg (fun c => c.1 h1), if_pos ⟨fun c => c h1, h2⟩]
  rw [e1, e2, e3, e4, e5, e6]

theorem coalesce_eq4 (s : Heap) (bp pb ps xs nb ns f : Nat)
    (h1 : GET_ALLOC s (FTRP s (PREV_BLKP s bp)) = 0)
    (h2 : GET_ALLOC s (HDRP (NEXT_BLKP s bp)) = 0)
    (e1 : PREV_BLKP s bp = pb) (e2 : GET_SIZE s (HDRP pb) = ps) (e3 : GET_SIZE s (HDRP bp) = xs)
    (e4 : NEXT_BLKP s bp = nb) (e5 : GET_SIZE s (FTRP s nb) = ns)
    (e6 : NEXT_BLKP (deleteList s pb ps) bp = nb)
    (e7 : GET_SIZE (deleteList s pb ps) (FTRP (deleteList s pb ps) nb) = ns)
    (e8 : PREV_BLKP (deleteList (deleteList s pb ps) nb ns) bp = pb)
    (e9 : FTRP (PUT (deleteList (deleteList s pb ps) nb ns) (HDRP pb)
        (PACK ((xs + (ps + ns) % 4294967296) % 4294967296) 0))
      (NEXT_BLKP (PUT (deleteList (deleteList s pb ps) nb ns) (HDRP pb)
        (PACK ((xs + (ps + ns) % 4294967296) % 4294967296) 0)) bp) = f)
    (e10 : PREV_BLKP (PUT (PUT (deleteList (deleteList s pb ps) nb ns) (HDRP pb)
        (PACK ((xs + (ps + ns) % 4294967296) % 4294967296) 0)) f
        (PACK ((xs + (ps + ns) % 4294967296) % 4294967296) 0)) bp = pb) :
    coalesce s bp =
      (pb, addList (PUT (PUT (deleteList (deleteList s pb ps) nb ns) (HDRP pb)
        (PACK ((xs + (ps + ns) % 4294967296) % 4294967296) 0)) f
        (PACK ((xs + (ps + ns) % 4294967296) % 4294967296) 0)) pb
        ((xs + (ps + ns) % 4294967296) % 4294967296)) := by
  unfold coalesce
  dsimp only
  rw [if_neg (fun c => c.1 h1), if_neg (fun c => c.1 h1), if_neg (fun c => c.2 h2)]
  rw [e1, e2, e3, e4, e5, e6, e7, e8, e9, e10]

/-- The successor read by `coalesce` is allocated when the block is last or is
followed by a used block. -/
theorem Str.next_used {s : Heap} {pre post : List Blk} {X : Blk} {fl : Nat → List Nat}
    (h : Str s (pre ++ X :: post) fl)
    (hn : post = [] ∨ ∃ N post0, post = N :: post0 ∧ N.st = St.used) :
    GET_ALLOC s (HDRP (NEXT_BLKP s X.bp)) = 1 := by
  rcases h.next_read.2 with ⟨_, e⟩ | ⟨N, post0, e1, e2, _⟩
  · exact e
  · rcases hn with e | ⟨N1, post1, e3, e4⟩
    · subst e; simp at e1
    · rw [e1] at e3
      simp at e3
      obtain ⟨e5, _⟩ := e3
      subst e5
      rw [e2, e4]; rfl

/-- Predecessor free, successor allocated: the block is absorbed by its
predecessor. -/
theorem coalesce_FU {s : Heap} {pre post : List Blk} {P X : Blk} {fl : Nat → List Nat}
    (h : Str s (pre ++ P :: X :: post) fl) (hP : P.st = St.listed) (hX : X.st = St.loose)
    (hn : post = [] ∨ ∃ N post0, post = N :: post0 ∧ N.st = St.used) :
    ∃ fl', (coalesce s X.bp).1 = P.bp ∧
      Str (coalesce s X.bp).2 (pre ++ ⟨P.bp, P.size + X.size, St.listed⟩ :: post) fl' ∧
      (∃ t, fl' (findStart (P.size + X.size)) = P.bp :: t) ∧
      SameRegs s (coalesce s X.bp).2 ∧
      ∀ x, Quiet s (pre ++ P :: X :: post) x → x ≠ P.bp - 4 → x ≠ P.bp + (P.size + X.size) - 8 →
        (coalesce s X.bp).2.mem x = s.mem x := by
  have hXm : X ∈ pre ++ P :: X :: post := by simp
  have hPm : P ∈ pre ++ P :: X :: post := by simp
  have fX := h.blk hXm
  have fP := h.blk hPm
  have h' : Str s ((pre ++ [P]) ++ X :: post) fl := by simpa using h
  have r2 := h'.next_used hn
  obtain ⟨r1, pb, hPX⟩ : GET_ALLOC s (FTRP s (PREV_BLKP s X.bp)) = 0 ∧
      PREV_BLKP s X.bp = P.bp ∧ P.bp + P.size = X.bp := by
    rcases h'.prev_read with ⟨e, _⟩ | ⟨pre0, P0, e1, e2, e3, e4⟩
    · simp at e
    · obtain ⟨_, e5⟩ := List.append_inj' e1 rfl
      simp at e5; subst e5
      rw [hP] at e2
      exact ⟨e2, e3, e4⟩
  have gX : GET_SIZE s (HDRP X.bp) = X.size := h.get_size hXm
  have gP : GET_SIZE s (HDRP P.bp) = P.size := h.get_size hPm
  have hsz : (X.size + P.size) % 4294967296 = P.size + X.size := by
    rw [Nat.mod_eq_of_lt (by omega)]; omega
  have hP0 : PACK (P.size + X.size) 0 = P.size + X.size := by
    rw [PACK_eq _ _ (by omega) (by omega)]; rfl
  have hmod : (P.size + X.size) % 4294967296 = P.size + X.size := Nat.mod_eq_of_lt (by omega)
  -- state after unlinking the predecessor
  have h1 : Str (deleteList s P.bp P.size) (pre ++ { P with st := St.loose } :: X :: post)
      (Function.update fl (findStart P.size) ((fl (findStart P.size)).erase P.bp)) :=
    deleteList_Str h hP
  have hXm1 : X ∈ pre ++ { P with st := St.loose } :: X :: post := by simp
  have hPm1 : ({ P with st := St.loose } : Blk) ∈ pre ++ { P with st := St.loose } :: X :: post := by
    simp
  have fP1 := h1.blk hPm1
  have gX1 : GET_SIZE (deleteList s P.bp P.size) (X.bp - 4) = X.size := h1.get_size hXm1
  have gP1 : GET_SIZE (deleteList s P.bp P.size) (X.bp - 8) = P.size := by
    have := h1.get_size_ftr hPm1
    simp only at this
    rw [hPX] at this
    exact this
  obtain ⟨hpre1, hrest1⟩ := h1.around
  have hpost1 : Tiles (deleteList s P.bp P.size).mem (P.bp + (P.size + X.size)) post
      (deleteList s P.bp P.size).brk := by
    have := hrest1.2.2.2.2.2.2
    simpa [Nat.add_assoc] using this
  have h3 : Str (PUT (PUT (deleteList s P.bp P.size) (X.bp + X.size - 8) (P.size + X.size))
      (P.bp - 4) (P.size + X.size))
      (pre ++ ([⟨P.bp, P.size + X.size, St.loose⟩] ++ post))
      (Function.update fl (findStart P.size) ((fl (findStart P.size)).erase P.bp)) := by
    apply @Str.retile _ _ _ ([{ P with st := St.loose }, X]) _ _ _ (P.bp) (P.bp + (P.size + X.size)) h1 hpre1 hpost1 (by omega)
    · intro b hb
      simp at hb
      rcases hb with e | e <;> subst e <;> simp [hX]
    · intro b hb
      simp at hb
      subst hb; simp
    · intro x hx
      rw [PUT_mem, PUT_mem, if_neg (by omega), if_neg (by omega)]
    · refine ⟨rfl, ?_, ?_, ?_, ?_, ?_, rfl⟩
      · show (P.size + X.size) % 8 = 0
        omega
      · show 16 ≤ P.size + X.size
        omega
      · show (PUT _ _ _).mem _ = P.size + X.size + 0
        rw [PUT_mem, if_pos rfl, hmod]; rfl
      · show (PUT _ _ _).mem (P.bp + (P.size + X.size) - 8) = P.size + X.size + 0
        rw [PUT_mem, PUT_mem, if_neg (by omega), if_pos (by omega), hmod]; rfl
      · intro _
        rw [PUT_mem, PUT_mem, if_neg (by omega), if_neg (by omega)]
        exact fP1.2.2.2.2.2.2.2.1 rfl
    · rfl
    · rfl
    · rfl
  have h4 := addList_Str (X := ⟨P.bp, P.size + X.size, St.loose⟩) h3 rfl
  have hval : coalesce s X.bp = (P.bp,
      addList (PUT (PUT (deleteList s P.bp P.size) (X.bp + X.size - 8) (P.size + X.size))
      (P.bp - 4) (P.size + X.size)) P.bp (P.size + X.size)) := by
    have := coalesce_eq3 s X.bp P.bp P.size X.size (X.bp + X.size - 8) r1 (by rw [r2]; decide)
      pb gP gX
      (by unfold FTRP HDRP; simp only [WSIZE, DSIZE]; rw [gX1])
      (by
        unfold PREV_BLKP; simp only [DSIZE]
        rw [GET_SIZE_PUT_ne (by omega), gP1]; omega)
      (by
        unfold PREV_BLKP HDRP; simp only [DSIZE, WSIZE]
        rw [GET_SIZE_PUT_ne (by omega), GET_SIZE_PUT_ne (by omega), gP1]; omega)
    rw [this, hsz, hP0]
    rfl
  rw [hval]
  refine ⟨_, rfl, h4, ⟨_, Function.update_same _ _ _⟩, ?_, ?_⟩
  · simp [SameRegs]
  · intro x hq hx1 hx2
    have q3 : Quiet (PUT (PUT (deleteList s P.bp P.size) (X.bp + X.size - 8) (P.size + X.size))
        (P.bp - 4) (P.size + X.size))
        (pre ++ ([⟨P.bp, P.size + X.size, St.loose⟩] ++ post)) x := by
      apply hq.mono (by simp)
      intro b' hb' hst
      simp only [List.mem_append, List.mem_cons, List.mem_singleton, List.not_mem_nil,
        or_false] at hb'
      rcases hb' with e | e | e
      · exact ⟨b', by simp [e], hst, rfl⟩
      · subst e
        exact ⟨P, hPm, by simp [hP], rfl⟩
      · exact ⟨b', by simp [e], hst, rfl⟩
    show (addList _ _ _).mem x = _
    rw [addList_quiet (X := ⟨P.bp, P.size + X.size, St.loose⟩) h3 (by simp) rfl q3]
    rw [PUT_mem, PUT_mem, if_neg hx1, if_neg (by omega)]
    exact deleteList_quiet h hPm hP hq

/-- Both neighbours free: both are absorbed. -/
theorem coalesce_FF {s : Heap} {pre post : List Blk} {P X N : Blk} {fl : Nat → List Nat}
    (h : Str s (pre ++ P :: X :: N :: post) fl) (hP : P.st = St.listed) (hX : X.st = St.loose)
    (hN : N.st = St.listed) :
    ∃ fl', (coalesce s X.bp).1 = P.bp ∧
      Str (coalesce s X.bp).2 (pre ++ ⟨P.bp, P.size + X.size + N.size, St.listed⟩ :: post) fl' ∧
      (∃ t, fl' (findStart (P.size + X.size + N.size)) = P.bp :: t) ∧
      SameRegs s (coalesce s X.bp).2 ∧
      ∀ x, Quiet s (pre ++ P :: X :: N :: post) x → x ≠ P.bp - 4 →
        x ≠ P.bp + (P.size + X.size + N.size) - 8 →
        (coalesce s X.bp).2.mem x = s.mem x := by
  have hXm : X ∈ pre ++ P :: X :: N :: post := by simp
  have hPm : P ∈ pre ++ P :: X :: N :: post := by simp
  have hNm : N ∈ pre ++ P :: X :: N :: post := by simp
  have fX := h.blk hXm
  have fP := h.blk hPm
  have fN := h.blk hNm
  have h' : Str s ((pre ++ [P]) ++ X :: N :: post) fl := by simpa using h
  obtain ⟨nb, nr⟩ := h'.next_read
  obtain ⟨r2, hNbp⟩ : GET_ALLOC s (HDRP (NEXT_BLKP s X.bp)) = 0 ∧ N.bp = X.bp + X.size := by
    rcases nr with ⟨e, _⟩ | ⟨N', post0, e1, e2, e3⟩
    · simp at e
    · simp at e1; rw [← e1.1] at e2 e3; rw [hN] at e2; exact ⟨e2, e3⟩
  obtain ⟨r1, pb, hPX⟩ : GET_ALLOC s (FTRP s (PREV_BLKP s X.bp)) = 0 ∧
      PREV_BLKP s X.bp = P.bp ∧ P.bp + P.size = X.bp := by
    rcases h'.prev_read with ⟨e, _⟩ | ⟨pre0, P0, e1, e2, e3, e4⟩
    · simp at e
    · obtain ⟨_, e5⟩ := List.append_inj' e1 rfl
      simp at e5; subst e5
      rw [hP] at e2
      exact ⟨e2, e3, e4⟩
  have gX : GET_SIZE s (HDRP X.bp) = X.size := h.get_size hXm
  have gP : GET_SIZE s (HDRP P.bp) = P.size := h.get_size hPm
  have gN : GET_SIZE s (FTRP s (X.bp + X.size)) = N.size := by
    unfold FTRP HDRP; simp only [WSIZE, DSIZE]
    rw [← hNbp, h.get_size hNm]
    exact h.get_size_ftr hNm
  have hsz : (X.size + (P.size + N.size) % 4294967296) % 4294967296 =
      P.size + X.size + N.size := by
    rw [Nat.mod_eq_of_lt (a := P.size + N.size) (by omega), Nat.mod_eq_of_lt (by omega)]; omega
  have hP0 : PACK (P.size + X.size + N.size) 0 = P.size + X.size + N.size := by
    rw [PACK_eq _ _ (by omega) (by omega)]; rfl
  have hmod : (P.size + X.size + N.size) % 4294967296 = P.size + X.size + N.size :=
    Nat.mod_eq_of_lt (by omega)
  -- state after unlinking the predecessor
  have h1 : Str (deleteList s P.bp P.size) (pre ++ { P with st := St.loose } :: X :: N :: post)
      (Function.update fl (findStart P.size) ((fl (findStart P.size)).erase P.bp)) :=
    deleteList_Str h hP
  have hXm1 : X ∈ pre ++ { P with st := St.loose } :: X :: N :: post := by simp
  have hNm1 : N ∈ pre ++ { P with st := St.loose } :: X :: N :: post := by simp
  have gX1 : GET_SIZE (deleteList s P.bp P.size) (X.bp - 4) = X.size := h1.get_size hXm1
  have gN1 : GET_SIZE (deleteList s P.bp P.size) (FTRP (deleteList s P.bp P.size) N.bp) =
      N.size := by
    unfold FTRP HDRP; simp only [WSIZE, DSIZE]
    rw [h1.get_size hNm1]
    exact h1.get_size_ftr hNm1
  -- state after unlinking the successor
  have h2 : Str (deleteList (deleteList s P.bp P.size) N.bp N.size)
      (pre ++ { P with st := St.loose } :: X :: { N with st := St.loose } :: post)
      (Function.update (Function.update fl (findStart P.size) ((fl (findStart P.size)).erase P.bp))
        (findStart N.size)
        ((Function.update fl (findStart P.size) ((fl (findStart P.size)).erase P.bp)
          (findStart N.size)).erase N.bp)) := by
    have h1' : Str (deleteList s P.bp P.size)
        ((pre ++ [{ P with st := St.loose }, X]) ++ N :: post)
        (Function.update fl (findStart P.size) ((fl (findStart P.size)).erase P.bp)) := by
      simpa using h1
    simpa using deleteList_Str h1' hN
  have hXm2 : X ∈ pre ++ { P with st := St.loose } :: X :: { N with st := St.loose } :: post := by
    simp
  have hPm2 : ({ P with st := St.loose } : Blk) ∈
      pre ++ { P with st := St.loose } :: X :: { N with st := St.loose } :: post := by simp
  have hNm2 : ({ N with st := St.loose } : Blk) ∈
      pre ++ { P with st := St.loose } :: X :: { N with st := St.loose } :: post := by simp
  have fP2 := h2.blk hPm2
  have gX2 : GET_SIZE (deleteList (deleteList s P.bp P.size) N.bp N.size) (X.bp - 4) = X.size :=
    h2.get_size hXm2
  have gN2 : GET_SIZE (deleteList (deleteList s P.bp P.size) N.bp N.size) (N.bp - 4) = N.size := by
    have := h2.get_size hNm2
    exact this
  have gP2 : GET_SIZE (deleteList (deleteList s P.bp P.size) N.bp N.size) (X.bp - 8) = P.size := by
    have := h2.get_size_ftr hPm2
    simp only at this
    rw [hPX] at this
    exact this
  obtain ⟨hpre2, hrest2⟩ := h2.around
  have hpost2 : Tiles (deleteList (deleteList s P.bp P.size) N.bp N.size).mem
      (P.bp + (P.size + X.size + N.size)) post
      (deleteList (deleteList s P.bp P.size) N.bp N.size).brk := by
    have := hrest2.2.2.2.2.2.2.2.2.2.2.2.2
    simpa [Nat.add_assoc] using this
  have h3 : Str (PUT (PUT (deleteList (deleteList s P.bp P.size) N.bp N.size)
      (P.bp - 4) (P.size + X.size + N.size)) (N.bp + N.size - 8) (P.size + X.size + N.size))
      (pre ++ ([⟨P.bp, P.size + X.size + N.size, St.loose⟩] ++ post))
      (Function.update (Function.update fl (findStart P.size) ((fl (findStart P.size)).erase P.bp))
        (findStart N.size)
        ((Function.update fl (findStart P.size) ((fl (findStart P.size)).erase P.bp)
          (findStart N.size)).erase N.bp)) := by
    apply @Str.retile _ _ _ ([{ P with st := St.loose }, X, { N with st := St.loose }]) _ _ _ (P.bp) (P.bp + (P.size + X.size + N.size)) h2 hpre2 hpost2 (by omega)
    · intro b hb
      simp at hb
      rcases hb with e | e | e <;> subst e <;> simp [hX]
    · intro b hb
      simp at hb
      subst hb; simp
    · intro x hx
      rw [PUT_mem, PUT_mem, if_neg (by omega), if_neg (by omega)]
    · refine ⟨rfl, ?_, ?_, ?_, ?_, ?_, rfl⟩
      · show (P.size + X.size + N.size) % 8 = 0
        omega
      · show 16 ≤ P.size + X.size + N.size
        omega
      · show (PUT _ _ _).mem _ = P.size + X.size + N.size + 0
        rw [PUT_mem, PUT_mem, if_neg (by omega), if_pos rfl, hmod]; rfl
      · show (PUT _ _ _).mem (P.bp + (P.size + X.size + N.size) - 8) = P.size + X.size + N.size + 0
        rw [PUT_mem, if_pos (by omega), hmod]; rfl
      · intro _
        rw [PUT_mem, PUT_mem, if_neg (by omega), if_neg (by omega)]
        exact fP2.2.2.2.2.2.2.2.1 rfl
    · rfl
    · rfl
    · rfl
  have h4 := addList_Str (X := ⟨P.bp, P.size + X.size + N.size, St.loose⟩) h3 rfl
  have hval : coalesce s X.bp = (P.bp,
      addList (PUT (PUT (deleteList (deleteList s P.bp P.size) N.bp N.size)
      (P.bp - 4) (P.size + X.size + N.size)) (N.bp + N.size - 8) (P.size + X.size + N.size))
      P.bp (P.size + X.size + N.size)) := by
    have := coalesce_eq4 s X.bp P.bp P.size X.size N.bp N.size (N.bp + N.size - 8) r1 r2
      pb gP gX (by rw [nb, hNbp]) (by rw [hNbp]; exact gN)
      (by unfold NEXT_BLKP; simp only [WSIZE]; rw [gX1, hNbp])
      gN1
      (by unfold PREV_BLKP; simp only [DSIZE]; rw [gP2]; omega)
      (by
        unfold FTRP NEXT_BLKP HDRP; simp only [DSIZE, WSIZE]
        rw [GET_SIZE_PUT_ne (by omega), gX2, ← hNbp, GET_SIZE_PUT_ne (by omega), gN2])
      (by
        unfold PREV_BLKP HDRP; simp only [DSIZE, WSIZE]
        rw [GET_SIZE_PUT_ne (by omega), GET_SIZE_PUT_ne (by omega), gP2]; omega)
    rw [this, hsz, hP0]
    rfl
  rw [hval]
  refine ⟨_, rfl, h4, ⟨_, Function.update_same _ _ _⟩, ?_, ?_⟩
  · simp [SameRegs]
  · intro x hq hx1 hx2
    have q1 : Quiet (deleteList s P.bp P.size)
        (pre ++ { P with st := St.loose } :: X :: N :: post) x := by
      apply hq.mono (by simp)
      intro b' hb' hst
      simp only [List.mem_append, List.mem_cons] at hb'
      rcases hb' with e | e | e | e | e
      · exact ⟨b', by simp [e], hst, rfl⟩
      · subst e
        exact ⟨P, hPm, by simp [hP], rfl⟩
      · exact ⟨b', by simp [e], hst, rfl⟩
      · exact ⟨b', by simp [e], hst, rfl⟩
      · exact ⟨b', by simp [e], hst, rfl⟩
    have q3 : Quiet (PUT (PUT (deleteList (deleteList s P.bp P.size) N.bp N.size)
        (P.bp - 4) (P.size + X.size + N.size)) (N.bp + N.size - 8) (P.size + X.size + N.size))
        (pre ++ ([⟨P.bp, P.size + X.size + N.size, St.loose⟩] ++ post)) x := by
      apply hq.mono (by simp)
      intro b' hb' hst
      simp only [List.mem_append, List.mem_cons, List.mem_singleton, List.not_mem_nil,
        or_false] at hb'
      rcases hb' with e | e | e
      · exact ⟨b', by simp [e], hst, rfl⟩
      · subst e
        exact ⟨P, hPm, by simp [hP], rfl⟩
      · exact ⟨b', by simp [e], hst, rfl⟩
    show (addList _ _ _).mem x = _
    rw [addList_quiet (X := ⟨P.bp, P.size + X.size + N.size, St.loose⟩) h3 (by simp) rfl q3]
    rw [PUT_mem, PUT_mem, if_neg (by omega), if_neg hx1]
    rw [deleteList_quiet h1 hNm1 hN q1]
    exact deleteList_quiet h hPm hP hq

/-! ## Adjacency of free blocks -/

theorem NoAdjFree_split {pre post : List Blk} {X : Blk} (h : NoAdjFree (pre ++ X :: post)) :
    NoAdjFree pre ∧ NoAdjFree post := by
  unfold NoAdjFree at h ⊢
  rw [List.chain'_append] at h
  exact ⟨h.1, (List.chain'_cons'.1 h.2.1).2⟩

theorem NoAdjFree_last {pre0 : List Blk} {P : Blk} (h : NoAdjFree (pre0 ++ [P]))
    (hP : P.st ≠ St.used) : pre0 = [] ∨ ∃ q Q, pre0 = q ++ [Q] ∧ Q.st = St.used := by
  rcases List.eq_nil_or_concat pre0 with e | ⟨q, Q, e⟩
  · exact Or.inl e
  · right
    rw [List.concat_eq_append] at e
    subst e
    refine ⟨q, Q, rfl, ?_⟩
    unfold NoAdjFree at h
    rw [List.chain'_append] at h
    have := h.2.2 Q (by simp) P (by simp)
    rcases this with e | e
    · exact e
    · exact absurd e hP

theorem NoAdjFree_head {post0 : List Blk} {N : Blk} (h : NoAdjFree (N :: post0))
    (hN : N.st ≠ St.used) : post0 = [] ∨ ∃ N2 p2, post0 = N2 :: p2 ∧ N2.st = St.used := by
  cases post0 with
  | nil => exact Or.inl rfl
  | cons N2 p2 =>
    right
    refine ⟨N2, p2, rfl, ?_⟩
    unfold NoAdjFree at h
    rcases (List.chain'_cons.1 h).1 with e | e
    · exact absurd e hN
    · exact e

theorem NoAdjFree_join {pre post : List Blk} {M : Blk} (h1 : NoAdjFree pre) (h2 : NoAdjFree post)
    (hp : M.st = St.used ∨ pre = [] ∨ ∃ pre0 P, pre = pre0 ++ [P] ∧ P.st = St.used)
    (hn : M.st = St.used ∨ post = [] ∨ ∃ N post0, post = N :: post0 ∧ N.st = St.used) :
    NoAdjFree (pre ++ M :: post) := by
  unfold NoAdjFree at h1 h2 ⊢
  rw [List.chain'_append]
  refine ⟨h1, ?_, ?_⟩
  · rw [List.chain'_cons']
    refine ⟨?_, h2⟩
    intro y hy
    rcases hn with e | e | ⟨N, post0, e1, e2⟩
    · exact Or.inl e
    · subst e; simp at hy
    · subst e1
      simp at hy
      subst hy
      exact Or.inr e2
  · intro x hx y hy
    simp at hy
    subst hy
    rcases hp with e | e | ⟨pre0, P, e1, e2⟩
    · exact Or.inr e
    · subst e; simp at hx
    · subst e1
      simp at hx
      subst hx
      exact Or.inl e2

/-- A status that is neither used nor loose is listed. -/
theorem St.listed_of {t : St} (h1 : t ≠ St.used) (h2 : t ≠ St.loose) : t = St.listed := by
  cases t <;> simp_all

/-! ## The effect of `coalesce` on a well-formed heap -/

/-- `coalesce` on a loose block whose neighbours are well-formed: the block and
its free neighbours become one filed block, no two free blocks are adjacent
afterwards, used blocks are kept, and only list cells, the header and the footer
of the result are written. -/
theorem coalesce_spec {s : Heap} {pre post : List Blk} {X : Blk} {fl : Nat → List Nat}
    (h : Str s (pre ++ X :: post) fl) (hX : X.st = St.loose)
    (hnl : ∀ b, b ∈ pre ∨ b ∈ post → b.st ≠ St.loose)
    (hadj1 : NoAdjFree pre) (hadj2 : NoAdjFree post) :
    ∃ pre' post' M fl', Str (coalesce s X.bp).2 (pre' ++ M :: post') fl' ∧
      (coalesce s X.bp).1 = M.bp ∧ M.st = St.listed ∧
      M.bp ≤ X.bp ∧ X.bp + X.size ≤ M.bp + M.size ∧
      (∀ b ∈ pre' ++ M :: post', b.st ≠ St.loose) ∧ NoAdjFree (pre' ++ M :: post') ∧
      (∀ b, b.st = St.used → (b ∈ pre' ++ M :: post' ↔ b ∈ pre ++ X :: post)) ∧
      (∀ b ∈ pre ++ X :: post, b ∈ pre' ++ M :: post' ∨
        (b.st ≠ St.used ∧ M.bp ≤ b.bp ∧ b.bp + b.size ≤ M.bp + M.size)) ∧
      (∃ t, fl' (findStart M.size) = M.bp :: t) ∧
      SameRegs s (coalesce s X.bp).2 ∧
      ∀ x, Quiet s (pre ++ X :: post) x → x ≠ M.bp - 4 → x ≠ M.bp + M.size - 8 →
        (coalesce s X.bp).2.mem x = s.mem x := by
  -- the shape of the predecessor
  have cp : (pre = [] ∨ ∃ pre0 P, pre = pre0 ++ [P] ∧ P.st = St.used) ∨
      ∃ pre0 P, pre = pre0 ++ [P] ∧ P.st = St.listed := by
    rcases List.eq_nil_or_concat pre with e | ⟨pre0, P, e⟩
    · exact Or.inl (Or.inl e)
    · rw [List.concat_eq_append] at e
      by_cases hu : P.st = St.used
      · exact Or.inl (Or.inr ⟨pre0, P, e, hu⟩)
      · exact Or.inr ⟨pre0, P, e, St.listed_of hu (hnl P (Or.inl (by simp [e])))⟩
  have cn : (post = [] ∨ ∃ N post0, post = N :: post0 ∧ N.st = St.used) ∨
      ∃ N post0, post = N :: post0 ∧ N.st = St.listed := by
    cases post with
    | nil => exact Or.inl (Or.inl rfl)
    | cons N post0 =>
      by_cases hu : N.st = St.used
      · exact Or.inl (Or.inr ⟨N, post0, rfl, hu⟩)
      · exact Or.inr ⟨N, post0, rfl, St.listed_of hu (hnl N (Or.inr (by simp)))⟩
  have hXm : X ∈ pre ++ X :: post := by simp
  have fX := h.blk hXm
  rcases cp with hp | ⟨pre0, P, e1, hP⟩ <;> rcases cn with hn | ⟨N, post0, e2, hN⟩
  · -- both neighbours allocated
    rw [coalesce_UU h hp hn]
    refine ⟨pre, post, { X with st := St.listed }, _, addList_Str h hX, rfl, rfl, le_refl _,
      le_refl _, ?_, ?_, ?_, ?_, ⟨_, Function.update_same _ _ _⟩, by simp [SameRegs], ?_⟩
    · intro b hb
      rcases mem_middle_iff.1 hb with e | e
      · subst e; simp
      · exact hnl b e
    · exact NoAdjFree_join hadj1 hadj2 (Or.inr hp) (Or.inr hn)
    · intro b hb
      rw [mem_middle_iff, mem_middle_iff]
      constructor
      · rintro (e | e)
        · subst e; cases hb
        · exact Or.inr e
      · rintro (e | e)
        · subst e; rw [hX] at hb; cases hb
        · exact Or.inr e
    · intro b hb
      rcases mem_middle_iff.1 hb with e | e
      · subst e
        right
        exact ⟨by simp [hX], le_refl _, le_refl _⟩
      · exact Or.inl (mem_middle_iff.2 (Or.inr e))
    · intro x hq _ _
      exact addList_quiet h hXm hX hq
  · -- successor free
    subst e2
    obtain ⟨fl', c1, c2, c3, c4, c5⟩ := coalesce_UF h hX hN hp
    have hadj3 := NoAdjFree_head hadj2 (by simp [hN])
    refine ⟨pre, post0, ⟨X.bp, X.size + N.size, St.listed⟩, fl', c2, c1, rfl, le_refl _,
      by simp, ?_, ?_, ?_, ?_, c3, c4, c5⟩
    · intro b hb
      rcases mem_middle_iff.1 hb with e | e
      · subst e; simp
      · exact hnl b (by simp; tauto)
    · exact NoAdjFree_join hadj1 (@NoAdjFree_split ([]) _ _ hadj2).2 (Or.inr hp) (Or.inr hadj3)
    · intro b hb
      simp only [List.mem_append, List.mem_cons]
      constructor
      · rintro (e | e | e)
        · exact Or.inl e
        · subst e; cases hb
        · exact Or.inr (Or.inr (Or.inr e))
      · rintro (e | e | e | e)
        · exact Or.inl e
        · subst e; rw [hX] at hb; cases hb
        · subst e; rw [hN] at hb; cases hb
        · exact Or.inr (Or.inr e)
    · intro b hb
      have hNm : N ∈ pre ++ X :: N :: post0 := by simp
      have fN := h.blk hNm
      obtain ⟨_, nr⟩ := h.next_read
      have hNbp : N.bp = X.bp + X.size := by
        rcases nr with ⟨e, _⟩ | ⟨N', p0, e1, _, e3⟩
        · simp at e
        · simp at e1; rw [← e1.1] at e3; exact e3
      simp only [List.mem_append, List.mem_cons] at hb ⊢
      rcases hb with e | e | e | e
      · exact Or.inl (Or.inl e)
      · subst e; right; simp [hX]
      · subst e; right; simp [hN]; omega
      · exact Or.inl (Or.inr (Or.inr e))
  · -- predecessor free
    subst e1
    have h' : Str s (pre0 ++ P :: X :: post) fl := by simpa using h
    obtain ⟨fl', c1, c2, c3, c4, c5⟩ := coalesce_FU h' hP hX hn
    have hadj3 := NoAdjFree_last hadj1 (by simp [hP])
    have hPm : P ∈ pre0 ++ P :: X :: post := by simp
    have fP := h'.blk hPm
    have hPX : P.bp + P.size = X.bp := by
      obtain ⟨hpre, _⟩ := h.around
      exact (Tiles_last hpre).1
    refine ⟨pre0, post, ⟨P.bp, P.size + X.size, St.listed⟩, fl', c2, c1, rfl, by simp; omega,
      by simp; omega, ?_, ?_, ?_, ?_, c3, c4, ?_⟩
    · intro b hb
      rcases mem_middle_iff.1 hb with e | e
      · subst e; simp
      · exact hnl b (by simp; tauto)
    · exact NoAdjFree_join (@NoAdjFree_split _ ([]) _ hadj1).1 hadj2 (Or.inr hadj3) (Or.inr hn)
    · intro b hb
      simp only [List.mem_append, List.mem_cons, List.mem_singleton, List.not_mem_nil, or_false]
      constructor
      · rintro (e | e | e)
        · exact Or.inl (Or.inl e)
        · subst e; cases hb
        · exact Or.inr (Or.inr e)
      · rintro ((e | e) | e | e)
        · exact Or.inl e
        · subst e; rw [hP] at hb; cases hb
        · subst e; rw [hX] at hb; cases hb
        · exact Or.inr (Or.inr e)
    · intro b hb
      simp only [List.mem_append, List.mem_cons, List.mem_singleton, List.not_mem_nil, or_false] at hb ⊢
      rcases hb with (e | e) | e | e
      · exact Or.inl (Or.inl e)
      · subst e; right; simp [hP]
      · subst e; right; simp [hX]; omega
      · exact Or.inl (Or.inr (Or.inr e))
    · intro x hq hx1 hx2
      apply c5 x _ hx1 hx2
      simpa using hq
  · -- both free
    subst e1 e2
    have h' : Str s (pre0 ++ P :: X :: N :: post0) fl := by simpa using h
    obtain ⟨fl', c1, c2, c3, c4, c5⟩ := coalesce_FF h' hP hX hN
    have hadj3 := NoAdjFree_last hadj1 (by simp [hP])
    have hadj4 := NoAdjFree_head hadj2 (by simp [hN])
    have hPm : P ∈ pre0 ++ P :: X :: N :: post0 := by simp
    have fP := h'.blk hPm
    have hNm : N ∈ pre0 ++ P :: X :: N :: post0 := by simp
    have fN := h'.blk hNm
    have hPX : P.bp + P.size = X.bp := by
      obtain ⟨hpre, _⟩ := h.around
      exact (Tiles_last hpre).1
    have hNbp : N.bp = X.bp + X.size := by
      obtain ⟨_, nr⟩ := h.next_read
      rcases nr with ⟨e, _⟩ | ⟨N', p0, e1, _, e3⟩
      · simp at e
      · simp at e1; rw [← e1.1] at e3; exact e3
    refine ⟨pre0, post0, ⟨P.bp, P.size + X.size + N.size, St.listed⟩, fl', c2, c1, rfl,
      by simp; omega, by simp; omega, ?_, ?_, ?_, ?_, c3, c4, ?_⟩
    · intro b hb
      rcases mem_middle_iff.1 hb with e | e
      · subst e; simp
      · exact hnl b (by simp; tauto)
    · exact NoAdjFree_join (@NoAdjFree_split _ ([]) _ hadj1).1
        (@NoAdjFree_split ([]) _ _ hadj2).2 (Or.inr hadj3) (Or.inr hadj4)
    · intro b hb
      simp only [List.mem_append, List.mem_cons, List.mem_singleton, List.not_mem_nil, or_false]
      constructor
      · rintro (e | e | e)
        · exact Or.inl (Or.inl e)
        · subst e; cases hb
        · exact Or.inr (Or.inr (Or.inr e))
      · rintro ((e | e) | e | e | e)
        · exact Or.inl e
        · subst e; rw [hP] at hb; cases hb
        · subst e; rw [hX] at hb; cases hb
        · subst e; rw [hN] at hb; cases hb
        · exact Or.inr (Or.inr e)
    · intro b hb
      simp only [List.mem_append, List.mem_cons, List.mem_singleton, List.not_mem_nil, or_false] at hb ⊢
      rcases hb with (e | e) | e | e | e
      · exact Or.inl (Or.inl e)
      · subst e; right; simp [hP]; omega
      · subst e; right; simp [hX]; omega
      · subst e; right; simp [hN]; omega
      · exact Or.inl (Or.inr (Or.inr e))
    · intro x hq hx1 hx2
      apply c5 x _ hx1 hx2
      simpa using hq

/-! ## Physically adjacent blocks -/

/-- In a tiling without adjacent free blocks, two blocks that touch are not
both free. -/
theorem NoAdjFree_addr {m : Nat → Nat} {bl : List Blk} {a e : Nat} (hT : Tiles m a bl e)
    (hadj : NoAdjFree bl) {P Q : Blk} (hP : P ∈ bl) (hQ : Q ∈ bl) (h : P.bp + P.size = Q.bp) :
    P.st = St.used ∨ Q.st = St.used := by
  induction bl generalizing a with
  | nil => simp at hP
  | cons c t ih =>
    obtain ⟨h1, h2, h3, h4, h5, h6, h7⟩ := hT
    have hadj' : NoAdjFree t := by
      unfold NoAdjFree at hadj ⊢
      exact (List.chain'_cons'.1 hadj).2
    rcases List.mem_cons.1 hP with eP | hP' <;> rcases List.mem_cons.1 hQ with eQ | hQ'
    · subst eP eQ; omega
    · subst eP
      cases t with
      | nil => simp at hQ'
      | cons d t' =>
        have hd : d.bp = P.bp + P.size := by rw [h1]; exact h7.1
        have hdm : d ∈ d :: t' := List.mem_cons_self _ _
        have fd := Tiles_mem h7 hdm
        have fQ := Tiles_mem h7 hQ'
        have : Q = d := by
          rcases Tiles_disj h7 hQ' hdm with e' | e' | e'
          · exact e'
          · omega
          · omega
        subst this
        unfold NoAdjFree at hadj
        exact (List.chain'_cons.1 hadj).1
    · subst eQ
      have fP := Tiles_mem h7 hP'
      omega
    · exact ih h7 hadj' hP' hQ'

/-- The first block of a tiling starts at its beginning. -/
theorem Tiles_first {m : Nat → Nat} {bl : List Blk} {a e : Nat} (hT : Tiles m a bl e)
    {P : Blk} (hP : P ∈ bl) (h : P.bp = a) : ∃ t, bl = P :: t := by
  cases bl with
  | nil => simp at hP
  | cons c t =>
    have hc : c ∈ c :: t := List.mem_cons_self _ _
    have fc := Tiles_mem hT hc
    have fP := Tiles_mem hT hP
    have hca : c.bp = a := hT.1
    have : P = c := by
      rcases Tiles_disj hT hP hc with e' | e' | e'
      · exact e'
      · omega
      · omega
    subst this
    exact ⟨t, rfl⟩

/-! ## Splitting -/

theorem NEXT_BLKP_PUT_ne {s : Heap} {p v bp : Nat} (h : bp - 4 ≠ p) :
    NEXT_BLKP (PUT s p v) bp = NEXT_BLKP s bp := by
  unfold NEXT_BLKP
  simp only [WSIZE]
  rw [GET_SIZE_PUT_ne h]

theorem split_eq_whole (s : Heap) (bp size xs f : Nat) (e0 : GET_SIZE s (HDRP bp) = xs)
    (hlt : ¬ (xs + 4294967296 - size) % 4294967296 ≥ 2 * DSIZE)
    (e1 : FTRP (PUT (deleteList s bp xs) (HDRP bp) (PACK xs 1)) bp = f) :
    split s bp size =
      PUT (PUT (deleteList s bp xs) (HDRP bp) (PACK xs 1)) f (PACK xs 1) := by
  unfold split
  dsimp only
  rw [e0, if_neg hlt, e1]

theorem split_eq_cut (s : Heap) (bp size xs rem c2 nb c4 : Nat)
    (e0 : GET_SIZE s (HDRP bp) = xs)
    (hge : (xs + 4294967296 - size) % 4294967296 ≥ 2 * DSIZE)
    (erem : (xs + 4294967296 - size) % 4294967296 = rem)
    (e1 : FTRP (PUT (deleteList s bp xs) (HDRP bp) (PACK size 1)) bp = c2)
    (e2 : NEXT_BLKP (PUT (PUT (deleteList s bp xs) (HDRP bp) (PACK size 1)) c2 (PACK size 1)) bp
      = nb)
    (e3 : FTRP (PUT (PUT (PUT (deleteList s bp xs) (HDRP bp) (PACK size 1)) c2 (PACK size 1))
        (HDRP nb) (PACK rem 0))
      (NEXT_BLKP (PUT (PUT (PUT (deleteList s bp xs) (HDRP bp) (PACK size 1)) c2 (PACK size 1))
        (HDRP nb) (PACK rem 0)) bp) = c4)
    (e4 : NEXT_BLKP (PUT (PUT (PUT (PUT (deleteList s bp xs) (HDRP bp) (PACK size 1)) c2
        (PACK size 1)) (HDRP nb) (PACK rem 0)) c4 (PACK rem 0)) bp = nb)
    (e5 : NEXT_BLKP (PUT (PUT (PUT (PUT (PUT (deleteList s bp xs) (HDRP bp) (PACK size 1)) c2
        (PACK size 1)) (HDRP nb) (PACK rem 0)) c4 (PACK rem 0)) (NEXT_FP nb) 0) bp = nb)
    (e6 : NEXT_BLKP (PUT (PUT (PUT (PUT (PUT (PUT (deleteList s bp xs) (HDRP bp) (PACK size 1)) c2
        (PACK size 1)) (HDRP nb) (PACK rem 0)) c4 (PACK rem 0)) (NEXT_FP nb) 0) (PREV_FP nb) 0) bp
      = nb) :
    split s bp size =
      addList (PUT (PUT (PUT (PUT (PUT (PUT (deleteList s bp xs) (HDRP bp) (PACK size 1)) c2
        (PACK size 1)) (HDRP nb) (PACK rem 0)) c4 (PACK rem 0)) (NEXT_FP nb) 0) (PREV_FP nb) 0)
        nb rem := by
  unfold split
  dsimp only
  rw [e0, if_pos hge, erem, e1, e2, e3, e4, e5, e6]

/-- A cell in the range of a used block is quiet. -/
theorem Str.quiet_of_used {s : Heap} {bl : List Blk} {fl : Nat → List Nat} (h : Str s bl fl)
    {b : Blk} (hb : b ∈ bl) (hst : b.st = St.used) {x : Nat} (h1 : b.bp - 4 ≤ x)
    (h2 : x < b.bp + b.size - 4) : Quiet s bl x := by
  have fb := h.blk hb
  refine ⟨by omega, ?_⟩
  intro c hc hcs
  have fc := h.blk hc
  rcases h.sep hb hc with e | e | e
  · subst e; exact absurd hst hcs
  · omega
  · omega

/-- `split` on a filed block that is large enough: the block is unlinked and
handed out, whole or cut into a used prefix and a filed remainder. -/
theorem split_spec {s : Heap} {pre post : List Blk} {X : Blk} {fl : Nat → List Nat}
    (h : Str s (pre ++ X :: post) fl) (hX : X.st = St.listed) {size : Nat}
    (h8 : size % 8 = 0) (h16 : 16 ≤ size) (hle : size ≤ X.size) :
    ∃ fl',
      ((X.size - size < 16 ∧
          Str (split s X.bp size) (pre ++ ⟨X.bp, X.size, St.used⟩ :: post) fl') ∨
       (16 ≤ X.size - size ∧
          Str (split s X.bp size)
            (pre ++ ⟨X.bp, size, St.used⟩ :: ⟨X.bp + size, X.size - size, St.listed⟩ :: post) fl' ∧
          ∃ t, fl' (findStart (X.size - size)) = (X.bp + size) :: t)) ∧
      SameRegs s (split s X.bp size) ∧
      ∀ x, Quiet s (pre ++ X :: post) x → x < X.bp - 4 ∨ X.bp + X.size - 4 ≤ x →
        (split s X.bp size).mem x = s.mem x := by
  have hXm : X ∈ pre ++ X :: post := by simp
  have fX := h.blk hXm
  have gX : GET_SIZE s (HDRP X.bp) = X.size := h.get_size hXm
  have h1 : Str (deleteList s X.bp X.size) (pre ++ { X with st := St.loose } :: post)
      (Function.update fl (findStart X.size) ((fl (findStart X.size)).erase X.bp)) :=
    deleteList_Str h hX
  have hXm1 : ({ X with st := St.loose } : Blk) ∈ pre ++ { X with st := St.loose } :: post := by
    simp
  obtain ⟨hpre1, hpost1⟩ := h1.around
  have hsub : (X.size + 4294967296 - size) % 4294967296 = X.size - size := by omega
  have hmask1 : ∀ z, z % 8 = 0 → z < 4294967295 → ((PACK z 1) % 4294967296) &&& 4294967288 = z := by
    intro z hz hz2
    rw [PACK_eq _ _ hz (by omega), Nat.mod_eq_of_lt (by omega)]
    exact size_of_word z 1 hz (by omega) (by omega)
  have hmask0 : ∀ z, z % 8 = 0 → z < 4294967295 → ((PACK z 0) % 4294967296) &&& 4294967288 = z := by
    intro z hz hz2
    rw [PACK_eq _ _ hz (by omega), Nat.mod_eq_of_lt (by omega)]
    exact size_of_word z 0 hz (by omega) (by omega)
  have hq1 : ∀ x, Quiet s (pre ++ X :: post) x →
      (deleteList s X.bp X.size).mem x = s.mem x := fun x hq => deleteList_quiet h hXm hX hq
  by_cases hrem : 16 ≤ X.size - size
  · -- the block is cut
    have hP1 : PACK size 1 % 4294967296 = size + 1 := by
      rw [PACK_eq _ _ h8 (by omega)]; exact Nat.mod_eq_of_lt (by omega)
    have hP0 : PACK (X.size - size) 0 % 4294967296 = X.size - size := by
      rw [PACK_eq _ _ (by omega) (by omega)]; exact Nat.mod_eq_of_lt (by omega)
    have hval := split_eq_cut s X.bp size X.size (X.size - size) (X.bp + size - 8) (X.bp + size)
      (X.bp + X.size - 8) gX (by rw [hsub]; simpa [DSIZE] using hrem) hsub
      (by unfold FTRP HDRP; simp only [WSIZE, DSIZE]
          rw [GET_SIZE_PUT, if_pos rfl, hmask1 size h8 (by omega)])
      (by unfold NEXT_BLKP HDRP; simp only [WSIZE]
          rw [GET_SIZE_PUT_ne (by omega), GET_SIZE_PUT, if_pos rfl, hmask1 size h8 (by omega)])
      (by unfold FTRP NEXT_BLKP HDRP; simp only [WSIZE, DSIZE]
          rw [GET_SIZE_PUT_ne (by omega), GET_SIZE_PUT_ne (by omega), GET_SIZE_PUT, if_pos rfl,
            hmask1 size h8 (by omega), GET_SIZE_PUT, if_pos rfl,
            hmask0 (X.size - size) (by omega) (by omega)]
          omega)
      (by unfold NEXT_BLKP HDRP; simp only [WSIZE]
          rw [GET_SIZE_PUT_ne (by omega), GET_SIZE_PUT_ne (by omega), GET_SIZE_PUT_ne (by omega),
            GET_SIZE_PUT, if_pos rfl, hmask1 size h8 (by omega)])
      (by unfold NEXT_BLKP HDRP NEXT_FP; simp only [WSIZE]
          rw [GET_SIZE_PUT_ne (by omega), GET_SIZE_PUT_ne (by omega), GET_SIZE_PUT_ne (by omega),
            GET_SIZE_PUT_ne (by omega), GET_SIZE_PUT, if_pos rfl, hmask1 size h8 (by omega)])
      (by unfold NEXT_BLKP HDRP NEXT_FP PREV_FP; simp only [WSIZE]
          rw [GET_SIZE_PUT_ne (by omega), GET_SIZE_PUT_ne (by omega), GET_SIZE_PUT_ne (by omega),
            GET_SIZE_PUT_ne (by omega), GET_SIZE_PUT_ne (by omega), GET_SIZE_PUT, if_pos rfl,
            hmask1 size h8 (by omega)])
    have hfr : ∀ x, x < X.bp - 4 ∨ X.bp + X.size - 4 ≤ x →
        (PUT (PUT (PUT (PUT (PUT (PUT (deleteList s X.bp X.size) (HDRP X.bp) (PACK size 1))
          (X.bp + size - 8) (PACK size 1)) (HDRP (X.bp + size)) (PACK (X.size - size) 0))
          (X.bp + X.size - 8) (PACK (X.size - size) 0)) (NEXT_FP (X.bp + size)) 0)
          (PREV_FP (X.bp + size)) 0).mem x = (deleteList s X.bp X.size).mem x := by
      intro x hx
      simp only [HDRP, NEXT_FP, PREV_FP, WSIZE]
      rw [PUT_mem, PUT_mem, PUT_mem, PUT_mem, PUT_mem, PUT_mem, if_neg (by omega),
        if_neg (by omega), if_neg (by omega), if_neg (by omega), if_neg (by omega),
        if_neg (by omega)]
    have h7 : Str (PUT (PUT (PUT (PUT (PUT (PUT (deleteList s X.bp X.size) (HDRP X.bp)
          (PACK size 1)) (X.bp + size - 8) (PACK size 1)) (HDRP (X.bp + size))
          (PACK (X.size - size) 0)) (X.bp + X.size - 8) (PACK (X.size - size) 0))
          (NEXT_FP (X.bp + size)) 0) (PREV_FP (X.bp + size)) 0)
        (pre ++ ([⟨X.bp, size, St.used⟩, ⟨X.bp + size, X.size - size, St.loose⟩] ++ post))
        (Function.update fl (findStart X.size) ((fl (findStart X.size)).erase X.bp)) := by
      apply @Str.retile _ _ _ ([{ X with st := St.loose }]) _ _ _ (X.bp) (X.bp + X.size)
        h1 hpre1 hpost1 (by omega)
      · intro b hb
        simp at hb
        subst hb; simp
      · intro b hb
        simp at hb
        rcases hb with e | e <;> subst e <;> simp
      · exact hfr
      · refine ⟨rfl, h8, h16, ?_, ?_, ?_, rfl, ?_, ?_, ?_, ?_, ?_, ?_⟩
        · show (PUT _ _ _).mem _ = size + 1
          simp only [HDRP, NEXT_FP, PREV_FP, WSIZE]
          rw [PUT_mem, PUT_mem, PUT_mem, PUT_mem, PUT_mem, PUT_mem, if_neg (by omega),
            if_neg (by omega), if_neg (by omega), if_neg (by omega), if_neg (by omega),
            if_pos rfl, hP1]
        · show (PUT _ _ _).mem _ = size + 1
          simp only [HDRP, NEXT_FP, PREV_FP, WSIZE]
          rw [PUT_mem, PUT_mem, PUT_mem, PUT_mem, PUT_mem, if_neg (by omega),
            if_neg (by omega), if_neg (by omega), if_neg (by omega), if_pos rfl, hP1]
        · intro hl; cases hl
        · show (X.size - size) % 8 = 0
          omega
        · exact hrem
        · show (PUT _ _ _).mem _ = X.size - size + 0
          simp only [HDRP, NEXT_FP, PREV_FP, WSIZE]
          rw [PUT_mem, PUT_mem, PUT_mem, PUT_mem, if_neg (by omega),
            if_neg (by omega), if_neg (by omega), if_pos rfl, hP0]
          rfl
        · show (PUT _ _ _).mem _ = X.size - size + 0
          simp only [HDRP, NEXT_FP, PREV_FP, WSIZE]
          rw [PUT_mem, PUT_mem, PUT_mem, if_neg (by omega),
            if_neg (by omega), if_pos (by omega), hP0]
          rfl
        · intro _
          show (PUT _ _ _).mem _ = 0
          simp only [HDRP, NEXT_FP, PREV_FP, WSIZE]
          rw [PUT_mem, if_pos rfl]
        · show X.bp + size + (X.size - size) = X.bp + X.size
          omega
      · rfl
      · rfl
      · rfl
    have h7' : Str (PUT (PUT (PUT (PUT (PUT (PUT (deleteList s X.bp X.size) (HDRP X.bp)
          (PACK size 1)) (X.bp + size - 8) (PACK size 1)) (HDRP (X.bp + size))
          (PACK (X.size - size) 0)) (X.bp + X.size - 8) (PACK (X.size - size) 0))
          (NEXT_FP (X.bp + size)) 0) (PREV_FP (X.bp + size)) 0)
        ((pre ++ [⟨X.bp, size, St.used⟩]) ++ ⟨X.bp + size, X.size - size, St.loose⟩ :: post)
        (Function.update fl (findStart X.size) ((fl (findStart X.size)).erase X.bp)) := by
      simpa using h7
    have h8' := addList_Str (X := ⟨X.bp + size, X.size - size, St.loose⟩) h7' rfl
    rw [hval]
    refine ⟨_, Or.inr ⟨hrem, by simpa using h8', ⟨_, Function.update_same _ _ _⟩⟩, ?_, ?_⟩
    · simp [SameRegs]
    · intro x hq hx
      have q7 : Quiet (PUT (PUT (PUT (PUT (PUT (PUT (deleteList s X.bp X.size) (HDRP X.bp)
          (PACK size 1)) (X.bp + size - 8) (PACK size 1)) (HDRP (X.bp + size))
          (PACK (X.size - size) 0)) (X.bp + X.size - 8) (PACK (X.size - size) 0))
          (NEXT_FP (X.bp + size)) 0) (PREV_FP (X.bp + size)) 0)
          ((pre ++ [⟨X.bp, size, St.used⟩]) ++ ⟨X.bp + size, X.size - size, St.loose⟩ :: post)
          x := by
        refine ⟨by simpa using hq.1, ?_⟩
        intro b' hb' hst
        simp only [List.mem_append, List.mem_cons, List.mem_singleton, List.not_mem_nil,
          or_false] at hb'
        rcases hb' with (e | e) | e | e
        · exact hq.2 b' (by simp [e]) hst
        · subst e; simp at hst
        · subst e
          simp only
          omega
        · exact hq.2 b' (by simp [e]) hst
      rw [addList_quiet (X := ⟨X.bp + size, X.size - size, St.loose⟩) h7' (by simp) rfl q7,
        hfr x hx]
      exact hq1 x hq
  · -- the whole block is handed out
    have hP1 : PACK X.size 1 % 4294967296 = X.size + 1 := by
      rw [PACK_eq _ _ (by omega) (by omega)]; exact Nat.mod_eq_of_lt (by omega)
    have hval := split_eq_whole s X.bp size X.size (X.bp + X.size - 8) gX
      (by rw [hsub]; simpa [DSIZE] using hrem)
      (by unfold FTRP HDRP; simp only [WSIZE, DSIZE]
          rw [GET_SIZE_PUT, if_pos rfl, hmask1 X.size (by omega) (by omega)])
    have h3 : Str (PUT (PUT (deleteList s X.bp X.size) (HDRP X.bp) (PACK X.size 1))
        (X.bp + X.size - 8) (PACK X.size 1))
        (pre ++ ([⟨X.bp, X.size, St.used⟩] ++ post))
        (Function.update fl (findStart X.size) ((fl (findStart X.size)).erase X.bp)) := by
      apply @Str.retile _ _ _ ([{ X with st := St.loose }]) _ _ _ (X.bp) (X.bp + X.size)
        h1 hpre1 hpost1 (by omega)
      · intro b hb
        simp at hb
        subst hb; simp
      · intro b hb
        simp at hb
        subst hb; simp
      · intro x hx
        simp only [HDRP, WSIZE]
        rw [PUT_mem, PUT_mem, if_neg (by omega), if_neg (by omega)]
      · refine ⟨rfl, by simpa using fX.2.2.2.1, by simpa using fX.2.2.2.2.1, ?_, ?_, ?_, rfl⟩
        · show (PUT _ _ _).mem _ = X.size + 1
          simp only [HDRP, WSIZE]
          rw [PUT_mem, PUT_mem, if_neg (by omega), if_pos rfl, hP1]
        · show (PUT _ _ _).mem _ = X.size + 1
          rw [PUT_mem, if_pos rfl, hP1]
        · intro hl; cases hl
      · rfl
      · rfl
      · rfl
    rw [hval]
    refine ⟨_, Or.inl ⟨by omega, h3⟩, ?_, ?_⟩
    · simp [SameRegs]
    · intro x hq hx
      simp only [HDRP, WSIZE]
      rw [PUT_mem, PUT_mem, if_neg (by omega), if_neg (by omega)]
      exact hq1 x hq

/-! ## Searching the free lists -/

theorem pick_spec (bs : Nat → Nat) (size : Nat) (l : List Nat) (h0 : ∀ x ∈ l, x ≠ 0) :
    (pick bs size l = 0 ∧ ∀ n ∈ l, bs n < size) ∨
    (pick bs size l ≠ 0 ∧ pick bs size l ∈ l ∧ size ≤ bs (pick bs size l)) := by
  induction l with
  | nil => left; simp [pick]
  | cons n t ih =>
    unfold pick
    by_cases hn : bs n ≥ size
    · rw [if_pos hn]
      right
      exact ⟨h0 n (List.mem_cons_self _ _), List.mem_cons_self _ _, hn⟩
    · rw [if_neg hn]
      rcases ih (fun x hx => h0 x (List.mem_cons_of_mem _ hx)) with ⟨e, h1⟩ | ⟨e, h1, h2⟩
      · left
        refine ⟨e, ?_⟩
        intro m hm
        rcases List.mem_cons.1 hm with rfl | hm
        · omega
        · exact h1 m hm
      · right
        exact ⟨e, List.mem_cons_of_mem _ h1, h2⟩

/-- The head of a list is picked when it fits. -/
theorem pick_head (bs : Nat → Nat) (size n : Nat) (t : List Nat) (h : size ≤ bs n) :
    pick bs size (n :: t) = n := by
  unfold pick
  rw [if_pos h]

theorem pickFrom_spec (fl : Nat → List Nat) (bs : Nat → Nat) (size : Nat)
    (h0 : ∀ j, j < 14 → ∀ x ∈ fl j, x ≠ 0) (k i : Nat) (hk : i + k ≤ 14) :
    (pickFrom fl bs size k i = 0 ∧ ∀ j, i ≤ j → j < i + k → ∀ n ∈ fl j, bs n < size) ∨
    (pickFrom fl bs size k i ≠ 0 ∧ ∃ j, i ≤ j ∧ j < i + k ∧ pickFrom fl bs size k i ∈ fl j ∧
      size ≤ bs (pickFrom fl bs size k i) ∧
      pickFrom fl bs size k i = pick bs size (fl j) ∧
      ∀ j', i ≤ j' → j' < j → ∀ n ∈ fl j', bs n < size) := by
  revert hk
  induction k generalizing i with
  | zero =>
    intro _
    left
    refine ⟨rfl, ?_⟩
    intro j h1 h2
    omega
  | succ k ih =>
    intro hk
    unfold pickFrom
    rcases pick_spec bs size (fl i) (h0 i (by omega)) with ⟨e, h1⟩ | ⟨e, h1, h2⟩
    · rw [if_neg (by simp [e])]
      rcases ih (i + 1) (by omega) with ⟨e', g1⟩ | ⟨e', j, g1, g2, g3, g4, g5, g6⟩
      · left
        refine ⟨e', ?_⟩
        intro j hj1 hj2
        by_cases hji : j = i
        · subst hji; exact h1
        · exact g1 j (by omega) (by omega)
      · right
        refine ⟨e', j, by omega, by omega, g3, g4, g5, ?_⟩
        intro j' hj1 hj2
        by_cases hji : j' = i
        · subst hji; exact h1
        · exact g6 j' (by omega) hj2
    · rw [if_pos e]
      right
      exact ⟨e, i, le_refl _, by omega, h1, h2, rfl, fun j' a b => by omega⟩

theorem findLoop_spec (s : Heap) (size : Nat) (l : List Nat) :
    ∀ (fuel pv cur : Nat), Seg s.mem pv l cur → l.length ≤ fuel →
      findLoop s size fuel cur = Except.ok (pick (fun n => GET_SIZE s (HDRP n)) size l) := by
  induction l with
  | nil =>
    intro fuel pv cur hs _
    have : cur = 0 := hs
    subst this
    unfold findLoop
    simp [pick]
  | cons n t ih =>
    intro fuel pv cur hs hf
    obtain ⟨h1, h2, h3, h4⟩ := hs
    subst h1
    cases fuel with
    | zero => simp at hf
    | succ f =>
      unfold findLoop
      rw [if_neg h2]
      simp only
      unfold pick
      by_cases hfit : GET_SIZE s (HDRP cur) ≥ size
      · rw [if_pos hfit, if_pos hfit]
      · rw [if_neg hfit, if_neg hfit]
        exact ih f cur _ h4 (by simpa using hf)

/-- A list of distinct numbers below `n` has at most `n` entries. -/
theorem length_le_of_nodup_lt {l : List Nat} {n : Nat} (hnd : l.Nodup) (hlt : ∀ x ∈ l, x < n) :
    l.length ≤ n := by
  have h1 : l.toFinset ⊆ Finset.range n := by
    intro x hx
    rw [List.mem_toFinset] at hx
    exact Finset.mem_range.2 (hlt x hx)
  have h2 := Finset.card_le_card h1
  rw [List.toFinset_card_of_nodup hnd, Finset.card_range] at h2
  exact h2

/-- `find` terminates on a well-formed heap and returns the first fitting node
of the list. -/
theorem find_spec {s : Heap} {bl : List Blk} {fl : Nat → List Nat} (h : Str s bl fl)
    {i : Nat} (hi : i < 14) (size : Nat) :
    find s i size = Except.ok (pick (fun n => GET_SIZE s (HDRP n)) size (fl i)) := by
  unfold find
  simp only [mem_heap_lo, GET, findSlot_eq i hi]
  apply findLoop_spec s size (fl i) s.brk 0 _ (h.segs i hi)
  apply length_le_of_nodup_lt (h.nodup i hi)
  intro x hx
  have := h.node_facts hi hx
  omega

theorem findFrom_spec {s : Heap} {bl : List Blk} {fl : Nat → List Nat} (h : Str s bl fl)
    (size : Nat) (k i : Nat) (hk : i + k ≤ 14) :
    findFrom s size k i =
      Except.ok (pickFrom fl (fun n => GET_SIZE s (HDRP n)) size k i) := by
  induction k generalizing i with
  | zero => rfl
  | succ k ih =>
    unfold findFrom pickFrom
    rw [find_spec h (by omega) size]
    simp only
    by_cases hp : pick (fun n => GET_SIZE s (HDRP n)) size (fl i) ≠ 0
    · rw [if_pos hp, if_pos hp]
    · rw [if_neg hp, if_neg hp]
      exact ih (i + 1) (by omega)

/-! ## Release -/

/-- Well-formedness does not depend on the two static variables. -/
theorem Str.regs {s s' : Heap} {bl : List Blk} {fl : Nat → List Nat} (h : Str s bl fl)
    (hm : s'.mem = s.mem) (hlo : s'.lo = s.lo) (hbrk : s'.brk = s.brk) (hcap : s'.cap = s.cap) :
    Str s' bl fl := by
  refine
    { lo8 := by rw [hlo]; exact h.lo8, capb := by rw [hcap]; exact h.capb,
      brkcap := by rw [hbrk, hcap]; exact h.brkcap, pro1 := by rw [hm, hlo]; exact h.pro1,
      pro2 := by rw [hm, hlo]; exact h.pro2, epi := by rw [hm, hbrk]; exact h.epi,
      tiles := by rw [hm, hlo, hbrk]; exact h.tiles,
      segs := by rw [hm, hlo]; exact h.segs, nodup := h.nodup, link := h.link }

theorem SameRegs.trans {s1 s2 s3 : Heap} (h1 : SameRegs s1 s2) (h2 : SameRegs s2 s3) :
    SameRegs s1 s3 := by
  obtain ⟨a1, a2, a3, a4, a5⟩ := h1
  obtain ⟨b1, b2, b3, b4, b5⟩ := h2
  exact ⟨b1.trans a1, b2.trans a2, b3.trans a3, b4.trans a4, b5.trans a5⟩

/-- The stores of `mm_free` before coalescing turn a used block into a loose one. -/
theorem mm_free_mark {s : Heap} {pre post : List Blk} {X : Blk} {fl : Nat → List Nat}
    (h : Str s (pre ++ X :: post) fl) (hX : X.st = St.used) :
    mm_free s X.bp =
      (coalesce (PUT (PUT (PUT (PUT s (X.bp - 4) X.size) (X.bp + X.size - 8) X.size) X.bp 0)
        (X.bp + 4) 0) X.bp).2 ∧
    Str (PUT (PUT (PUT (PUT s (X.bp - 4) X.size) (X.bp + X.size - 8) X.size) X.bp 0)
        (X.bp + 4) 0) (pre ++ { X with st := St.loose } :: post) fl := by
  have hXm : X ∈ pre ++ X :: post := by simp
  have fX := h.blk hXm
  have gX : GET_SIZE s (HDRP X.bp) = X.size := h.get_size hXm
  have aX : GET_ALLOC s (HDRP X.bp) = 1 := by
    have := h.get_alloc hXm
    rw [hX] at this
    exact this
  have hP : PACK X.size 0 = X.size := by rw [PACK_eq _ _ (by omega) (by omega)]; rfl
  have hmod : X.size % 4294967296 = X.size := Nat.mod_eq_of_lt (by omega)
  have hmask : X.size &&& 4294967288 = X.size := by
    simpa using size_of_word X.size 0 (by omega) (by omega) (by omega)
  constructor
  · unfold mm_free
    rw [if_neg (by omega)]
    simp only [aX, gX, hP]
    rw [if_neg (by decide)]
    have : FTRP (PUT s (HDRP X.bp) X.size) X.bp = X.bp + X.size - 8 := by
      unfold FTRP
      rw [GET_SIZE_PUT, if_pos rfl, hmod, hmask]
      rfl
    rw [this]
    rfl
  · obtain ⟨hpre, hpost⟩ := h.around
    have := @Str.retile _ (PUT (PUT (PUT (PUT s (X.bp - 4) X.size) (X.bp + X.size - 8) X.size) X.bp 0) (X.bp + 4) 0) _ ([X]) ([{ X with st := St.loose }]) _ _ (X.bp) (X.bp + X.size) h hpre hpost (by omega)
      (by intro b hb; simp at hb; subst hb; simp [hX])
      (by intro b hb; simp at hb; subst hb; simp)
      (by
        intro x hx
        rw [PUT_mem, PUT_mem, PUT_mem, PUT_mem, if_neg (by omega), if_neg (by omega),
          if_neg (by omega), if_neg (by omega)])
      (by
        refine ⟨rfl, fX.2.2.2.1, fX.2.2.2.2.1, ?_, ?_, ?_, rfl⟩
        · show (PUT _ _ _).mem _ = X.size + 0
          rw [PUT_mem, PUT_mem, PUT_mem, PUT_mem, if_neg (by omega), if_neg (by omega),
            if_neg (by omega), if_pos rfl, hmod]
          rfl
        · show (PUT _ _ _).mem (X.bp + X.size - 8) = X.size + 0
          rw [PUT_mem, PUT_mem, PUT_mem, if_neg (by omega), if_neg (by omega),
            if_pos rfl, hmod]
          rfl
        · intro _
          rw [PUT_mem, if_pos rfl])
      rfl rfl rfl
    exact this

/-- `mm_free` on a used block of a well-formed heap. -/
theorem mm_free_spec {s : Heap} {pre post : List Blk} {X : Blk} {fl : Nat → List Nat}
    (h : WF s (pre ++ X :: post) fl) (hX : X.st = St.used) :
    ∃ pre' post' M fl', WF (mm_free s X.bp) (pre' ++ M :: post') fl' ∧
      M.st = St.listed ∧ M.bp ≤ X.bp ∧ X.bp + X.size ≤ M.bp + M.size ∧
      (∀ b, b.st = St.used → (b ∈ pre' ++ M :: post' ↔ b ∈ pre ++ X :: post ∧ b ≠ X)) ∧
      (∀ b ∈ pre ++ X :: post, b ∈ pre' ++ M :: post' ∨
        ((b.st ≠ St.used ∨ b = X) ∧ M.bp ≤ b.bp ∧ b.bp + b.size ≤ M.bp + M.size)) ∧
      (∃ t, fl' (findStart M.size) = M.bp :: t) ∧
      SameRegs s (mm_free s X.bp) ∧
      GET_ALLOC (mm_free s X.bp) (HDRP X.bp) = 0 ∧
      ∀ x, Quiet s (pre ++ X :: post) x → x < X.bp - 4 ∨ X.bp + X.size - 4 ≤ x →
        x ≠ M.bp - 4 → x ≠ M.bp + M.size - 8 → (mm_free s X.bp).mem x = s.mem x := by
  obtain ⟨hS, hnl, hadj⟩ := h
  obtain ⟨e1, h1⟩ := mm_free_mark hS hX
  have hXm : X ∈ pre ++ X :: post := by simp
  have fX := hS.blk hXm
  have hmid := Tiles_middle hS.tiles
  obtain ⟨pre', post', M, fl', c1, c2, c3, c4, c5, c6, c7, c8, c8', c9, c10, c11⟩ :=
    coalesce_spec (X := { X with st := St.loose }) h1 rfl
      (fun b hb => hnl b (mem_middle_iff.2 (Or.inr hb)))
      (NoAdjFree_split hadj).1 (NoAdjFree_split hadj).2
  simp only at c2 c4 c5 c11
  rw [e1]
  have hM : M ∈ pre' ++ M :: post' := by simp
  have fM := c1.blk hM
  refine ⟨pre', post', M, fl', ⟨c1, c6, c7⟩, c3, c4, c5, ?_, ?_, c9, ?_, ?_, ?_⟩
  · intro b hb
    rw [c8 b hb, mem_middle_iff, mem_middle_iff]
    constructor
    · rintro (e | e)
      · subst e; cases hb
      · refine ⟨Or.inr e, ?_⟩
        intro e'
        subst e'
        rcases e with e | e
        · have := hmid.1 b e; omega
        · have := hmid.2 b e; omega
    · rintro ⟨e | e, hne⟩
      · exact absurd e hne
      · exact Or.inr e
  · intro b hb
    rcases mem_middle_iff.1 hb with e | e
    · subst e
      right
      exact ⟨Or.inr rfl, c4, c5⟩
    · rcases c8' b (mem_middle_iff.2 (Or.inr e)) with g | ⟨g1, g2, g3⟩
      · exact Or.inl g
      · exact Or.inr ⟨Or.inl g1, g2, g3⟩
  · obtain ⟨a1, a2, a3, a4, a5⟩ := c10
    exact ⟨a1, a2, a3, a4, a5⟩
  · -- the header of the released block keeps a cleared allocated bit
    by_cases hMX : M.bp = X.bp
    · have := c1.get_alloc hM
      rw [hMX, c3] at this
      exact this
    · have hq : Quiet (PUT (PUT (PUT (PUT s (X.bp - 4) X.size) (X.bp + X.size - 8) X.size)
          X.bp 0) (X.bp + 4) 0) (pre ++ { X with st := St.loose } :: post) (X.bp - 4) := by
        refine ⟨by simp only [PUT_lo]; omega, ?_⟩
        intro b hb _
        have hXm1 : ({ X with st := St.loose } : Blk) ∈ pre ++ { X with st := St.loose } :: post := by
          simp
        have fb := h1.blk hb
        rcases h1.sep hb hXm1 with e | e | e
        · subst e; simp; omega
        · simp only at e; omega
        · simp only at e; omega
      unfold GET_ALLOC GET HDRP
      simp only [WSIZE]
      rw [c11 _ hq (by omega) (by omega), PUT_mem, PUT_mem, PUT_mem, PUT_mem, if_neg (by omega),
        if_neg (by omega), if_neg (by omega), if_pos rfl, Nat.mod_eq_of_lt (by omega),
        Nat.and_one_is_mod]
      omega
  · intro x hq hx hx1 hx2
    have hq1 : Quiet (PUT (PUT (PUT (PUT s (X.bp - 4) X.size) (X.bp + X.size - 8) X.size)
        X.bp 0) (X.bp + 4) 0) (pre ++ { X with st := St.loose } :: post) x := by
      refine ⟨by simpa using hq.1, ?_⟩
      intro b hb hst
      rcases mem_middle_iff.1 hb with e | e
      · subst e; simp only; omega
      · exact hq.2 b (mem_middle_iff.2 (Or.inr e)) hst
    rw [c11 x hq1 hx1 hx2, PUT_mem, PUT_mem, PUT_mem, PUT_mem, if_neg (by omega),
      if_neg (by omega), if_neg (by omega), if_neg (by omega)]

/-! ## Growing the region on a well-formed heap -/

theorem extendHeap_refused {s : Heap} {size : Nat} (h : ¬ s.brk + size ≤ s.cap) :
    extendHeap s size = (0, s) := by
  unfold extendHeap mem_sbrk
  rw [if_neg h]

/-- A granted `extendHeap`: the new space is one filed block, merged with a
free last block. -/
theorem extendHeap_spec {s : Heap} {bl : List Blk} {fl : Nat → List Nat} (h : WF s bl fl)
    {size : Nat} (h8 : size % 8 = 0) (h16 : 16 ≤ size) (hcap : s.brk + size ≤ s.cap) :
    ∃ pre' post' M fl', WF (extendHeap s size).2 (pre' ++ M :: post') fl' ∧
      (extendHeap s size).1 = M.bp ∧ M.st = St.listed ∧ size ≤ M.size ∧
      (∀ b, b.st = St.used → (b ∈ pre' ++ M :: post' ↔ b ∈ bl)) ∧
      (∃ t, fl' (findStart M.size) = M.bp :: t) ∧
      (extendHeap s size).2.lo = s.lo ∧ (extendHeap s size).2.cap = s.cap ∧
      (extendHeap s size).2.brk = s.brk + size ∧
      (extendHeap s size).2.last_size = s.last_size ∧ (extendHeap s size).2.count = s.count ∧
      ∀ x, Quiet s bl x → x < s.brk - 4 → x ≠ M.bp - 4 →
        (extendHeap s size).2.mem x = s.mem x := by
  obtain ⟨hS, hnl, hadj⟩ := h
  obtain ⟨s5, e1, h5, r1, r2, r3, r4, r5, fr5⟩ := extendHeap_grow hS h8 h16 hcap
  have hb := hS.brk_ge
  obtain ⟨pre', post', M, fl', c1, c2, c3, c4, c5, c6, c7, c8, _, c9, c10, c11⟩ :=
    @coalesce_spec _ _ ([]) (⟨s.brk, size, St.loose⟩) _ h5 rfl
      (fun b hb => by
        rcases hb with hb | hb
        · exact hnl b hb
        · simp at hb)
      hadj List.chain'_nil
  simp only at c2 c4 c5 c11
  rw [e1]
  obtain ⟨a1, a2, a3, a4, a5⟩ := c10
  refine ⟨pre', post', M, fl', ⟨c1, c6, c7⟩, c2, c3, by omega, ?_, c9, by rw [a1, r2],
    by rw [a3, r3], by rw [a2, r1], by rw [a4, r4], by rw [a5, r5], ?_⟩
  · intro b hb
    rw [c8 b hb]
    simp only [List.mem_append, List.mem_singleton]
    constructor
    · rintro (e | e)
      · exact e
      · subst e; cases hb
    · intro e
      exact Or.inl e
  · intro x hq hx hx1
    have hq5 : Quiet s5 (bl ++ [⟨s.brk, size, St.loose⟩]) x := by
      refine ⟨by rw [r2]; exact hq.1, ?_⟩
      intro b hb hst
      rcases List.mem_append.1 hb with e | e
      · exact hq.2 b e hst
      · simp at e; subst e; simp only; omega
    rw [c11 x hq5 hx1 (by omega), fr5 x hx]

/-! ## Handing out a filed block on a well-formed heap -/

/-- `split` on a well-formed heap. -/
theorem split_WF {s : Heap} {pre post : List Blk} {X : Blk} {fl : Nat → List Nat}
    (h : WF s (pre ++ X :: post) fl) (hX : X.st = St.listed) {size : Nat}
    (h8 : size % 8 = 0) (h16 : 16 ≤ size) (hle : size ≤ X.size) :
    ∃ bl' fl' A, WF (split s X.bp size) bl' fl' ∧ A ∈ bl' ∧ A.bp = X.bp ∧ A.st = St.used ∧
      size ≤ A.size ∧ A.size ≤ X.size ∧
      (∀ b, b.st = St.used → (b ∈ bl' ↔ b ∈ pre ++ X :: post ∨ b = A)) ∧
      SameRegs s (split s X.bp size) ∧
      (∀ x, Quiet s (pre ++ X :: post) x → x < X.bp - 4 ∨ X.bp + X.size - 4 ≤ x →
        (split s X.bp size).mem x = s.mem x) ∧
      (∀ P ∈ bl', P.bp + P.size = X.bp → P.st = St.used) := by
  obtain ⟨hS, hnl, hadj⟩ := h
  have key : ∀ P ∈ pre, P.bp + P.size = X.bp → P.st = St.used := by
    intro P hP e
    rcases NoAdjFree_addr hS.tiles hadj (mem_middle_iff.2 (Or.inr (Or.inl hP)))
      (mem_middle_iff.2 (Or.inl rfl)) e with u | u
    · exact u
    · rw [hX] at u; cases u
  obtain ⟨fl', hc, hr, hf⟩ := split_spec hS hX h8 h16 hle
  obtain ⟨hadj1, hadj2⟩ := NoAdjFree_split hadj
  have hXpost : NoAdjFree (X :: post) := by
    unfold NoAdjFree at hadj ⊢
    exact (List.chain'_split.1 hadj).2
  have hnext : post = [] ∨ ∃ N post0, post = N :: post0 ∧ N.st = St.used :=
    NoAdjFree_head hXpost (by simp [hX])
  rcases hc with ⟨hlt, h1⟩ | ⟨hge, h1, _⟩
  · refine ⟨_, fl', ⟨X.bp, X.size, St.used⟩, ⟨h1, ?_, ?_⟩, by simp, rfl, rfl, hle, le_refl _,
      ?_, hr, hf, ?_⟩
    rotate_right
    · intro P hP e
      have g := Tiles_middle h1.tiles
      rcases mem_middle_iff.1 hP with e' | e' | e'
      · subst e'; simp only at e; omega
      · exact key P e' e
      · have := g.2 P e'; simp only at this; omega
    · intro b hb
      rcases mem_middle_iff.1 hb with e | e
      · subst e; simp
      · exact hnl b (mem_middle_iff.2 (Or.inr e))
    · exact NoAdjFree_join hadj1 hadj2 (Or.inl rfl) (Or.inl rfl)
    · intro b hb
      rw [mem_middle_iff, mem_middle_iff]
      constructor
      · rintro (e | e)
        · exact Or.inr e
        · exact Or.inl (Or.inr e)
      · rintro ((e | e) | e)
        · subst e; rw [hX] at hb; cases hb
        · exact Or.inr e
        · exact Or.inl e
  · refine ⟨_, fl', ⟨X.bp, size, St.used⟩, ⟨h1, ?_, ?_⟩, by simp, rfl, rfl, le_refl _, hle,
      ?_, hr, hf, ?_⟩
    rotate_right
    · intro P hP e
      have g := Tiles_middle h1.tiles
      rcases mem_middle_iff.1 hP with e' | e' | e'
      · subst e'; simp only at e; omega
      · exact key P e' e
      · have := g.2 P e'; simp only at this; omega
    · intro b hb
      simp only [List.mem_append, List.mem_cons] at hb
      rcases hb with e | e | e | e
      · exact hnl b (by simp [e])
      · subst e; simp
      · subst e; simp
      · exact hnl b (by simp [e])
    · have : NoAdjFree (⟨X.bp + size, X.size - size, St.listed⟩ :: post) := by
        have := @NoAdjFree_join ([]) _ (⟨X.bp + size, X.size - size, St.listed⟩)
          List.chain'_nil hadj2 (Or.inr (Or.inl rfl)) (Or.inr hnext)
        simpa using this
      exact NoAdjFree_join hadj1 this (Or.inl rfl) (Or.inl rfl)
    · intro b hb
      simp only [List.mem_append, List.mem_cons]
      constructor
      · rintro (e | e | e | e)
        · exact Or.inl (Or.inl e)
        · exact Or.inr e
        · subst e; cases hb
        · exact Or.inl (Or.inr (Or.inr e))
      · rintro ((e | e | e) | e)
        · exact Or.inl e
        · subst e; rw [hX] at hb; cases hb
        · exact Or.inr (Or.inr (Or.inr e))
        · exact Or.inr (Or.inl e)

/-! ## Allocation -/

theorem normSize_eq {n : Nat} (hn : n ≤ 2147483632) : normSize n = (n + 15) / 8 * 8 := by
  unfold normSize
  rw [ALIGN_eq]
  simp only [DSIZE]
  omega

theorem MAX_CHUNK {size : Nat} (h : size < 2147483648) :
    MAX CHUNKSIZE size = if size < 8192 then 8192 else size := by
  have e1 : toInt32 CHUNKSIZE = 8192 := by
    unfold toInt32 CHUNKSIZE
    rw [if_pos (by omega)]
    rfl
  have e2 : toInt32 size = (size : Int) := by
    unfold toInt32
    rw [if_pos h]
  unfold MAX
  rw [e1, e2]
  by_cases h1 : size < 8192
  · rw [if_pos h1, if_pos (by omega)]
    rfl
  · rw [if_neg h1, if_neg (by omega)]

theorem findWrapper_bypass {s : Heap} {size : Nat} (hb : bypass s size) :
    findWrapper s size = Except.ok (extendHeap s size) := by
  obtain ⟨⟨h1, h2⟩, h3⟩ := hb
  have h64 : 64 < size := by
    rw [h1] at h2
    unfold toInt32 at h2
    split at h2 <;> omega
  unfold findWrapper
  rw [if_pos ⟨h1, h2⟩, if_pos h3]
  simp only [MAXu]
  rw [if_pos (by omega)]

theorem findWrapper_search {s : Heap} {bl : List Blk} {fl : Nat → List Nat} (h : Str s bl fl)
    {size : Nat} (hb : ¬ bypass s size) :
    ∃ s1, findWrapper s size =
        Except.ok (pickFrom fl (fun n => GET_SIZE s (HDRP n)) size (14 - findStart size)
          (findStart size), s1) ∧
      s1.mem = s.mem ∧ s1.lo = s.lo ∧ s1.brk = s.brk ∧ s1.cap = s.cap := by
  have hi := findStart_lt size
  unfold findWrapper
  by_cases h1 : s.last_size = size ∧ toInt32 s.last_size > 64
  · have h3 : ¬ s.count > 30 := fun c => hb ⟨h1, c⟩
    rw [if_pos h1, if_neg h3]
    have hs : Str { s with count := s.count + 1, last_size := size } bl fl :=
      h.regs rfl rfl rfl rfl
    simp only
    rw [findFrom_spec hs size _ _ (by omega)]
    exact ⟨_, rfl, rfl, rfl, rfl, rfl⟩
  · rw [if_neg h1]
    have hs : Str { s with count := 0, last_size := size } bl fl := h.regs rfl rfl rfl rfl
    simp only
    rw [findFrom_spec hs size _ _ (by omega)]
    exact ⟨_, rfl, rfl, rfl, rfl, rfl⟩

/-- Handing out a filed block that is large enough. -/
theorem found_split {s : Heap} {bl : List Blk} {fl : Nat → List Nat} (h : WF s bl fl)
    {X : Blk} (hXm : X ∈ bl) (hX : X.st = St.listed) {size : Nat}
    (h8 : size % 8 = 0) (h16 : 16 ≤ size) (hle : size ≤ X.size) :
    Allocated s bl size X.bp (split s X.bp size) ∧ (split s X.bp size).brk = s.brk := by
  obtain ⟨pre, post, e⟩ := List.append_of_mem hXm
  subst e
  have hS := h.1
  have fX := hS.blk hXm
  obtain ⟨bl', fl', A, c1, c2, c3, c4, c5, c6, c7, c8, c9, c10⟩ := split_WF h hX h8 h16 hle
  obtain ⟨a1, a2, a3, a4, a5⟩ := c8
  refine ⟨⟨by omega, a1, a3, by omega, bl', fl', A, c1, c2, c3, c4, c5, c7, ?_, ?_, c10⟩, a2⟩
  · intro b hb hst e
    have fb := hS.blk hb
    rcases hS.sep hb hXm with e' | e' | e'
    · subst e'; rw [hX] at hst; cases hst
    · omega
    · omega
  · intro b hb hst x hx1 hx2
    have fb := hS.blk hb
    apply c9 x (hS.quiet_of_used hb hst hx1 hx2)
    rcases hS.sep hb hXm with e' | e' | e'
    · subst e'; rw [hX] at hst; cases hst
    · omega
    · omega

/-- Growing the region and handing out the block that results. -/
theorem grow_split {s : Heap} {bl : List Blk} {fl : Nat → List Nat} (h : WF s bl fl)
    {size ext : Nat} (h8 : size % 8 = 0) (h16 : 16 ≤ size) (hext : size ≤ ext)
    (e8 : ext % 8 = 0) (hcap : s.brk + ext ≤ s.cap) :
    (extendHeap s ext).1 ≠ 0 ∧
    Allocated s bl size (extendHeap s ext).1
      (split (extendHeap s ext).2 (extendHeap s ext).1 size) := by
  obtain ⟨pre', post', M, fl', c1, c2, c3, c4, c5, c6, r1, r2, r3, r4, r5, c7⟩ :=
    extendHeap_spec h e8 (by omega) hcap
  have hMm : M ∈ pre' ++ M :: post' := by simp
  have fM := c1.1.blk hMm
  obtain ⟨g1, g2⟩ := found_split c1 hMm c3 h8 h16 (by omega : size ≤ M.size)
  obtain ⟨d1, d2, d3, d4, bl', fl'', A, d5, d6, d7, d8, d9, d10, d11, d12, d13⟩ := g1
  rw [c2]
  refine ⟨d1, d1, by rw [d2, r1], by rw [d3, r2], by omega, bl', fl'', A, d5, d6, d7, d8, d9,
    ?_, ?_, ?_, d13⟩
  · intro b hb
    rw [d10 b hb, c5 b hb]
  · intro b hb hst
    exact d11 b ((c5 b hst).2 hb) hst
  · intro b hb hst x hx1 hx2
    have hb' := (c5 b hst).2 hb
    have fb := h.1.blk hb
    have fb' := c1.1.blk hb'
    rw [d12 b hb' hst x hx1 hx2]
    apply c7 x (h.1.quiet_of_used hb hst hx1 hx2) (by omega)
    rcases c1.1.sep hb' hMm with e' | e' | e'
    · subst e'; rw [c3] at hst; cases hst
    · omega
    · omega

theorem Allocated.carry {s s0 : Heap} {bl : List Blk} {size p : Nat} {s' : Heap}
    (h : Allocated s bl size p s') (hm : s.mem = s0.mem) (hlo : s.lo = s0.lo)
    (hbrk : s.brk = s0.brk) (hcap : s.cap = s0.cap) : Allocated s0 bl size p s' := by
  obtain ⟨d1, d2, d3, d4, d5⟩ := h
  refine ⟨d1, by rw [d2, hlo], by rw [d3, hcap], by rw [← hbrk]; exact d4, ?_⟩
  rw [← hm]
  exact d5

theorem WF.carry_regs {s s' : Heap} {bl : List Blk} {fl : Nat → List Nat} (h : WF s bl fl)
    (hm : s'.mem = s.mem) (hlo : s'.lo = s.lo) (hbrk : s'.brk = s.brk) (hcap : s'.cap = s.cap) :
    WF s' bl fl :=
  ⟨h.1.regs hm hlo hbrk hcap, h.2⟩

/-- `mm_malloc` on a well-formed heap, for a request whose normalised size is
a positive `int`: it returns; a null result means that the provider refused the
growth by `MAX(CHUNKSIZE, newsize)` and no heap word or bound has changed; a
non-null result is a fresh used block of at least the normalised size. -/
theorem mm_malloc_spec {s : Heap} {bl : List Blk} {fl : Nat → List Nat} (h : WF s bl fl)
    {n : Nat} (hn0 : n ≠ 0) (hn : n ≤ 2147483632) :
    ∃ p s', mm_malloc s n = Except.ok (p, s') ∧
      ((p = 0 ∧ s'.mem = s.mem ∧ s'.lo = s.lo ∧ s'.brk = s.brk ∧ s'.cap = s.cap ∧
          s.cap < s.brk + MAX CHUNKSIZE (normSize n)) ∨
       Allocated s bl (normSize n) p s') := by
  have hns := normSize_eq hn
  have h8 : normSize n % 8 = 0 := by omega
  have h16 : 16 ≤ normSize n := by omega
  have hlt : normSize n < 2147483648 := by omega
  have hmax := MAX_CHUNK hlt
  have m8 : MAX CHUNKSIZE (normSize n) % 8 = 0 := by
    rw [hmax]; split <;> omega
  have mge : normSize n ≤ MAX CHUNKSIZE (normSize n) := by
    rw [hmax]; split <;> omega
  unfold mm_malloc
  rw [if_neg hn0]
  show ∃ p s', (match findWrapper s (normSize n) with
    | Except.error e => Except.error e
    | Except.ok (ptr, s1) =>
      if ptr = 0 then
        if (extendHeap s1 (MAX CHUNKSIZE (normSize n))).1 = 0 then
          Except.ok (0, (extendHeap s1 (MAX CHUNKSIZE (normSize n))).2)
        else Except.ok ((extendHeap s1 (MAX CHUNKSIZE (normSize n))).1,
          split (extendHeap s1 (MAX CHUNKSIZE (normSize n))).2
            (extendHeap s1 (MAX CHUNKSIZE (normSize n))).1 (normSize n))
      else Except.ok (ptr, split s1 ptr (normSize n))) = Except.ok (p, s') ∧ _
  -- the tail of the function after an unsuccessful search
  have tail : ∀ s1, s1.mem = s.mem → s1.lo = s.lo → s1.brk = s.brk → s1.cap = s.cap →
      ∃ p s', (if (extendHeap s1 (MAX CHUNKSIZE (normSize n))).1 = 0 then
          (Except.ok (0, (extendHeap s1 (MAX CHUNKSIZE (normSize n))).2) :
            Except Fault (Nat × Heap))
        else Except.ok ((extendHeap s1 (MAX CHUNKSIZE (normSize n))).1,
          split (extendHeap s1 (MAX CHUNKSIZE (normSize n))).2
            (extendHeap s1 (MAX CHUNKSIZE (normSize n))).1 (normSize n))) = Except.ok (p, s') ∧
        ((p = 0 ∧ s'.mem = s.mem ∧ s'.lo = s.lo ∧ s'.brk = s.brk ∧ s'.cap = s.cap ∧
          s.cap < s.brk + MAX CHUNKSIZE (normSize n)) ∨
         Allocated s bl (normSize n) p s') := by
    intro s1 e1 e2 e3 e4
    have h1 : WF s1 bl fl := h.carry_regs e1 e2 e3 e4
    by_cases hcap : s1.brk + MAX CHUNKSIZE (normSize n) ≤ s1.cap
    · obtain ⟨g1, g2⟩ := grow_split h1 h8 h16 mge m8 hcap
      rw [if_neg g1]
      exact ⟨_, _, rfl, Or.inr (g2.carry e1 e2 e3 e4)⟩
    · rw [extendHeap_refused hcap, if_pos rfl]
      refine ⟨_, _, rfl, Or.inl ⟨rfl, e1, e2, e3, e4, ?_⟩⟩
      rw [e3, e4] at hcap
      omega
  by_cases hb : bypass s (normSize n)
  · rw [findWrapper_bypass hb]
    by_cases hcap : s.brk + normSize n ≤ s.cap
    · obtain ⟨g1, g2⟩ := grow_split h h8 h16 (le_refl _) h8 hcap
      simp only
      rw [if_neg g1]
      exact ⟨_, _, rfl, Or.inr g2⟩
    · rw [extendHeap_refused hcap]
      simp only [if_true]
      exact tail s rfl rfl rfl rfl
  · obtain ⟨s1, e0, e1, e2, e3, e4⟩ := findWrapper_search h.1 hb
    rw [e0]
    simp only
    have h0 : ∀ j, j < 14 → ∀ x ∈ fl j, x ≠ 0 := fun j hj => Seg_ne_zero (h.1.segs j hj)
    by_cases hp : pickFrom fl (fun n => GET_SIZE s (HDRP n)) (normSize n)
        (14 - findStart (normSize n)) (findStart (normSize n)) = 0
    · rw [if_pos hp]
      exact tail s1 e1 e2 e3 e4
    · rw [if_neg hp]
      have hi := findStart_lt (normSize n)
      rcases pickFrom_spec fl (fun n => GET_SIZE s (HDRP n)) (normSize n) h0
          (14 - findStart (normSize n)) (findStart (normSize n)) (by omega) with
        ⟨e, _⟩ | ⟨_, j, j1, j2, j3, j4, _, _⟩
      · exact absurd e hp
      · have h1 : WF s1 bl fl := h.carry_regs e1 e2 e3 e4
        obtain ⟨X, hXm, hXbp, hXst, _⟩ := h.1.node (by omega) j3
        have gX := h.1.get_size hXm
        rw [← hXbp] at j4
        simp only [HDRP, WSIZE] at j4
        rw [gX] at j4
        obtain ⟨g1, _⟩ := found_split h1 hXm hXst h8 h16 j4
        rw [← hXbp]
        exact ⟨_, _, rfl, Or.inr (g1.carry e1 e2 e3 e4)⟩

/-! ## Stores into the payload of a used block -/

theorem Str.bp_inj {s : Heap} {bl : List Blk} {fl : Nat → List Nat} (h : Str s bl fl)
    {b c : Blk} (hb : b ∈ bl) (hc : c ∈ bl) (e : b.bp = c.bp) : b = c := by
  have fb := h.blk hb
  have fc := h.blk hc
  rcases h.sep hb hc with e' | e' | e'
  · exact e'
  · omega
  · omega

/-- Changing cells of the payload of a used block keeps the heap well-formed. -/
theorem WF.payload_write {s s' : Heap} {bl : List Blk} {fl : Nat → List Nat} (h : WF s bl fl)
    {X : Blk} (hXm : X ∈ bl) (hX : X.st = St.used)
    (hfr : ∀ x, x < X.bp ∨ X.bp + X.size - 8 ≤ x → s'.mem x = s.mem x)
    (hlo : s'.lo = s.lo) (hbrk : s'.brk = s.brk) (hcap : s'.cap = s.cap) : WF s' bl fl := by
  obtain ⟨pre, post, e⟩ := List.append_of_mem hXm
  subst e
  obtain ⟨hS, hnl, hadj⟩ := h
  have fX := hS.blk hXm
  obtain ⟨hpre, hpost⟩ := hS.around
  refine ⟨?_, hnl, hadj⟩
  apply @Str.retile _ _ _ ([X]) ([X]) _ _ (X.bp) (X.bp + X.size) hS hpre hpost
    (by omega)
  · intro b hb; simp at hb; subst hb; simp [hX]
  · intro b hb; simp at hb; subst hb; simp [hX]
  · intro x hx
    exact hfr x (by omega)
  · refine ⟨rfl, fX.2.2.2.1, fX.2.2.2.2.1, ?_, ?_, ?_, rfl⟩
    · rw [hfr _ (by omega)]; exact fX.2.2.2.2.2.1
    · rw [hfr _ (by omega)]; exact fX.2.2.2.2.2.2.1
    · intro hl; rw [hX] at hl; cases hl
  · exact hlo
  · exact hbrk
  · exact hcap

/-! ## Initialisation -/

theorem slots_step (s : Heap) (lo k : Nat) (h : ∀ i, i < k → s.mem (lo + 8 * i) = 0) :
    ∀ i, i < k + 1 → (PUT s (lo + 8 * k) 0).mem (lo + 8 * i) = 0 := by
  intro i hi
  rw [PUT_mem]
  by_cases e : i = k
  · subst e; rw [if_pos rfl]
  · rw [if_neg (by omega)]
    exact h i (by omega)

theorem slots_keep (s : Heap) (lo k a v : Nat) (h : ∀ i, i < k → s.mem (lo + 8 * i) = 0)
    (ha : ∀ i, i < k → lo + 8 * i ≠ a) : ∀ i, i < k → (PUT s a v).mem (lo + 8 * i) = 0 := by
  intro i hi
  rw [PUT_mem, if_neg (ha i hi)]
  exact h i hi

/-- The state that `mm_init` has built before its first growth is well-formed,
with no block and empty lists. -/
theorem mm_init_base {s0 : Heap} (hf : Fresh s0) (hcap : s0.brk + 120 ≤ s0.cap) :
    Str (PUT (PUT (PUT (PUT (PUT (PUT (PUT (PUT (PUT (PUT (PUT (PUT (PUT (PUT (PUT (PUT
        (PUT { s0 with brk := s0.brk + 30 * WSIZE } (s0.brk + LIST1) 0) (s0.brk + LIST2) 0)
        (s0.brk + LIST3) 0) (s0.brk + LIST4) 0) (s0.brk + LIST5) 0) (s0.brk + LIST6) 0)
        (s0.brk + LIST7) 0) (s0.brk + LIST8) 0) (s0.brk + LIST9) 0) (s0.brk + LIST10) 0)
        (s0.brk + LIST11) 0) (s0.brk + LIST12) 0) (s0.brk + LIST13) 0) (s0.brk + LIST14) 0)
        (s0.brk + LIST14 + WSIZE) (PACK DSIZE 1)) (s0.brk + LIST14 + 2 * WSIZE) (PACK DSIZE 1))
        (s0.brk + LIST14 + 3 * WSIZE) (PACK 0 1)) [] (fun _ => []) := by
  obtain ⟨f1, f2, f3⟩ := hf
  have q0 : ∀ i, i < 0 → ({ s0 with brk := s0.brk + 30 * WSIZE } : Heap).mem (s0.brk + 8 * i) = 0 :=
    fun i hi => absurd hi (by omega)
  have q1 := slots_step _ s0.brk 0 q0
  have q2 := slots_step _ s0.brk 1 q1
  have q3 := slots_step _ s0.brk 2 q2
  have q4 := slots_step _ s0.brk 3 q3
  have q5 := slots_step _ s0.brk 4 q4
  have q6 := slots_step _ s0.brk 5 q5
  have q7 := slots_step _ s0.brk 6 q6
  have q8 := slots_step _ s0.brk 7 q7
  have q9 := slots_step _ s0.brk 8 q8
  have q10 := slots_step _ s0.brk 9 q9
  have q11 := slots_step _ s0.brk 10 q10
  have q12 := slots_step _ s0.brk 11 q11
  have q13 := slots_step _ s0.brk 12 q12
  have q14 := slots_step _ s0.brk 13 q13
  have q15 := slots_keep _ s0.brk 14 (s0.brk + 108) (PACK DSIZE 1) q14 (fun i hi => by omega)
  have q16 := slots_keep _ s0.brk 14 (s0.brk + 112) (PACK DSIZE 1) q15 (fun i hi => by omega)
  have q17 := slots_keep _ s0.brk 14 (s0.brk + 116) (PACK 0 1) q16 (fun i hi => by omega)
  have p9 : PACK DSIZE 1 % 4294967296 = 9 := by decide
  have p1 : PACK 0 1 % 4294967296 = 1 := by decide
  have a1 : s0.brk + LIST14 + WSIZE = s0.brk + 108 := rfl
  have a2 : s0.brk + LIST14 + 2 * WSIZE = s0.brk + 112 := rfl
  have a3 : s0.brk + LIST14 + 3 * WSIZE = s0.brk + 116 := rfl
  have a4 : s0.brk + 30 * WSIZE = s0.brk + 120 := rfl
  rw [a1, a2, a3, a4]
  refine
    { lo8 := f2, capb := f3, brkcap := hcap, pro1 := ?_, pro2 := ?_,
      epi := ?_, tiles := ?_, segs := ?_, nodup := fun _ _ => List.nodup_nil,
      link := fun _ _ _ => by simp }
  · show (PUT _ _ _).mem (s0.lo + 108) = 9
    rw [← f1, PUT_mem, if_neg (by omega), PUT_mem, if_neg (by omega), PUT_mem, if_pos rfl, p9]
  · show (PUT _ _ _).mem (s0.lo + 112) = 9
    rw [← f1, PUT_mem, if_neg (by omega), PUT_mem, if_pos rfl, p9]
  · show (PUT _ _ _).mem (s0.brk + 120 - 4) = 1
    rw [PUT_mem, if_pos (by omega), p1]
  · show s0.lo + 120 = s0.brk + 120
    rw [f1]
  · intro i hi
    show (PUT _ _ _).mem (s0.lo + 8 * i) = 0
    rw [← f1]
    exact q17 i hi

/-- A successful `mm_init` on a fresh provider leaves a well-formed heap without
used blocks. -/
theorem mm_init_spec {s0 : Heap} (hf : Fresh s0) (hok : (mm_init s0).1 = 0) :
    ∃ bl fl, WF (mm_init s0).2 bl fl ∧ (∀ b ∈ bl, b.st ≠ St.used) ∧
      (mm_init s0).2.lo = s0.lo ∧ (mm_init s0).2.cap = s0.cap := by
  unfold mm_init mem_sbrk at hok ⊢
  by_cases hcap : s0.brk + 30 * WSIZE ≤ s0.cap
  · rw [if_pos hcap] at hok ⊢
    simp only at hok ⊢
    have hS := mm_init_base hf hcap
    have hW : WF _ [] (fun _ => []) := ⟨hS, by simp, List.chain'_nil⟩
    by_cases hcap2 : s0.brk + 30 * WSIZE + 2 * DSIZE ≤ s0.cap
    · obtain ⟨pre', post', M, fl', c1, c2, c3, c4, c5, c6, r1, r2, r3, r4, r5, c7⟩ :=
        @extendHeap_spec _ _ _ hW (2 * DSIZE) (by decide) (by decide) hcap2
      have hMm : M ∈ pre' ++ M :: post' := by simp
      have fM := c1.1.blk hMm
      rw [if_neg (by rw [c2]; omega)]
      refine ⟨_, _, c1, ?_, r1, r2⟩
      intro b hb hst
      have := (c5 b hst).1 hb
      simp at this
    · exfalso
      rw [extendHeap_refused hcap2, if_pos rfl] at hok
      simp at hok
  · exfalso
    rw [if_neg hcap] at hok
    simp at hok

/-! ## Resize -/

theorem mm_realloc_stay {s : Heap} {p n : Nat} (hp : p ≠ 0) (hn : n ≠ 0)
    (h : normSize n ≤ GET_SIZE s (HDRP p)) : mm_realloc s p n = Except.ok (p, s) := by
  unfold normSize at *
  unfold mm_realloc
  rw [if_neg hp, if_neg hn]
  simp only
  rw [if_pos h]

theorem mm_realloc_inplace {s : Heap} {p n : Nat} (hp : p ≠ 0) (hn : n ≠ 0)
    (h : ¬ normSize n ≤ GET_SIZE s (HDRP p))
    (h1 : GET_ALLOC s (HDRP (NEXT_BLKP s p)) = 0)
    (h2 : (GET_SIZE s (HDRP p) + GET_SIZE s (HDRP (NEXT_BLKP s p))) % 4294967296 ≥ normSize n) :
    mm_realloc s p n = Except.ok (p,
      PUT (PUT (deleteList s (NEXT_BLKP s p) (GET_SIZE s (HDRP (NEXT_BLKP s p)))) (HDRP p)
          (PACK ((GET_SIZE s (HDRP p) + GET_SIZE s (HDRP (NEXT_BLKP s p))) % 4294967296) 1))
        (FTRP (PUT (deleteList s (NEXT_BLKP s p) (GET_SIZE s (HDRP (NEXT_BLKP s p)))) (HDRP p)
          (PACK ((GET_SIZE s (HDRP p) + GET_SIZE s (HDRP (NEXT_BLKP s p))) % 4294967296) 1)) p)
        (PACK ((GET_SIZE s (HDRP p) + GET_SIZE s (HDRP (NEXT_BLKP s p))) % 4294967296) 1)) := by
  unfold normSize at *
  unfold mm_realloc
  rw [if_neg hp, if_neg hn]
  simp only
  rw [if_neg h, if_pos ⟨fun c => c h1, h2⟩]

theorem mm_realloc_move {s : Heap} {p n : Nat} (hp : p ≠ 0) (hn : n ≠ 0)
    (h : ¬ normSize n ≤ GET_SIZE s (HDRP p))
    (h1 : ¬ (GET_ALLOC s (HDRP (NEXT_BLKP s p)) = 0 ∧
      (GET_SIZE s (HDRP p) + GET_SIZE s (HDRP (NEXT_BLKP s p))) % 4294967296 ≥ normSize n)) :
    mm_realloc s p n =
      match mm_malloc s (normSize n) with
      | Except.error e => Except.error e
      | Except.ok (newptr, s1) =>
        if newptr = 0 then Except.error Fault.nullWrite
        else Except.ok (newptr, mm_free (memcpy s1 newptr p (GET_SIZE s (HDRP p))) p) := by
  unfold normSize at *
  unfold mm_realloc
  rw [if_neg hp, if_neg hn]
  simp only
  rw [if_neg h, if_neg (fun c => h1 ⟨by simpa using c.1, c.2⟩)]

/-- In-place growth: the free successor is unlinked and absorbed. -/
theorem realloc_inplace_spec {s : Heap} {pre post : List Blk} {X N : Blk} {fl : Nat → List Nat}
    (h : WF s (pre ++ X :: N :: post) fl) (hX : X.st = St.used) (hN : N.st = St.listed) :
    WF (PUT (PUT (deleteList s N.bp N.size) (X.bp - 4) (PACK (X.size + N.size) 1))
        (X.bp + (X.size + N.size) - 8) (PACK (X.size + N.size) 1))
      (pre ++ ⟨X.bp, X.size + N.size, St.used⟩ :: post)
      (Function.update fl (findStart N.size) ((fl (findStart N.size)).erase N.bp)) ∧
    N.bp = X.bp + X.size ∧
    ∀ x, Quiet s (pre ++ X :: N :: post) x → x ≠ X.bp - 4 → x ≠ X.bp + (X.size + N.size) - 8 →
      (PUT (PUT (deleteList s N.bp N.size) (X.bp - 4) (PACK (X.size + N.size) 1))
        (X.bp + (X.size + N.size) - 8) (PACK (X.size + N.size) 1)).mem x = s.mem x := by
  obtain ⟨hS, hnl, hadj⟩ := h
  have hXm : X ∈ pre ++ X :: N :: post := by simp
  have hNm : N ∈ pre ++ X :: N :: post := by simp
  have fX := hS.blk hXm
  have fN := hS.blk hNm
  have hNbp : N.bp = X.bp + X.size := by
    obtain ⟨_, nr⟩ := hS.next_read
    rcases nr with ⟨e, _⟩ | ⟨N', p0, e1, _, e3⟩
    · simp at e
    · simp at e1; rw [← e1.1] at e3; exact e3
  have hP : PACK (X.size + N.size) 1 % 4294967296 = X.size + N.size + 1 := by
    rw [PACK_eq _ _ (by omega) (by omega)]; exact Nat.mod_eq_of_lt (by omega)
  have h1 : Str (deleteList s N.bp N.size) (pre ++ X :: { N with st := St.loose } :: post)
      (Function.update fl (findStart N.size) ((fl (findStart N.size)).erase N.bp)) := by
    have h' : Str s ((pre ++ [X]) ++ N :: post) fl := by simpa using hS
    simpa using deleteList_Str h' hN
  obtain ⟨hpre1, hrest1⟩ := h1.around
  have hpost1 : Tiles (deleteList s N.bp N.size).mem (X.bp + (X.size + N.size)) post
      (deleteList s N.bp N.size).brk := by
    have := hrest1.2.2.2.2.2.2
    simpa [Nat.add_assoc] using this
  have h3 : Str (PUT (PUT (deleteList s N.bp N.size) (X.bp - 4) (PACK (X.size + N.size) 1))
      (X.bp + (X.size + N.size) - 8) (PACK (X.size + N.size) 1))
      (pre ++ ([⟨X.bp, X.size + N.size, St.used⟩] ++ post))
      (Function.update fl (findStart N.size) ((fl (findStart N.size)).erase N.bp)) := by
    apply @Str.retile _ _ _ ([X, { N with st := St.loose }]) _ _ _ (X.bp) (X.bp + (X.size + N.size)) h1 hpre1 hpost1 (by omega)
    · intro b hb
      simp at hb
      rcases hb with e | e <;> subst e <;> simp [hX]
    · intro b hb
      simp at hb
      subst hb; simp
    · intro x hx
      rw [PUT_mem, PUT_mem, if_neg (by omega), if_neg (by omega)]
    · refine ⟨rfl, ?_, ?_, ?_, ?_, ?_, rfl⟩
      · show (X.size + N.size) % 8 = 0
        omega
      · show 16 ≤ X.size + N.size
        omega
      · show (PUT _ _ _).mem (X.bp - 4) = X.size + N.size + 1
        rw [PUT_mem, PUT_mem, if_neg (by omega), if_pos rfl, hP]
      · show (PUT _ _ _).mem (X.bp + (X.size + N.size) - 8) = X.size + N.size + 1
        rw [PUT_mem, if_pos rfl, hP]
      · intro hl; cases hl
    · rfl
    · rfl
    · rfl
  refine ⟨⟨h3, ?_, ?_⟩, hNbp, ?_⟩
  · intro b hb
    simp only [List.mem_append, List.mem_cons, List.mem_singleton, List.not_mem_nil,
      or_false] at hb
    rcases hb with e | e | e
    · exact hnl b (by simp [e])
    · subst e; simp
    · exact hnl b (by simp [e])
  · obtain ⟨a1, a2⟩ := NoAdjFree_split hadj
    exact NoAdjFree_join a1 (@NoAdjFree_split ([]) _ _ a2).2 (Or.inl rfl) (Or.inl rfl)
  · intro x hq hx1 hx2
    rw [PUT_mem, PUT_mem, if_neg hx2, if_neg hx1]
    exact deleteList_quiet hS hNm hN hq

theorem memcpy_mem (s : Heap) (dst src n a : Nat) :
    (memcpy s dst src n).mem a =
      if dst ≤ a ∧ a < dst + n then s.mem (src + (a - dst)) else s.mem a := rfl

/-- `mm_realloc` on a used block of a well-formed heap, for a non-zero size
whose normalised size can itself be requested: either the relocation fails on a
refused growth and the copy goes through the null pointer, or the call returns
a used block of at least the normalised size that starts with the old payload,
and no other used block has changed. -/
theorem mm_realloc_spec {s : Heap} {bl : List Blk} {fl : Nat → List Nat} (h : WF s bl fl)
    {X : Blk} (hXm : X ∈ bl) (hX : X.st = St.used) {n : Nat} (hn0 : n ≠ 0)
    (hn : n ≤ 2147483624) :
    (mm_realloc s X.bp n = Except.error Fault.nullWrite ∧
      s.cap < s.brk + MAX CHUNKSIZE (normSize (normSize n))) ∨
    ∃ q s', mm_realloc s X.bp n = Except.ok (q, s') ∧ q ≠ 0 ∧ s'.lo = s.lo ∧ s'.cap = s.cap ∧
      ∃ bl' fl' A, WF s' bl' fl' ∧ A ∈ bl' ∧ A.bp = q ∧ A.st = St.used ∧ normSize n ≤ A.size ∧
        (∀ b, b.st = St.used → (b ∈ bl' ↔ (b ∈ bl ∧ b ≠ X) ∨ b = A)) ∧
        (q = X.bp ∨ ∀ b ∈ bl, b.st = St.used → b.bp ≠ q) ∧
        (∀ x, X.bp ≤ x → x < X.bp + X.size - 8 → s'.mem (q + (x - X.bp)) = s.mem x) ∧
        (∀ b ∈ bl, b.st = St.used → b ≠ X → ∀ x, b.bp - 4 ≤ x → x < b.bp + b.size - 4 →
          s'.mem x = s.mem x) := by
  have hS := h.1
  have fX := hS.blk hXm
  have gX : GET_SIZE s (HDRP X.bp) = X.size := hS.get_size hXm
  have hp0 : X.bp ≠ 0 := by omega
  have hns : normSize n = (n + 15) / 8 * 8 := normSize_eq (by omega)
  by_cases hfit : normSize n ≤ X.size
  · -- the block is large enough already
    right
    refine ⟨X.bp, s, mm_realloc_stay hp0 hn0 (by rw [gX]; exact hfit), hp0, rfl, rfl, bl, fl, X,
      h, hXm, rfl, hX, hfit, ?_, Or.inl rfl, ?_, ?_⟩
    · intro b _
      constructor
      · intro hb
        by_cases e : b = X
        · exact Or.inr e
        · exact Or.inl ⟨hb, e⟩
      · rintro (⟨hb, _⟩ | e)
        · exact hb
        · rw [e]; exact hXm
    · intro x hx1 hx2
      rw [show X.bp + (x - X.bp) = x by omega]
    · intro b _ _ _ x _ _
      rfl
  obtain ⟨pre, post, e⟩ := List.append_of_mem hXm
  subst e
  obtain ⟨nb, nr⟩ := hS.next_read
  by_cases hin : ∃ N post0, post = N :: post0 ∧ N.st = St.listed ∧ normSize n ≤ X.size + N.size
  · -- the free successor is absorbed
    right
    obtain ⟨N, post0, e, hN, hsz⟩ := hin
    subst e
    have hNm : N ∈ pre ++ X :: N :: post0 := by simp
    have fN := hS.blk hNm
    obtain ⟨w1, hNbp, w3⟩ := realloc_inplace_spec h hX hN
    have gN : GET_SIZE s (HDRP (NEXT_BLKP s X.bp)) = N.size := by
      rw [nb, ← hNbp]; exact hS.get_size hNm
    have aN : GET_ALLOC s (HDRP (NEXT_BLKP s X.bp)) = 0 := by
      rw [nb, ← hNbp]
      have := hS.get_alloc hNm
      rw [hN] at this
      exact this
    have hmod : (X.size + N.size) % 4294967296 = X.size + N.size := Nat.mod_eq_of_lt (by omega)
    have hval := mm_realloc_inplace (s := s) (p := X.bp) (n := n) hp0 hn0 (by rw [gX]; exact hfit)
      aN (by rw [gX, gN, hmod]; exact hsz)
    rw [gX, gN, hmod, nb, ← hNbp] at hval
    have hftr : FTRP (PUT (deleteList s N.bp N.size) (HDRP X.bp) (PACK (X.size + N.size) 1)) X.bp =
        X.bp + (X.size + N.size) - 8 := by
      unfold FTRP
      rw [GET_SIZE_PUT, if_pos rfl, PACK_eq _ _ (by omega) (by omega),
        Nat.mod_eq_of_lt (by omega), size_of_word _ 1 (by omega) (by omega) (by omega)]
      rfl
    rw [hftr] at hval
    refine ⟨X.bp, _, hval, hp0, by simp [HDRP], by simp [HDRP], _, _,
      ⟨X.bp, X.size + N.size, St.used⟩, w1, by simp, rfl, rfl, hsz, ?_, Or.inl rfl, ?_, ?_⟩
    · intro b hb
      simp only [List.mem_append, List.mem_cons]
      constructor
      · rintro (e | e | e)
        · refine Or.inl ⟨Or.inl e, ?_⟩
          intro e'; subst e'
          have := (Tiles_middle hS.tiles).1 b e
          omega
        · exact Or.inr e
        · refine Or.inl ⟨Or.inr (Or.inr (Or.inr e)), ?_⟩
          intro e'; subst e'
          have := (Tiles_middle hS.tiles).2 b (List.mem_cons_of_mem _ e)
          omega
      · rintro (⟨e | e | e | e, hne⟩ | e)
        · exact Or.inl e
        · exact absurd e hne
        · subst e; rw [hN] at hb; cases hb
        · exact Or.inr (Or.inr e)
        · exact Or.inr (Or.inl e)
    · intro x hx1 hx2
      rw [show X.bp + (x - X.bp) = x by omega]
      exact w3 x (hS.quiet_of_used hXm hX (by omega) (by omega)) (by omega) (by omega)
    · intro b hb hst hne x hx1 hx2
      have fb := hS.blk hb
      apply w3 x (hS.quiet_of_used hb hst hx1 hx2)
      · rcases hS.sep hb hXm with e | e | e
        · exact absurd e hne
        · omega
        · omega
      · rcases hS.sep hb hNm with e | e | e
        · subst e; rw [hN] at hst; cases hst
        · omega
        · omega
  · -- relocation
    have hcond : ¬ (GET_ALLOC s (HDRP (NEXT_BLKP s X.bp)) = 0 ∧
        (GET_SIZE s (HDRP X.bp) + GET_SIZE s (HDRP (NEXT_BLKP s X.bp))) % 4294967296 ≥
          normSize n) := by
      rintro ⟨c1, c2⟩
      rcases nr with ⟨_, e⟩ | ⟨N, post0, e1, e2, e3⟩
      · rw [e] at c1; cases c1
      · subst e1
        have hNm : N ∈ pre ++ X :: N :: post0 := by simp
        have fN := hS.blk hNm
        have hNst : N.st = St.listed := by
          apply St.listed_of _ (h.2.1 N hNm)
          intro hu
          rw [c1, hu] at e2
          cases e2
        apply hin
        refine ⟨N, post0, rfl, hNst, ?_⟩
        have gN : GET_SIZE s (HDRP (NEXT_BLKP s X.bp)) = N.size := by
          rw [nb, ← e3]; exact hS.get_size hNm
        rw [gX, gN, Nat.mod_eq_of_lt (by omega)] at c2
        exact c2
    have hval := mm_realloc_move (s := s) (p := X.bp) (n := n) hp0 hn0 (by rw [gX]; exact hfit)
      hcond
    rw [gX] at hval
    have hnn : normSize (normSize n) = normSize n + 8 := by
      rw [normSize_eq (n := normSize n) (by omega)]
      omega
    obtain ⟨q, s1, em, hres⟩ := mm_malloc_spec h (n := normSize n) (by omega) (by omega)
    rw [em] at hval
    simp only at hval
    rcases hres with ⟨q0, _, _, _, _, hc⟩ | ⟨q0, r1, r2, r3, bl1, fl1, A, w1, w2, w3, w4, w5, w6,
      w7, w8, _⟩
    · left
      rw [if_pos q0] at hval
      exact ⟨hval, hc⟩
    · right
      rw [if_neg q0] at hval
      have fA := w1.1.blk w2
      have hXm1 : X ∈ bl1 := (w6 X hX).2 (Or.inl hXm)
      have hAX : A ≠ X := by
        intro e
        exact w7 X hXm hX (by rw [← e, w3])
      have sAX := w1.1.sep w2 hXm1
      have fX1 := w1.1.blk hXm1
      -- the copy stays inside the payload of the new block
      have w2' : WF (memcpy s1 q X.bp X.size) bl1 fl1 := by
        refine @WF.payload_write _ (memcpy s1 q X.bp X.size) _ _ w1 _ w2 w4 ?_ rfl rfl rfl
        intro x hx
        rw [memcpy_mem, if_neg]
        rw [w3] at hx
        omega
      obtain ⟨pre1, post1, e1⟩ := List.append_of_mem hXm1
      subst e1
      obtain ⟨pre', post', M, fl', c1, c2, c3, c4, c5, c6, c7, c8, c9, c10⟩ :=
        mm_free_spec w2' hX
      have hMm : M ∈ pre' ++ M :: post' := by simp
      have fM := c1.1.blk hMm
      have hAm' : A ∈ pre' ++ M :: post' := (c5 A w4).2 ⟨w2, hAX⟩
      have hMcell : ∀ b, b ∈ pre' ++ M :: post' → b.st = St.used → ∀ x, b.bp - 4 ≤ x →
          x < b.bp + b.size - 4 → x ≠ M.bp - 4 ∧ x ≠ M.bp + M.size - 8 := by
        intro b hb hst x hx1 hx2
        have fb := c1.1.blk hb
        rcases c1.1.sep hb hMm with e | e | e
        · subst e; rw [c2] at hst; cases hst
        · omega
        · omega
      obtain ⟨a1, a2, a3, a4, a5⟩ := c8
      refine ⟨q, _, hval, q0, by rw [a1]; exact r1, by rw [a3]; exact r2, _, fl', A,
        c1, hAm', w3, w4, by omega, ?_, Or.inr w7, ?_, ?_⟩
      · intro b hb
        rw [c5 b hb, w6 b hb]
        constructor
        · rintro ⟨e | e, hne⟩
          · exact Or.inl ⟨e, hne⟩
          · exact Or.inr e
        · rintro (⟨e, hne⟩ | e)
          · exact ⟨Or.inl e, hne⟩
          · exact ⟨Or.inr e, by rw [e]; exact hAX⟩
      · intro x hx1 hx2
        have hy1 : A.bp - 4 ≤ q + (x - X.bp) := by rw [w3]; omega
        have hy2 : q + (x - X.bp) < A.bp + A.size - 4 := by rw [w3]; omega
        have hm := hMcell A hAm' w4 _ hy1 hy2
        rw [c10 _ (w2'.1.quiet_of_used w2 w4 hy1 hy2)
          (by rcases sAX with e | e | e
              · exact absurd e hAX
              · rw [w3] at e; omega
              · rw [w3] at e; omega) hm.1 hm.2,
          memcpy_mem, if_pos ⟨by omega, by omega⟩,
          show X.bp + (q + (x - X.bp) - q) = x by omega]
        exact w8 X hXm hX x (by omega) (by omega)
      · intro b hb hst hne x hx1 hx2
        have hb1 : b ∈ pre1 ++ X :: post1 := (w6 b hst).2 (Or.inl hb)
        have hb' : b ∈ pre' ++ M :: post' := (c5 b hst).2 ⟨hb1, hne⟩
        have fb := w1.1.blk hb1
        have hm := hMcell b hb' hst x hx1 hx2
        have hbA : b ≠ A := by
          intro e
          exact w7 b hb hst (by rw [e, w3])
        rw [c10 x (w2'.1.quiet_of_used hb1 hst hx1 hx2)
          (by rcases w1.1.sep hb1 hXm1 with e | e | e
              · exact absurd e hne
              · omega
              · omega) hm.1 hm.2,
          memcpy_mem, if_neg
          (by rcases w1.1.sep hb1 w2 with e | e | e
              · exact absurd e hbA
              · rw [w3] at e; omega
              · rw [w3] at e; omega)]
        exact w8 b hb hst x hx1 hx2

/-! ## The invariant holds in every reachable state -/

theorem Inv_iff {s : Heap} {L : List Nat} :
    Inv s L ↔ ∃ bl fl, WF s bl fl ∧ L.Nodup ∧
      ∀ p, p ∈ L ↔ ∃ b ∈ bl, b.bp = p ∧ b.st = St.used := by
  unfold Inv WF
  constructor
  · rintro ⟨bl, fl, h1, h2, h3, h4, h5⟩
    exact ⟨bl, fl, ⟨h1, h2, h3⟩, h4, h5⟩
  · rintro ⟨bl, fl, ⟨h1, h2, h3⟩, h4, h5⟩
    exact ⟨bl, fl, h1, h2, h3, h4, h5⟩

theorem inv_init {s0 : Heap} (hf : Fresh s0) (hok : (mm_init s0).1 = 0) :
    Inv (mm_init s0).2 [] := by
  obtain ⟨bl, fl, h1, h2, _, _⟩ := mm_init_spec hf hok
  refine Inv_iff.2 ⟨bl, fl, h1, List.nodup_nil, ?_⟩
  intro p
  constructor
  · intro hp; simp at hp
  · rintro ⟨b, hb, _, hst⟩
    exact absurd hst (h2 b hb)

theorem inv_malloc {s : Heap} {L : List Nat} (h : Inv s L) {n p : Nat} {s' : Heap}
    (hn : n ≤ 2147483632) (e : mm_malloc s n = Except.ok (p, s')) :
    Inv s' (if p = 0 then L else p :: L) := by
  obtain ⟨bl, fl, hW, hnd, hL⟩ := Inv_iff.1 h
  by_cases hn0 : n = 0
  · subst hn0
    unfold mm_malloc at e
    rw [if_pos rfl] at e
    injection e with e
    injection e with e1 e2
    subst e1 e2
    rw [if_pos rfl]
    exact h
  · obtain ⟨p0, s0, e0, hres⟩ := mm_malloc_spec hW hn0 hn
    rw [e] at e0
    injection e0 with e0
    injection e0 with e1 e2
    subst e1 e2
    rcases hres with ⟨q0, m1, m2, m3, m4, _⟩ | ⟨q0, r1, r2, r3, bl1, fl1, A, w1, w2, w3, w4, w5,
      w6, w7, w8, _⟩
    · rw [if_pos q0]
      exact Inv_iff.2 ⟨bl, fl, hW.carry_regs m1 m2 m3 m4, hnd, hL⟩
    · rw [if_neg q0]
      refine Inv_iff.2 ⟨bl1, fl1, w1, ?_, ?_⟩
      · refine List.nodup_cons.2 ⟨?_, hnd⟩
        intro hp
        obtain ⟨b, hb, e1, e2⟩ := (hL p).1 hp
        exact w7 b hb e2 e1
      · intro x
        rw [List.mem_cons, hL x]
        constructor
        · rintro (e | ⟨b, hb, e1, e2⟩)
          · exact ⟨A, w2, by rw [w3, e], w4⟩
          · exact ⟨b, (w6 b e2).2 (Or.inl hb), e1, e2⟩
        · rintro ⟨b, hb, e1, e2⟩
          rcases (w6 b e2).1 hb with g | g
          · exact Or.inr ⟨b, g, e1, e2⟩
          · left; rw [← e1, g, w3]

theorem Inv.zero_not_mem {s : Heap} {L : List Nat} (h : Inv s L) : 0 ∉ L := by
  obtain ⟨bl, fl, hW, _, hL⟩ := Inv_iff.1 h
  intro h0
  obtain ⟨b, hb, e1, _⟩ := (hL 0).1 h0
  have := hW.1.blk hb
  omega

theorem inv_free {s : Heap} {L : List Nat} (h : Inv s L) {p : Nat} (hp : p = 0 ∨ p ∈ L) :
    Inv (mm_free s p) (L.erase p) := by
  by_cases hp0 : p = 0
  · subst hp0
    have : mm_free s 0 = s := by
      unfold mm_free
      rw [if_pos rfl]
    rw [this, List.erase_of_not_mem h.zero_not_mem]
    exact h
  · obtain ⟨bl, fl, hW, hnd, hL⟩ := Inv_iff.1 h
    have hpL : p ∈ L := by
      rcases hp with e | e
      · exact absurd e hp0
      · exact e
    obtain ⟨X, hXm, hXp, hX⟩ := (hL p).1 hpL
    obtain ⟨pre, post, e⟩ := List.append_of_mem hXm
    subst e
    subst hXp
    obtain ⟨pre', post', M, fl', c1, c2, c3, c4, c5, _⟩ := mm_free_spec hW hX
    refine Inv_iff.2 ⟨_, fl', c1, hnd.erase _, ?_⟩
    intro x
    rw [hnd.mem_erase_iff, hL x]
    constructor
    · rintro ⟨hne, b, hb, e1, e2⟩
      refine ⟨b, (c5 b e2).2 ⟨hb, ?_⟩, e1, e2⟩
      intro e
      rw [e] at e1
      exact hne e1.symm
    · rintro ⟨b, hb, e1, e2⟩
      obtain ⟨g1, g2⟩ := (c5 b e2).1 hb
      refine ⟨?_, b, g1, e1, e2⟩
      intro e
      exact g2 (hW.1.bp_inj g1 hXm (by rw [e1, e]))

theorem inv_write {s : Heap} {L : List Nat} (h : Inv s L) {p a v : Nat} (hp : p ∈ L)
    (h1 : p ≤ a) (h2 : a < p + (GET_SIZE s (HDRP p) - DSIZE)) : Inv (userWrite s a v) L := by
  obtain ⟨bl, fl, hW, hnd, hL⟩ := Inv_iff.1 h
  obtain ⟨X, hXm, hXp, hX⟩ := (hL p).1 hp
  subst hXp
  have gX : GET_SIZE s (HDRP X.bp) = X.size := hW.1.get_size hXm
  rw [gX] at h2
  simp only [DSIZE] at h2
  have fX := hW.1.blk hXm
  refine Inv_iff.2 ⟨bl, fl, ?_, hnd, hL⟩
  refine @WF.payload_write _ (userWrite s a v) _ _ hW _ hXm hX ?_ rfl rfl rfl
  intro x hx
  show (if x = a then v else s.mem x) = s.mem x
  rw [if_neg (by omega)]

theorem inv_realloc {s : Heap} {L : List Nat} (h : Inv s L) {p n q : Nat} {s' : Heap}
    (hp : p = 0 ∨ p ∈ L) (hn : n ≤ 2147483624) (e : mm_realloc s p n = Except.ok (q, s')) :
    Inv s' (if q = 0 then L.erase p else q :: L.erase p) := by
  by_cases hp0 : p = 0
  · subst hp0
    have e' : mm_malloc s n = Except.ok (q, s') := by
      unfold mm_realloc at e
      rw [if_pos rfl] at e
      exact e
    rw [List.erase_of_not_mem h.zero_not_mem]
    exact inv_malloc h (by omega) e'
  have hpL : p ∈ L := by
    rcases hp with e | e
    · exact absurd e hp0
    · exact e
  by_cases hn0 : n = 0
  · subst hn0
    unfold mm_realloc at e
    rw [if_neg hp0, if_pos rfl] at e
    injection e with e
    injection e with e1 e2
    subst e1 e2
    rw [if_pos rfl]
    exact inv_free h hp
  obtain ⟨bl, fl, hW, hnd, hL⟩ := Inv_iff.1 h
  obtain ⟨X, hXm, hXp, hX⟩ := (hL p).1 hpL
  subst hXp
  rcases mm_realloc_spec hW hXm hX hn0 hn with ⟨e0, _⟩ | ⟨q0, s0, e0, hq, _, _, bl', fl', A, w1,
    w2, w3, w4, w5, w6, w7, _, _⟩
  · rw [e] at e0; cases e0
  · rw [e] at e0
    injection e0 with e0
    injection e0 with e1 e2
    subst e1 e2
    rw [if_neg hq]
    refine Inv_iff.2 ⟨bl', fl', w1, ?_, ?_⟩
    · refine List.nodup_cons.2 ⟨?_, hnd.erase _⟩
      intro hmem
      obtain ⟨hne, hq'⟩ := hnd.mem_erase_iff.1 hmem
      rcases w7 with g | g
      · exact hne g
      · obtain ⟨b, hb, e1, e2⟩ := (hL q).1 hq'
        exact g b hb e2 e1
    · intro x
      rw [List.mem_cons, hnd.mem_erase_iff, hL x]
      constructor
      · rintro (e | ⟨hne, b, hb, e1, e2⟩)
        · exact ⟨A, w2, by rw [w3, e], w4⟩
        · refine ⟨b, (w6 b e2).2 (Or.inl ⟨hb, ?_⟩), e1, e2⟩
          intro e
          rw [e] at e1
          exact hne e1.symm
      · rintro ⟨b, hb, e1, e2⟩
        rcases (w6 b e2).1 hb with ⟨g1, g2⟩ | g
        · right
          refine ⟨?_, b, g1, e1, e2⟩
          intro e
          exact g2 (hW.1.bp_inj g1 hXm (by rw [e1, e]))
        · left; rw [← e1, g, w3]

/-- Every reachable state satisfies the heap invariant. -/
theorem reach_inv {s : Heap} {L : List Nat} (h : Reach s L) : Inv s L := by
  induction h with
  | init s0 hf hok => exact inv_init hf hok
  | malloc s L n p s' _ hn e ih => exact inv_malloc ih hn e
  | free s L p _ hp ih => exact inv_free ih hp
  | realloc s L p n q s' _ hp hn e ih => exact inv_realloc ih hp hn e
  | write s L p a v _ hp h1 h2 ih => exact inv_write ih hp h1 h2

/-! ## Walking the heap from the prologue -/

/-- A block that is not the first of a tiling has a block ending where it starts. -/
theorem Tiles_pred {m : Nat → Nat} {bl : List Blk} {a e : Nat} (hT : Tiles m a bl e)
    {A : Blk} (hA : A ∈ bl) (hne : A.bp ≠ a) : ∃ P ∈ bl, P.bp + P.size = A.bp := by
  induction bl generalizing a with
  | nil => simp at hA
  | cons c t ih =>
    obtain ⟨h1, h2, h3, h4, h5, h6, h7⟩ := hT
    rcases List.mem_cons.1 hA with e' | hA'
    · subst e'; exact absurd h1 hne
    · by_cases hq : A.bp = a + c.size
      · exact ⟨c, List.mem_cons_self _ _, by omega⟩
      · obtain ⟨P, hP, hPe⟩ := ih h7 hA' hq
        exact ⟨P, List.mem_cons_of_mem _ hP, hPe⟩

theorem blockAt_succ (s : Heap) (k : Nat) :
    blockAt s (k + 1) = blockAt s k + GET_SIZE s (blockAt s k - 4) := rfl

/-- The walk stays at the epilogue once it has reached it. -/
theorem walk_end {s : Heap} {e k : Nat} (he : s.mem (e - 4) = 1) (hk : blockAt s k = e) (j : Nat) :
    blockAt s (k + j) = e := by
  induction j with
  | zero => exact hk
  | succ j ih =>
    rw [← Nat.add_assoc, blockAt_succ, ih]
    unfold GET_SIZE GET
    rw [he]
    rfl

/-- The walk visits the blocks of a tiling one after the other and then
reaches its end. -/
theorem walk_tiles {s : Heap} {bl : List Blk} {a e k : Nat} (hT : Tiles s.mem a bl e)
    (hlt : e < 4294967296) (hk : blockAt s k = a) :
    blockAt s (k + bl.length) = e ∧
    ∀ b ∈ bl, ∃ j, j < bl.length ∧ blockAt s (k + j) = b.bp := by
  induction bl generalizing a k with
  | nil => exact ⟨by simpa using hk.trans hT, fun b hb => by simp at hb⟩
  | cons c t ih =>
    obtain ⟨h1, h2, h3, h4, h5, h6, h7⟩ := hT
    have hle := Tiles_le h7
    have hbit := c.st.bit_le
    have hnext : blockAt s (k + 1) = a + c.size := by
      rw [blockAt_succ, hk]
      unfold GET_SIZE GET
      rw [h4, size_of_word _ _ h2 (by omega) (by omega)]
    obtain ⟨i1, i2⟩ := ih h7 hnext
    refine ⟨by rw [List.length_cons, ← i1]; congr 1; omega, ?_⟩
    intro b hb
    rcases List.mem_cons.1 hb with e' | hb'
    · subst e'
      exact ⟨0, by simp, by rw [h1]; exact hk⟩
    · obtain ⟨j, j1, j2⟩ := i2 b hb'
      refine ⟨j + 1, by simp; omega, ?_⟩
      rw [← j2]; congr 1; omega

/-- Every address of the walk through a tiling that ends in an epilogue is
the start of the tiling, a block of it, or its end. -/
theorem walk_cases {s : Heap} {bl : List Blk} {a e k : Nat} (hT : Tiles s.mem a bl e)
    (hlt : e < 4294967296) (he : s.mem (e - 4) = 1) (hk : blockAt s k = a) (j : Nat) :
    (∃ b ∈ bl, blockAt s (k + j) = b.bp) ∨ blockAt s (k + j) = e := by
  induction bl generalizing a k j with
  | nil => exact Or.inr (walk_end he (hk.trans hT) j)
  | cons c t ih =>
    obtain ⟨h1, h2, h3, h4, h5, h6, h7⟩ := hT
    have hle := Tiles_le h7
    have hbit := c.st.bit_le
    have hnext : blockAt s (k + 1) = a + c.size := by
      rw [blockAt_succ, hk]
      unfold GET_SIZE GET
      rw [h4, size_of_word _ _ h2 (by omega) (by omega)]
    cases j with
    | zero => exact Or.inl ⟨c, List.mem_cons_self _ _, by rw [h1]; exact hk⟩
    | succ j =>
      have e1 : k + (j + 1) = k + 1 + j := by omega
      rw [e1]
      rcases ih h7 hnext j with ⟨b, hb, hbe⟩ | hr
      · exact Or.inl ⟨b, List.mem_cons_of_mem _ hb, hbe⟩
      · exact Or.inr hr

/-- Of two consecutive blocks of the walk through a tiling without adjacent
free blocks, one has its allocated bit set. -/
theorem walk_chain {s : Heap} {bl : List Blk} {a e k : Nat} (hT : Tiles s.mem a bl e)
    (hlt : e < 4294967296) (he : s.mem (e - 4) = 1) (hadj : NoAdjFree bl)
    (hk : blockAt s k = a) (j : Nat) :
    GET_ALLOC s (HDRP (blockAt s (k + j))) = 1 ∨
      GET_ALLOC s (HDRP (blockAt s (k + j + 1))) = 1 := by
  have hepi : ∀ i, blockAt s i = e → GET_ALLOC s (HDRP (blockAt s i)) = 1 := by
    intro i hi
    rw [hi]
    unfold GET_ALLOC GET HDRP WSIZE
    rw [he]
    rfl
  induction bl generalizing a k j with
  | nil => exact Or.inl (hepi _ (walk_end he (hk.trans hT) j))
  | cons c t ih =>
    obtain ⟨h1, h2, h3, h4, h5, h6, h7⟩ := hT
    have hle := Tiles_le h7
    have hbit := c.st.bit_le
    have hnext : blockAt s (k + 1) = a + c.size := by
      rw [blockAt_succ, hk]
      unfold GET_SIZE GET
      rw [h4, size_of_word _ _ h2 (by omega) (by omega)]
    have hadj' : NoAdjFree t := by
      unfold NoAdjFree at hadj ⊢
      exact (List.chain'_cons'.1 hadj).2
    cases j with
    | zero =>
      have hc : GET_ALLOC s (HDRP (blockAt s k)) = c.st.bit := by
        rw [hk]
        unfold GET_ALLOC GET HDRP WSIZE
        rw [h4]
        exact alloc_of_word _ _ h2 hbit
      cases t with
      | nil =>
        right
        exact hepi _ (hnext.trans h7)
      | cons d t' =>
        obtain ⟨g1, g2, g3, g4, g5, g6, g7⟩ := h7
        have hle' := Tiles_le g7
        have hdbit := d.st.bit_le
        have hd : GET_ALLOC s (HDRP (blockAt s (k + 1))) = d.st.bit := by
          rw [hnext]
          unfold GET_ALLOC GET HDRP WSIZE
          rw [g4]
          exact alloc_of_word _ _ g2 hdbit
        unfold NoAdjFree at hadj
        rcases (List.chain'_cons.1 hadj).1 with u | u
        · left; rw [Nat.add_zero, hc, u]; rfl
        · right; rw [Nat.add_zero, hd, u]; rfl
    | succ j =>
      have e1 : k + (j + 1) = k + 1 + j := by omega
      rw [e1]
      exact ih h7 hadj' hnext j

/-- The first step of the walk leads from the prologue block to the first
block of the heap. -/
theorem blockAt_one {s : Heap} {bl : List Blk} {fl : Nat → List Nat} (h : Str s bl fl) :
    blockAt s 1 = s.lo + 120 := by
  show s.lo + 112 + GET_SIZE s (s.lo + 112 - 4) = s.lo + 120
  unfold GET_SIZE GET
  rw [show s.lo + 112 - 4 = s.lo + 108 by omega, h.pro1]
  rfl

theorem Str.brk_lt {s : Heap} {bl : List Blk} {fl : Nat → List Nat} (h : Str s bl fl) :
    s.brk < 4294967296 := by
  have := h.capb
  have := h.brkcap
  omega

/-- The heap walk on a well-formed heap: every block of the walk is aligned,
the walk reaches the epilogue, every block of the tiling is met, and no two
consecutive blocks of the walk are both free. -/
theorem walk_WF {s : Heap} {bl : List Blk} {fl : Nat → List Nat} (h : WF s bl fl) :
    (∀ k, blockAt s k % 8 = 0) ∧
    blockAt s (bl.length + 1) = s.brk ∧
    (∀ b ∈ bl, ∃ k, blockAt s k = b.bp) ∧
    (∀ k, GET_ALLOC s (HDRP (blockAt s k)) = 1 ∨ GET_ALLOC s (HDRP (blockAt s (k + 1))) = 1) := by
  have hS := h.1
  have h1 := blockAt_one hS
  have hlt := hS.brk_lt
  have hlo := hS.lo8
  have hmod := Tiles_mod hS.tiles
  obtain ⟨w1, w2⟩ := walk_tiles hS.tiles hlt h1
  refine ⟨?_, by rw [← w1]; congr 1; omega, ?_, ?_⟩
  · intro k
    cases k with
    | zero => show (s.lo + 112) % 8 = 0; omega
    | succ k =>
      rcases walk_cases hS.tiles hlt hS.epi h1 k with ⟨b, hb, e⟩ | e
      · have := hS.blk hb
        have e' : blockAt s (k + 1) = b.bp := by rw [← e]; congr 1; omega
        omega
      · have e' : blockAt s (k + 1) = s.brk := by rw [← e]; congr 1; omega
        omega
  · intro b hb
    obtain ⟨j, _, hj⟩ := w2 b hb
    exact ⟨1 + j, hj⟩
  · intro k
    cases k with
    | zero =>
      left
      show GET_ALLOC s (s.lo + 112 - 4) = 1
      unfold GET_ALLOC GET
      rw [show s.lo + 112 - 4 = s.lo + 108 by omega, hS.pro1]
      rfl
    | succ k =>
      have := walk_chain hS.tiles hlt hS.epi h.2.2 h1 k
      rw [show 1 + k = k + 1 by omega] at this
      exact this

/-! ## Allocation: requests of any size, and requests that a free block satisfies -/

theorem normSize_mod (n : Nat) : normSize n % 8 = 0 ∧ normSize n < 4294967296 := by
  unfold normSize
  rw [ALIGN_eq]
  omega

theorem MAX_CHUNK_any {size : Nat} (h8 : size % 8 = 0) :
    MAX CHUNKSIZE size % 8 = 0 ∧ 16 ≤ MAX CHUNKSIZE size := by
  unfold MAX
  split
  · exact ⟨rfl, by decide⟩
  · rename_i hc
    have e1 : toInt32 CHUNKSIZE = 8192 := by
      unfold toInt32 CHUNKSIZE
      rw [if_pos (by omega)]
      rfl
    rw [e1] at hc
    unfold toInt32 at hc
    split at hc <;> omega

theorem bypass_size {s : Heap} {size : Nat} (hb : bypass s size) : 64 < size := by
  obtain ⟨⟨h1, h2⟩, _⟩ := hb
  rw [h1] at h2
  unfold toInt32 at h2
  split at h2 <;> omega

/-- `mm_malloc` on a well-formed heap, for a request of any size: the call
returns, the pointer is a multiple of 8, a request of size 0 changes nothing,
and a null result for a nonzero request means that the provider refused the
growth by `MAX(CHUNKSIZE, newsize)` and no heap word or bound has changed. -/
theorem mm_malloc_total {s : Heap} {bl : List Blk} {fl : Nat → List Nat} (h : WF s bl fl)
    (n : Nat) :
    ∃ p s', mm_malloc s n = Except.ok (p, s') ∧ p % 8 = 0 ∧ (n = 0 → p = 0 ∧ s' = s) ∧
      (n ≠ 0 → p = 0 → mem_sbrk s (MAX CHUNKSIZE (normSize n)) = none ∧
        s'.mem = s.mem ∧ s'.lo = s.lo ∧ s'.brk = s.brk ∧ s'.cap = s.cap) := by
  by_cases hn0 : n = 0
  · subst hn0
    exact ⟨0, s, rfl, rfl, fun _ => ⟨rfl, rfl⟩, fun c => absurd rfl c⟩
  obtain ⟨h8, hlt⟩ := normSize_mod n
  obtain ⟨m8, m16⟩ := MAX_CHUNK_any h8
  unfold mm_malloc
  rw [if_neg hn0]
  show ∃ p s', (match findWrapper s (normSize n) with
    | Except.error e => Except.error e
    | Except.ok (ptr, s1) =>
      if ptr = 0 then
        if (extendHeap s1 (MAX CHUNKSIZE (normSize n))).1 = 0 then
          Except.ok (0, (extendHeap s1 (MAX CHUNKSIZE (normSize n))).2)
        else Except.ok ((extendHeap s1 (MAX CHUNKSIZE (normSize n))).1,
          split (extendHeap s1 (MAX CHUNKSIZE (normSize n))).2
            (extendHeap s1 (MAX CHUNKSIZE (normSize n))).1 (normSize n))
      else Except.ok (ptr, split s1 ptr (normSize n))) = Except.ok (p, s') ∧ _
  have tail : ∀ s1, s1.mem = s.mem → s1.lo = s.lo → s1.brk = s.brk → s1.cap = s.cap →
      ∃ p s', (if (extendHeap s1 (MAX CHUNKSIZE (normSize n))).1 = 0 then
          (Except.ok (0, (extendHeap s1 (MAX CHUNKSIZE (normSize n))).2) :
            Except Fault (Nat × Heap))
        else Except.ok ((extendHeap s1 (MAX CHUNKSIZE (normSize n))).1,
          split (extendHeap s1 (MAX CHUNKSIZE (normSize n))).2
            (extendHeap s1 (MAX CHUNKSIZE (normSize n))).1 (normSize n))) = Except.ok (p, s') ∧
        p % 8 = 0 ∧ (n = 0 → p = 0 ∧ s' = s) ∧
        (n ≠ 0 → p = 0 → mem_sbrk s (MAX CHUNKSIZE (normSize n)) = none ∧
          s'.mem = s.mem ∧ s'.lo = s.lo ∧ s'.brk = s.brk ∧ s'.cap = s.cap) := by
    intro s1 e1 e2 e3 e4
    have h1 : WF s1 bl fl := h.carry_regs e1 e2 e3 e4
    by_cases hcap : s1.brk + MAX CHUNKSIZE (normSize n) ≤ s1.cap
    · obtain ⟨pre', post', M, fl', c1, c2, _⟩ := extendHeap_spec h1 m8 m16 hcap
      have fM := c1.1.blk (show M ∈ pre' ++ M :: post' by simp)
      have g1 : (extendHeap s1 (MAX CHUNKSIZE (normSize n))).1 ≠ 0 := by rw [c2]; omega
      rw [if_neg g1]
      exact ⟨_, _, rfl, by rw [c2]; exact fM.2.2.1, fun c => absurd c hn0,
        fun _ c => absurd c g1⟩
    · rw [extendHeap_refused hcap, if_pos rfl]
      refine ⟨_, _, rfl, rfl, fun c => absurd c hn0, fun _ _ => ⟨?_, e1, e2, e3, e4⟩⟩
      unfold mem_sbrk
      rw [if_neg (by rw [← e3, ← e4]; exact hcap)]
  by_cases hb : bypass s (normSize n)
  · rw [findWrapper_bypass hb]
    have h64 := bypass_size hb
    by_cases hcap : s.brk + normSize n ≤ s.cap
    · obtain ⟨pre', post', M, fl', c1, c2, _⟩ := extendHeap_spec h h8 (by omega) hcap
      have fM := c1.1.blk (show M ∈ pre' ++ M :: post' by simp)
      have g1 : (extendHeap s (normSize n)).1 ≠ 0 := by rw [c2]; omega
      simp only
      rw [if_neg g1]
      exact ⟨_, _, rfl, by rw [c2]; exact fM.2.2.1, fun c => absurd c hn0,
        fun _ c => absurd c g1⟩
    · rw [extendHeap_refused hcap]
      simp only [if_true]
      exact tail s rfl rfl rfl rfl
  · obtain ⟨s1, e0, e1, e2, e3, e4⟩ := findWrapper_search h.1 hb
    rw [e0]
    simp only
    have h0 : ∀ j, j < 14 → ∀ x ∈ fl j, x ≠ 0 := fun j hj => Seg_ne_zero (h.1.segs j hj)
    by_cases hp : pickFrom fl (fun n => GET_SIZE s (HDRP n)) (normSize n)
        (14 - findStart (normSize n)) (findStart (normSize n)) = 0
    · rw [if_pos hp]
      exact tail s1 e1 e2 e3 e4
    · rw [if_neg hp]
      have hi := findStart_lt (normSize n)
      rcases pickFrom_spec fl (fun n => GET_SIZE s (HDRP n)) (normSize n) h0
          (14 - findStart (normSize n)) (findStart (normSize n)) (by omega) with
        ⟨e, _⟩ | ⟨_, j, j1, j2, j3, j4, _, _⟩
      · exact absurd e hp
      · have := h.1.node_facts (by omega) j3
        exact ⟨_, _, rfl, this.1, fun c => absurd c hn0, fun _ c => absurd c hp⟩

/-- `mm_malloc` when the bypass does not fire and some filed block is large
enough for the normalised size: the call hands out the first fit and the region
does not grow. -/
theorem mm_malloc_found {s : Heap} {bl : List Blk} {fl : Nat → List Nat} (h : WF s bl fl)
    {n : Nat} (hn0 : n ≠ 0) (h16 : 16 ≤ normSize n) (hb : ¬ bypass s (normSize n))
    {X : Blk} (hXm : X ∈ bl) (hX : X.st = St.listed) (hle : normSize n ≤ X.size) :
    ∃ s', mm_malloc s n = Except.ok (pickFrom fl (fun n => GET_SIZE s (HDRP n)) (normSize n)
        (14 - findStart (normSize n)) (findStart (normSize n)), s') ∧
      Allocated s bl (normSize n) (pickFrom fl (fun n => GET_SIZE s (HDRP n)) (normSize n)
        (14 - findStart (normSize n)) (findStart (normSize n))) s' ∧ s'.brk = s.brk := by
  obtain ⟨h8, hlt⟩ := normSize_mod n
  unfold mm_malloc
  rw [if_neg hn0]
  show ∃ s', (match findWrapper s (normSize n) with
    | Except.error e => Except.error e
    | Except.ok (ptr, s1) =>
      if ptr = 0 then
        if (extendHeap s1 (MAX CHUNKSIZE (normSize n))).1 = 0 then
          Except.ok (0, (extendHeap s1 (MAX CHUNKSIZE (normSize n))).2)
        else Except.ok ((extendHeap s1 (MAX CHUNKSIZE (normSize n))).1,
          split (extendHeap s1 (MAX CHUNKSIZE (normSize n))).2
            (extendHeap s1 (MAX CHUNKSIZE (normSize n))).1 (normSize n))
      else Except.ok (ptr, split s1 ptr (normSize n))) = Except.ok (_, s') ∧ _
  obtain ⟨s1, e0, e1, e2, e3, e4⟩ := findWrapper_search h.1 hb
  rw [e0]
  simp only
  have h0 : ∀ j, j < 14 → ∀ x ∈ fl j, x ≠ 0 := fun j hj => Seg_ne_zero (h.1.segs j hj)
  have hi := findStart_lt (normSize n)
  have hiX := findStart_lt X.size
  have hmono := findStart_mono hle
  rcases pickFrom_spec fl (fun n => GET_SIZE s (HDRP n)) (normSize n) h0
      (14 - findStart (normSize n)) (findStart (normSize n)) (by omega) with
    ⟨_, hnone⟩ | ⟨hp, j, j1, j2, j3, j4, _, _⟩
  · exfalso
    have hXl : X.bp ∈ fl (findStart X.size) := (h.1.link _ hiX _).2 ⟨X, hXm, rfl, hX, rfl⟩
    have := hnone _ hmono (by omega) _ hXl
    simp only [HDRP, WSIZE] at this
    rw [h.1.get_size hXm] at this
    omega
  · rw [if_neg hp]
    have h1 : WF s1 bl fl := h.carry_regs e1 e2 e3 e4
    obtain ⟨Y, hYm, hYbp, hYst, _⟩ := h.1.node (by omega) j3
    have gY := h.1.get_size hYm
    rw [← hYbp] at j4
    simp only [HDRP, WSIZE] at j4
    rw [gY] at j4
    obtain ⟨g1, g2⟩ := found_split h1 hYm hYst h8 h16 j4
    rw [← hYbp]
    exact ⟨_, rfl, g1.carry e1 e2 e3 e4, by rw [g2, e3]⟩

/-! ## Releasing blocks: what becomes of the neighbours -/

/-- `mm_free` of a used block of a well-formed heap, with the resulting free
block `M` related to the blocks next to the released one. -/
theorem mm_free_mem {s : Heap} {bl : List Blk} {fl : Nat → List Nat} (h : WF s bl fl)
    {X : Blk} (hXm : X ∈ bl) (hX : X.st = St.used) :
    ∃ bl' fl' M, WF (mm_free s X.bp) bl' fl' ∧ M ∈ bl' ∧ M.st = St.listed ∧
      M.bp ≤ X.bp ∧ X.bp + X.size ≤ M.bp + M.size ∧
      (∀ b, b.st = St.used → (b ∈ bl' ↔ b ∈ bl ∧ b ≠ X)) ∧
      (∃ t, fl' (findStart M.size) = M.bp :: t) ∧
      SameRegs s (mm_free s X.bp) ∧
      (∀ Z ∈ bl, Z.st = St.listed → Z.bp + Z.size = X.bp → M.bp ≤ Z.bp) ∧
      ((∀ P ∈ bl, P.bp + P.size = X.bp → P.st = St.used) → M.bp = X.bp) := by
  obtain ⟨pre, post, e⟩ := List.append_of_mem hXm
  subst e
  obtain ⟨pre', post', M, fl', c1, c2, c3, c4, c5, c6, c7, c8, c9, _⟩ := mm_free_spec h hX
  have hMm : M ∈ pre' ++ M :: post' := by simp
  have fM := c1.1.blk hMm
  have fX := h.1.blk hXm
  refine ⟨_, fl', M, c1, hMm, c2, c3, c4, c5, c7, c8, ?_, ?_⟩
  · intro Z hZ hZl hZe
    have fZ := h.1.blk hZ
    rcases c6 Z hZ with k | ⟨_, k, _⟩
    · rcases c1.1.sep k hMm with e | e | e
      · rw [e]
      · have hadj : Z.bp + Z.size = M.bp := by omega
        rcases NoAdjFree_addr c1.1.tiles c1.2.2 k hMm hadj with u | u
        · rw [hZl] at u; cases u
        · rw [c2] at u; cases u
      · omega
    · exact k
  · intro hP
    by_cases hfirst : X.bp = s.lo + 120
    · have := c8.1
      omega
    · obtain ⟨P, hPm, hPe⟩ := Tiles_pred h.1.tiles hXm hfirst
      have hPu := hP P hPm hPe
      have fP := h.1.blk hPm
      have hPX : P ≠ X := by
        intro e
        rw [e] at hPe
        omega
      have hP' := (c5 P hPu).2 ⟨hPm, hPX⟩
      rcases c1.1.sep hP' hMm with e | e | e
      · rw [e, c2] at hPu; cases hPu
      · omega
      · omega

/-- Releasing three used blocks that lie side by side leaves one free block
that covers all three. -/
theorem free_three {s : Heap} {bl : List Blk} {fl : Nat → List Nat} (h : WF s bl fl)
    {A B C : Blk} (hA : A ∈ bl) (hB : B ∈ bl) (hC : C ∈ bl)
    (uA : A.st = St.used) (uB : B.st = St.used) (uC : C.st = St.used)
    (hab : A.bp + A.size = B.bp) (hbc : B.bp + B.size = C.bp) :
    ∃ bl' fl' M, WF (mm_free (mm_free (mm_free s A.bp) B.bp) C.bp) bl' fl' ∧ M ∈ bl' ∧
      M.st = St.listed ∧ M.bp ≤ A.bp ∧ C.bp + C.size ≤ M.bp + M.size ∧
      SameRegs s (mm_free (mm_free (mm_free s A.bp) B.bp) C.bp) := by
  have fA := h.1.blk hA
  have fB := h.1.blk hB
  have fC := h.1.blk hC
  have nBA : B ≠ A := by intro e; rw [e] at hab; omega
  have nCA : C ≠ A := by intro e; rw [e] at hbc; omega
  have nCB : C ≠ B := by intro e; rw [e] at hbc; omega
  obtain ⟨bl1, fl1, M1, w1, m1, l1, a1, b1, u1, _, r1, _, _⟩ := mm_free_mem h hA uA
  have hB1 : B ∈ bl1 := (u1 B uB).2 ⟨hB, nBA⟩
  have hC1 : C ∈ bl1 := (u1 C uC).2 ⟨hC, nCA⟩
  have e1 : M1.bp + M1.size = B.bp := by
    rcases w1.1.sep m1 hB1 with e | e | e
    · rw [e, uB] at l1; cases l1
    · omega
    · omega
  obtain ⟨bl2, fl2, M2, w2, m2, l2, a2, b2, u2, _, r2, z2, _⟩ := mm_free_mem w1 hB1 uB
  have hC2 : C ∈ bl2 := (u2 C uC).2 ⟨hC1, nCB⟩
  have k2 := z2 M1 m1 l1 e1
  have e2 : M2.bp + M2.size = C.bp := by
    rcases w2.1.sep m2 hC2 with e | e | e
    · rw [e, uC] at l2; cases l2
    · omega
    · omega
  obtain ⟨bl3, fl3, M3, w3, m3, l3, a3, b3, u3, _, r3, z3, _⟩ := mm_free_mem w2 hC2 uC
  have k3 := z3 M2 m2 l2 e2
  refine ⟨bl3, fl3, M3, w3, m3, l3, by omega, b3, ?_⟩
  obtain ⟨p1, p2, p3, p4, p5⟩ := r1
  obtain ⟨q1, q2, q3, q4, q5⟩ := r2
  obtain ⟨t1, t2, t3, t4, t5⟩ := r3
  exact ⟨by rw [t1, q1, p1], by rw [t2, q2, p2], by rw [t3, q3, p3], by rw [t4, q4, p4],
    by rw [t5, q5, p5]⟩

/-! ## Reuse of a block that has just been released -/

theorem start_reach : Reach start [] :=
  Reach.init (provider 1048576) ⟨rfl, rfl, by decide⟩ (by decide)

theorem twoLive_reach : Reach twoLive [4328, 4216] :=
  Reach.malloc (after start 100) [4216] 100 4328 twoLive
    (Reach.malloc start [] 100 4216 (after start 100) start_reach (by decide) rfl)
    (by decide) rfl

theorem threeLive_reach : Reach threeLive [4296, 4256, 4216] :=
  Reach.malloc (after (after start 32) 32) [4256, 4216] 32 4296 threeLive
    (Reach.malloc (after start 32) [4216] 32 4256 (after (after start 32) 32)
      (Reach.malloc start [] 32 4216 (after start 32) start_reach (by decide) rfl)
      (by decide) rfl)
    (by decide) rfl

theorem twoHoles_reach : Reach twoHoles [4312, 4248] :=
  Reach.free _ [4312, 4248, 4216] 4216
    (Reach.free _ [4312, 4264, 4248, 4216] 4264
      (Reach.malloc _ [4264, 4248, 4216] 1 4312 (after (after (after (after start 24) 1) 40) 1)
        (Reach.malloc _ [4248, 4216] 40 4264 (after (after (after start 24) 1) 40)
          (Reach.malloc _ [4216] 1 4248 (after (after start 24) 1)
            (Reach.malloc start [] 24 4216 (after start 24) start_reach (by decide) rfl)
            (by decide) rfl)
          (by decide) rfl)
        (by decide) rfl)
      (Or.inr (by decide)))
    (Or.inr (by decide))

theorem tight_reach : Reach tight [4216] :=
  Reach.malloc (mm_init (provider 4332)).2 [] 8 4216 tight
    (Reach.init (provider 4332) ⟨rfl, rfl, by decide⟩ (by decide)) (by decide) rfl

theorem oneLive_reach : Reach oneLive [4216] :=
  Reach.write (after start 8) [4216] 4216 4216 4232
    (Reach.malloc start [] 8 4216 (after start 8) start_reach (by decide) rfl)
    (by decide) (by decide) (by decide)

/-! ## Consequences of the invariant used by the claims -/

/-- Live allocations are pairwise distinct and their payloads are disjoint. -/
theorem inv_disjoint {s : Heap} {L : List Nat} (h : Inv s L) :
    L.Nodup ∧ ∀ p ∈ L, ∀ q ∈ L, p ≠ q →
      p + (GET_SIZE s (HDRP p) - DSIZE) ≤ q ∨ q + (GET_SIZE s (HDRP q) - DSIZE) ≤ p := by
  obtain ⟨bl, fl, hW, hnd, hL⟩ := Inv_iff.1 h
  refine ⟨hnd, ?_⟩
  intro p hp q hq hne
  obtain ⟨P, hPm, hPe, _⟩ := (hL p).1 hp
  obtain ⟨Q, hQm, hQe, _⟩ := (hL q).1 hq
  have gP : GET_SIZE s (HDRP p) = P.size := by rw [← hPe]; exact hW.1.get_size hPm
  have gQ : GET_SIZE s (HDRP q) = Q.size := by rw [← hQe]; exact hW.1.get_size hQm
  have fP := hW.1.blk hPm
  have fQ := hW.1.blk hQm
  rw [gP, gQ]
  simp only [DSIZE]
  rcases hW.1.sep hPm hQm with e | e | e
  · exfalso; apply hne; rw [← hPe, ← hQe, e]
  · left; omega
  · right; omega

theorem inv_noFreePair {s : Heap} {L : List Nat} (h : Inv s L) : NoFreePair s := by
  obtain ⟨bl, fl, hW, _, _⟩ := Inv_iff.1 h
  intro k hk
  rcases (walk_WF hW).2.2.2 k with e | e
  · rw [hk.1] at e; cases e
  · rw [hk.2] at e; cases e

theorem mm_free_of_free {s : Heap} {p : Nat} (h : GET_ALLOC s (HDRP p) = 0) :
    mm_free s p = s := by
  unfold mm_free
  by_cases hp : p = 0
  · rw [if_pos hp]
  · rw [if_neg hp]
    simp only
    rw [if_pos h]

/-- A second `mm_free` of the same pointer changes nothing. -/
theorem inv_free_twice {s : Heap} {L : List Nat} (h : Inv s L) {p : Nat} (hp : p ∈ L) :
    mm_free (mm_free s p) p = mm_free s p := by
  obtain ⟨bl, fl, hW, _, hL⟩ := Inv_iff.1 h
  obtain ⟨X, hXm, hXe, hX⟩ := (hL p).1 hp
  obtain ⟨pre, post, e⟩ := List.append_of_mem hXm
  subst e
  obtain ⟨_, _, _, _, _, _, _, _, _, _, _, _, c9, _⟩ := mm_free_spec hW hX
  rw [hXe] at c9
  exact mm_free_of_free c9

/-- Three used blocks side by side, released one after the other. -/
theorem inv_release3 {s : Heap} {L : List Nat} (h : Inv s L) {a b c : Nat}
    (ha : a ∈ L) (hb : b ∈ L) (hc : c ∈ L) (hab : NEXT_BLKP s a = b) (hbc : NEXT_BLKP s b = c) :
    (∃ k, GET_ALLOC (release3 s a b c) (HDRP (blockAt (release3 s a b c) k)) = 0 ∧
      blockAt (release3 s a b c) k ≤ a ∧
      c + GET_SIZE s (HDRP c) ≤ blockAt (release3 s a b c) k +
        GET_SIZE (release3 s a b c) (HDRP (blockAt (release3 s a b c) k))) ∧
    (release3 s a b c).brk = s.brk ∧
    (¬ bypass (release3 s a b c) (normSize (size3 s a b c - DSIZE)) →
      ∃ p s4, mm_malloc (release3 s a b c) (size3 s a b c - DSIZE) = Except.ok (p, s4) ∧
        p ≠ 0 ∧ s4.brk = (release3 s a b c).brk) := by
  obtain ⟨bl, fl, hW, _, hL⟩ := Inv_iff.1 h
  obtain ⟨A, hAm, hAe, uA⟩ := (hL a).1 ha
  obtain ⟨B, hBm, hBe, uB⟩ := (hL b).1 hb
  obtain ⟨C, hCm, hCe, uC⟩ := (hL c).1 hc
  have gA : GET_SIZE s (HDRP a) = A.size := by rw [← hAe]; exact hW.1.get_size hAm
  have gB : GET_SIZE s (HDRP b) = B.size := by rw [← hBe]; exact hW.1.get_size hBm
  have gC : GET_SIZE s (HDRP c) = C.size := by rw [← hCe]; exact hW.1.get_size hCm
  have fA := hW.1.blk hAm
  have fB := hW.1.blk hBm
  have fC := hW.1.blk hCm
  have hab' : A.bp + A.size = B.bp := by
    have : NEXT_BLKP s a = a + GET_SIZE s (HDRP a) := rfl
    rw [this, gA] at hab
    omega
  have hbc' : B.bp + B.size = C.bp := by
    have : NEXT_BLKP s b = b + GET_SIZE s (HDRP b) := rfl
    rw [this, gB] at hbc
    omega
  obtain ⟨bl', fl', M, w, hMm, hMl, hM1, hM2, r⟩ := free_three hW hAm hBm hCm uA uB uC hab' hbc'
  rw [hAe, hBe, hCe] at w r
  change WF (release3 s a b c) bl' fl' at w
  change SameRegs s (release3 s a b c) at r
  have fM := w.1.blk hMm
  have gM : GET_SIZE (release3 s a b c) (HDRP M.bp) = M.size := w.1.get_size hMm
  have aM : GET_ALLOC (release3 s a b c) (HDRP M.bp) = 0 := by
    have := w.1.get_alloc hMm
    rw [hMl] at this
    exact this
  obtain ⟨k, hk⟩ := (walk_WF w).2.2.1 M hMm
  have hbrk : (release3 s a b c).brk = s.brk := r.2.1
  refine ⟨⟨k, ?_, ?_, ?_⟩, hbrk, ?_⟩
  · rw [hk]; exact aM
  · rw [hk]; omega
  · rw [hk, gM, gC]; omega
  · intro hby
    have hsz : size3 s a b c = A.size + B.size + C.size := by
      unfold size3
      rw [gA, gB, gC]
    have hnorm : normSize (size3 s a b c - DSIZE) = A.size + B.size + C.size := by
      rw [hsz]
      unfold normSize
      rw [ALIGN_eq]
      simp only [DSIZE]
      omega
    rw [hnorm] at hby
    have hn0 : size3 s a b c - DSIZE ≠ 0 := by
      rw [hsz]
      simp only [DSIZE]
      omega
    obtain ⟨s4, g1, g2, g3⟩ := mm_malloc_found w hn0 (by rw [hnorm]; omega)
      (by rw [hnorm]; exact hby) hMm hMl (by rw [hnorm]; omega)
    exact ⟨_, s4, g1, g2.1, g3⟩

/-! ## Directory lists as seen through the forward links -/

theorem Seg_getD_zero {m : Nat → Nat} {pv cur : Nat} {l : List Nat} (h : Seg m pv l cur) :
    l.getD 0 0 = cur := by
  cases l with
  | nil => exact h.symm
  | cons n t => exact h.1.symm

theorem Seg_getD_next {m : Nat → Nat} {pv cur : Nat} {l : List Nat} (h : Seg m pv l cur)
    (j : Nat) (hj : j < l.length) : m (l.getD j 0) = l.getD (j + 1) 0 := by
  induction l generalizing pv cur j with
  | nil => simp at hj
  | cons n t ih =>
    obtain ⟨h1, h2, h3, h4⟩ := h
    cases j with
    | zero => exact (Seg_getD_zero h4).symm
    | succ j =>
      simp only [List.length_cons] at hj
      exact ih h4 j (by omega)

theorem Seg_getD_prev {m : Nat → Nat} {pv cur : Nat} {l : List Nat} (h : Seg m pv l cur)
    (j : Nat) (hj : j + 1 < l.length) : m (l.getD (j + 1) 0 + 4) = l.getD j 0 := by
  induction l generalizing pv cur j with
  | nil => simp at hj
  | cons n t ih =>
    obtain ⟨h1, h2, h3, h4⟩ := h
    cases j with
    | zero =>
      cases t with
      | nil => simp at hj
      | cons y t' => exact h4.2.2.1
    | succ j =>
      simp only [List.length_cons] at hj
      exact ih h4 j (by omega)

theorem Seg_getD_head {m : Nat → Nat} {pv cur : Nat} {l : List Nat} (h : Seg m pv l cur)
    (hl : 0 < l.length) : m (l.getD 0 0 + 4) = pv := by
  cases l with
  | nil => simp at hl
  | cons n t => exact h.2.2.1

theorem getD_zero_of_le {l : List Nat} {k : Nat} (h : l.length ≤ k) : l.getD k 0 = 0 := by
  induction l generalizing k with
  | nil => rfl
  | cons n t ih =>
    cases k with
    | zero => simp at h
    | succ k =>
      simp only [List.length_cons] at h
      exact ih (by omega)

theorem getD_mem_of_lt {l : List Nat} {k : Nat} (h : k < l.length) : l.getD k 0 ∈ l := by
  induction l generalizing k with
  | nil => simp at h
  | cons n t ih =>
    cases k with
    | zero => exact List.mem_cons_self _ _
    | succ k =>
      simp only [List.length_cons] at h
      exact List.mem_cons_of_mem _ (ih (by omega))

theorem getD_of_mem {l : List Nat} {x : Nat} (h : x ∈ l) : ∃ k, k < l.length ∧ l.getD k 0 = x := by
  induction l with
  | nil => simp at h
  | cons n t ih =>
    rcases List.mem_cons.1 h with e | e
    · exact ⟨0, by simp, e.symm⟩
    · obtain ⟨k, hk, hx⟩ := ih e
      exact ⟨k + 1, by simp; omega, hx⟩

theorem getD_inj_of_nodup {l : List Nat} (hnd : l.Nodup) {j k : Nat} (hj : j < l.length)
    (hk : k < l.length) (e : l.getD j 0 = l.getD k 0) : j = k := by
  induction l generalizing j k with
  | nil => simp at hj
  | cons n t ih =>
    obtain ⟨hn, ht⟩ := List.nodup_cons.1 hnd
    simp only [List.length_cons] at hj hk
    cases j with
    | zero =>
      cases k with
      | zero => rfl
      | succ k =>
        exfalso
        apply hn
        have : n = t.getD k 0 := e
        rw [this]
        exact getD_mem_of_lt (by omega)
    | succ j =>
      cases k with
      | zero =>
        exfalso
        apply hn
        have : t.getD j 0 = n := e
        rw [← this]
        exact getD_mem_of_lt (by omega)
      | succ k =>
        have : t.getD j 0 = t.getD k 0 := e
        rw [ih ht (by omega) (by omega) this]

/-- On a well-formed heap the forward links from the head of list `i` run
through the nodes of `fl i` and then stop. -/
theorem listAt_eq {s : Heap} {bl : List Blk} {fl : Nat → List Nat} (h : Str s bl fl)
    {i : Nat} (hi : i < 14) (k : Nat) : listAt s i k = (fl i).getD k 0 := by
  have hseg := h.segs i hi
  have h0 := Seg_ne_zero hseg
  induction k with
  | zero =>
    show GET s (mem_heap_lo s + findSlot i) = _
    rw [findSlot_eq i hi, Seg_getD_zero hseg]
    rfl
  | succ k ih =>
    show (if listAt s i k = 0 then 0 else GET s (NEXT_FP (listAt s i k))) = _
    rw [ih]
    by_cases hk : k < (fl i).length
    · rw [if_neg (h0 _ (getD_mem_of_lt hk))]
      exact Seg_getD_next hseg k hk
    · rw [getD_zero_of_le (by omega : (fl i).length ≤ k), if_pos rfl,
        getD_zero_of_le (by omega : (fl i).length ≤ k + 1)]

/-- The nonzero nodes met on list `i` are the members of `fl i`. -/
theorem listAt_mem {s : Heap} {bl : List Blk} {fl : Nat → List Nat} (h : Str s bl fl)
    {i : Nat} (hi : i < 14) {x : Nat} (hx : x ≠ 0) : (∃ k, listAt s i k = x) ↔ x ∈ fl i := by
  constructor
  · rintro ⟨k, e⟩
    rw [listAt_eq h hi] at e
    by_cases hk : k < (fl i).length
    · rw [← e]; exact getD_mem_of_lt hk
    · rw [getD_zero_of_le (by omega)] at e
      exact absurd e.symm hx
  · intro hm
    obtain ⟨k, _, e⟩ := getD_of_mem hm
    exact ⟨k, by rw [listAt_eq h hi, e]⟩

/-! ## The size classes of the table and of the code -/

theorem findStart_inClass (size : Nat) : inClass (findStart size) size := by
  have hc := findStart_cases size
  unfold inClass classBounds
  rcases hc with ⟨a, e⟩ | ⟨a, b, e⟩ | ⟨a, b, e⟩ | ⟨a, b, e⟩ | ⟨a, b, e⟩ | ⟨a, b, e⟩ | ⟨a, b, e⟩ |
    ⟨a, b, e⟩ | ⟨a, b, e⟩ | ⟨a, b, e⟩ | ⟨a, b, e⟩ | ⟨a, b, e⟩ | ⟨a, b, e⟩ | ⟨a, e⟩ <;>
  · rw [e]
    simp
    omega

theorem inClass_findStart {i size : Nat} (h : inClass i size) : findStart size = i := by
  obtain ⟨hi, hlo, hhi⟩ := h
  have hc := findStart_cases size
  unfold classBounds at hlo hhi
  interval_cases i <;> simp at hlo hhi <;> omega

/-! ## Boundary tags and directory lists of a well-formed heap -/

theorem walk_index {s : Heap} {bl : List Blk} {a e k : Nat} (hT : Tiles s.mem a bl e)
    (hlt : e < 4294967296) (hk : blockAt s k = a) (j : Nat) (hj : j < bl.length) :
    ∃ b ∈ bl, blockAt s (k + j) = b.bp := by
  induction bl generalizing a k j with
  | nil => simp at hj
  | cons c t ih =>
    obtain ⟨h1, h2, h3, h4, h5, h6, h7⟩ := hT
    have hle := Tiles_le h7
    have hbit := c.st.bit_le
    have hnext : blockAt s (k + 1) = a + c.size := by
      rw [blockAt_succ, hk]
      unfold GET_SIZE GET
      rw [h4, size_of_word _ _ h2 (by omega) (by omega)]
    cases j with
    | zero => exact ⟨c, List.mem_cons_self _ _, by rw [h1]; exact hk⟩
    | succ j =>
      simp only [List.length_cons] at hj
      obtain ⟨b, hb, e'⟩ := ih h7 hnext j (by omega)
      exact ⟨b, List.mem_cons_of_mem _ hb, by rw [← e']; congr 1; omega⟩

/-- The words of a block of the tiling, read through the macros. -/
theorem Str.tags {s : Heap} {bl : List Blk} {fl : Nat → List Nat} (h : Str s bl fl)
    {b : Blk} (hb : b ∈ bl) :
    GET s (HDRP b.bp) = b.size + b.st.bit ∧ GET s (FTRP s b.bp) = b.size + b.st.bit ∧
    GET_SIZE s (HDRP b.bp) = b.size ∧ GET_ALLOC s (HDRP b.bp) = b.st.bit := by
  have fb := h.blk hb
  have g := h.get_size hb
  have e : FTRP s b.bp = b.bp + b.size - 8 := by
    show b.bp + GET_SIZE s (b.bp - 4) - 8 = _
    rw [g]
  refine ⟨fb.2.2.2.2.2.1, ?_, g, h.get_alloc hb⟩
  rw [e]
  exact fb.2.2.2.2.2.2.1

/-- Boundary tags in a state that satisfies the invariant. -/
theorem inv_tags {s : Heap} {L : List Nat} (h : Inv s L) :
    (GET_SIZE s (HDRP (blockAt s 0)) = 8 ∧ GET_ALLOC s (HDRP (blockAt s 0)) = 1 ∧
      GET s (FTRP s (blockAt s 0)) = GET s (HDRP (blockAt s 0))) ∧
    (GET_SIZE s (HDRP s.brk) = 0 ∧ GET_ALLOC s (HDRP s.brk) = 1) ∧
    ∃ N, blockAt s (N + 1) = s.brk ∧ ∀ k, 1 ≤ k → k ≤ N →
      blockAt s k < s.brk ∧
      GET s (FTRP s (blockAt s k)) = GET s (HDRP (blockAt s k)) ∧
      GET_SIZE s (HDRP (blockAt s k)) % 8 = 0 ∧ 16 ≤ GET_SIZE s (HDRP (blockAt s k)) := by
  obtain ⟨bl, fl, hW, _, _⟩ := Inv_iff.1 h
  have hS := hW.1
  have hpro : GET s (HDRP (blockAt s 0)) = 9 := by
    show s.mem (s.lo + 112 - 4) = 9
    rw [show s.lo + 112 - 4 = s.lo + 108 by omega]
    exact hS.pro1
  have hsz : GET_SIZE s (HDRP (blockAt s 0)) = 8 := by
    unfold GET_SIZE
    rw [hpro]
    rfl
  have hftr : FTRP s (blockAt s 0) = s.lo + 112 := by
    show blockAt s 0 + GET_SIZE s (HDRP (blockAt s 0)) - DSIZE = _
    rw [hsz]
    show s.lo + 112 + 8 - 8 = _
    omega
  have hepi : GET s (HDRP s.brk) = 1 := hS.epi
  refine ⟨⟨hsz, ?_, ?_⟩, ⟨?_, ?_⟩, bl.length, (walk_WF hW).2.1, ?_⟩
  · unfold GET_ALLOC
    rw [hpro]
    rfl
  · rw [hftr, hpro]
    exact hS.pro2
  · unfold GET_SIZE
    rw [hepi]
    rfl
  · unfold GET_ALLOC
    rw [hepi]
    rfl
  · intro k hk1 hk2
    obtain ⟨b, hb, e⟩ := walk_index hS.tiles hS.brk_lt (blockAt_one hS) (k - 1) (by omega)
    rw [show 1 + (k - 1) = k by omega] at e
    have fb := hS.blk hb
    obtain ⟨t1, t2, t3, _⟩ := hS.tags hb
    rw [e, t1, t2, t3]
    exact ⟨by omega, rfl, fb.2.2.2.1, fb.2.2.2.2.1⟩

/-- The directory lists in a state that satisfies the invariant. -/
theorem inv_lists {s : Heap} {L : List Nat} (h : Inv s L) {i : Nat} (hi : i < 14) :
    (∃ n, listAt s i n = 0) ∧
    (∀ j k, j < k → listAt s i j ≠ 0 → listAt s i j ≠ listAt s i k) ∧
    (listAt s i 0 ≠ 0 → GET s (PREV_FP (listAt s i 0)) = 0) ∧
    (∀ k, listAt s i (k + 1) ≠ 0 → GET s (PREV_FP (listAt s i (k + 1))) = listAt s i k) ∧
    (∀ size, ∃ r, find s i size = Except.ok r) ∧
    (∀ k, listAt s i k ≠ 0 →
      GET_ALLOC s (HDRP (listAt s i k)) = 0 ∧ inClass i (GET_SIZE s (HDRP (listAt s i k))) ∧
      (∃ j, blockAt s j = listAt s i k) ∧ listAt s i k ∉ L) := by
  obtain ⟨bl, fl, hW, _, hL⟩ := Inv_iff.1 h
  have hS := hW.1
  have hseg := hS.segs i hi
  have hnd := hS.nodup i hi
  have hlen : ∀ k, listAt s i k ≠ 0 → k < (fl i).length := by
    intro k hk
    by_contra hc
    rw [listAt_eq hS hi, getD_zero_of_le (by omega)] at hk
    exact hk rfl
  refine ⟨⟨(fl i).length, ?_⟩, ?_, ?_, ?_, ?_, ?_⟩
  · rw [listAt_eq hS hi, getD_zero_of_le (le_refl _)]
  · intro j k hjk hj e
    have hj' := hlen j hj
    have hk' := hlen k (e ▸ hj)
    rw [listAt_eq hS hi, listAt_eq hS hi] at e
    have := getD_inj_of_nodup hnd hj' hk' e
    omega
  · intro h0
    have := hlen 0 h0
    rw [listAt_eq hS hi]
    exact Seg_getD_head hseg this
  · intro k hk
    have := hlen (k + 1) hk
    rw [listAt_eq hS hi, listAt_eq hS hi]
    exact Seg_getD_prev hseg k this
  · intro size
    exact ⟨_, find_spec hS hi size⟩
  · intro k hk
    have hk' := hlen k hk
    have hm : listAt s i k ∈ fl i := by
      rw [listAt_eq hS hi]
      exact getD_mem_of_lt hk'
    obtain ⟨b, hb, e1, e2, e3⟩ := hS.node hi hm
    obtain ⟨_, _, t3, t4⟩ := hS.tags hb
    rw [← e1, t3, t4, e2]
    refine ⟨rfl, ?_, (walk_WF hW).2.2.1 b hb, ?_⟩
    · rw [← e3]
      exact findStart_inClass _
    · intro hmem
      obtain ⟨c, hc, c1, c2⟩ := (hL b.bp).1 hmem
      have := hS.bp_inj hc hb c1
      rw [this, e2] at c2
      cases c2

/-- Every free block of the heap walk is on exactly one list, at one place;
an allocated block is on none. -/
theorem inv_free_listed {s : Heap} {L : List Nat} (h : Inv s L) (j : Nat) :
    (GET_ALLOC s (HDRP (blockAt s j)) = 0 →
      ∃ i k, i < 14 ∧ listAt s i k = blockAt s j ∧
        ∀ i' k', i' < 14 → listAt s i' k' = blockAt s j → i' = i ∧ k' = k) ∧
    (GET_ALLOC s (HDRP (blockAt s j)) ≠ 0 → ∀ i k, i < 14 → listAt s i k ≠ blockAt s j) := by
  obtain ⟨bl, fl, hW, _, hL⟩ := Inv_iff.1 h
  have hS := hW.1
  have hlo := hS.lo8
  have hpro : GET_ALLOC s (HDRP (blockAt s 0)) = 1 := (inv_tags h).1.2.1
  have hepi : GET_ALLOC s (HDRP s.brk) = 1 := (inv_tags h).2.1.2
  have hnz : ∀ k, blockAt s k ≠ 0 := by
    intro k
    cases k with
    | zero => show s.lo + 112 ≠ 0; omega
    | succ k =>
      rcases walk_cases hS.tiles hS.brk_lt hS.epi (blockAt_one hS) k with ⟨b, hb, e⟩ | e
      · have := hS.blk hb
        rw [show 1 + k = k + 1 by omega] at e
        omega
      · have := hS.brk_ge
        rw [show 1 + k = k + 1 by omega] at e
        omega
  -- the block behind an address of the walk
  have hcase : j = 0 ∨ blockAt s j = s.brk ∨ ∃ b ∈ bl, blockAt s j = b.bp := by
    cases j with
    | zero => exact Or.inl rfl
    | succ k =>
      rcases walk_cases hS.tiles hS.brk_lt hS.epi (blockAt_one hS) k with ⟨b, hb, e⟩ | e
      · exact Or.inr (Or.inr ⟨b, hb, by rw [← e]; congr 1; omega⟩)
      · exact Or.inr (Or.inl (by rw [← e]; congr 1; omega))
  -- a node of a list is a listed block
  have hnode : ∀ i k, i < 14 → listAt s i k = blockAt s j →
      ∃ b ∈ bl, b.bp = blockAt s j ∧ b.st = St.listed ∧ findStart b.size = i ∧
        blockAt s j ∈ fl i := by
    intro i k hi e
    have hm : blockAt s j ∈ fl i := (listAt_mem hS hi (hnz j)).1 ⟨k, e⟩
    obtain ⟨b, hb, e1, e2, e3⟩ := hS.node hi hm
    exact ⟨b, hb, e1, e2, e3, hm⟩
  constructor
  · intro hfree
    rcases hcase with e | e | ⟨b, hb, e⟩
    · subst e; rw [hpro] at hfree; cases hfree
    · rw [e, hepi] at hfree; cases hfree
    · have hbit := hS.get_alloc hb
      have hst : b.st = St.listed := by
        have hfree' : GET_ALLOC s (b.bp - 4) = 0 := by rw [← e]; exact hfree
        rw [hbit] at hfree'
        have := hW.2.1 b hb
        cases hb' : b.st
        · rw [hb'] at hfree'; cases hfree'
        · rfl
        · exact absurd hb' this
      have hi := findStart_lt b.size
      have hm : b.bp ∈ fl (findStart b.size) := (hS.link _ hi _).2 ⟨b, hb, rfl, hst, rfl⟩
      obtain ⟨k, hk, hx⟩ := getD_of_mem hm
      refine ⟨findStart b.size, k, hi, by rw [listAt_eq hS hi, hx, e], ?_⟩
      intro i' k' hi' e'
      obtain ⟨c, hc, c1, c2, c3, c4⟩ := hnode i' k' hi' e'
      have hcb : c = b := hS.bp_inj hc hb (by rw [c1, e])
      have hii : i' = findStart b.size := by rw [← c3, hcb]
      subst hii
      refine ⟨rfl, ?_⟩
      rw [listAt_eq hS hi', e, ← hx] at e'
      have hk' : k' < (fl (findStart b.size)).length := by
        by_contra hc'
        rw [getD_zero_of_le (by omega), hx] at e'
        have := hS.blk hb
        omega
      exact getD_inj_of_nodup (hS.nodup _ hi') hk' hk e'
  · intro hused i k hi e
    obtain ⟨b, hb, e1, e2, _⟩ := hnode i k hi e
    have hbit := hS.get_alloc hb
    rw [e2] at hbit
    apply hused
    rw [← e1]
    exact hbit

/-! ## What the operations do to the bounds and to the two counters -/

theorem split_regs (s : Heap) (bp size : Nat) : SameRegs s (split s bp size) := by
  unfold split SameRegs
  by_cases h : (GET_SIZE s (HDRP bp) + 4294967296 - size) % 4294967296 ≥ 2 * DSIZE
  · simp only [if_pos h, addList_lo, addList_brk, addList_cap, addList_last_size, addList_count,
      PUT_lo, PUT_brk, PUT_cap, PUT_last_size, PUT_count, deleteList_lo, deleteList_brk,
      deleteList_cap, deleteList_last_size, deleteList_count, and_self]
  · simp only [if_neg h, PUT_lo, PUT_brk, PUT_cap, PUT_last_size, PUT_count, deleteList_lo,
      deleteList_brk, deleteList_cap, deleteList_last_size, deleteList_count, and_self]

theorem coalesce_regs (s : Heap) (bp : Nat) : SameRegs s (coalesce s bp).2 := by
  unfold coalesce SameRegs
  by_cases h1 : GET_ALLOC s (FTRP s (PREV_BLKP s bp)) ≠ 0 ∧ GET_ALLOC s (HDRP (NEXT_BLKP s bp)) ≠ 0
  · simp only [if_pos h1, addList_lo, addList_brk, addList_cap, addList_last_size,
      addList_count, and_self]
  by_cases h2 : GET_ALLOC s (FTRP s (PREV_BLKP s bp)) ≠ 0 ∧
      ¬ GET_ALLOC s (HDRP (NEXT_BLKP s bp)) ≠ 0
  · simp only [if_neg h1, if_pos h2, addList_lo, addList_brk, addList_cap, addList_last_size,
      addList_count, PUT_lo, PUT_brk, PUT_cap, PUT_last_size, PUT_count, deleteList_lo,
      deleteList_brk, deleteList_cap, deleteList_last_size, deleteList_count, and_self]
  by_cases h3 : ¬ GET_ALLOC s (FTRP s (PREV_BLKP s bp)) ≠ 0 ∧
      GET_ALLOC s (HDRP (NEXT_BLKP s bp)) ≠ 0
  · simp only [if_neg h1, if_neg h2, if_pos h3, addList_lo, addList_brk, addList_cap,
      addList_last_size, addList_count, PUT_lo, PUT_brk, PUT_cap, PUT_last_size, PUT_count,
      deleteList_lo, deleteList_brk, deleteList_cap, deleteList_last_size, deleteList_count,
      and_self]
  · simp only [if_neg h1, if_neg h2, if_neg h3, addList_lo, addList_brk, addList_cap,
      addList_last_size, addList_count, PUT_lo, PUT_brk, PUT_cap, PUT_last_size, PUT_count,
      deleteList_lo, deleteList_brk, deleteList_cap, deleteList_last_size, deleteList_count,
      and_self]

/-- `extendHeap` keeps the low bound, the limit and the counters; the break
moves by the requested amount when the provider grants it. -/
theorem extendHeap_regs (s : Heap) (size : Nat) :
    (extendHeap s size).2.lo = s.lo ∧ (extendHeap s size).2.cap = s.cap ∧
    (extendHeap s size).2.last_size = s.last_size ∧ (extendHeap s size).2.count = s.count ∧
    (extendHeap s size).2.brk = if s.brk + size ≤ s.cap then s.brk + size else s.brk := by
  by_cases hcap : s.brk + size ≤ s.cap
  · have e : extendHeap s size = coalesce (PUT (PUT (PUT (PUT (PUT { s with brk := s.brk + size }
        (HDRP s.brk) (PACK size 0))
        (FTRP (PUT { s with brk := s.brk + size } (HDRP s.brk) (PACK size 0)) s.brk)
        (PACK size 0)) (NEXT_FP s.brk) 0) (PREV_FP s.brk) 0)
        (HDRP (NEXT_BLKP (PUT (PUT (PUT (PUT { s with brk := s.brk + size }
        (HDRP s.brk) (PACK size 0))
        (FTRP (PUT { s with brk := s.brk + size } (HDRP s.brk) (PACK size 0)) s.brk)
        (PACK size 0)) (NEXT_FP s.brk) 0) (PREV_FP s.brk) 0) s.brk)) (PACK 0 1)) s.brk := by
      unfold extendHeap mem_sbrk
      rw [if_pos hcap]
    rw [e, if_pos hcap]
    obtain ⟨c1, c2, c3, c4, c5⟩ := coalesce_regs (PUT (PUT (PUT (PUT (PUT
        { s with brk := s.brk + size } (HDRP s.brk) (PACK size 0))
        (FTRP (PUT { s with brk := s.brk + size } (HDRP s.brk) (PACK size 0)) s.brk)
        (PACK size 0)) (NEXT_FP s.brk) 0) (PREV_FP s.brk) 0)
        (HDRP (NEXT_BLKP (PUT (PUT (PUT (PUT { s with brk := s.brk + size }
        (HDRP s.brk) (PACK size 0))
        (FTRP (PUT { s with brk := s.brk + size } (HDRP s.brk) (PACK size 0)) s.brk)
        (PACK size 0)) (NEXT_FP s.brk) 0) (PREV_FP s.brk) 0) s.brk)) (PACK 0 1)) s.brk
    exact ⟨c1, c3, c4, c5, c2⟩
  · rw [extendHeap_refused hcap, if_neg hcap]
    exact ⟨rfl, rfl, rfl, rfl, rfl⟩

/-- `mm_malloc` for a nonzero request, in terms of what `findWrapper` returned. -/
theorem mm_malloc_of_find {s : Heap} {n r : Nat} {s1 : Heap} (hn : n ≠ 0)
    (hf : findWrapper s (normSize n) = Except.ok (r, s1)) :
    mm_malloc s n =
      if r = 0 then
        if (extendHeap s1 (MAX CHUNKSIZE (normSize n))).1 = 0 then
          Except.ok (0, (extendHeap s1 (MAX CHUNKSIZE (normSize n))).2)
        else Except.ok ((extendHeap s1 (MAX CHUNKSIZE (normSize n))).1,
          split (extendHeap s1 (MAX CHUNKSIZE (normSize n))).2
            (extendHeap s1 (MAX CHUNKSIZE (normSize n))).1 (normSize n))
      else Except.ok (r, split s1 r (normSize n)) := by
  unfold mm_malloc
  rw [if_neg hn]
  show (match findWrapper s (normSize n) with
    | Except.error e => Except.error e
    | Except.ok (ptr, s1) =>
      if ptr = 0 then
        if (extendHeap s1 (MAX CHUNKSIZE (normSize n))).1 = 0 then
          Except.ok (0, (extendHeap s1 (MAX CHUNKSIZE (normSize n))).2)
        else Except.ok ((extendHeap s1 (MAX CHUNKSIZE (normSize n))).1,
          split (extendHeap s1 (MAX CHUNKSIZE (normSize n))).2
            (extendHeap s1 (MAX CHUNKSIZE (normSize n))).1 (normSize n))
      else Except.ok (ptr, split s1 ptr (normSize n))) = _
  rw [hf]

/-- The counters and bounds after `mm_malloc`, in terms of the state that
`findWrapper` returned: only the break can differ, and only when the search
found nothing. -/
theorem mm_malloc_regs {s : Heap} {n r p : Nat} {s1 s' : Heap} (hn : n ≠ 0)
    (hf : findWrapper s (normSize n) = Except.ok (r, s1))
    (e : mm_malloc s n = Except.ok (p, s')) :
    s'.last_size = s1.last_size ∧ s'.count = s1.count ∧ s'.lo = s1.lo ∧ s'.cap = s1.cap ∧
    (r ≠ 0 → p = r ∧ s'.brk = s1.brk) := by
  rw [mm_malloc_of_find hn hf] at e
  obtain ⟨x1, x2, x3, x4, x5⟩ := extendHeap_regs s1 (MAX CHUNKSIZE (normSize n))
  by_cases hr : r = 0
  · rw [if_pos hr] at e
    by_cases hx : (extendHeap s1 (MAX CHUNKSIZE (normSize n))).1 = 0
    · rw [if_pos hx] at e
      injection e with e
      injection e with e1 e2
      subst e2
      exact ⟨x3, x4, x1, x2, fun c => absurd hr c⟩
    · rw [if_neg hx] at e
      injection e with e
      injection e with e1 e2
      subst e2
      obtain ⟨y1, y2, y3, y4, y5⟩ := split_regs (extendHeap s1 (MAX CHUNKSIZE (normSize n))).2
        (extendHeap s1 (MAX CHUNKSIZE (normSize n))).1 (normSize n)
      exact ⟨by rw [y4, x3], by rw [y5, x4], by rw [y1, x1], by rw [y3, x2],
        fun c => absurd hr c⟩
  · rw [if_neg hr] at e
    injection e with e
    injection e with e1 e2
    subst e2
    obtain ⟨y1, y2, y3, y4, y5⟩ := split_regs s1 r (normSize n)
    exact ⟨y4, y5, y1, y3, fun _ => ⟨e1.symm, y2⟩⟩

/-! ## First fit over the directory -/

theorem pick_first (bs : Nat → Nat) (size : Nat) (l : List Nat) :
    (pick bs size l = 0 ∧ ∀ n ∈ l, bs n < size) ∨
    ∃ k, k < l.length ∧ l.getD k 0 = pick bs size l ∧ size ≤ bs (pick bs size l) ∧
      ∀ k', k' < k → bs (l.getD k' 0) < size := by
  induction l with
  | nil => exact Or.inl ⟨rfl, fun n hn => by simp at hn⟩
  | cons n t ih =>
    by_cases hn : bs n ≥ size
    · right
      have e : pick bs size (n :: t) = n := pick_head bs size n t hn
      exact ⟨0, by simp, by rw [e]; rfl, by rw [e]; exact hn, fun k' hk' => by omega⟩
    · have e : pick bs size (n :: t) = pick bs size t := by
        show (if bs n ≥ size then n else pick bs size t) = _
        rw [if_neg hn]
      rw [e]
      rcases ih with ⟨h0, hall⟩ | ⟨k, hk, e1, e2, e3⟩
      · left
        refine ⟨h0, ?_⟩
        intro m hm
        rcases List.mem_cons.1 hm with c | c
        · rw [c]; omega
        · exact hall m c
      · right
        refine ⟨k + 1, by simp; omega, e1, e2, ?_⟩
        intro k' hk'
        cases k' with
        | zero => show bs n < size; omega
        | succ k' => exact e3 k' (by omega)

/-- The search of `findWrapper` on a well-formed heap when the bypass does not
fire: the result is the first node, in list order, that is large enough, in
the first list from the starting class on that has such a node; it is null
exactly when no node of any list is large enough. -/
theorem first_fit {s : Heap} {bl : List Blk} {fl : Nat → List Nat} (h : Str s bl fl)
    (size : Nat) (hb : ¬ bypass s size) :
    ∃ r s1, findWrapper s size = Except.ok (r, s1) ∧
      s1.mem = s.mem ∧ s1.lo = s.lo ∧ s1.brk = s.brk ∧ s1.cap = s.cap ∧
      (r = 0 ↔ ∀ i k, i < 14 → listAt s i k ≠ 0 → GET_SIZE s (HDRP (listAt s i k)) < size) ∧
      (r ≠ 0 → ∃ i k, findStart size ≤ i ∧ i < 14 ∧ listAt s i k = r ∧
        size ≤ GET_SIZE s (HDRP r) ∧
        (∀ k', k' < k → GET_SIZE s (HDRP (listAt s i k')) < size) ∧
        ∀ i' k', findStart size ≤ i' → i' < i → listAt s i' k' ≠ 0 →
          GET_SIZE s (HDRP (listAt s i' k')) < size) := by
  obtain ⟨s1, e0, e1, e2, e3, e4⟩ := findWrapper_search h hb
  refine ⟨_, s1, e0, e1, e2, e3, e4, ?_⟩
  have h0 : ∀ j, j < 14 → ∀ x ∈ fl j, x ≠ 0 := fun j hj => Seg_ne_zero (h.segs j hj)
  have hi := findStart_lt size
  have hnode : ∀ i k, i < 14 → listAt s i k ≠ 0 → listAt s i k ∈ fl i :=
    fun i k hi' hk => (listAt_mem h hi' hk).1 ⟨k, rfl⟩
  have hlow : ∀ i k, i < findStart size → listAt s i k ≠ 0 →
      GET_SIZE s (HDRP (listAt s i k)) < size := by
    intro i k hlt hk
    obtain ⟨b, hb', c1, _, c3⟩ := h.node (by omega) (hnode i k (by omega) hk)
    have g : GET_SIZE s (HDRP (listAt s i k)) = b.size := by rw [← c1]; exact h.get_size hb'
    rw [g]
    by_contra hc
    have := findStart_mono (Nat.le_of_not_lt hc)
    omega
  rcases pickFrom_spec fl (fun n => GET_SIZE s (HDRP n)) size h0 (14 - findStart size)
      (findStart size) (by omega) with ⟨e, hnone⟩ | ⟨hp, j, j1, j2, j3, j4, j5, j6⟩
  · rw [e]
    refine ⟨⟨fun _ => ?_, fun _ => rfl⟩, fun c => absurd rfl c⟩
    intro i k hi' hk
    by_cases hlt : i < findStart size
    · exact hlow i k hlt hk
    · exact hnone i (by omega) (by omega) _ (hnode i k hi' hk)
  · refine ⟨⟨fun c => absurd c hp, fun hall => ?_⟩, fun _ => ?_⟩
    · exfalso
      obtain ⟨k, hk⟩ := (listAt_mem h (by omega : j < 14) hp).2 j3
      have := hall j k (by omega) (by rw [hk]; exact hp)
      rw [hk] at this
      have j4' : size ≤ GET_SIZE s (HDRP (pickFrom fl (fun n => GET_SIZE s (HDRP n)) size
        (14 - findStart size) (findStart size))) := j4
      omega
    · rcases pick_first (fun n => GET_SIZE s (HDRP n)) size (fl j) with ⟨c, _⟩ | ⟨k, k1, k2, k3, k4⟩
      · rw [← j5] at c
        exact absurd c hp
      · rw [← j5] at k2
        refine ⟨j, k, j1, by omega, by rw [listAt_eq h (by omega), k2], j4, ?_, ?_⟩
        · intro k' hk'
          rw [listAt_eq h (by omega)]
          exact k4 k' hk'
        · intro i' k' a1 a2 hk'
          exact j6 i' a1 a2 _ (hnode i' k' (by omega) hk')

/-- `mm_malloc` moves the break only if no node of the directory is large
enough, when the bypass does not fire. -/
theorem malloc_grows_only {s : Heap} {bl : List Blk} {fl : Nat → List Nat} (h : Str s bl fl)
    {n p : Nat} {s' : Heap} (hb : ¬ bypass s (normSize n))
    (e : mm_malloc s n = Except.ok (p, s')) (hg : s'.brk ≠ s.brk) :
    ∀ i k, i < 14 → listAt s i k ≠ 0 → GET_SIZE s (HDRP (listAt s i k)) < normSize n := by
  have hn : n ≠ 0 := by
    intro c
    subst c
    unfold mm_malloc at e
    rw [if_pos rfl] at e
    injection e with e
    injection e with e1 e2
    exact hg (by rw [e2])
  obtain ⟨r, s1, hf, _, _, e3, _, hiff, _⟩ := first_fit h (normSize n) hb
  obtain ⟨_, _, _, _, hr⟩ := mm_malloc_regs hn hf e
  have hr0 : r = 0 := by
    by_contra c
    exact hg (by rw [(hr c).2, e3])
  exact hiff.1 hr0

/-! ## Runs of requests of one size -/

theorem PACK_zero (x : Nat) : PACK x 0 = x := Nat.or_zero x

/-- What can be read off a heap in which the filed block `M` heads its list
and has no free neighbour. -/
theorem merged_facts {s : Heap} {pre post : List Blk} {M : Blk} {fl : Nat → List Nat}
    (h : Str s (pre ++ M :: post) fl) (hM : M.st = St.listed)
    (hhead : ∃ t, fl (findStart M.size) = M.bp :: t)
    (hp : pre = [] ∨ ∃ pre0 P, pre = pre0 ++ [P] ∧ P.st = St.used)
    (hn : post = [] ∨ ∃ N post0, post = N :: post0 ∧ N.st = St.used) :
    GET s (HDRP M.bp) = M.size ∧ GET s (FTRP s M.bp) = M.size ∧
    listAt s (findStart M.size) 0 = M.bp ∧
    (∀ i k, i < 14 → listAt s i k = M.bp → i = findStart M.size ∧ k = 0) ∧
    (∀ x, M.bp < x → x < M.bp + M.size → ∀ i k, i < 14 → listAt s i k ≠ x) ∧
    GET_ALLOC s (HDRP (NEXT_BLKP s M.bp)) = 1 ∧
    GET_ALLOC s (FTRP s (PREV_BLKP s M.bp)) = 1 := by
  have hMm : M ∈ pre ++ M :: post := by simp
  have fM := h.blk hMm
  obtain ⟨t1, t2, _, _⟩ := h.tags hMm
  rw [hM] at t1 t2
  have hi := findStart_lt M.size
  obtain ⟨t, ht⟩ := hhead
  have h0 : listAt s (findStart M.size) 0 = M.bp := by
    rw [listAt_eq h hi, ht]
    rfl
  refine ⟨t1, t2, h0, ?_, ?_, h.next_used hn, h.prev_used hp⟩
  · intro i k hi' e
    have hm : M.bp ∈ fl i := (listAt_mem h hi' (by omega)).1 ⟨k, e⟩
    obtain ⟨c, hc, c1, _, c3⟩ := h.node hi' hm
    have hcM : c = M := h.bp_inj hc hMm c1
    have hii : i = findStart M.size := by rw [← c3, hcM]
    subst hii
    refine ⟨rfl, ?_⟩
    rw [listAt_eq h hi', ← h0, listAt_eq h hi'] at e
    have hk : k < (fl (findStart M.size)).length := by
      by_contra hc'
      rw [getD_zero_of_le (by omega), ← listAt_eq h hi', h0] at e
      omega
    exact getD_inj_of_nodup (h.nodup _ hi') hk (by rw [ht]; simp) e
  · intro x hx1 hx2 i k hi' e
    have hm : x ∈ fl i := (listAt_mem h hi' (by omega)).1 ⟨k, e⟩
    obtain ⟨c, hc, c1, _, _⟩ := h.node hi' hm
    have fc := h.blk hc
    rcases h.sep hc hMm with e' | e' | e'
    · rw [e'] at c1; omega
    · omega
    · omega

/-- `coalesce` on a free block that is on no list, in a heap that is otherwise
well-formed, in terms of what can be read in memory before and after. -/
theorem coalesce_obs {s : Heap} {pre post : List Blk} {X : Blk} {fl : Nat → List Nat}
    (h : Str s (pre ++ X :: post) fl) (hX : X.st = St.loose)
    (hnl : ∀ b, b ∈ pre ∨ b ∈ post → b.st ≠ St.loose)
    (hadj1 : NoAdjFree pre) (hadj2 : NoAdjFree post) :
    (coalesce s X.bp).1 =
      (if GET_ALLOC s (FTRP s (PREV_BLKP s X.bp)) = 0 then PREV_BLKP s X.bp else X.bp) ∧
    GET (coalesce s X.bp).2 (HDRP (coalesce s X.bp).1) = PACK (mergedSize s X.bp) 0 ∧
    GET (coalesce s X.bp).2 (FTRP (coalesce s X.bp).2 (coalesce s X.bp).1) =
      PACK (mergedSize s X.bp) 0 ∧
    listAt (coalesce s X.bp).2 (findStart (mergedSize s X.bp)) 0 = (coalesce s X.bp).1 ∧
    (∀ i k, i < 14 → listAt (coalesce s X.bp).2 i k = (coalesce s X.bp).1 →
      i = findStart (mergedSize s X.bp) ∧ k = 0) ∧
    (∀ x, (coalesce s X.bp).1 < x → x < (coalesce s X.bp).1 + mergedSize s X.bp →
      ∀ i k, i < 14 → listAt (coalesce s X.bp).2 i k ≠ x) ∧
    GET_ALLOC (coalesce s X.bp).2 (HDRP (NEXT_BLKP (coalesce s X.bp).2 (coalesce s X.bp).1)) = 1 ∧
    GET_ALLOC (coalesce s X.bp).2
      (FTRP (coalesce s X.bp).2 (PREV_BLKP (coalesce s X.bp).2 (coalesce s X.bp).1)) = 1 := by
  have cp : (pre = [] ∨ ∃ pre0 P, pre = pre0 ++ [P] ∧ P.st = St.used) ∨
      ∃ pre0 P, pre = pre0 ++ [P] ∧ P.st = St.listed := by
    rcases List.eq_nil_or_concat pre with e | ⟨pre0, P, e⟩
    · exact Or.inl (Or.inl e)
    · rw [List.concat_eq_append] at e
      by_cases hu : P.st = St.used
      · exact Or.inl (Or.inr ⟨pre0, P, e, hu⟩)
      · exact Or.inr ⟨pre0, P, e, St.listed_of hu (hnl P (Or.inl (by simp [e])))⟩
  have cn : (post = [] ∨ ∃ N post0, post = N :: post0 ∧ N.st = St.used) ∨
      ∃ N post0, post = N :: post0 ∧ N.st = St.listed := by
    cases post with
    | nil => exact Or.inl (Or.inl rfl)
    | cons N post0 =>
      by_cases hu : N.st = St.used
      · exact Or.inl (Or.inr ⟨N, post0, rfl, hu⟩)
      · exact Or.inr ⟨N, post0, rfl, St.listed_of hu (hnl N (Or.inr (by simp)))⟩
  have hXm : X ∈ pre ++ X :: post := by simp
  have fX := h.blk hXm
  have gX : GET_SIZE s (HDRP X.bp) = X.size := h.get_size hXm
  obtain ⟨enext, _⟩ := h.next_read
  -- what the guards of `coalesce` read
  have rp_used : (pre = [] ∨ ∃ pre0 P, pre = pre0 ++ [P] ∧ P.st = St.used) →
      GET_ALLOC s (FTRP s (PREV_BLKP s X.bp)) = 1 := fun hp => h.prev_used hp
  have rn_used : (post = [] ∨ ∃ N post0, post = N :: post0 ∧ N.st = St.used) →
      GET_ALLOC s (HDRP (NEXT_BLKP s X.bp)) = 1 := fun hn => h.next_used hn
  have rp_free : ∀ pre0 P, pre = pre0 ++ [P] → P.st = St.listed →
      GET_ALLOC s (FTRP s (PREV_BLKP s X.bp)) = 0 ∧ PREV_BLKP s X.bp = P.bp ∧
      GET_SIZE s (HDRP (PREV_BLKP s X.bp)) = P.size := by
    intro pre0 P e hP
    have hPm : P ∈ pre ++ X :: post := by simp [e]
    rcases h.prev_read with ⟨e', _⟩ | ⟨pre1, P1, e1, e2, e3, _⟩
    · rw [e'] at e; simp at e
    · have hPP : P1 = P := by
        rw [e1] at e
        have := (List.append_inj' e rfl).2
        simpa using this
      subst hPP
      rw [hP] at e2
      exact ⟨e2, e3, by rw [e3]; exact h.get_size hPm⟩
  have rn_free : ∀ N post0, post = N :: post0 → N.st = St.listed →
      GET_ALLOC s (HDRP (NEXT_BLKP s X.bp)) = 0 ∧
      GET_SIZE s (HDRP (NEXT_BLKP s X.bp)) = N.size := by
    intro N post0 e hN
    have hNm : N ∈ pre ++ X :: post := by simp [e]
    obtain ⟨_, nr⟩ := h.next_read
    rcases nr with ⟨e', _⟩ | ⟨N1, p1, e1, e2, e3⟩
    · rw [e'] at e; simp at e
    · have hNN : N1 = N := by
        rw [e1] at e
        simp at e
        exact e.1
      subst hNN
      rw [hN] at e2
      exact ⟨e2, by rw [enext, ← e3]; exact h.get_size hNm⟩
  rcases cp with hp | ⟨pre0, P, e1, hP⟩ <;> rcases cn with hn | ⟨N, post0, e2, hN⟩
  · -- both neighbours allocated
    have a1 := rp_used hp
    have a2 := rn_used hn
    have hms : mergedSize s X.bp = X.size := by
      unfold mergedSize
      rw [a1, a2, gX]
      rfl
    have hS := addList_Str h hX
    obtain ⟨m1, m2, m3, m4, m5, m6, m7⟩ := @merged_facts _ pre post ({ X with st := St.listed })
      _ hS rfl ⟨_, Function.update_same _ _ _⟩ hp hn
    rw [coalesce_UU h hp hn, a1, if_neg (by decide), hms, PACK_zero]
    exact ⟨rfl, m1, m2, m3, m4, m5, m6, m7⟩
  · -- successor free
    subst e2
    have a1 := rp_used hp
    obtain ⟨a2, a3⟩ := rn_free N post0 rfl hN
    have hms : mergedSize s X.bp = X.size + N.size := by
      unfold mergedSize
      rw [a1, a2, a3, gX]
      rfl
    obtain ⟨fl', c1, c2, c3, _, _⟩ := coalesce_UF h hX hN hp
    have hadj3 := NoAdjFree_head hadj2 (by simp [hN])
    obtain ⟨m1, m2, m3, m4, m5, m6, m7⟩ := @merged_facts _ pre post0
      ⟨X.bp, X.size + N.size, St.listed⟩ _ c2 rfl c3 hp hadj3
    rw [c1, a1, if_neg (by decide), hms, PACK_zero]
    exact ⟨rfl, m1, m2, m3, m4, m5, m6, m7⟩
  · -- predecessor free
    subst e1
    obtain ⟨a1, a2, a3⟩ := rp_free pre0 P rfl hP
    have a4 := rn_used hn
    have hms : mergedSize s X.bp = P.size + X.size := by
      unfold mergedSize
      rw [a1, a4, a3, gX]
      show X.size + P.size + 0 = _
      omega
    have h' : Str s (pre0 ++ P :: X :: post) fl := by simpa using h
    obtain ⟨fl', c1, c2, c3, _, _⟩ := coalesce_FU h' hP hX hn
    have hadj3 := NoAdjFree_last hadj1 (by simp [hP])
    obtain ⟨m1, m2, m3, m4, m5, m6, m7⟩ := @merged_facts _ pre0 post
      ⟨P.bp, P.size + X.size, St.listed⟩ _ c2 rfl c3 hadj3 hn
    rw [c1, a1, if_pos rfl, a2, hms, PACK_zero]
    exact ⟨rfl, m1, m2, m3, m4, m5, m6, m7⟩
  · -- both free
    subst e1 e2
    obtain ⟨a1, a2, a3⟩ := rp_free pre0 P rfl hP
    obtain ⟨a4, a5⟩ := rn_free N post0 rfl hN
    have hms : mergedSize s X.bp = P.size + X.size + N.size := by
      unfold mergedSize
      rw [a1, a4, a3, a5, gX]
      show X.size + P.size + N.size = _
      omega
    have h' : Str s (pre0 ++ P :: X :: N :: post0) fl := by simpa using h
    obtain ⟨fl', c1, c2, c3, _, _⟩ := coalesce_FF h' hP hX hN
    have hadj3 := NoAdjFree_last hadj1 (by simp [hP])
    have hadj4 := NoAdjFree_head hadj2 (by simp [hN])
    obtain ⟨m1, m2, m3, m4, m5, m6, m7⟩ := @merged_facts _ pre0 post0
      ⟨P.bp, P.size + X.size + N.size, St.listed⟩ _ c2 rfl c3 hadj3 hadj4
    rw [c1, a1, if_pos rfl, a2, hms, PACK_zero]
    exact ⟨rfl, m1, m2, m3, m4, m5, m6, m7⟩

/-- Header and footer cells of any block are cells that no free block uses
for its links. -/
theorem Str.quiet_tags {s : Heap} {bl : List Blk} {fl : Nat → List Nat} (h : Str s bl fl)
    {b : Blk} (hb : b ∈ bl) : Quiet s bl (b.bp - 4) ∧ Quiet s bl (b.bp + b.size - 8) := by
  have fb := h.blk hb
  constructor
  · refine ⟨by omega, ?_⟩
    intro c hc _
    have fc := h.blk hc
    rcases h.sep hb hc with e | e | e
    · subst e; omega
    · omega
    · omega
  · refine ⟨by omega, ?_⟩
    intro c hc _
    have fc := h.blk hc
    rcases h.sep hb hc with e | e | e
    · subst e; omega
    · omega
    · omega

/-- Blocks outside a span keep header, footer and, when allocated, payload, if
all cells outside the span that are no link cells keep their values. -/
theorem frame_blocks {s s' : Heap} {bl bl' : List Blk} {fl fl' : Nat → List Nat}
    (h : Str s bl fl) (h' : Str s' bl' fl') (hlo : s'.lo = s.lo) {lo hi : Nat}
    (hfr : ∀ x, Quiet s bl x → x < lo - 4 ∨ hi - 4 ≤ x → s'.mem x = s.mem x)
    (j : Nat) (hj : blockAt s j < s.brk)
    (hout : blockAt s j + GET_SIZE s (HDRP (blockAt s j)) ≤ lo ∨ hi ≤ blockAt s j) :
    GET s' (HDRP (blockAt s j)) = GET s (HDRP (blockAt s j)) ∧
    GET s' (FTRP s' (blockAt s j)) = GET s (FTRP s (blockAt s j)) ∧
    (GET_ALLOC s (HDRP (blockAt s j)) = 1 → ∀ x, blockAt s j ≤ x → x < FTRP s (blockAt s j) →
      s'.mem x = s.mem x) := by
  cases j with
  | zero =>
    have e1 : GET s (HDRP (blockAt s 0)) = 9 := by
      show s.mem (s.lo + 112 - 4) = 9
      rw [show s.lo + 112 - 4 = s.lo + 108 by omega]
      exact h.pro1
    have e2 : GET s' (HDRP (blockAt s 0)) = 9 := by
      show s'.mem (s.lo + 112 - 4) = 9
      rw [show s.lo + 112 - 4 = s'.lo + 108 by omega]
      exact h'.pro1
    have f1 : FTRP s (blockAt s 0) = s.lo + 112 := by
      show blockAt s 0 + (GET s (HDRP (blockAt s 0)) &&& 4294967288) - 8 = _
      rw [e1]
      show s.lo + 112 + 8 - 8 = _
      omega
    have f2 : FTRP s' (blockAt s 0) = s.lo + 112 := by
      show blockAt s 0 + (GET s' (HDRP (blockAt s 0)) &&& 4294967288) - 8 = _
      rw [e2]
      show s.lo + 112 + 8 - 8 = _
      omega
    refine ⟨by rw [e1, e2], ?_, ?_⟩
    · rw [f1, f2]
      show s'.mem (s.lo + 112) = s.mem (s.lo + 112)
      rw [h.pro2, ← hlo, h'.pro2]
    · intro _ x hx1 hx2
      rw [f1] at hx2
      have : s.lo + 112 ≤ x := hx1
      omega
  | succ k =>
    rcases walk_cases h.tiles h.brk_lt h.epi (blockAt_one h) k with ⟨b, hb, e⟩ | e
    · rw [show 1 + k = k + 1 by omega] at e
      rw [e] at hout ⊢
      have fb := h.blk hb
      obtain ⟨q1, q2⟩ := h.quiet_tags hb
      have g : GET_SIZE s (HDRP b.bp) = b.size := h.get_size hb
      rw [g] at hout
      have eh : s'.mem (b.bp - 4) = s.mem (b.bp - 4) := hfr _ q1 (by omega)
      have ef : s'.mem (b.bp + b.size - 8) = s.mem (b.bp + b.size - 8) := hfr _ q2 (by omega)
      have g' : GET_SIZE s' (HDRP b.bp) = b.size := by
        show s'.mem (b.bp - 4) &&& 4294967288 = b.size
        rw [eh]
        exact g
      have f1 : FTRP s b.bp = b.bp + b.size - 8 := by
        show b.bp + GET_SIZE s (HDRP b.bp) - 8 = _
        rw [g]
      have f2 : FTRP s' b.bp = b.bp + b.size - 8 := by
        show b.bp + GET_SIZE s' (HDRP b.bp) - 8 = _
        rw [g']
      refine ⟨eh, by rw [f1, f2]; exact ef, ?_⟩
      intro ha x hx1 hx2
      rw [f1] at hx2
      have hu : b.st = St.used := by
        have := h.get_alloc hb
        have ha' : GET_ALLOC s (b.bp - 4) = 1 := ha
        rw [this] at ha'
        cases hb' : b.st
        · rfl
        · rw [hb'] at ha'; cases ha'
        · rw [hb'] at ha'; cases ha'
      exact hfr x (h.quiet_of_used hb hu (by omega) (by omega)) (by omega)
    · rw [show 1 + k = k + 1 by omega] at e
      omega

/-- `split` on a filed block of a well-formed heap, for a size that is a
multiple of 8, at least 16 and at most the size of the block, in terms of what
can be read in memory. -/
theorem split_obs {s : Heap} {bl : List Blk} {fl : Nat → List Nat} (h : WF s bl fl)
    {X : Blk} (hXm : X ∈ bl) (hX : X.st = St.listed) {size : Nat}
    (h8 : size % 8 = 0) (h16 : 16 ≤ size) (hle : size ≤ X.size) :
    (∀ i k, i < 14 → listAt (split s X.bp size) i k ≠ X.bp) ∧
    (16 ≤ X.size - size →
      GET (split s X.bp size) (HDRP X.bp) = PACK size 1 ∧
      GET (split s X.bp size) (FTRP (split s X.bp size) X.bp) = PACK size 1 ∧
      GET (split s X.bp size) (HDRP (X.bp + size)) = PACK (X.size - size) 0 ∧
      GET (split s X.bp size) (FTRP (split s X.bp size) (X.bp + size)) =
        PACK (X.size - size) 0 ∧
      GET (split s X.bp size) (PREV_FP (X.bp + size)) = 0 ∧
      listAt (split s X.bp size) (findStart (X.size - size)) 0 = X.bp + size ∧
      NEXT_BLKP (split s X.bp size) X.bp = X.bp + size ∧
      NEXT_BLKP (split s X.bp size) (X.bp + size) = X.bp + X.size) ∧
    (X.size - size < 16 →
      GET (split s X.bp size) (HDRP X.bp) = PACK X.size 1 ∧
      GET (split s X.bp size) (FTRP (split s X.bp size) X.bp) = PACK X.size 1 ∧
      NEXT_BLKP (split s X.bp size) X.bp = X.bp + X.size ∧
      ∀ i k, i < 14 → listAt (split s X.bp size) i k ≠ 0 →
        ∃ k', listAt s i k' = listAt (split s X.bp size) i k) ∧
    (∀ j, blockAt s j < s.brk →
      blockAt s j + GET_SIZE s (HDRP (blockAt s j)) ≤ X.bp ∨ X.bp + X.size ≤ blockAt s j →
      GET (split s X.bp size) (HDRP (blockAt s j)) = GET s (HDRP (blockAt s j)) ∧
      GET (split s X.bp size) (FTRP (split s X.bp size) (blockAt s j)) =
        GET s (FTRP s (blockAt s j)) ∧
      (GET_ALLOC s (HDRP (blockAt s j)) = 1 → ∀ x, blockAt s j ≤ x →
        x < FTRP s (blockAt s j) → (split s X.bp size).mem x = s.mem x)) := by
  obtain ⟨pre, post, e⟩ := List.append_of_mem hXm
  subst e
  have hS := h.1
  have fX := hS.blk hXm
  obtain ⟨fl', hc, hr, hf⟩ := split_spec hS hX h8 h16 hle
  have hP1 : ∀ x, x % 8 = 0 → PACK x 1 = x + 1 := fun x hx => PACK_eq x 1 hx (by omega)
  rcases hc with ⟨hlt, h1⟩ | ⟨hge, h1, hhead⟩
  · -- the whole block is handed out
    have hAm : (⟨X.bp, X.size, St.used⟩ : Blk) ∈ pre ++ ⟨X.bp, X.size, St.used⟩ :: post := by simp
    obtain ⟨t1, t2, t3, _⟩ := h1.tags hAm
    have hnode : ∀ i k, i < 14 → listAt (split s X.bp size) i k ≠ 0 →
        listAt (split s X.bp size) i k ∈ fl i ∧ listAt (split s X.bp size) i k ≠ X.bp := by
      intro i k hi hk
      have hm := (listAt_mem h1 hi hk).1 ⟨k, rfl⟩
      obtain ⟨c, hc, c1, c2, c3⟩ := h1.node hi hm
      rcases mem_middle_iff.1 hc with e | e
      · rw [e] at c2; cases c2
      · have hc' : c ∈ pre ++ X :: post := mem_middle_iff.2 (Or.inr e)
        refine ⟨(hS.link i hi _).2 ⟨c, hc', c1, c2, c3⟩, ?_⟩
        rw [← c1]
        intro e'
        have hcX := hS.bp_inj hc' hXm e'
        have hmid := Tiles_middle hS.tiles
        rcases e with e | e
        · have := hmid.1 c e
          rw [hcX] at this
          omega
        · have := hmid.2 c e
          rw [hcX] at this
          omega
    refine ⟨?_, fun c => by omega, fun _ => ⟨?_, ?_, ?_, ?_⟩, ?_⟩
    · intro i k hi e
      exact (hnode i k hi (by rw [e]; omega)).2 e
    · rw [hP1 _ fX.2.2.2.1]; exact t1
    · rw [hP1 _ fX.2.2.2.1]; exact t2
    · show X.bp + GET_SIZE (split s X.bp size) (HDRP X.bp) = _
      rw [t3]
    · intro i k hi hk
      exact (listAt_mem hS hi hk).2 (hnode i k hi hk).1
    · intro j hj hout
      exact frame_blocks hS h1 hr.1 hf j hj hout
  · -- the block is cut in two
    have hAm : (⟨X.bp, size, St.used⟩ : Blk) ∈
        pre ++ ⟨X.bp, size, St.used⟩ :: ⟨X.bp + size, X.size - size, St.listed⟩ :: post := by
      simp
    have hRm : (⟨X.bp + size, X.size - size, St.listed⟩ : Blk) ∈
        pre ++ ⟨X.bp, size, St.used⟩ :: ⟨X.bp + size, X.size - size, St.listed⟩ :: post := by
      simp
    obtain ⟨t1, t2, t3, _⟩ := h1.tags hAm
    obtain ⟨u1, u2, u3, _⟩ := h1.tags hRm
    have hi := findStart_lt (X.size - size)
    obtain ⟨t, ht⟩ := hhead
    have hseg := h1.segs _ hi
    rw [ht] at hseg
    refine ⟨?_, fun _ => ⟨?_, ?_, ?_, ?_, ?_, ?_, ?_, ?_⟩, fun c => by omega, ?_⟩
    · intro i k hi' e
      have hm := (listAt_mem h1 hi' (by omega)).1 ⟨k, e⟩
      obtain ⟨c, hc, c1, c2, _⟩ := h1.node hi' hm
      have := h1.bp_inj hc hAm c1
      rw [this] at c2
      cases c2
    · rw [hP1 _ h8]; exact t1
    · rw [hP1 _ h8]; exact t2
    · rw [PACK_zero]; exact u1
    · rw [PACK_zero]; exact u2
    · exact hseg.2.2.1
    · rw [listAt_eq h1 hi, ht]
      rfl
    · show X.bp + GET_SIZE (split s X.bp size) (HDRP X.bp) = _
      rw [t3]
    · show X.bp + size + GET_SIZE (split s X.bp size) (HDRP (X.bp + size)) = _
      rw [u3]
      simp only
      omega
    · intro j hj hout
      exact frame_blocks hS h1 hr.1 hf j hj hout

/-! ## The in-place path and the relocation path of `mm_realloc` -/

/-- The in-place path of `mm_realloc` on a live block. -/
theorem inv_absorb {s : Heap} {L : List Nat} (h : Inv s L) {p n : Nat} (hp : p ∈ L)
    (ha : Absorbs s p n) :
    ∃ s', mm_realloc s p n = Except.ok (p, s') ∧
      GET s' (HDRP p) = PACK (GET_SIZE s (HDRP p) + GET_SIZE s (HDRP (NEXT_BLKP s p))) 1 ∧
      GET s' (FTRP s' p) = PACK (GET_SIZE s (HDRP p) + GET_SIZE s (HDRP (NEXT_BLKP s p))) 1 ∧
      (∀ i k, i < 14 → listAt s' i k ≠ NEXT_BLKP s p) ∧
      s'.brk = s.brk ∧
      (∀ x, p ≤ x → x < p + (GET_SIZE s (HDRP p) - DSIZE) → s'.mem x = s.mem x) ∧
      (∀ j, blockAt s j < s.brk →
        blockAt s j + GET_SIZE s (HDRP (blockAt s j)) ≤ p ∨
          p + (GET_SIZE s (HDRP p) + GET_SIZE s (HDRP (NEXT_BLKP s p))) ≤ blockAt s j →
        GET s' (HDRP (blockAt s j)) = GET s (HDRP (blockAt s j)) ∧
        GET s' (FTRP s' (blockAt s j)) = GET s (FTRP s (blockAt s j)) ∧
        (GET_ALLOC s (HDRP (blockAt s j)) = 1 → ∀ x, blockAt s j ≤ x →
          x < FTRP s (blockAt s j) → s'.mem x = s.mem x)) ∧
      Inv s' L := by
  obtain ⟨bl, fl, hW, hnd, hL⟩ := Inv_iff.1 h
  obtain ⟨X, hXm, hXe, hX⟩ := (hL p).1 hp
  subst hXe
  obtain ⟨hp0, hn0, hfit, aN, hsz⟩ := ha
  have hS := hW.1
  have fX := hS.blk hXm
  have gX : GET_SIZE s (HDRP X.bp) = X.size := hS.get_size hXm
  obtain ⟨pre, post, e⟩ := List.append_of_mem hXm
  subst e
  obtain ⟨nb, nr⟩ := hS.next_read
  rcases nr with ⟨_, e⟩ | ⟨N, post0, e1, e2, e3⟩
  · rw [e] at aN; cases aN
  subst e1
  have hNm : N ∈ pre ++ X :: N :: post0 := by simp
  have fN := hS.blk hNm
  have hN : N.st = St.listed := by
    apply St.listed_of _ (hW.2.1 N hNm)
    intro hu
    rw [aN, hu] at e2
    cases e2
  obtain ⟨w1, hNbp, w3⟩ := realloc_inplace_spec hW hX hN
  have gN : GET_SIZE s (HDRP (NEXT_BLKP s X.bp)) = N.size := by
    rw [nb, ← hNbp]; exact hS.get_size hNm
  have hmod : (X.size + N.size) % 4294967296 = X.size + N.size := Nat.mod_eq_of_lt (by omega)
  have hval := mm_realloc_inplace hp0 hn0 hfit aN hsz
  rw [gX, gN, hmod, nb, ← hNbp] at hval
  have hftr : FTRP (PUT (deleteList s N.bp N.size) (HDRP X.bp) (PACK (X.size + N.size) 1)) X.bp =
      X.bp + (X.size + N.size) - 8 := by
    unfold FTRP
    rw [GET_SIZE_PUT, if_pos rfl, PACK_eq _ _ (by omega) (by omega),
      Nat.mod_eq_of_lt (by omega), size_of_word _ 1 (by omega) (by omega) (by omega)]
    rfl
  rw [hftr] at hval
  have hAm : (⟨X.bp, X.size + N.size, St.used⟩ : Blk) ∈
      pre ++ ⟨X.bp, X.size + N.size, St.used⟩ :: post0 := by simp
  obtain ⟨t1, t2, _, _⟩ := w1.1.tags hAm
  have hP : PACK (X.size + N.size) 1 = X.size + N.size + 1 :=
    PACK_eq _ 1 (by omega) (by omega)
  have hfr : ∀ x, Quiet s (pre ++ X :: N :: post0) x →
      x < X.bp - 4 ∨ X.bp + (X.size + N.size) - 4 ≤ x →
      (PUT (PUT (deleteList s N.bp N.size) (X.bp - 4) (PACK (X.size + N.size) 1))
        (X.bp + (X.size + N.size) - 8) (PACK (X.size + N.size) 1)).mem x = s.mem x :=
    fun x hq hx => w3 x hq (by omega) (by omega)
  refine ⟨_, hval, ?_, ?_, ?_, by simp, ?_, ?_, ?_⟩
  · rw [gX, gN]; exact t1.trans hP.symm
  · rw [gX, gN]; exact t2.trans hP.symm
  · intro i k hi e
    rw [nb, ← hNbp] at e
    have hm := (listAt_mem w1.1 hi (by omega)).1 ⟨k, e⟩
    obtain ⟨c, hc, c1, _, _⟩ := w1.1.node hi hm
    have fc := w1.1.blk hc
    rcases w1.1.sep hc hAm with k1 | k1 | k1
    · rw [k1] at c1; simp only at c1; omega
    · simp only at k1; omega
    · simp only at k1; omega
  · intro x hx1 hx2
    rw [gX] at hx2
    simp only [DSIZE] at hx2
    exact w3 x (hS.quiet_of_used hXm hX (by omega) (by omega)) (by omega) (by omega)
  · intro j hj hout
    rw [gX, gN] at hout
    have := frame_blocks hS w1.1 (by simp) hfr j hj (by omega)
    exact this
  · refine Inv_iff.2 ⟨_, _, w1, hnd, ?_⟩
    intro q
    rw [hL q]
    constructor
    · rintro ⟨b, hb, b1, b2⟩
      by_cases hbX : b = X
      · exact ⟨_, hAm, by rw [← b1, hbX], rfl⟩
      · refine ⟨b, ?_, b1, b2⟩
        simp only [List.mem_append, List.mem_cons] at hb ⊢
        rcases hb with e | e | e | e
        · exact Or.inl e
        · exact absurd e hbX
        · rw [e, hN] at b2; cases b2
        · exact Or.inr (Or.inr e)
    · rintro ⟨b, hb, b1, b2⟩
      simp only [List.mem_append, List.mem_cons] at hb
      rcases hb with e | e | e
      · exact ⟨b, by simp [e], b1, b2⟩
      · exact ⟨X, hXm, by rw [← b1, e], hX⟩
      · exact ⟨b, by simp [e], b1, b2⟩

/-- The relocation path of `mm_realloc`, written with the calls it makes. -/
theorem relocate_eq {s : Heap} {p n q : Nat} {s1 : Heap} (hr : Relocates s p n)
    (e : mm_malloc s (normSize n) = Except.ok (q, s1)) (hq : q ≠ 0) :
    mm_realloc s p n =
      Except.ok (q, mm_free (memcpy s1 q p (GET_SIZE s (HDRP p))) p) := by
  obtain ⟨hp0, hn0, hfit, hcond⟩ := hr
  rw [mm_realloc_move hp0 hn0 hfit hcond, e]
  simp only
  rw [if_neg hq]

/-- The relocation path when the internal allocation returns the null pointer. -/
theorem relocate_null {s : Heap} {p n : Nat} {s1 : Heap} (hr : Relocates s p n)
    (e : mm_malloc s (normSize n) = Except.ok (0, s1)) :
    mm_realloc s p n = Except.error Fault.nullWrite := by
  obtain ⟨hp0, hn0, hfit, hcond⟩ := hr
  rw [mm_realloc_move hp0 hn0 hfit hcond, e]
  exact if_pos rfl

/-- The state in which `mm_free` calls `coalesce`. -/
theorem markFree_loose {s : Heap} {L : List Nat} (h : Inv s L) {p : Nat} (hp : p ∈ L) :
    LooseAt (markFree s p) p ∧ mm_free s p = (coalesce (markFree s p) p).2 := by
  obtain ⟨bl, fl, hW, _, hL⟩ := Inv_iff.1 h
  obtain ⟨X, hXm, hXe, hX⟩ := (hL p).1 hp
  subst hXe
  obtain ⟨pre, post, e⟩ := List.append_of_mem hXm
  subst e
  have hS := hW.1
  have fX := hS.blk hXm
  have gX : GET_SIZE s (HDRP X.bp) = X.size := hS.get_size hXm
  have hmod : X.size % 4294967296 = X.size := Nat.mod_eq_of_lt (by omega)
  have hmask : X.size &&& 4294967288 = X.size := by
    simpa using size_of_word X.size 0 (by omega) (by omega) (by omega)
  have hmark : markFree s X.bp =
      PUT (PUT (PUT (PUT s (X.bp - 4) X.size) (X.bp + X.size - 8) X.size) X.bp 0)
        (X.bp + 4) 0 := by
    unfold markFree
    simp only [gX, PACK_zero]
    have : FTRP (PUT s (HDRP X.bp) X.size) X.bp = X.bp + X.size - 8 := by
      unfold FTRP
      rw [GET_SIZE_PUT, if_pos rfl, hmod, hmask]
      rfl
    rw [this]
    rfl
  obtain ⟨m1, m2⟩ := mm_free_mark hS hX
  obtain ⟨a1, a2⟩ := NoAdjFree_split hW.2.2
  rw [hmark]
  refine ⟨⟨pre, { X with st := St.loose }, post, fl, rfl, rfl, m2, ?_, a1, a2⟩, m1⟩
  intro b hb
  exact hW.2.1 b (mem_middle_iff.2 (Or.inr hb))

/-- A node of a directory list is a filed block. -/
theorem filed_of_node {s : Heap} {L : List Nat} (h : Inv s L) {i k bp : Nat} (hi : i < 14)
    (e : listAt s i k = bp) (h0 : bp ≠ 0) : FiledAt s bp := by
  obtain ⟨bl, fl, hW, _, _⟩ := Inv_iff.1 h
  have hm := (listAt_mem hW.1 hi h0).1 ⟨k, e⟩
  obtain ⟨b, hb, b1, b2, _⟩ := hW.1.node hi hm
  exact ⟨bl, fl, b, hW, hb, b1, b2⟩

/-! ## Guards and growth -/

/-- On a live block the guard of the in-place path can be read without the
reduction modulo `2 ^ 32`: the two sizes add up to less than that. -/
theorem absorbs_of_fit {s : Heap} {L : List Nat} (h : Inv s L) {p n : Nat} (hp : p ∈ L)
    (hn : n ≠ 0) (hfit : GET_SIZE s (HDRP p) < normSize n)
    (hfree : GET_ALLOC s (HDRP (NEXT_BLKP s p)) = 0)
    (hsum : normSize n ≤ GET_SIZE s (HDRP p) + GET_SIZE s (HDRP (NEXT_BLKP s p))) :
    Absorbs s p n := by
  obtain ⟨bl, fl, hW, _, hL⟩ := Inv_iff.1 h
  obtain ⟨X, hXm, hXe, hX⟩ := (hL p).1 hp
  subst hXe
  have hS := hW.1
  have fX := hS.blk hXm
  have gX : GET_SIZE s (HDRP X.bp) = X.size := hS.get_size hXm
  obtain ⟨pre, post, e⟩ := List.append_of_mem hXm
  subst e
  obtain ⟨nb, nr⟩ := hS.next_read
  rcases nr with ⟨_, e⟩ | ⟨N, post0, e1, e2, e3⟩
  · rw [e] at hfree; cases hfree
  subst e1
  have hNm : N ∈ pre ++ X :: N :: post0 := by simp
  have fN := hS.blk hNm
  have gN : GET_SIZE s (HDRP (NEXT_BLKP s X.bp)) = N.size := by
    rw [nb, ← e3]; exact hS.get_size hNm
  refine ⟨by omega, hn, by omega, hfree, ?_⟩
  rw [gX, gN] at hsum ⊢
  rw [Nat.mod_eq_of_lt (by omega)]
  exact hsum

/-- A node that is too small and whose forward link is the node itself keeps
the loop of `find` going, whatever the fuel. -/
theorem findLoop_spin {s : Heap} {size c : Nat} (hc : c ≠ 0)
    (hs : GET_SIZE s (HDRP c) < size) (hn : GET s (NEXT_FP c) = c) (fuel : Nat) :
    findLoop s size fuel c = Except.error Fault.diverges := by
  induction fuel with
  | zero =>
    unfold findLoop
    rw [if_neg hc]
  | succ k ih =>
    unfold findLoop
    rw [if_neg hc]
    simp only
    rw [if_neg (by omega), hn]
    exact ih

/-- The scan of the lists does not end when the head of the first list it
visits is such a node. -/
theorem findFrom_spin {s : Heap} {size c : Nat} (hh : listAt s (findStart size) 0 = c)
    (hc : c ≠ 0) (hs : GET_SIZE s (HDRP c) < size) (hn : GET s (NEXT_FP c) = c) :
    findFrom s size (14 - findStart size) (findStart size) = Except.error Fault.diverges := by
  have hi := findStart_lt size
  obtain ⟨k, hk⟩ : ∃ k, 14 - findStart size = k + 1 := ⟨13 - findStart size, by omega⟩
  rw [hk]
  have hf : find s (findStart size) size = Except.error Fault.diverges := by
    unfold find
    have : GET s (mem_heap_lo s + findSlot (findStart size)) = c := hh
    rw [this]
    exact findLoop_spin hc hs hn _
  unfold findFrom
  rw [hf]

/-- `findWrapper` does not return in that case, unless the bypass fires. -/
theorem findWrapper_spin {s : Heap} {size c : Nat} (hb : ¬ bypass s size)
    (hh : listAt s (findStart size) 0 = c) (hc : c ≠ 0) (hs : GET_SIZE s (HDRP c) < size)
    (hn : GET s (NEXT_FP c) = c) :
    findWrapper s size = Except.error Fault.diverges := by
  unfold findWrapper
  by_cases h1 : s.last_size = size ∧ toInt32 s.last_size > 64
  · have h3 : ¬ s.count > 30 := fun c3 => hb ⟨h1, c3⟩
    rw [if_pos h1, if_neg h3]
    simp only
    rw [@findFrom_spin { s with count := s.count + 1, last_size := size } size c hh hc hs hn]
  · rw [if_neg h1]
    simp only
    rw [@findFrom_spin { s with count := 0, last_size := size } size c hh hc hs hn]

/-- A failure of `findWrapper` is a failure of `mm_malloc`. -/
theorem mm_malloc_of_error {s : Heap} {n : Nat} {e : Fault} (hn : n ≠ 0)
    (hf : findWrapper s (normSize n) = Except.error e) : mm_malloc s n = Except.error e := by
  unfold mm_malloc
  rw [if_neg hn]
  show (match findWrapper s (normSize n) with
    | Except.error e => Except.error e
    | Except.ok (ptr, s1) =>
      if ptr = 0 then
        if (extendHeap s1 (MAX CHUNKSIZE (normSize n))).1 = 0 then
          Except.ok (0, (extendHeap s1 (MAX CHUNKSIZE (normSize n))).2)
        else Except.ok ((extendHeap s1 (MAX CHUNKSIZE (normSize n))).1,
          split (extendHeap s1 (MAX CHUNKSIZE (normSize n))).2
            (extendHeap s1 (MAX CHUNKSIZE (normSize n))).1 (normSize n))
      else Except.ok (ptr, split s1 ptr (normSize n))) = Except.error e
  rw [hf]

/-! ## The claims of the specification -/

/-- C1, as stated, fails when the size of a request wraps: on a fresh
allocator `mm_malloc(4294967288)` returns 4216 (the normalised size is 0 and
the block at 4216 stays marked free), and while that allocation is live the
next call, `mm_malloc(8)`, returns 4216 again; the payload of the new
allocation is the range of 8 bytes from 4216, which is the first one's. -/
theorem double_grant :
    normSize 4294967288 = 0 ∧
    mm_malloc start 4294967288 = Except.ok (4216, wrapped) ∧
    GET_ALLOC wrapped (HDRP 4216) = 0 ∧
    mm_malloc wrapped 8 = Except.ok (4216, after wrapped 8) ∧
    GET_SIZE (after wrapped 8) (HDRP 4216) - DSIZE = 8 ∧
    ¬ (4216 + (GET_SIZE (after wrapped 8) (HDRP 4216) - DSIZE) ≤ 4216) :=
  ⟨by decide, rfl, by decide, rfl, by decide, by decide⟩

/-- C1, amended (request sizes bounded): in every state reachable from a
successful `mm_init` by calls `mm_malloc(n)` with `n ≤ 2147483632`, `mm_free`
and `mm_realloc(p, n)` with `n ≤ 2147483624`, the live pointers are pairwise
distinct and the payload ranges `[p, p + blocksize(p) - 8)` of two distinct
live allocations are disjoint; and a non-null pointer returned by such a call
of `mm_malloc` or `mm_realloc` in such a state differs from every other live
pointer and its payload range, taken in the resulting state, does not
intersect theirs. -/
theorem live_payloads_disjoint (s : Heap) (L : List Nat) (h : Reach s L) :
    (L.Nodup ∧ ∀ p ∈ L, ∀ q ∈ L, p ≠ q →
      p + (GET_SIZE s (HDRP p) - DSIZE) ≤ q ∨ q + (GET_SIZE s (HDRP q) - DSIZE) ≤ p) ∧
    (∀ n p s', n ≤ 2147483632 → mm_malloc s n = Except.ok (p, s') → p ≠ 0 →
      ∀ q ∈ L, p ≠ q ∧ (p + (GET_SIZE s' (HDRP p) - DSIZE) ≤ q ∨
        q + (GET_SIZE s' (HDRP q) - DSIZE) ≤ p)) ∧
    (∀ r n p s', r ∈ L → n ≤ 2147483624 → mm_realloc s r n = Except.ok (p, s') → p ≠ 0 →
      ∀ q ∈ L, q ≠ r → p ≠ q ∧ (p + (GET_SIZE s' (HDRP p) - DSIZE) ≤ q ∨
        q + (GET_SIZE s' (HDRP q) - DSIZE) ≤ p)) := by
  refine ⟨inv_disjoint (reach_inv h), ?_, ?_⟩
  · intro n p s' hn e hp q hq
    have R := Reach.malloc s L n p s' h hn e
    rw [if_neg hp] at R
    obtain ⟨nd, dj⟩ := inv_disjoint (reach_inv R)
    have hne : p ≠ q := fun c => (List.nodup_cons.1 nd).1 (c ▸ hq)
    exact ⟨hne, dj p (List.mem_cons_self _ _) q (List.mem_cons_of_mem _ hq) hne⟩
  · intro r n p s' hr hn e hp q hq hqr
    have R := Reach.realloc s L r n p s' h (Or.inr hr) hn e
    rw [if_neg hp] at R
    obtain ⟨nd, dj⟩ := inv_disjoint (reach_inv R)
    have hq' : q ∈ L.erase r := (List.mem_erase_of_ne hqr).2 hq
    have hne : p ≠ q := fun c => (List.nodup_cons.1 nd).1 (c ▸ hq')
    exact ⟨hne, dj p (List.mem_cons_self _ _) q (List.mem_cons_of_mem _ hq') hne⟩

/-- The two allocations of 100 bytes made on a fresh allocator do not overlap. -/
theorem live_payloads_disjoint_at_twoLive :
    4328 + (GET_SIZE twoLive (HDRP 4328) - DSIZE) ≤ 4216 ∨
      4216 + (GET_SIZE twoLive (HDRP 4216) - DSIZE) ≤ 4328 :=
  (live_payloads_disjoint twoLive [4328, 4216] twoLive_reach).1.2 4328 (by decide) 4216
    (by decide) (by decide)

/-- C2, as stated, fails: for the request size 4294967288 (`2 ^ 32 - 8`) the sum
`n + 8` wraps to 0 and the normalised size is 0, which is neither at least 16
nor at least `n + 8`; on a freshly initialised allocator `mm_malloc` returns the
non-null pointer 4216 for this request, and the block there has 8 usable
bytes. -/
theorem normSize_wraps :
    1 ≤ 4294967288 ∧ 4294967288 < 4294967296 ∧ normSize 4294967288 = 0 ∧
    ¬ (16 ≤ normSize 4294967288) ∧ ¬ (4294967288 + 8 ≤ normSize 4294967288) ∧
    Reach start [] ∧
    mm_malloc start 4294967288 = Except.ok (4216, after start 4294967288) ∧
    GET_SIZE (after start 4294967288) (HDRP 4216) - DSIZE = 8 ∧
    ¬ (4294967288 ≤ GET_SIZE (after start 4294967288) (HDRP 4216) - DSIZE) :=
  ⟨by decide, by decide, by decide, by decide, by decide, start_reach, rfl, by decide,
    by decide⟩

/-- C2, amended: for every requested size `n` with `1 ≤ n ≤ 2147483632`
(`2 ^ 31 - 16`, the largest request whose normalised size is a positive `int`),
the normalised size `ALIGN(n + 8)` is a multiple of 8, at least 16, at least
`n + 8`, and keeps its value when it is stored in an `int`; and in a reachable
state a non-null pointer returned by `mm_malloc(n)` has block size minus 8 at
least `n`. -/
theorem normSize_valid (n : Nat) (h1 : 1 ≤ n) (h2 : n ≤ 2147483632) :
    normSize n % 8 = 0 ∧ 16 ≤ normSize n ∧ n + 8 ≤ normSize n ∧
    toInt32 (normSize n) = (normSize n : Int) ∧
    ∀ s L p s', Reach s L → mm_malloc s n = Except.ok (p, s') → p ≠ 0 →
      n ≤ GET_SIZE s' (HDRP p) - DSIZE := by
  have hns := normSize_eq h2
  refine ⟨by omega, by omega, by omega, ?_, ?_⟩
  · unfold toInt32
    rw [if_pos (by omega)]
  · intro s L p s' hR e hp
    obtain ⟨bl, fl, hW, _, _⟩ := Inv_iff.1 (reach_inv hR)
    obtain ⟨p', s'', e', hres⟩ := mm_malloc_spec hW (Nat.one_le_iff_ne_zero.1 h1) h2
    rw [e] at e'
    injection e' with e'
    injection e' with c1 c2
    subst c1 c2
    rcases hres with ⟨q0, _⟩ | ⟨_, _, _, _, bl', fl', A, w1, w2, w3, _, w5, _⟩
    · exact absurd q0 hp
    · have gA : GET_SIZE s' (HDRP p) = A.size := by rw [← w3]; exact w1.1.get_size w2
      rw [gA]
      simp only [DSIZE]
      omega

/-- A request of 100 bytes on a fresh allocator is normalised to 112 bytes and
the block handed out has at least 100 usable bytes. -/
theorem normSize_valid_at_100 :
    normSize 100 = 112 ∧ 100 ≤ GET_SIZE (after start 100) (HDRP 4216) - DSIZE :=
  ⟨by decide, (normSize_valid 100 (by decide) (by decide)).2.2.2.2 start [] 4216
    (after start 100) start_reach rfl (by decide)⟩

/-- C3, as stated, fails when the size of a request wraps: on a fresh
allocator, whose low address 4096 is a multiple of 8, `mm_malloc(4294967288)`
returns 4216 and leaves the block there marked free; the client stores the
word 4228 in the first word of this allocation; the next `mm_malloc(8)` grows
the region, merges the new block with the block at 4216 and, unlinking that
block, reads the client's word as its forward link, so that 4228 becomes the
head of list 0 (the call returns 4216); the following `mm_malloc(8)` returns
4228, which is not a multiple of 8. -/
theorem misaligned_grant :
    start.lo % 8 = 0 ∧
    mm_malloc start 4294967288 = Except.ok (4216, wrapped) ∧
    GET_SIZE wrapped (HDRP 4216) - DSIZE = 8 ∧
    mm_malloc (userWrite wrapped 4216 4228) 8 = Except.ok (4216, staleHead) ∧
    listAt staleHead 0 0 = 4228 ∧ GET_SIZE staleHead (HDRP 4228) = 16 ∧
    mm_malloc staleHead 8 = Except.ok (4228, after staleHead 8) ∧
    4228 % 8 = 4 :=
  ⟨by decide, rfl, by decide, rfl, by decide, by decide, rfl, by decide⟩

/-- C3, amended (request sizes bounded): with a region whose low address is a
multiple of 8 (part of reachability), in every state reachable by calls
`mm_malloc(n)` with `n ≤ 2147483632`, `mm_free` and `mm_realloc(p, n)` with
`n ≤ 2147483624`, every live pointer is a multiple of 8, every block address
of the heap walk is a multiple of 8, and every pointer returned by
`mm_malloc(n)` with `n ≤ 2147483632` is a multiple of 8. -/
theorem pointers_aligned (s : Heap) (L : List Nat) (h : Reach s L) :
    (∀ p ∈ L, p % 8 = 0) ∧ (∀ k, blockAt s k % 8 = 0) ∧
    (∀ n p s', n ≤ 2147483632 → mm_malloc s n = Except.ok (p, s') → p % 8 = 0) := by
  obtain ⟨bl, fl, hW, _, hL⟩ := Inv_iff.1 (reach_inv h)
  refine ⟨?_, (walk_WF hW).1, ?_⟩
  · intro p hp
    obtain ⟨P, hPm, hPe, _⟩ := (hL p).1 hp
    have := hW.1.blk hPm
    omega
  · intro n p s' _ e
    obtain ⟨p', s'', e', h8, _⟩ := mm_malloc_total hW n
    rw [e] at e'
    injection e' with e'
    injection e' with c1 c2
    rw [c1]
    exact h8

/-- With two live allocations, the next pointer handed out and the second
block of the heap are aligned. -/
theorem pointers_aligned_at_twoLive :
    ptrOf (mm_malloc twoLive 100) % 8 = 0 ∧ blockAt twoLive 2 % 8 = 0 :=
  ⟨(pointers_aligned twoLive [4328, 4216] twoLive_reach).2.2 100 _ (after twoLive 100)
      (by decide) rfl,
    (pointers_aligned twoLive [4328, 4216] twoLive_reach).2.1 2⟩

/-- C4, as stated, fails when the size of a request wraps: on a fresh
allocator `mm_malloc(100)` returns 4216, `mm_malloc(4294967295)`, whose size is
normalised to 8, returns 4328 with a block of 8 bytes, and `mm_malloc(100)`
returns 4336; `mm_free(4328)` then clears the back link of the block it
releases, which is the word at 4332, the header of the block at 4336.  When
the call has completed, the blocks at 4328 and 4336, the third and the fourth
of the heap walk, are both marked free; the second of them has size 0, so the
walk does not get past it. -/
theorem free_pair_after_tiny :
    normSize 4294967295 = 8 ∧
    mm_malloc start 100 = Except.ok (4216, after start 100) ∧
    mm_malloc (after start 100) 4294967295 = Except.ok (4328, tinyBlock) ∧
    mm_malloc tinyBlock 100 = Except.ok (4336, after tinyBlock 100) ∧
    GET_ALLOC (after tinyBlock 100) (HDRP 4328) = 1 ∧
    GET_ALLOC (after tinyBlock 100) (HDRP 4336) = 1 ∧
    blockAt (mm_free (after tinyBlock 100) 4328) 2 = 4328 ∧
    blockAt (mm_free (after tinyBlock 100) 4328) 3 = 4336 ∧
    GET_ALLOC (mm_free (after tinyBlock 100) 4328) (HDRP 4328) = 0 ∧
    GET_ALLOC (mm_free (after tinyBlock 100) 4328) (HDRP 4336) = 0 ∧
    4336 < (mm_free (after tinyBlock 100) 4328).brk ∧
    NEXT_BLKP (mm_free (after tinyBlock 100) 4328) 4336 = 4336 ∧
    ¬ NoFreePair (mm_free (after tinyBlock 100) 4328) :=
  ⟨by decide, rfl, rfl, rfl, by decide, by decide, by decide, by decide, by decide, by decide,
    by decide, by decide, fun h => h 2 ⟨by decide, by decide⟩⟩

/-- C4, amended (request sizes bounded): in every state reachable by calls
`mm_malloc(n)` with `n ≤ 2147483632`, `mm_free` and `mm_realloc(p, n)` with
`n ≤ 2147483624`, the heap walk from the prologue reaches the epilogue and no
two consecutive blocks of the walk are both marked free; the same holds in the
state left by any such `mm_free`, `mm_realloc` or `mm_malloc` call made in that
state, and after `mm_init`. -/
theorem no_adjacent_free (s : Heap) (L : List Nat) (h : Reach s L) :
    NoFreePair s ∧ (∃ N, blockAt s N = s.brk) ∧
    (∀ p, p = 0 ∨ p ∈ L → NoFreePair (mm_free s p)) ∧
    (∀ p n q s', p = 0 ∨ p ∈ L → n ≤ 2147483624 → mm_realloc s p n = Except.ok (q, s') →
      NoFreePair s') ∧
    (∀ n p s', n ≤ 2147483632 → mm_malloc s n = Except.ok (p, s') → NoFreePair s') ∧
    (∀ s0, Fresh s0 → (mm_init s0).1 = 0 → NoFreePair (mm_init s0).2) := by
  refine ⟨inv_noFreePair (reach_inv h), ?_, ?_, ?_, ?_, ?_⟩
  · obtain ⟨bl, fl, hW, _, _⟩ := Inv_iff.1 (reach_inv h)
    exact ⟨_, (walk_WF hW).2.1⟩
  · intro p hp
    exact inv_noFreePair (reach_inv (Reach.free s L p h hp))
  · intro p n q s' hp hn e
    exact inv_noFreePair (reach_inv (Reach.realloc s L p n q s' h hp hn e))
  · intro n p s' hn e
    exact inv_noFreePair (reach_inv (Reach.malloc s L n p s' h hn e))
  · intro s0 hf hok
    exact inv_noFreePair (reach_inv (Reach.init s0 hf hok))

/-- After the first of two live allocations is released, the first two blocks
of the heap are not both free. -/
theorem no_adjacent_free_at_twoLive :
    ¬ (GET_ALLOC (mm_free twoLive 4216) (HDRP (blockAt (mm_free twoLive 4216) 1)) = 0 ∧
      GET_ALLOC (mm_free twoLive 4216) (HDRP (blockAt (mm_free twoLive 4216) 2)) = 0) :=
  (no_adjacent_free twoLive [4328, 4216] twoLive_reach).2.2.1 4216 (Or.inr (by decide)) 1

/-- C6 (the code departs from the claim): in the reachable state `tight` the
pointer 4216 is live, its block of 16 bytes is too small for a request of 100
bytes, the next block is the epilogue (allocated), and the provider refuses the
growth by 8192 bytes that the internal allocation asks for; `mm_realloc(4216,
100)` then copies through the null pointer that `mm_malloc` returned. -/
theorem realloc_refused_null_write :
    Reach tight [4216] ∧ GET_ALLOC tight (HDRP 4216) = 1 ∧ ¬ (normSize 100 ≤ GET_SIZE tight (HDRP 4216)) ∧
    GET_ALLOC tight (HDRP (NEXT_BLKP tight 4216)) = 1 ∧
    MAX CHUNKSIZE (normSize (normSize 100)) = 8192 ∧ mem_sbrk tight 8192 = none ∧
    mm_malloc tight (normSize 100) = Except.ok (0, after tight (normSize 100)) ∧
    mm_realloc tight 4216 100 = Except.error Fault.nullWrite :=
  ⟨tight_reach, by decide, by decide, by decide, by decide, rfl, rfl, rfl⟩

/-- C7, as stated, fails when the size of a request wraps.  On a fresh
allocator `mm_malloc(4294967288)` returns 4216 and leaves the block there
marked free; the client stores the word 4216 in the first word of this
allocation; `mm_malloc(8)` grows the region and, unlinking the block at 4216,
reads that word as its forward link, which makes 4216 the head of list 0 (the
call returns 4216 again); the client stores 4216 there once more.  Now list 0
is the node 4216, of 16 bytes, linked to itself: `mm_malloc(16)`, which needs
24 bytes and whose growth the provider would grant, scans that list for ever
(the loop of `find` fails for every amount of fuel) and returns nothing.  And for `n = 2147483648` on a fresh allocator the
normalised size is `2 ^ 31 + 8`: `split` stores the footer of the block at
`4216 + 2 ^ 31`, an address above the provider's limit 1048576, hence outside
the region (the model records the store; on the machine it is a store
outside the memory of the provider). -/
theorem malloc_spins :
    mm_malloc start 4294967288 = Except.ok (4216, wrapped) ∧
    GET_SIZE wrapped (HDRP 4216) - DSIZE = 8 ∧
    mm_malloc (userWrite wrapped 4216 4216) 8 =
      Except.ok (4216, after (userWrite wrapped 4216 4216) 8) ∧
    listAt selfLoop 0 0 = 4216 ∧ GET selfLoop (NEXT_FP 4216) = 4216 ∧
    GET_SIZE selfLoop (HDRP 4216) = 16 ∧ normSize 16 = 24 ∧ findStart 24 = 0 ∧
    ¬ bypass selfLoop 24 ∧
    (mem_sbrk selfLoop (MAX CHUNKSIZE (normSize 16))).isSome = true ∧
    (∀ fuel, findLoop selfLoop (normSize 16) fuel 4216 = Except.error Fault.diverges) ∧
    mm_malloc selfLoop 16 = Except.error Fault.diverges ∧
    normSize 2147483648 = 2147483656 ∧ start.cap = 1048576 ∧
    start.mem (4216 + 2147483656 - 8) = 0 ∧
    (after start 2147483648).mem (4216 + 2147483656 - 8) = 2147483657 :=
  ⟨rfl, by decide, rfl, by decide, by decide, by decide, by decide, by decide, by decide,
    by decide, findLoop_spin (by decide) (by decide) (by decide),
    mm_malloc_of_error (by decide)
      (@findWrapper_spin selfLoop (normSize 16) 4216 (by decide) (by decide) (by decide)
        (by decide) (by decide)),
    by decide, by decide, by decide, by decide⟩

/-- C7, amended (request sizes bounded): in every state reachable by calls
`mm_malloc(n)` with `n ≤ 2147483632`, `mm_free` and `mm_realloc(p, n)` with
`n ≤ 2147483624`, `mm_malloc(0)` returns the null pointer and leaves the whole
state unchanged; for every `n ≤ 2147483632` the call returns, and if it returns
the null pointer then `n = 0` or the provider refuses the growth by
`MAX(CHUNKSIZE, newsize)` requested during the call (the bounds of the region
are those of the state before the call); a nonzero request that returns the
null pointer leaves every heap word (the directory slots are heap words) and
the region bounds unchanged. -/
theorem malloc_failure_contract (s : Heap) (L : List Nat) (h : Reach s L) :
    mm_malloc s 0 = Except.ok (0, s) ∧
    ∀ n, n ≤ 2147483632 → ∃ p s', mm_malloc s n = Except.ok (p, s') ∧
      (p = 0 → n = 0 ∨ mem_sbrk s (MAX CHUNKSIZE (normSize n)) = none) ∧
      (n ≠ 0 → p = 0 → s'.mem = s.mem ∧ s'.lo = s.lo ∧ s'.brk = s.brk ∧ s'.cap = s.cap) := by
  obtain ⟨bl, fl, hW, _, _⟩ := Inv_iff.1 (reach_inv h)
  refine ⟨rfl, ?_⟩
  intro n _
  obtain ⟨p, s', e, _, h0, h1⟩ := mm_malloc_total hW n
  refine ⟨p, s', e, ?_, ?_⟩
  · intro hp
    by_cases hn : n = 0
    · exact Or.inl hn
    · exact Or.inr (h1 hn hp).1
  · intro hn hp
    exact (h1 hn hp).2

/-- On the allocator whose provider has no room left, a request of size 0
changes nothing, and a request of 100 bytes returns the null pointer because
the growth by 8192 bytes is refused. -/
theorem malloc_failure_contract_at_tight :
    mm_malloc tight 0 = Except.ok (0, tight) ∧ ptrOf (mm_malloc tight 100) = 0 ∧
    mem_sbrk tight (MAX CHUNKSIZE (normSize 100)) = none ∧
    ∃ p s', mm_malloc tight 100 = Except.ok (p, s') ∧
      (p = 0 → 100 = 0 ∨ mem_sbrk tight (MAX CHUNKSIZE (normSize 100)) = none) ∧
      (100 ≠ 0 → p = 0 →
        s'.mem = tight.mem ∧ s'.lo = tight.lo ∧ s'.brk = tight.brk ∧ s'.cap = tight.cap) :=
  ⟨(malloc_failure_contract tight [4216] tight_reach).1, by decide, rfl,
    (malloc_failure_contract tight [4216] tight_reach).2 100 (by decide)⟩

/-- C9, as stated, fails when the size of a request wraps: on a fresh
allocator `a = mm_malloc(32)`, `b = mm_malloc(4294967295)` and
`c = mm_malloc(32)` return 4216, 4256 and 4264, three allocated blocks of 40, 8
and 40 bytes that are physically adjacent in this order.  `mm_free(a)` files
the block of `a`; `mm_free(b)` clears the back link of `b`, which is the header
of `c`, and merges `b` into `a`; `mm_free(c)` finds the header of `c` marked
free and does nothing.  The heap walk then meets the prologue, a free block of
48 bytes at 4216, which ends where `c` starts, and the block at 4264 with size
0, where it stays: no free block contains the three. -/
theorem tiny_breaks_merge :
    normSize 4294967295 = 8 ∧
    mm_malloc start 32 = Except.ok (4216, after start 32) ∧
    mm_malloc (after start 32) 4294967295 =
      Except.ok (4256, after (after start 32) 4294967295) ∧
    mm_malloc (after (after start 32) 4294967295) 32 = Except.ok (4264, tinyThree) ∧
    GET tinyThree (HDRP 4216) = 41 ∧ GET tinyThree (HDRP 4256) = 9 ∧
    GET tinyThree (HDRP 4264) = 41 ∧
    NEXT_BLKP tinyThree 4216 = 4256 ∧ NEXT_BLKP tinyThree 4256 = 4264 ∧
    GET (mm_free (mm_free tinyThree 4216) 4256) (HDRP 4264) = 0 ∧
    release3 tinyThree 4216 4256 4264 = mm_free (mm_free tinyThree 4216) 4256 ∧
    GET (release3 tinyThree 4216 4256 4264) (HDRP 4216) = 48 ∧
    ¬ ∃ k, GET_ALLOC (release3 tinyThree 4216 4256 4264)
        (HDRP (blockAt (release3 tinyThree 4216 4256 4264) k)) = 0 ∧
      blockAt (release3 tinyThree 4216 4256 4264) k ≤ 4216 ∧
      4264 + GET_SIZE tinyThree (HDRP 4264) ≤ blockAt (release3 tinyThree 4216 4256 4264) k +
        GET_SIZE (release3 tinyThree 4216 4256 4264)
          (HDRP (blockAt (release3 tinyThree 4216 4256 4264) k)) := by
  refine ⟨by decide, rfl, rfl, rfl, by decide, by decide, by decide, by decide, by decide,
    by decide, rfl, by decide, ?_⟩
  have h2 : ∀ k, blockAt (release3 tinyThree 4216 4256 4264) (k + 2) = 4264 := by
    intro k
    induction k with
    | zero => decide
    | succ k ih =>
      show NEXT_BLKP (release3 tinyThree 4216 4256 4264)
        (blockAt (release3 tinyThree 4216 4256 4264) (k + 2)) = 4264
      rw [ih]
      decide
  rintro ⟨k, k1, k2, k3⟩
  match k with
  | 0 => revert k1; decide
  | 1 => revert k3; decide
  | k + 2 =>
    rw [h2 k] at k2
    omega

/-- C9, amended (request sizes bounded): in every state reachable by calls
`mm_malloc(n)` with `n ≤ 2147483632`, `mm_free` and `mm_realloc(p, n)` with
`n ≤ 2147483624`, with three live blocks `a`, `b`,
`c` that are physically adjacent in this order, after `mm_free(a)`,
`mm_free(b)`, `mm_free(c)` the heap walk meets a free block whose span contains
all three, the region has not grown, and a following `mm_malloc` of their
combined usable size (`size(a) + size(b) + size(c) - 8`), made while the bypass
does not fire, returns a non-null pointer without growing the region. -/
theorem coalesce_three (s : Heap) (L : List Nat) (h : Reach s L) (a b c : Nat)
    (ha : a ∈ L) (hb : b ∈ L) (hc : c ∈ L) (hab : NEXT_BLKP s a = b)
    (hbc : NEXT_BLKP s b = c) :
    (∃ k, GET_ALLOC (release3 s a b c) (HDRP (blockAt (release3 s a b c) k)) = 0 ∧
      blockAt (release3 s a b c) k ≤ a ∧
      c + GET_SIZE s (HDRP c) ≤ blockAt (release3 s a b c) k +
        GET_SIZE (release3 s a b c) (HDRP (blockAt (release3 s a b c) k))) ∧
    (release3 s a b c).brk = s.brk ∧
    (¬ bypass (release3 s a b c) (normSize (size3 s a b c - DSIZE)) →
      ∃ p s4, mm_malloc (release3 s a b c) (size3 s a b c - DSIZE) = Except.ok (p, s4) ∧
        p ≠ 0 ∧ s4.brk = (release3 s a b c).brk) :=
  inv_release3 (reach_inv h) ha hb hc hab hbc

/-- The scenario of the specification: three allocations of 32 bytes on a
fresh allocator (blocks of 40 bytes at 4216, 4256, 4296), then the three
releases; the region keeps its size. -/
theorem coalesce_three_at_threeLive :
    size3 threeLive 4216 4256 4296 - DSIZE = 112 ∧
    ptrOf (mm_malloc (release3 threeLive 4216 4256 4296) 112) = 4216 ∧
    (release3 threeLive 4216 4256 4296).brk = threeLive.brk :=
  ⟨by decide, by decide,
    (coalesce_three threeLive [4296, 4256, 4216] threeLive_reach 4216 4256 4296 (by decide)
      (by decide) (by decide) (by decide) (by decide)).2.1⟩

/-- C10, as stated, fails when the size of a request wraps: on a fresh
allocator `x = mm_malloc(8)` and `p = mm_malloc(8)` return 4216 and 4232, and
`mm_free(x)` is called; `f = mm_malloc(4294967288)` returns 4216 again and
leaves the block there marked free and unlinked; the client stores the words
4213 and 4228 in the two words of this allocation.  `mm_free(p)` then merges
the block of `p` with its two neighbours and, unlinking the block at 4216,
reads the two words as links: it stores the forward link 4213 in the word that
the back link 4228 points to, which is the header of `p` (and the back link in
the four bytes from 4217, which lie in the two link words that it clears
next).  The header of `p` is then odd, so the second `mm_free(p)` does not
return at once: it releases `p` again and changes this header to 4208. -/
theorem second_free_writes :
    mm_malloc start 8 = Except.ok (4216, after start 8) ∧
    mm_malloc (after start 8) 8 = Except.ok (4232, after (after start 8) 8) ∧
    mm_malloc (mm_free (after (after start 8) 8) 4216) 4294967288 =
      Except.ok (4216, after (mm_free (after (after start 8) 8) 4216) 4294967288) ∧
    GET_SIZE oddLink (HDRP 4216) - DSIZE = 8 ∧ GET_ALLOC oddLink (HDRP 4216) = 0 ∧
    GET oddLink (NEXT_FP 4216) = 4213 ∧ GET oddLink (PREV_FP 4216) = 4228 ∧
    HDRP 4232 = 4228 ∧ GET oddLink (HDRP 4232) = 17 ∧
    GET (mm_free oddLink 4232) (HDRP 4232) = 4213 ∧
    GET_ALLOC (mm_free oddLink 4232) (HDRP 4232) = 1 ∧
    GET (mm_free (mm_free oddLink 4232) 4232) (HDRP 4232) = 4208 ∧
    mm_free (mm_free oddLink 4232) 4232 ≠ mm_free oddLink 4232 :=
  ⟨rfl, rfl, rfl, by decide, by decide, by decide, by decide, by decide, by decide, by decide,
    by decide, by decide,
    fun h => absurd (congrArg (fun s => GET s (HDRP 4232)) h) (by decide)⟩

/-- C10, amended (request sizes bounded): for every state reachable by calls
`mm_malloc(n)` with `n ≤ 2147483632`, `mm_free` and `mm_realloc(p, n)` with
`n ≤ 2147483624`, and every live pointer
`p`, a second `mm_free(p)` right after the first leaves the whole state as the
first one left it (every heap word, every directory slot, the bounds and the
two counters of the search), in each of the four coalescing cases. -/
theorem free_twice (s : Heap) (L : List Nat) (h : Reach s L) (p : Nat) (hp : p ∈ L) :
    mm_free (mm_free s p) p = mm_free s p :=
  inv_free_twice (reach_inv h) hp

/-- Releasing 4328 twice when its predecessor 4216 is already free, so that the
first release merges the block into its predecessor. -/
theorem free_twice_at_twoLive :
    GET_ALLOC (mm_free twoLive 4216) (HDRP 4216) = 0 ∧
    mm_free (mm_free (mm_free twoLive 4216) 4328) 4328 = mm_free (mm_free twoLive 4216) 4328 :=
  ⟨by decide, free_twice (mm_free twoLive 4216) [4328]
    (Reach.free twoLive [4328, 4216] 4216 twoLive_reach (Or.inr (by decide))) 4328 (by decide)⟩

/-! ## Claims C11 to C15 -/

/-- C11, as stated, fails: in the reachable state `oneLive` the pointer 4216 is
live with a block of 16 bytes (a payload of 8), and `mm_realloc(4216, 100)`
takes the relocation path.  The call and the sequence of the claim
(`mm_malloc(100)`, a copy of `min(8, 100) = 8` bytes, `mm_free(4216)`) both
return 4232, but the states differ: the code has allocated a block of 120 bytes
(header word 121), the sequence one of 112 bytes (header word 113), and the code
has also written the cell at 4240, 8 bytes past the copied payload, which the
sequence leaves at 0. -/
theorem relocate_differs :
    Reach oneLive [4216] ∧ Relocates oneLive 4216 100 ∧
    GET_SIZE oneLive (HDRP 4216) = 16 ∧ min (GET_SIZE oneLive (HDRP 4216) - DSIZE) 100 = 8 ∧
    ptrOf (mm_realloc oneLive 4216 100) = 4232 ∧
    ptrOf (relocateSpec oneLive 4216 100) = 4232 ∧
    GET (heapOf (mm_realloc oneLive 4216 100)) (HDRP 4232) = 121 ∧
    GET (heapOf (relocateSpec oneLive 4216 100)) (HDRP 4232) = 113 ∧
    GET (heapOf (mm_realloc oneLive 4216 100)) 4240 = 17 ∧
    GET (heapOf (relocateSpec oneLive 4216 100)) 4240 = 0 ∧
    mm_realloc oneLive 4216 100 ≠ relocateSpec oneLive 4216 100 :=
  ⟨oneLive_reach, by decide, by decide, by decide, by decide, by decide, by decide, by decide,
    by decide, by decide,
    fun h => absurd (congrArg (fun r => GET (heapOf r) 4240) h) (by decide)⟩

/-- C11, amended: when `mm_realloc(p, n)` takes the relocation path and the
internal allocation returns a block `q`, the returned pointer and the resulting
state are those of `q = mm_malloc(ALIGN(n + 8))` (not `mm_malloc(n)`), then a
copy of exactly `oldSize` bytes from `p` to `q`, where `oldSize` is the size of
the old block (8 more than the old payload), then `mm_free(p)`; the copy writes
the `oldSize` bytes starting at `q` and no other cell. -/
theorem realloc_relocates (s : Heap) (p n q : Nat) (s1 : Heap) (hr : Relocates s p n)
    (e : mm_malloc s (normSize n) = Except.ok (q, s1)) (hq : q ≠ 0) :
    mm_realloc s p n =
      Except.ok (q, mm_free (memcpy s1 q p (GET_SIZE s (HDRP p))) p) ∧
    (∀ x, q ≤ x → x < q + GET_SIZE s (HDRP p) →
      (memcpy s1 q p (GET_SIZE s (HDRP p))).mem x = s1.mem (p + (x - q))) ∧
    (∀ x, x < q ∨ q + GET_SIZE s (HDRP p) ≤ x →
      (memcpy s1 q p (GET_SIZE s (HDRP p))).mem x = s1.mem x) := by
  refine ⟨relocate_eq hr e hq, ?_, ?_⟩
  · intro x h1 h2
    show (if q ≤ x ∧ x < q + GET_SIZE s (HDRP p) then s1.mem (p + (x - q)) else s1.mem x) = _
    rw [if_pos ⟨h1, h2⟩]
  · intro x h1
    show (if q ≤ x ∧ x < q + GET_SIZE s (HDRP p) then s1.mem (p + (x - q)) else s1.mem x) = _
    rw [if_neg (by omega)]

/-- Resizing the allocation of 8 bytes at 4216 to 100 bytes: the internal
request is `mm_malloc(112)`, it returns 4232, and 16 bytes are copied. -/
theorem realloc_relocates_at_oneLive :
    normSize 100 = 112 ∧ GET_SIZE oneLive (HDRP 4216) = 16 ∧
    mm_realloc oneLive 4216 100 =
      Except.ok (4232, mm_free (memcpy (heapOf (mm_malloc oneLive (normSize 100))) 4232 4216
        (GET_SIZE oneLive (HDRP 4216))) 4216) :=
  ⟨by decide, by decide,
    (realloc_relocates oneLive 4216 100 4232 (heapOf (mm_malloc oneLive (normSize 100)))
      (by decide) rfl (by decide)).1⟩

/-- C12, as stated, fails when the size of an earlier request has wrapped: on
a fresh allocator `a = mm_malloc(100)` returns 4216 and the client stores 7 at
`a + 4`; `d = mm_malloc(4294967288)` returns 4328 and leaves the block there,
of 8096 bytes, marked free and unlinked; the client stores the pointer `a` in
the first word of `d`.  For `mm_realloc(a, 200)` the block of `a` is allocated
and has 112 bytes, fewer than `ALIGN(200 + 8) = 208`, the next block, at 4328,
is marked free, and the two have 8208 bytes together.  The call returns `a`;
unlinking the block at 4328 it reads the client's word as the forward link and
clears the back link of that node, the word at `a + 4`: a word of the old
payload of `a` has changed from 7 to 0. -/
theorem absorb_clobbers_payload :
    mm_malloc start 100 = Except.ok (4216, after start 100) ∧
    mm_malloc (userWrite (after start 100) 4220 7) 4294967288 =
      Except.ok (4328, after (userWrite (after start 100) 4220 7) 4294967288) ∧
    GET_ALLOC borrowed (HDRP 4216) = 1 ∧ GET_SIZE borrowed (HDRP 4216) = 112 ∧
    200 ≠ 0 ∧ normSize 200 = 208 ∧ NEXT_BLKP borrowed 4216 = 4328 ∧
    GET_ALLOC borrowed (HDRP (NEXT_BLKP borrowed 4216)) = 0 ∧
    GET_SIZE borrowed (HDRP (NEXT_BLKP borrowed 4216)) = 8096 ∧
    mm_realloc borrowed 4216 200 = Except.ok (4216, heapOf (mm_realloc borrowed 4216 200)) ∧
    4216 ≤ 4220 ∧ 4220 < 4216 + (GET_SIZE borrowed (HDRP 4216) - DSIZE) ∧
    borrowed.mem 4220 = 7 ∧ (heapOf (mm_realloc borrowed 4216 200)).mem 4220 = 0 :=
  ⟨rfl, rfl, by decide, by decide, by decide, by decide, by decide, by decide, by decide, rfl,
    by decide, by decide, by decide, by decide⟩

/-- C12, amended (request sizes bounded): in every state reachable by calls
`mm_malloc(n)` with `n ≤ 2147483632`, `mm_free` and `mm_realloc(p, n)` with
`n ≤ 2147483624`, for a live
pointer `p`, `n > 0`, a block of `p` smaller than `ALIGN(n + 8)`, a free next
block, and the two sizes together at least `ALIGN(n + 8)`: `mm_realloc(p, n)`
returns `p`; afterwards the header and the footer of `p` both hold (old size +
neighbour size, allocated); no directory list contains the absorbed neighbour;
the break has not moved; no cell of the old payload of `p` has changed; and for
every block outside the combined span the header and the footer are unchanged,
and so is every payload cell if the block is allocated. -/
theorem realloc_in_place (s : Heap) (L : List Nat) (h : Reach s L) (p n : Nat) (hp : p ∈ L)
    (hn : n ≠ 0) (hfit : GET_SIZE s (HDRP p) < normSize n)
    (hfree : GET_ALLOC s (HDRP (NEXT_BLKP s p)) = 0)
    (hsum : normSize n ≤ GET_SIZE s (HDRP p) + GET_SIZE s (HDRP (NEXT_BLKP s p))) :
    ∃ s', mm_realloc s p n = Except.ok (p, s') ∧
      GET s' (HDRP p) = PACK (GET_SIZE s (HDRP p) + GET_SIZE s (HDRP (NEXT_BLKP s p))) 1 ∧
      GET s' (FTRP s' p) = PACK (GET_SIZE s (HDRP p) + GET_SIZE s (HDRP (NEXT_BLKP s p))) 1 ∧
      (∀ i k, i < 14 → listAt s' i k ≠ NEXT_BLKP s p) ∧
      s'.brk = s.brk ∧
      (∀ x, p ≤ x → x < p + (GET_SIZE s (HDRP p) - DSIZE) → s'.mem x = s.mem x) ∧
      (∀ j, blockAt s j < s.brk →
        blockAt s j + GET_SIZE s (HDRP (blockAt s j)) ≤ p ∨
          p + (GET_SIZE s (HDRP p) + GET_SIZE s (HDRP (NEXT_BLKP s p))) ≤ blockAt s j →
        GET s' (HDRP (blockAt s j)) = GET s (HDRP (blockAt s j)) ∧
        GET s' (FTRP s' (blockAt s j)) = GET s (FTRP s (blockAt s j)) ∧
        (GET_ALLOC s (HDRP (blockAt s j)) = 1 → ∀ x, blockAt s j ≤ x →
          x < FTRP s (blockAt s j) → s'.mem x = s.mem x)) := by
  have hI := reach_inv h
  obtain ⟨s', a1, a2, a3, a4, a5, a6, a7, _⟩ :=
    inv_absorb hI hp (absorbs_of_fit hI hp hn hfit hfree hsum)
  exact ⟨s', a1, a2, a3, a4, a5, a6, a7⟩

/-- After `mm_malloc(24)` on a fresh allocator the block at 4216 has 32 bytes
and is followed by a free block of 8176 bytes; `mm_realloc(4216, 100)` needs
112 bytes and absorbs the neighbour: it returns 4216, the header word of the
block becomes 8209 (8208 bytes, allocated), and the break stays. -/
theorem realloc_in_place_at_4216 :
    GET_SIZE (after start 24) (HDRP 4216) = 32 ∧
    GET_SIZE (after start 24) (HDRP (NEXT_BLKP (after start 24) 4216)) = 8176 ∧
    ∃ s', mm_realloc (after start 24) 4216 100 = Except.ok (4216, s') ∧
      GET s' (HDRP 4216) = 8209 ∧ s'.brk = (after start 24).brk := by
  refine ⟨by decide, by decide, ?_⟩
  obtain ⟨s', a1, a2, _, _, a5, _⟩ := realloc_in_place (after start 24) [4216]
    (Reach.malloc start [] 24 4216 (after start 24) start_reach (by decide) rfl)
    4216 100 (by decide) (by decide) (by decide) (by decide) (by decide)
  exact ⟨s', a1, a2, a5⟩

/-- C13 (boundary cases of resize): for every state, `mm_realloc(NULL, n)`
gives the result and the state of `mm_malloc(n)`; for every non-null `p`,
`mm_realloc(p, 0)` returns the null pointer in the state that `mm_free(p)`
produces; and in the remaining case, a non-null `p` and `n > 0`, when the block
of `p` has at least `ALIGN(n + 8)` bytes, `mm_realloc(p, n)` returns `p` and
leaves the whole state unchanged. -/
theorem realloc_boundary (s : Heap) (p n : Nat) :
    mm_realloc s 0 n = mm_malloc s n ∧
    (p ≠ 0 → mm_realloc s p 0 = Except.ok (0, mm_free s p)) ∧
    (p ≠ 0 → n ≠ 0 → normSize n ≤ GET_SIZE s (HDRP p) →
      mm_realloc s p n = Except.ok (p, s)) := by
  refine ⟨?_, ?_, ?_⟩
  · unfold mm_realloc
    rw [if_pos rfl]
  · intro hp
    unfold mm_realloc
    rw [if_neg hp, if_pos rfl]
  · intro hp hn hfit
    exact mm_realloc_stay hp hn hfit

/-- The three boundary cases at the live pointer 4216 of `oneLive`, whose
block has 16 bytes: a request of 8 bytes fits (`ALIGN(8 + 8) = 16`). -/
theorem realloc_boundary_at_oneLive :
    mm_realloc oneLive 0 8 = mm_malloc oneLive 8 ∧
    mm_realloc oneLive 4216 0 = Except.ok (0, mm_free oneLive 4216) ∧
    mm_realloc oneLive 4216 8 = Except.ok (4216, oneLive) :=
  ⟨(realloc_boundary oneLive 4216 8).1, (realloc_boundary oneLive 4216 8).2.1 (by decide),
    (realloc_boundary oneLive 4216 8).2.2 (by decide) (by decide) (by decide)⟩

/-- C14, as stated, fails when the size of a request wraps.  On a fresh
allocator `mm_malloc(4294967288)` runs `split(4216, 0)`, which stores the
footer of a block of size 0 at `4216 - 8`: afterwards the footer word of the
prologue is 1 while its header word is 9.  And after `mm_malloc(100)`,
`mm_malloc(4294967295)`, whose size is normalised to 8, returns 4328: the third
block of the heap walk has a size of 8, less than 16. -/
theorem tags_after_wrap :
    mm_malloc start 4294967288 = Except.ok (4216, wrapped) ∧
    blockAt wrapped 0 = 4208 ∧ GET wrapped (HDRP (blockAt wrapped 0)) = 9 ∧
    GET wrapped (FTRP wrapped (blockAt wrapped 0)) = 1 ∧
    normSize 4294967295 = 8 ∧
    mm_malloc (after start 100) 4294967295 = Except.ok (4328, tinyBlock) ∧
    blockAt tinyBlock 2 = 4328 ∧ 4328 < tinyBlock.brk ∧
    GET tinyBlock (HDRP (blockAt tinyBlock 2)) = 9 ∧
    GET_SIZE tinyBlock (HDRP (blockAt tinyBlock 2)) = 8 ∧
    ¬ (16 ≤ GET_SIZE tinyBlock (HDRP (blockAt tinyBlock 2))) :=
  ⟨rfl, by decide, by decide, by decide, by decide, rfl, by decide, by decide, by decide,
    by decide, by decide⟩

/-- C14, amended (request sizes bounded): in every state reachable by calls
`mm_malloc(n)` with `n ≤ 2147483632`, `mm_free` and `mm_realloc(p, n)` with
`n ≤ 2147483624`, the prologue block (block 0
of the walk) has size 8, is allocated, and its footer word equals its header
word; the word before the break is the epilogue header, with size 0 and
allocated; and there is a number `N` of blocks such that the walk that starts
at the prologue and adds each block's size arrives at the break after the
`N`-th block, while each of the blocks 1 to `N` lies below the break, has a
footer word equal to its header word (the same size and allocated bit), and a
size that is a multiple of 8 and at least 16. -/
theorem boundary_tags (s : Heap) (L : List Nat) (h : Reach s L) :
    (GET_SIZE s (HDRP (blockAt s 0)) = 8 ∧ GET_ALLOC s (HDRP (blockAt s 0)) = 1 ∧
      GET s (FTRP s (blockAt s 0)) = GET s (HDRP (blockAt s 0))) ∧
    (GET_SIZE s (HDRP s.brk) = 0 ∧ GET_ALLOC s (HDRP s.brk) = 1) ∧
    ∃ N, blockAt s (N + 1) = s.brk ∧ ∀ k, 1 ≤ k → k ≤ N →
      blockAt s k < s.brk ∧
      GET s (FTRP s (blockAt s k)) = GET s (HDRP (blockAt s k)) ∧
      GET_SIZE s (HDRP (blockAt s k)) % 8 = 0 ∧ 16 ≤ GET_SIZE s (HDRP (blockAt s k)) :=
  inv_tags (reach_inv h)

/-- The tags of the state with two live allocations of 100 bytes: the walk
passes the blocks at 4216, 4328 and 4440 and arrives at the break 12424. -/
theorem boundary_tags_at_twoLive :
    blockAt twoLive 0 = 4208 ∧ blockAt twoLive 1 = 4216 ∧ blockAt twoLive 2 = 4328 ∧
    blockAt twoLive 3 = 4440 ∧ blockAt twoLive 4 = 12424 ∧ twoLive.brk = 12424 ∧
    (GET_SIZE twoLive (HDRP (blockAt twoLive 0)) = 8 ∧
      GET_ALLOC twoLive (HDRP (blockAt twoLive 0)) = 1 ∧
      GET twoLive (FTRP twoLive (blockAt twoLive 0)) = GET twoLive (HDRP (blockAt twoLive 0))) ∧
    (GET_SIZE twoLive (HDRP twoLive.brk) = 0 ∧ GET_ALLOC twoLive (HDRP twoLive.brk) = 1) :=
  ⟨by decide, by decide, by decide, by decide, by decide, by decide,
    (boundary_tags twoLive [4328, 4216] twoLive_reach).1,
    (boundary_tags twoLive [4328, 4216] twoLive_reach).2.1⟩

/-- C15, as stated, fails when the size of a request wraps: on a fresh
allocator `mm_malloc(4294967288)` runs `split(4216, 0)`, which files the
address after the block, 4232, in list 0.  Afterwards the only node of the
directory is 4232, the break, whose header is the epilogue and is marked
allocated; and the block at 4216, the second of the heap walk, is marked free
and is on no list. -/
theorem epilogue_on_list :
    mm_malloc start 4294967288 = Except.ok (4216, wrapped) ∧
    listAt wrapped 0 0 = 4232 ∧ wrapped.brk = 4232 ∧
    GET_ALLOC wrapped (HDRP (listAt wrapped 0 0)) = 1 ∧
    blockAt wrapped 1 = 4216 ∧ GET_ALLOC wrapped (HDRP (blockAt wrapped 1)) = 0 ∧
    listAt wrapped 0 1 = 0 ∧ (∀ i, i < 14 → i ≠ 0 → listAt wrapped i 0 = 0) :=
  ⟨rfl, by decide, by decide, by decide, by decide, by decide, by decide, by decide⟩

/-- C15, amended (request sizes bounded): in every state reachable by calls
`mm_malloc(n)` with `n ≤ 2147483632`, `mm_free` and `mm_realloc(p, n)` with
`n ≤ 2147483624`, for each of the 14
lists: the list ends (some `listAt` is null), its nodes are pairwise distinct,
the back link of the head is null, the back link of every later node is the
node before it, and the scan `find` of the list returns for every size; every
node is marked free, its size lies in class `i` of the table, it is a block of
the heap walk and not a live allocation.  The class of the table that holds a
size is the one `findWrapper` starts from (`findStart`), and `addList` and
`deleteList` select the head of that same list.  Every block of the heap walk
that is marked free is on exactly one list, at one position, and a block that
is marked allocated is on no list. -/
theorem directory_lists (s : Heap) (L : List Nat) (h : Reach s L) :
    (∀ i, i < 14 →
      (∃ n, listAt s i n = 0) ∧
      (∀ j k, j < k → listAt s i j ≠ 0 → listAt s i j ≠ listAt s i k) ∧
      (listAt s i 0 ≠ 0 → GET s (PREV_FP (listAt s i 0)) = 0) ∧
      (∀ k, listAt s i (k + 1) ≠ 0 → GET s (PREV_FP (listAt s i (k + 1))) = listAt s i k) ∧
      (∀ size, ∃ r, find s i size = Except.ok r) ∧
      (∀ k, listAt s i k ≠ 0 →
        GET_ALLOC s (HDRP (listAt s i k)) = 0 ∧ inClass i (GET_SIZE s (HDRP (listAt s i k))) ∧
        (∃ j, blockAt s j = listAt s i k) ∧ listAt s i k ∉ L)) ∧
    (∀ size, inClass (findStart size) size ∧
      addListSlot size = findSlot (findStart size) ∧
      deleteListSlot size = findSlot (findStart size)) ∧
    (∀ i size, inClass i size → findStart size = i) ∧
    (∀ j,
      (GET_ALLOC s (HDRP (blockAt s j)) = 0 →
        ∃ i k, i < 14 ∧ listAt s i k = blockAt s j ∧
          ∀ i' k', i' < 14 → listAt s i' k' = blockAt s j → i' = i ∧ k' = k) ∧
      (GET_ALLOC s (HDRP (blockAt s j)) ≠ 0 → ∀ i k, i < 14 → listAt s i k ≠ blockAt s j)) := by
  have hI := reach_inv h
  refine ⟨fun i hi => inv_lists hI hi, ?_, fun i size hc => inClass_findStart hc,
    fun j => inv_free_listed hI j⟩
  intro size
  refine ⟨findStart_inClass size, ?_, ?_⟩
  · rw [addListSlot_eq, findSlot_eq _ (findStart_lt size)]
  · rw [deleteListSlot_eq, findSlot_eq _ (findStart_lt size)]

/-- The directory of `twoHoles`: the free blocks of 32 and 48 bytes at 4216
and 4264 are the two nodes of list 1 (sizes 25 to 48), and list 1 ends there. -/
theorem directory_lists_at_twoHoles :
    listAt twoHoles 1 0 = 4216 ∧ listAt twoHoles 1 1 = 4264 ∧ listAt twoHoles 1 2 = 0 ∧
    GET_SIZE twoHoles (HDRP 4216) = 32 ∧ GET_SIZE twoHoles (HDRP 4264) = 48 ∧
    GET twoHoles (PREV_FP (listAt twoHoles 1 (0 + 1))) = listAt twoHoles 1 0 ∧
    GET_ALLOC twoHoles (HDRP (listAt twoHoles 1 1)) = 0 ∧
    inClass 1 (GET_SIZE twoHoles (HDRP (listAt twoHoles 1 1))) :=
  ⟨by decide, by decide, by decide, by decide, by decide,
    ((directory_lists twoHoles [4312, 4248] twoHoles_reach).1 1 (by decide)).2.2.2.1 0
      (by decide),
    (((directory_lists twoHoles [4312, 4248] twoHoles_reach).1 1 (by decide)).2.2.2.2.2 1
      (by decide)).1,
    (((directory_lists twoHoles [4312, 4248] twoHoles_reach).1 1 (by decide)).2.2.2.2.2 1
      (by decide)).2.1⟩

/-! ## Claims C16 to C20 -/

/-- C16 (first-fit search): in a state that satisfies the heap invariant, when
the repeat-size bypass does not fire for `size`, `findWrapper(size)` returns,
without changing memory or the break; it returns null exactly when no node of
any directory list has a size of at least `size`; a non-null result is node `k`
of a list `i ≥ findStart size`, its size is at least `size`, every node before
it on list `i` is smaller than `size`, and so is every node of the lists from
`findStart size` up to `i`.  Hence a `mm_malloc` whose block size is `size` and
which moves the break has found no node of a size of at least `size`. -/
theorem first_fit_search (s : Heap) (L : List Nat) (h : Inv s L) (size : Nat)
    (hb : ¬ bypass s size) :
    (∃ r s1, findWrapper s size = Except.ok (r, s1) ∧ s1.mem = s.mem ∧ s1.brk = s.brk ∧
      (r = 0 ↔ ∀ i k, i < 14 → listAt s i k ≠ 0 → GET_SIZE s (HDRP (listAt s i k)) < size) ∧
      (r ≠ 0 → ∃ i k, findStart size ≤ i ∧ i < 14 ∧ listAt s i k = r ∧
        size ≤ GET_SIZE s (HDRP r) ∧
        (∀ k', k' < k → GET_SIZE s (HDRP (listAt s i k')) < size) ∧
        ∀ i' k', findStart size ≤ i' → i' < i → listAt s i' k' ≠ 0 →
          GET_SIZE s (HDRP (listAt s i' k')) < size)) ∧
    (∀ n p s', normSize n = size → mm_malloc s n = Except.ok (p, s') → s'.brk ≠ s.brk →
      ∀ i k, i < 14 → listAt s i k ≠ 0 → GET_SIZE s (HDRP (listAt s i k)) < size) := by
  obtain ⟨bl, fl, hW, _, _⟩ := Inv_iff.1 h
  constructor
  · obtain ⟨r, s1, e, e1, _, e3, _, e5, e6⟩ := first_fit hW.1 size hb
    exact ⟨r, s1, e, e1, e3, e5, e6⟩
  · intro n p s' hn e hg
    subst hn
    exact malloc_grows_only hW.1 hb e hg

/-- List 1 of `twoHoles` holds the free blocks at 4216 (32 bytes) and 4264
(48 bytes), in this order; a search for 40 bytes skips the first node and
returns the second. -/
theorem first_fit_search_at_twoHoles :
    listAt twoHoles 1 0 = 4216 ∧ GET_SIZE twoHoles (HDRP 4216) = 32 ∧
    ∃ i k, findStart 40 ≤ i ∧ i < 14 ∧ listAt twoHoles i k = 4264 ∧
      40 ≤ GET_SIZE twoHoles (HDRP 4264) ∧
      ∀ k', k' < k → GET_SIZE twoHoles (HDRP (listAt twoHoles i k')) < 40 := by
  refine ⟨by decide, by decide, ?_⟩
  obtain ⟨⟨r, s1, e, _, _, _, h1⟩, _⟩ :=
    first_fit_search twoHoles [4312, 4248] (reach_inv twoHoles_reach) 40 (by decide)
  have e2 : ptrOf (findWrapper twoHoles 40) = 4264 := by decide
  rw [e] at e2
  have e3 : r = 4264 := e2
  subst e3
  obtain ⟨i, k, a1, a2, a3, a4, a5, _⟩ := h1 (by decide)
  exact ⟨i, k, a1, a2, a3, a4, a5⟩

/-- C17 (coalescing cases): for `coalesce(bp)` on a block `bp` that is marked
free, is on no list and has cleared link words, in a heap that is otherwise
well-formed: the returned address is the address of the physical predecessor
if that block is free and `bp` otherwise; the header and the footer of the
returned block both hold (size of `bp` plus the size of each free physical
neighbour, free); the returned block is the head of the list of the class of
that combined size and is on no other list nor at another position; no address
inside the returned block is a node of any list (the absorbed neighbours are
unlinked); and the blocks before and after the returned block are marked
allocated. -/
theorem coalesce_cases (s : Heap) (bp : Nat) (h : LooseAt s bp) :
    (coalesce s bp).1 =
      (if GET_ALLOC s (FTRP s (PREV_BLKP s bp)) = 0 then PREV_BLKP s bp else bp) ∧
    GET (coalesce s bp).2 (HDRP (coalesce s bp).1) = PACK (mergedSize s bp) 0 ∧
    GET (coalesce s bp).2 (FTRP (coalesce s bp).2 (coalesce s bp).1) =
      PACK (mergedSize s bp) 0 ∧
    listAt (coalesce s bp).2 (findStart (mergedSize s bp)) 0 = (coalesce s bp).1 ∧
    (∀ i k, i < 14 → listAt (coalesce s bp).2 i k = (coalesce s bp).1 →
      i = findStart (mergedSize s bp) ∧ k = 0) ∧
    (∀ x, (coalesce s bp).1 < x → x < (coalesce s bp).1 + mergedSize s bp →
      ∀ i k, i < 14 → listAt (coalesce s bp).2 i k ≠ x) ∧
    GET_ALLOC (coalesce s bp).2 (HDRP (NEXT_BLKP (coalesce s bp).2 (coalesce s bp).1)) = 1 ∧
    GET_ALLOC (coalesce s bp).2
      (FTRP (coalesce s bp).2 (PREV_BLKP (coalesce s bp).2 (coalesce s bp).1)) = 1 := by
  obtain ⟨pre, X, post, fl, e, hX, hS, hnl, a1, a2⟩ := h
  subst e
  exact coalesce_obs hS hX hnl a1 a2

/-- In `twoHoles` the block at 4248 (16 bytes) lies between the free blocks at
4216 (32 bytes) and 4264 (48 bytes); once it is marked free, `coalesce` merges
the three into one block of 96 bytes at 4216, the head of list 3. -/
theorem coalesce_cases_at_twoHoles :
    (coalesce (markFree twoHoles 4248) 4248).1 = 4216 ∧
    mergedSize (markFree twoHoles 4248) 4248 = 96 ∧
    findStart (mergedSize (markFree twoHoles 4248) 4248) = 3 ∧
    GET (coalesce (markFree twoHoles 4248) 4248).2
      (HDRP (coalesce (markFree twoHoles 4248) 4248).1) =
      PACK (mergedSize (markFree twoHoles 4248) 4248) 0 ∧
    listAt (coalesce (markFree twoHoles 4248) 4248).2
      (findStart (mergedSize (markFree twoHoles 4248) 4248)) 0 =
      (coalesce (markFree twoHoles 4248) 4248).1 :=
  ⟨by decide, by decide, by decide,
    (coalesce_cases (markFree twoHoles 4248) 4248
      (markFree_loose (reach_inv twoHoles_reach) (by decide)).1).2.1,
    (coalesce_cases (markFree twoHoles 4248) 4248
      (markFree_loose (reach_inv twoHoles_reach) (by decide)).1).2.2.2.1⟩

/-- C18, as stated, fails when `s` is not a block size.  On a fresh allocator
the free block at 4216 has 16 bytes and is filed in list 0; `split(4216, 0)`,
which is what `mm_malloc(4294967288)` executes (`ALIGN(n + 8)` wraps to 0),
has `t - s = 16`, yet afterwards the block at 4216 is marked free, with header
word 16, and the head of list 0 is 4232, not `4216 + 0`.  And in the state
after `mm_malloc(24)`, where the free block at 4248 has 8176 bytes,
`split(4248, 20)` leaves that block with a size of 16, not 20. -/
theorem split_zero :
    FiledAt start 4216 ∧ GET_SIZE start (HDRP 4216) = 16 ∧
    0 ≤ GET_SIZE start (HDRP 4216) ∧ 16 ≤ GET_SIZE start (HDRP 4216) - 0 ∧
    GET (split start 4216 0) (HDRP 4216) = 16 ∧
    GET_ALLOC (split start 4216 0) (HDRP 4216) = 0 ∧
    listAt (split start 4216 0) (findStart (16 - 0)) 0 = 4232 ∧
    normSize 4294967288 = 0 ∧
    mm_malloc start 4294967288 = Except.ok (4216, split start 4216 0) ∧
    GET_SIZE (after start 24) (HDRP 4248) = 8176 ∧
    GET_SIZE (split (after start 24) 4248 20) (HDRP 4248) = 16 :=
  ⟨@filed_of_node _ _ (reach_inv start_reach) 0 0 4216 (by decide) (by decide) (by decide),
    by decide, by decide, by decide, by decide, by decide, by decide, by decide, rfl,
    by decide, by decide⟩

/-- C18, amended (`s` is a block size: a multiple of 8 and at least 16): for
`split(bp, s)` on a block `bp` of size `t ≥ s` that is filed in its list, in a
well-formed heap: afterwards `bp` is on no list; if `t - s ≥ 16`, the header and
the footer of `bp` hold (`s`, allocated), the block at `bp + s` has header and
footer (`t - s`, free), a cleared back link, is the head of the list of class
`findStart (t - s)`, and ends at `bp + t`; otherwise the header and the footer
of `bp` hold (`t`, allocated), the block ends at `bp + t`, and every list node
was a node of the same list before; in both cases, for every block outside
`[bp, bp + t)` the header and the footer are unchanged, and so is every payload
cell if the block is allocated. -/
theorem split_rule (s : Heap) (bp size : Nat) (h : FiledAt s bp) (h8 : size % 8 = 0)
    (h16 : 16 ≤ size) (hle : size ≤ GET_SIZE s (HDRP bp)) :
    (∀ i k, i < 14 → listAt (split s bp size) i k ≠ bp) ∧
    (16 ≤ GET_SIZE s (HDRP bp) - size →
      GET (split s bp size) (HDRP bp) = PACK size 1 ∧
      GET (split s bp size) (FTRP (split s bp size) bp) = PACK size 1 ∧
      GET (split s bp size) (HDRP (bp + size)) = PACK (GET_SIZE s (HDRP bp) - size) 0 ∧
      GET (split s bp size) (FTRP (split s bp size) (bp + size)) =
        PACK (GET_SIZE s (HDRP bp) - size) 0 ∧
      GET (split s bp size) (PREV_FP (bp + size)) = 0 ∧
      listAt (split s bp size) (findStart (GET_SIZE s (HDRP bp) - size)) 0 = bp + size ∧
      NEXT_BLKP (split s bp size) bp = bp + size ∧
      NEXT_BLKP (split s bp size) (bp + size) = bp + GET_SIZE s (HDRP bp)) ∧
    (GET_SIZE s (HDRP bp) - size < 16 →
      GET (split s bp size) (HDRP bp) = PACK (GET_SIZE s (HDRP bp)) 1 ∧
      GET (split s bp size) (FTRP (split s bp size) bp) = PACK (GET_SIZE s (HDRP bp)) 1 ∧
      NEXT_BLKP (split s bp size) bp = bp + GET_SIZE s (HDRP bp) ∧
      ∀ i k, i < 14 → listAt (split s bp size) i k ≠ 0 →
        ∃ k', listAt s i k' = listAt (split s bp size) i k) ∧
    (∀ j, blockAt s j < s.brk →
      blockAt s j + GET_SIZE s (HDRP (blockAt s j)) ≤ bp ∨
        bp + GET_SIZE s (HDRP bp) ≤ blockAt s j →
      GET (split s bp size) (HDRP (blockAt s j)) = GET s (HDRP (blockAt s j)) ∧
      GET (split s bp size) (FTRP (split s bp size) (blockAt s j)) =
        GET s (FTRP s (blockAt s j)) ∧
      (GET_ALLOC s (HDRP (blockAt s j)) = 1 → ∀ x, blockAt s j ≤ x →
        x < FTRP s (blockAt s j) → (split s bp size).mem x = s.mem x)) := by
  obtain ⟨bl, fl, X, hW, hXm, e, hX⟩ := h
  subst e
  have g : GET_SIZE s (HDRP X.bp) = X.size := hW.1.get_size hXm
  rw [g] at hle ⊢
  exact split_obs hW hXm hX h8 h16 hle

/-- After `mm_malloc(24)` on a fresh allocator the free block at 4248 has 8176
bytes and is the head of list 10; `split(4248, 48)` cuts it into an allocated
block of 48 bytes and a free block of 8128 bytes at 4296, the new head of
list 10. -/
theorem split_rule_at_4248 :
    listAt (after start 24) 10 0 = 4248 ∧ GET_SIZE (after start 24) (HDRP 4248) = 8176 ∧
    PACK 48 1 = 49 ∧ findStart (GET_SIZE (after start 24) (HDRP 4248) - 48) = 10 ∧
    GET (split (after start 24) 4248 48) (HDRP 4248) = PACK 48 1 ∧
    listAt (split (after start 24) 4248 48)
      (findStart (GET_SIZE (after start 24) (HDRP 4248) - 48)) 0 = 4248 + 48 :=
  ⟨by decide, by decide, by decide, by decide,
    ((split_rule (after start 24) 4248 48
      (@filed_of_node _ _
        (reach_inv (Reach.malloc start [] 24 4216 (after start 24) start_reach (by decide) rfl))
        10 0 4248 (by decide) (by decide) (by decide))
      (by decide) (by decide) (by decide)).2.1 (by decide)).1,
    ((split_rule (after start 24) 4248 48
      (@filed_of_node _ _
        (reach_inv (Reach.malloc start [] 24 4216 (after start 24) start_reach (by decide) rfl))
        10 0 4248 (by decide) (by decide) (by decide))
      (by decide) (by decide) (by decide)).2.1 (by decide)).2.2.2.2.2.1⟩

end MM
